import Mathlib

/-!
# Verification development for the `infrastructure` runtime

Shallow embedding of `bitmap.c`, `mempool.c`, `hashmap.c` and `mcache.c`
and theorems about the embedded functions.

Conventions of the embedding.

* A C `int` is an `Int`; where the C code can leave the 32-bit range the
  wrap-around is explicit (`wrap_int`).  Indices that the code only ever
  uses as array subscripts are `Nat`.
* A `uint64_t` word is a `Nat`; the bit `i` of a word `w` is `w.testBit i`.
* Every spin lock protects a whole operation, so an operation is one
  atomic state transformer (sequential semantics).
* A function that writes through an out-parameter returns the written
  value next to its return code.
-/

namespace Infra

/-! ## bitmap.h -/

/-- `BIT_OK` of bitmap.h. -/
abbrev BIT_OK : Int := 0

/-- `BIT_FAIL` of bitmap.h. -/
abbrev BIT_FAIL : Int := -1

/-- Value of a C `int` expression after two's complement wrap-around to 32 bits. -/
def wrap_int (x : Int) : Int := (x + 2147483648) % 4294967296 - 2147483648

/-- Bitwise complement `~x` of a `uint64_t`. -/
def not_u64 (x : Nat) : Nat := 2 ^ 64 - 1 - x % 2 ^ 64

/-- `bmap_bsf`: index of the least significant set bit of a 64-bit word, `-1` when the word is zero. -/
def bmap_bsf (num : Nat) : Int :=
  match (List.range 64).find? (fun i => num.testBit i) with
  | some i => (i : Int)
  | none => -1

/-- `bmap_testset_bit`: returns `-1` when the bit was already set, else sets it and returns `0`. -/
def bmap_testset_bit (siNr : Nat) (w : Nat) : Int × Nat :=
  if w &&& (1 <<< siNr) ≠ 0 then (-1, w) else (0, w ||| (1 <<< siNr))

/-- `bmap_testclear_bit`: returns `-1` and clears the bit when it was set, else returns `0`. -/
def bmap_testclear_bit (siNr : Nat) (w : Nat) : Int × Nat :=
  if w &&& (1 <<< siNr) ≠ 0 then (-1, w &&& not_u64 (1 <<< siNr)) else (0, w)

/-! ## bitmap.c -/

/-- `_bits_t`: one layer (or a slice view of one): `count` bits stored in the words `area`. -/
structure _bits_t where
  count : Int
  area : List Nat
deriving DecidableEq, Repr

/-- `struct bitmap` (the lock is omitted): layer 0 is the topmost layer,
layer `level - 1` the finest one. -/
structure bitmap where
  max : Int
  level : Nat
  layer : List _bits_t
deriving DecidableEq, Repr

/-- `bmap->layer[i]`; the block comes from `calloc`, so an unused slot is all zero. -/
def bitmap.at (bmap : bitmap) (i : Nat) : _bits_t := bmap.layer.getD i ⟨0, []⟩

/-- `_div_upward_round`: `(num + base - 1) / base` in `int` arithmetic. -/
def _div_upward_round (num base : Int) : Int :=
  Int.tdiv (wrap_int (num + base - 1)) base

/-- `_get_slice_bit_count`: number of bits of the slice that holds `pos`
(`pos & ~BMAP_SLICE_MASK` is `pos / 256 * 256` for `pos ≥ 0`). -/
def _get_slice_bit_count (bits : _bits_t) (pos : Nat) : Int :=
  let cnt := bits.count - ((pos / 256 * 256 : Nat) : Int)
  if cnt > 256 then 256 else cnt

/-- The `for` loop of `_find_first_zero_bit`: `fuel` words remain to be
scanned, `i` is the loop counter and the last argument the current `res`. -/
def _find_first_zero_loop (area : List Nat) : Nat → Nat → Int → Int
  | 0, _, res => res
  | fuel + 1, i, _ =>
    let bmap := not_u64 (area.getD i 0)
    let res := bmap_bsf bmap
    if res ≥ 0 then res + (i : Int) * 64
    else _find_first_zero_loop area fuel (i + 1) res

/-- `_find_first_zero_bit`: `none` is `BIT_FAIL`, `some pos` is `BIT_OK` with `*pos = pos`. -/
def _find_first_zero_bit (bits : _bits_t) : Option Nat :=
  let array_size := _div_upward_round bits.count 64
  let res := _find_first_zero_loop bits.area array_size.toNat 0 0
  if res < 0 ∨ res ≥ bits.count then none else some res.toNat

/-- `_set_bit`: return code and the layer after the call. -/
def _set_bit (bits : _bits_t) (pos : Nat) : Int × _bits_t :=
  let idx := pos / 64
  let off := pos &&& 63
  let r := bmap_testset_bit off (bits.area.getD idx 0)
  if r.1 ≠ 0 then (BIT_FAIL, bits)
  else (BIT_OK, { bits with area := bits.area.set idx r.2 })

/-- `_clear_bit`: return code and the layer after the call. -/
def _clear_bit (bits : _bits_t) (pos : Nat) : Int × _bits_t :=
  let idx := pos / 64
  let off := pos &&& 63
  let r := bmap_testclear_bit off (bits.area.getD idx 0)
  if r.1 = 0 then (BIT_FAIL, bits)
  else (BIT_OK, { bits with area := bits.area.set idx r.2 })

/-- The `for (i = level - 1; i >= 0; i--)` loop of `_bitmap_set_bit`, entered at layer `i`. -/
def _bitmap_set_bit_loop (bmap : bitmap) : Nat → Nat → Int × bitmap
  | 0, bit =>
    let r := _set_bit (bmap.at 0) bit
    (r.1, { bmap with layer := bmap.layer.set 0 r.2 })
  | i + 1, bit =>
    let r := _set_bit (bmap.at (i + 1)) bit
    let bmap1 : bitmap := { bmap with layer := bmap.layer.set (i + 1) r.2 }
    if r.1 ≠ BIT_OK then (r.1, bmap1)
    else
      let count := _get_slice_bit_count (bmap1.at (i + 1)) bit
      let slice := bit / 256
      let check : _bits_t := ⟨count, (bmap1.at (i + 1)).area.drop (slice * 4)⟩
      if (_find_first_zero_bit check).isSome then (r.1, bmap1)
      else _bitmap_set_bit_loop bmap1 i slice

/-- `_bitmap_set_bit`. -/
def _bitmap_set_bit (bmap : bitmap) (pos : Nat) : Int × bitmap :=
  if bmap.level = 0 then (BIT_OK, bmap)
  else _bitmap_set_bit_loop bmap (bmap.level - 1) pos

/-- The `for (i = level - 2; i >= 0; i--, bit /= 256)` loop of
`_bitmap_clear_bit`; the first argument is `i + 1`. -/
def _bitmap_clear_bit_loop (bmap : bitmap) : Nat → Nat → bitmap
  | 0, _ => bmap
  | i + 1, bit =>
    let r := _clear_bit (bmap.at i) bit
    if r.1 ≠ BIT_OK then bmap
    else _bitmap_clear_bit_loop { bmap with layer := bmap.layer.set i r.2 } i (bit / 256)

/-- `_bitmap_clear_bit`. -/
def _bitmap_clear_bit (bmap : bitmap) (pos : Nat) : Int × bitmap :=
  let r := _clear_bit (bmap.at (bmap.level - 1)) pos
  if r.1 ≠ BIT_OK then (r.1, bmap)
  else
    (BIT_OK, _bitmap_clear_bit_loop { bmap with layer := bmap.layer.set (bmap.level - 1) r.2 }
      (bmap.level - 1) (pos / 256))

/-- The level-counting loop of `bitmap_create`,
`for (i = bit_count; i != 0; level++, i /= 256)`. -/
def _bitmap_level_loop : Nat → Int → Nat → Nat
  | 0, _, level => level
  | fuel + 1, i, level =>
    if i = 0 then level else _bitmap_level_loop fuel (Int.tdiv i 256) (level + 1)

/-- The layer-initialising loop of `bitmap_create`, from the finest layer
upwards; `k` layers remain, `acc` holds the layers below. -/
def _bitmap_layer_loop : Nat → Int → List _bits_t → List _bits_t
  | 0, _, acc => acc
  | k + 1, bits, acc =>
    _bitmap_layer_loop k (_div_upward_round bits 256)
      (⟨bits, List.replicate (_div_upward_round bits 64).toNat 0⟩ :: acc)

/-- `bitmap_create` (`calloc` is taken to succeed); `none` is `NULL`.
A 32-bit `int` has at most four base-256 digits, so 32 rounds of the
level loop always reach `i = 0`. -/
def bitmap_create (bit_count : Int) : Option bitmap :=
  if bit_count ≤ 0 then none
  else
    let level := _bitmap_level_loop 32 bit_count 0
    if level > 6 then none
    else some ⟨bit_count, level, _bitmap_layer_loop level bit_count []⟩

/-- Result of `bitmap_allocbit`. -/
inductive alloc_result where
  /-- returned `BIT_OK` with `*bit = bit` -/
  | ok (bit : Nat) (bmap : bitmap)
  /-- returned `BIT_FAIL`, nothing written -/
  | fail
  /-- an `assert` failed -/
  | abort
deriving DecidableEq, Repr

/-- The descent loop `for (i = 1; i < level; i++)` of `bitmap_allocbit`:
`fuel = level - i`; `none` when the `assert` in the body fails, else the
final `(start, pos)`. -/
def _bitmap_alloc_loop (bmap : bitmap) : Nat → Nat → Nat → Nat → Option (Nat × Nat)
  | 0, _, start, pos => some (start, pos)
  | fuel + 1, i, start, pos =>
    let start := (start + pos) * 256
    let count := _get_slice_bit_count (bmap.at i) start
    let bits : _bits_t := ⟨count, (bmap.at i).area.drop (start / 64)⟩
    match _find_first_zero_bit bits with
    | none => none
    | some pos => _bitmap_alloc_loop bmap fuel (i + 1) start pos

/-- `bitmap_allocbit`. -/
def bitmap_allocbit (bmap : bitmap) : alloc_result :=
  match _find_first_zero_bit (bmap.at 0) with
  | none => .fail
  | some pos =>
    match _bitmap_alloc_loop bmap (bmap.level - 1) 1 0 pos with
    | none => .abort
    | some (start, pos) =>
      let bit := start + pos
      let r := _bitmap_set_bit bmap bit
      if r.1 = BIT_OK then .ok bit r.2 else .abort

/-- `bitmap_freebit` for a non-negative `bit`. -/
def bitmap_freebit (bmap : bitmap) (bit : Nat) : Int × bitmap :=
  if (bit : Int) ≥ bmap.max then (BIT_FAIL, bmap)
  else _bitmap_clear_bit bmap bit

/-- Bit `i` of the word array `area`. -/
def tb (area : List Nat) (i : Nat) : Bool := (area.getD (i / 64) 0).testBit (i % 64)

/-- Number of bits of layer `k`. -/
def bitmap.cnt (b : bitmap) (k : Nat) : Nat := (b.at k).count.toNat

/-- Bit `i` of layer `k`. -/
def bitmap.bit (b : bitmap) (k i : Nat) : Bool := tb (b.at k).area i

/-- Layout facts established by `bitmap_create` and never changed afterwards. -/
structure Shape (b : bitmap) : Prop where
  level_pos : 1 ≤ b.level
  len : b.layer.length = b.level
  max_eq : (b.at (b.level - 1)).count = b.max
  count_pos : ∀ k, k < b.level → 0 < (b.at k).count
  count_le : ∀ k, k < b.level → (b.at k).count ≤ 2147483392
  area_len : ∀ k, k < b.level → (b.at k).area.length = (((b.at k).count + 63) / 64).toNat
  parent : ∀ k, k + 1 < b.level → (b.at k).count = ((b.at (k + 1)).count + 255) / 256

/-- The parent bit `q` of layer `k` is set exactly when its slice of layer `k + 1` is full. -/
def Hprop (b : bitmap) (k q : Nat) : Prop :=
  b.bit k q = true ↔
    ∀ j, 256 * q ≤ j → j < 256 * q + 256 → j < b.cnt (k + 1) → b.bit (k + 1) j = true

/-- The hierarchy invariant: every parent bit summarises its slice. -/
def Hier (b : bitmap) : Prop :=
  ∀ k, k + 1 < b.level → ∀ q, q < b.cnt k → Hprop b k q

/-- The two bitmaps have the same layout (they differ at most in the bit contents). -/
def SameShape (b b' : bitmap) : Prop :=
  b'.max = b.max ∧ b'.level = b.level ∧ b'.layer.length = b.layer.length ∧
  ∀ k, (b'.at k).count = (b.at k).count ∧ (b'.at k).area.length = (b.at k).area.length

/-- `Hier` with at most one exception, the parent bit `q0` of layer `k0`. -/
def HierExcept (b : bitmap) (k0 q0 : Nat) : Prop :=
  ∀ k, k + 1 < b.level → ∀ q, q < b.cnt k → (k = k0 ∧ q = q0) ∨ Hprop b k q

/-- `p` is the smallest clear bit of layer `k`. -/
def FirstZero (b : bitmap) (k p : Nat) : Prop :=
  p < b.cnt k ∧ b.bit k p = false ∧ ∀ j, j < p → b.bit k j = true

/-- Every bit of layer `k` is set. -/
def AllSet (b : bitmap) (k : Nat) : Prop := ∀ j, j < b.cnt k → b.bit k j = true

/-- The layer built by `bitmap_create` for `bits` bits: all words zero. -/
def fresh_layer (bits : Int) : _bits_t :=
  ⟨bits, List.replicate (_div_upward_round bits 64).toNat 0⟩

/-- Bit `i` of the finest layer, i.e. whether bit `i` is currently allocated. -/
def bitmap.finest (b : bitmap) (i : Nat) : Bool := b.bit (b.level - 1) i

/-- The bitmap states reachable from `bitmap_create n` by calls of
`bitmap_allocbit` (a failing call leaves the state as it is) and `bitmap_freebit`. -/
inductive Reachable (n : Int) : bitmap → Prop
  | create {s : bitmap} : bitmap_create n = some s → Reachable n s
  | alloc {s s' : bitmap} {bit : Nat} :
      Reachable n s → bitmap_allocbit s = .ok bit s' → Reachable n s'
  | free {s : bitmap} (bit : Nat) : Reachable n s → Reachable n (bitmap_freebit s bit).2

/-- The invariant of an `n`-bit bitmap: layout and hierarchy. -/
structure Inv (n : Int) (s : bitmap) : Prop where
  shape : Shape s
  hier : Hier s
  max_eq : s.max = n

/-- `k` consecutive calls of `bitmap_allocbit`: the bits returned, in call
order, and the final state; `none` as soon as a call does not return `BIT_OK`. -/
def alloc_many : Nat → bitmap → Option (List Nat × bitmap)
  | 0, s => some ([], s)
  | k + 1, s =>
    match bitmap_allocbit s with
    | .ok bit s' => (alloc_many k s').map (fun r => (bit :: r.1, r.2))
    | _ => none

/-- One call on a bitmap. -/
inductive bitmap_op where
  | alloc
  | free (bit : Nat)
deriving DecidableEq, Repr

/-- Run a sequence of calls, keeping next to the bitmap the ghost set `live`
of the bits handed out by a successful `bitmap_allocbit` and not yet given
back by a successful `bitmap_freebit`; `none` when an `assert` fails. -/
def run_ops : List bitmap_op → bitmap × (Nat → Bool) → Option (bitmap × (Nat → Bool))
  | [], st => some st
  | .alloc :: ops, (s, live) =>
    match bitmap_allocbit s with
    | .ok bit s' => run_ops ops (s', fun j => decide (j = bit) || live j)
    | .fail => run_ops ops (s, live)
    | .abort => none
  | .free bit :: ops, (s, live) =>
    let r := bitmap_freebit s bit
    if r.1 = 0 then run_ops ops (r.2, fun j => !decide (j = bit) && live j)
    else run_ops ops (r.2, live)

/-! ## mempool.c -/

/-- `struct memorypool`.  The storage pointer `mem` is not kept: a pointer into
the pool is represented by its byte offset from `mem`. -/
structure mempool where
  fix_size : Nat
  max : Nat
  used : Nat
  b_idx : Nat
  b_avg : Int
  b_cnt : Int
  b_map : List bitmap
deriving DecidableEq, Repr

/-- `pool->b_map[i]`. -/
def mempool.map (pool : mempool) (i : Nat) : bitmap := pool.b_map.getD i ⟨0, 0, []⟩

/-- Result of `_mempool_malloc` and of `mempool_alloc`. -/
inductive malloc_result where
  /-- returned `mem + off` -/
  | ptr (off : Nat) (pool : mempool)
  /-- returned `NULL` -/
  | null (pool : mempool)
  /-- an `assert` of `bitmap_allocbit` failed -/
  | abort
deriving DecidableEq, Repr

/-- The `for (i = 0; i < b_cnt; i++)` loop of `_mempool_malloc`; the first
argument counts the remaining rounds, `_idx` is the current sub-bitmap. -/
def _mempool_malloc_loop (pool : mempool) : Nat → Int → malloc_result
  | 0, _ => .null pool
  | fuel + 1, _idx =>
    match bitmap_allocbit (pool.map _idx.toNat) with
    | .ok _bit bm =>
      let pos := wrap_int (_idx * pool.b_avg + (_bit : Int))
      .ptr (pool.fix_size * (pos % 4294967296).toNat)
        { pool with b_map := pool.b_map.set _idx.toNat bm, used := (pool.used + 1) % 4294967296 }
    | .fail => _mempool_malloc_loop pool fuel (Int.tmod (_idx + 1) pool.b_cnt)
    | .abort => .abort

/-- `_mempool_malloc`: `atomic_u64_inc` returns the incremented counter. -/
def _mempool_malloc (pool : mempool) : malloc_result :=
  let val := (pool.b_idx + 1) % 18446744073709551616
  let pool1 : mempool := { pool with b_idx := val }
  let _idx := wrap_int ((val % (pool.b_cnt % 4294967296).toNat : Nat) : Int)
  _mempool_malloc_loop pool1 pool.b_cnt.toNat _idx

/-- The retry loop of `mempool_alloc` over the waits `tw = 1, 2, 4, ..., 512`
(the sleeps themselves are not modelled). -/
def _mempool_alloc_loop : List Nat → mempool → malloc_result
  | [], pool => .null pool
  | _ :: tws, pool =>
    match _mempool_malloc pool with
    | .ptr off pool1 => .ptr off pool1
    | .null pool1 => _mempool_alloc_loop tws pool1
    | .abort => .abort

/-- `mempool_alloc`. -/
def mempool_alloc (pool : mempool) : malloc_result :=
  _mempool_alloc_loop [1, 2, 4, 8, 16, 32, 64, 128, 256, 512] pool

/-- The bitmap-creating loop of `mempool_create`; `none` when a
`bitmap_create` returns `NULL`. -/
def _mempool_create_bitmaps : List Nat → Option (List bitmap)
  | [] => some []
  | bits :: rest =>
    (bitmap_create (wrap_int (bits : Int))).bind fun bm =>
      (_mempool_create_bitmaps rest).map fun bms => bm :: bms

/-- First part of the computation of `b_cnt` in `mempool_create`, from the
value `cpu` returned by `sysconf`: `(uint32_t)cpu * 5 / 4`, capped at `MAX_CPUS`. -/
def _mempool_cpu_b_cnt (cpu : Int) : Nat :=
  let cpu : Int := if 0 > cpu then 64 else cpu
  let b_cnt := cpu.toNat * 5 % 4294967296 / 4
  if b_cnt > 64 then 64 else b_cnt

/-- Second part: fewer sub-bitmaps when they would hold less than
`RECOMMEND_BITS` bits each. -/
def _mempool_b_cnt (cpu : Int) (count : Nat) : Nat :=
  let b_cnt := _mempool_cpu_b_cnt cpu
  if count / b_cnt < 256 then
    let b_cnt := count / 256
    if count % 256 ≠ 0 ∨ 0 = b_cnt then b_cnt + 1 else b_cnt
  else b_cnt

/-- The array `bits_in_map` of `mempool_create`. -/
def _mempool_bits_in_map (b_cnt count : Nat) : List Nat :=
  let average := count / b_cnt
  if b_cnt * average < count then
    List.replicate (b_cnt - 1) average ++ [average + (count - b_cnt * average)]
  else List.replicate b_cnt average

/-- `mempool_create` with `cpu` the value returned by `sysconf` (`malloc` is
taken to succeed); `none` when no pool comes back: `NULL` is returned, or the
division `count / b_cnt` faults because `b_cnt` is zero. -/
def mempool_create (cpu : Int) (size count : Nat) : Option mempool :=
  if count = 0 then none
  else
    if _mempool_cpu_b_cnt cpu = 0 then none
    else
      let b_cnt := _mempool_b_cnt cpu count
      let average := count / b_cnt
      (_mempool_create_bitmaps (_mempool_bits_in_map b_cnt count)).map fun maps =>
        ⟨size, count, 0, 0, wrap_int (average : Int), (b_cnt : Int), maps⟩

/-- Result of `mempool_free`. -/
inductive free_result where
  /-- the slot was given back, `used` decremented -/
  | freed (pool : mempool)
  /-- "not in mempool" was logged and the call returned, the pool untouched -/
  | rejected
  /-- `abort()` after "may be double-free" -/
  | abort
  /-- an integer division by zero -/
  | fault
deriving DecidableEq, Repr

/-- `mempool_free` for the pointer `mem + off`. -/
def mempool_free (pool : mempool) (off : Int) : free_result :=
  let fs := wrap_int (pool.fix_size : Int)
  if fs = 0 then .fault
  else
    let bit := wrap_int (Int.tdiv off fs)
    if bit < 0 ∨ bit ≥ wrap_int (pool.max : Int) then .rejected
    else if pool.b_avg = 0 then .fault
    else
      let idx := Int.tdiv bit pool.b_avg
      let bit := Int.tmod bit pool.b_avg
      let idx1 := if idx > pool.b_cnt - 1 then pool.b_cnt - 1 else idx
      let bit1 := if idx > pool.b_cnt - 1 then bit + pool.b_avg else bit
      let r := bitmap_freebit (pool.map idx1.toNat) bit1.toNat
      if r.1 ≠ 0 then .abort
      else .freed { pool with b_map := pool.b_map.set idx1.toNat r.2,
                              used := (4294967295 + pool.used) % 4294967296 }

/-- Size of sub-bitmap `i` of a pool of `count` slots split over `N`
sub-bitmaps of `avg` bits: the last one also takes the remainder. -/
def pool_bits (N avg count i : Nat) : Nat :=
  if i + 1 = N then avg + (count - N * avg) else avg

/-- The sub-bitmap that owns slot `pos` (by the range partition). -/
def mempool.slot_idx (p : mempool) (pos : Nat) : Nat :=
  min (pos / p.b_avg.toNat) (p.b_cnt.toNat - 1)

/-- The bit of slot `pos` inside its sub-bitmap. -/
def mempool.slot_bit (p : mempool) (pos : Nat) : Nat :=
  pos - p.slot_idx pos * p.b_avg.toNat

/-- Whether slot `pos` is marked allocated in the sub-bitmap that owns it. -/
def mempool.slot_set (p : mempool) (pos : Nat) : Bool :=
  (p.map (p.slot_idx pos)).finest (p.slot_bit pos)

/-- Invariant of a pool of `count` slots of `size` bytes with `N`
sub-bitmaps of `avg` bits (the last one larger). -/
structure PoolInv (size count N avg : Nat) (p : mempool) : Prop where
  fix : p.fix_size = size
  max : p.max = count
  cnt : p.b_cnt = (N : Int)
  avg_eq : p.b_avg = (avg : Int)
  len : p.b_map.length = N
  N_pos : 1 ≤ N
  N_le_avg : N ≤ avg
  total : N * avg ≤ count
  rem : count < N * avg + N
  count_lt : count < 4294967296
  inv : ∀ i, i < N → Inv (pool_bits N avg count i : Nat) (p.map i)
  bound : avg + (count - N * avg) ≤ 2147483392

/-- The configuration fields of the pool (everything but the bitmaps and the counters) agree. -/
def SameCfg (p p' : mempool) : Prop :=
  p'.fix_size = p.fix_size ∧ p'.max = p.max ∧ p'.b_avg = p.b_avg ∧ p'.b_cnt = p.b_cnt

/-- What a call of `_mempool_malloc` or `mempool_alloc` on `p` can return: `NULL`
with the bitmaps untouched, or the slot `i * avg + bit` that `bitmap_allocbit`
found in sub-bitmap `i`. -/
def AllocSpec (size avg N : Nat) (p : mempool) (r : malloc_result) : Prop :=
  (∃ p', r = .null p' ∧ p'.b_map = p.b_map ∧ p'.used = p.used ∧ SameCfg p p') ∨
  (∃ i bit bm p', r = .ptr (size * (i * avg + bit)) p' ∧ i < N ∧
    bitmap_allocbit (p.map i) = .ok bit bm ∧ p'.b_map = p.b_map.set i bm ∧
    p'.used = (p.used + 1) % 4294967296 ∧ SameCfg p p')

/-- The pool states reachable from `p0` by calls of `mempool_alloc` and of
`mempool_free` (with any pointer) that return. -/
inductive PoolReachable (p0 : mempool) : mempool → Prop
  | init : PoolReachable p0 p0
  | alloc_ptr {p p' : mempool} {off : Nat} :
      PoolReachable p0 p → mempool_alloc p = .ptr off p' → PoolReachable p0 p'
  | alloc_null {p p' : mempool} :
      PoolReachable p0 p → mempool_alloc p = .null p' → PoolReachable p0 p'
  | free {p p' : mempool} {off : Int} :
      PoolReachable p0 p → mempool_free p off = .freed p' → PoolReachable p0 p'

/-! ## hashmap.c
A `hashlink_t` lives in the caller's memory and is identified by its address
(a `Nat`); the key stored in it is read through the function `key_of`.  A
bucket's intrusive circular list is the `List` of the addresses linked in it,
head first: `list_add` is `::`, `list_add_tail` appends, `list_del` erases. -/

/-- `EEXIST`. -/
abbrev EEXIST : Int := 17

/-- `ENOENT`. -/
abbrev ENOENT : Int := 2

/-- `EINVAL`. -/
abbrev EINVAL : Int := 22

/-- `atomic_u64_inc` / `depth++` on a `uint64_t`. -/
def u64_inc (x : Nat) : Nat := (x + 1) % 18446744073709551616

/-- `atomic_u64_dec` / `depth--` on a `uint64_t`. -/
def u64_dec (x : Nat) : Nat := (18446744073709551615 + x) % 18446744073709551616

/-- `_bucket_t` (the lock is omitted). -/
structure _bucket_t where
  list : List Nat
  depth : Nat
deriving DecidableEq, Repr

/-- `struct hashmap`. -/
structure hashmap where
  total_keys : Nat
  cmp : Nat → Nat → Int
  hash : Nat → Nat
  max_depth : Nat
  b_count : Nat
  buckets : List _bucket_t

/-- `map->buckets[i]`. -/
def hashmap.bucket (map : hashmap) (i : Nat) : _bucket_t := map.buckets.getD i ⟨[], 0⟩

/-- The bucket index `map->hash(key) & (map->b_count - 1)`, computed on `uint32_t`. -/
def hashmap.index (map : hashmap) (key : Nat) : Nat :=
  (map.hash key % 4294967296) &&& ((4294967295 + map.b_count) % 4294967296)

/-- The statement `if (bucket->depth > map->max_depth) map->max_depth = bucket->depth;`. -/
def hashmap.touch (map : hashmap) (i : Nat) : hashmap :=
  if (map.bucket i).depth > map.max_depth then { map with max_depth := (map.bucket i).depth }
  else map

/-- The table as `hashmap_create` leaves it once the bucket count is known:
`b_count` empty buckets and no key. -/
def hashmap_init (b_count : Nat) (cmp : Nat → Nat → Int) (hash : Nat → Nat) : hashmap :=
  ⟨0, cmp, hash, 0, b_count, List.replicate b_count ⟨[], 0⟩⟩

/-- What a hash map call hands back: the return code, the entry written
through the out-parameter (when that pointer is not `NULL`), the entries on
which the callback was invoked, in order, and the map after the call. -/
structure hm_result where
  ret : Int
  out : Option Nat
  calls : List Nat
  map : hashmap

/-- `hashmap_insert`; `func` tells whether the callback pointer is non-`NULL`. -/
def hashmap_insert (map : hashmap) (key_of : Nat → Nat) (new_data : Nat) (func : Bool) :
    hm_result :=
  let hash_val := map.index (key_of new_data)
  let map1 := map.touch hash_val
  match (map1.bucket hash_val).list.find?
      (fun exist_data => decide (map.cmp (key_of new_data) (key_of exist_data) = 0)) with
  | some exist_data => ⟨EEXIST, some exist_data, if func then [exist_data] else [], map1⟩
  | none =>
    ⟨0, none, [],
      { map1 with
        buckets := map1.buckets.set hash_val
          ⟨new_data :: (map1.bucket hash_val).list, u64_inc (map1.bucket hash_val).depth⟩,
        total_keys := u64_inc map1.total_keys }⟩

/-- `hashmap_search`. -/
def hashmap_search (map : hashmap) (key_of : Nat → Nat) (key : Nat) (func : Bool) : hm_result :=
  let hash_val := map.index key
  let map1 := map.touch hash_val
  match (map1.bucket hash_val).list.find?
      (fun exist_data => decide (map.cmp key (key_of exist_data) = 0)) with
  | some exist_data => ⟨EEXIST, some exist_data, if func then [exist_data] else [], map1⟩
  | none => ⟨ENOENT, none, [], map1⟩

/-- The removal done by `hashmap_delete` once the callback agreed:
`list_del`, `bucket->depth--`, `atomic_u64_dec(&map->total_keys)`. -/
def hashmap.unlink (map : hashmap) (hash_val : Nat) (exist_data : Nat) : hashmap :=
  { map with
    buckets := map.buckets.set hash_val
      ⟨(map.bucket hash_val).list.erase exist_data, u64_dec (map.bucket hash_val).depth⟩,
    total_keys := u64_dec map.total_keys }

/-- `hashmap_delete`; `func` is the callback (`none` for `NULL`), given as the
value it returns on each entry. -/
def hashmap_delete (map : hashmap) (key_of : Nat → Nat) (key : Nat)
    (func : Option (Nat → Int)) : hm_result :=
  let hash_val := map.index key
  let map1 := map.touch hash_val
  match (map1.bucket hash_val).list.find?
      (fun exist_data => decide (map.cmp key (key_of exist_data) = 0)) with
  | some exist_data =>
    match func with
    | some f =>
      if f exist_data ≠ 0 then ⟨f exist_data, none, [exist_data], map1⟩
      else ⟨0, some exist_data, [exist_data], map1.unlink hash_val exist_data⟩
    | none => ⟨0, some exist_data, [], map1.unlink hash_val exist_data⟩
  | none => ⟨ENOENT, none, [], map1⟩

/-- The `list_foreach_safe` loop of `hashmap_eviction` over one bucket, from
the entry `curr` on: the entries left in the list (an entry the predicate
keeps is put back in front of its old successor, i.e. where it was), the
bucket depth, `total_keys` and the state threaded through the predicate. -/
def _eviction_scan {σ : Type} (func : σ → Nat → Int × σ) :
    List Nat → Nat → Nat → Nat → σ → List Nat × Nat × Nat × σ
  | [], _, depth, total_keys, st => ([], depth, total_keys, st)
  | curr :: rest, skip, depth, total_keys, st =>
    if skip ≠ 0 then
      let r := _eviction_scan func rest (skip - 1) depth total_keys st
      (curr :: r.1, r.2)
    else
      let fr := func st curr
      if fr.1 = 0 then _eviction_scan func rest 0 (u64_dec depth) (u64_dec total_keys) fr.2
      else
        let r := _eviction_scan func rest 0 depth total_keys fr.2
        (curr :: r.1, r.2)

/-- The `for` loop of `hashmap_eviction` over the buckets. -/
def _eviction_buckets {σ : Type} (func : σ → Nat → Int × σ) (avg : Nat) :
    List _bucket_t → Nat → σ → List _bucket_t × Nat × σ
  | [], total_keys, st => ([], total_keys, st)
  | bucket :: rest, total_keys, st =>
    if bucket.depth ≤ avg then
      let r := _eviction_buckets func avg rest total_keys st
      (bucket :: r.1, r.2)
    else
      let s := _eviction_scan func bucket.list avg bucket.depth total_keys st
      let r := _eviction_buckets func avg rest s.2.2.1 s.2.2.2
      (⟨s.1, s.2.1⟩ :: r.1, r.2)

/-- `hashmap_eviction`: the predicate `func` may have effects of its own,
threaded as a state of type `σ`. -/
def hashmap_eviction {σ : Type} (map : hashmap) (depth : Nat) (func : σ → Nat → Int × σ)
    (st : σ) : hashmap × σ :=
  let avg := map.total_keys / map.b_count
  let avg := if avg > depth then depth else avg
  let r := _eviction_buckets func avg map.buckets map.total_keys st
  ({ map with max_depth := 0, buckets := r.1, total_keys := r.2.1 }, r.2.2)

/-! ## mcache.c
An item is identified by its address; the payload pointer `MEM(item)` and the
`hashlink_t` inside the item are the same object at fixed offsets, so all
three are represented by that address. -/

/-- `_item_t`: the header fields of an item (`hash.key` keeps its value while
the item sits on the free or in-use list). -/
structure _item_t where
  magic : Nat
  free_out : Bool
  key : Nat
deriving DecidableEq, Repr

/-- `_list_mgr_t` (the lock is omitted). -/
structure _list_mgr_t where
  count : Int
  list : List Nat
deriving DecidableEq, Repr

/-- `struct mc`, restricted to the fields the item operations use; `item`
is the memory holding the items, by address. -/
structure mc where
  magic : Nat
  map : hashmap
  scale : Nat
  alloc_count : Nat
  size : Nat
  freeable : Nat → Bool
  free : _list_mgr_t
  inuse : _list_mgr_t
  item : Nat → _item_t

/-- A user callback invoked by an item operation, with the item it was invoked on. -/
inductive mc_call where
  /-- the `found` callback of `mc_item_search` / `mc_item_insert` -/
  | found (item : Nat)
  /-- the `condition` callback of `mc_item_delete` -/
  | cond (item : Nat)
  /-- the `clean` callback of the cache -/
  | clean (item : Nat)
deriving DecidableEq, Repr

/-- What an item operation hands back: return code, the payload written
through the out-parameter or returned, the user callbacks invoked, in order,
and the cache after the call. -/
structure mc_result where
  ret : Int
  out : Option Nat
  calls : List mc_call
  mc : mc

/-- The key stored in the item at address `a`. -/
def mc.key_of (m : mc) (a : Nat) : Nat := (m.item a).key

/-- `_free_item`: the calls made and the cache afterwards. -/
def _free_item (m : mc) (link : Nat) : List mc_call × mc :=
  if m.freeable link then
    ([.clean link], { m with free := ⟨m.free.count + 1, link :: m.free.list⟩ })
  else
    ([], { m with inuse := ⟨m.inuse.count + 1, m.inuse.list ++ [link]⟩ })

/-- `mc_item_setkey`. -/
def mc_item_setkey (m : mc) (mem : Nat) (key : Nat) : Int × mc :=
  if (m.item mem).magic ≠ m.magic then (EINVAL, m)
  else (0, { m with item := Function.update m.item mem { m.item mem with key := key } })

/-- `mc_item_search`; `found` tells whether the callback pointer is
non-`NULL`; `out` is the returned payload (`none` for `NULL`). -/
def mc_item_search (m : mc) (key : Nat) (found : Bool) : mc_result :=
  let r := hashmap_search m.map m.key_of key true
  let calls := if found then r.calls.map mc_call.found else []
  if r.ret = EEXIST then ⟨0, r.out, calls, { m with map := r.map }⟩
  else ⟨0, none, calls, { m with map := r.map }⟩

/-- `mc_item_insert`; `out` is what is stored in `*old` when `old` is not `NULL`. -/
def mc_item_insert (m : mc) (ne : Nat) (found : Bool) : mc_result :=
  if (m.item ne).magic ≠ m.magic then ⟨EINVAL, none, [], m⟩
  else
    let r := hashmap_insert m.map m.key_of ne true
    let calls := if found then r.calls.map mc_call.found else []
    if r.ret = EEXIST then ⟨EEXIST, r.out, calls, { m with map := r.map }⟩
    else
      ⟨0, none, calls,
        { m with map := r.map,
                 item := Function.update m.item ne { m.item ne with free_out := false } }⟩

/-- `_int_found` for the context `ctx.int_f = condition`. -/
def _int_found (condition : Option (Nat → Int)) (link : Nat) : Int :=
  match condition with
  | some f => f link
  | none => 0

/-- `mc_item_delete`; `condition` is the callback (`none` for `NULL`). -/
def mc_item_delete (m : mc) (key : Nat) (condition : Option (Nat → Int)) : mc_result :=
  let r := hashmap_delete m.map m.key_of key (some (_int_found condition))
  let calls := if condition.isSome then r.calls.map mc_call.cond else []
  if r.ret = 0 then
    match r.out with
    | some link =>
      let fr := _free_item { m with map := r.map } link
      ⟨0, none, calls ++ fr.1, fr.2⟩
    | none => ⟨0, none, calls, { m with map := r.map }⟩
  else ⟨r.ret, none, calls, { m with map := r.map }⟩

/-- `u64_cmp` of hashfunc.h, on the values the key pointers point to. -/
def u64_cmp (key1 key2 : Nat) : Int := if key1 = key2 then 0 else 1

/-- `u64_hash` of hashfunc.h, on the value the key pointer points to. -/
def u64_hash (key : Nat) : Nat := key % 4294967296

/-- A sample cache: magic 77, four buckets, `u64` keys, every item freeable
but item 3; the memory at address `a` holds an item with magic 77, `free_out`
set and key `10 * (a % 4)`. -/
def mc_sample : mc :=
  ⟨77, hashmap_init 4 u64_cmp u64_hash, 16, 3, 8, fun a => decide (a ≠ 3), ⟨0, []⟩, ⟨0, []⟩,
    fun a => ⟨77, true, a % 4 * 10⟩⟩

/-- The comparison is an equality test on keys and the hash respects it. -/
structure KeyLaws (cmp : Nat → Nat → Int) (hash : Nat → Nat) : Prop where
  refl : ∀ a, cmp a a = 0
  symm : ∀ a b, cmp a b = 0 → cmp b a = 0
  trans : ∀ a b c, cmp a b = 0 → cmp b c = 0 → cmp a c = 0
  hash_eq : ∀ a b, cmp a b = 0 → hash a = hash b

/-- Well-formedness of a table: every entry sits in the bucket of its key
and no two entries of a bucket have equal keys. -/
structure MapWF (cmp : Nat → Nat → Int) (hash : Nat → Nat) (B : Nat) (map : hashmap)
    (key_of : Nat → Nat) : Prop where
  cmp_eq : map.cmp = cmp
  hash_eq : map.hash = hash
  b_eq : map.b_count = B
  len : map.buckets.length = B
  home : ∀ i e, e ∈ (map.bucket i).list → map.index (key_of e) = i
  uniq : ∀ i, (map.bucket i).list.Pairwise (fun a b => cmp (key_of a) (key_of b) ≠ 0)

/-- The tables (with the keys currently stored in the entries) reachable
from an empty table of `B` buckets by `hashmap_insert`, `hashmap_search`,
`hashmap_delete`, `hashmap_eviction`, and by changing the key of an entry that
is not linked in the table. -/
inductive MapReachable (cmp : Nat → Nat → Int) (hash : Nat → Nat) (B : Nat) :
    hashmap → (Nat → Nat) → Prop
  | init (key_of : Nat → Nat) : MapReachable cmp hash B (hashmap_init B cmp hash) key_of
  | insert {map : hashmap} {key_of : Nat → Nat} (new_data : Nat) (func : Bool) :
      MapReachable cmp hash B map key_of →
      MapReachable cmp hash B (hashmap_insert map key_of new_data func).map key_of
  | search {map : hashmap} {key_of : Nat → Nat} (key : Nat) (func : Bool) :
      MapReachable cmp hash B map key_of →
      MapReachable cmp hash B (hashmap_search map key_of key func).map key_of
  | delete {map : hashmap} {key_of : Nat → Nat} (key : Nat) (func : Option (Nat → Int)) :
      MapReachable cmp hash B map key_of →
      MapReachable cmp hash B (hashmap_delete map key_of key func).map key_of
  | evict {map : hashmap} {key_of : Nat → Nat} {σ : Type} (depth : Nat)
      (func : σ → Nat → Int × σ) (st : σ) :
      MapReachable cmp hash B map key_of →
      MapReachable cmp hash B (hashmap_eviction map depth func st).1 key_of
  | setkey {map : hashmap} {key_of : Nat → Nat} (x key : Nat) :
      MapReachable cmp hash B map key_of → (∀ i, x ∉ (map.bucket i).list) →
      MapReachable cmp hash B map (Function.update key_of x key)

/-! ## mcache.c: creation, allocation and eviction
The payloads of the items are kept in a memory of their own, `mem`, from the
address of an item to the bytes of its payload; `calloc` is given by the
address it returns (`none` for `NULL`). -/

/-- `MC_RETRY`. -/
abbrev MC_RETRY : Nat := 3

/-- `M_LIMIT(x)`, computed on `uint32_t`. -/
def M_LIMIT (x : Nat) : Nat := x * 65 % 4294967296 / 100

/-- `ROUND8(x)`, computed on `uint32_t`. -/
def ROUND8 (x : Nat) : Nat := (x + 7) % 4294967296 / 8 * 8 % 4294967296

/-- The conversion `(uint64_t)` of an `int`. -/
def u64_of_int (c : Int) : Nat := (c % 18446744073709551616).toNat

/-- `atomic_u32_inc`. -/
def u32_inc (x : Nat) : Nat := (x + 1) % 4294967296

/-- `atomic_u32_dec`. -/
def u32_dec (x : Nat) : Nat := (4294967295 + x) % 4294967296

/-- `holds` of `_evict_enable`: `info->total_keys + (uint64_t)mc->mempool.inuse.count`. -/
def mc.holds (m : mc) : Nat :=
  (m.map.total_keys + u64_of_int m.inuse.count) % 18446744073709551616

/-- `_evict_enable`. -/
def _evict_enable (m : mc) (limit : Nat) : Bool := decide (m.holds > limit)

/-- The `list_foreach_safe` loop of `_sweeper_inuse`, from the node `curr`
on: the `clean` calls made so far and the cache. -/
def _sweeper_inuse_loop : List Nat → List mc_call × mc → List mc_call × mc
  | [], st => st
  | curr :: rest, st =>
    if st.2.freeable curr then
      _sweeper_inuse_loop rest (st.1 ++ [mc_call.clean curr],
        { st.2 with inuse := ⟨st.2.inuse.count - 1, st.2.inuse.list.erase curr⟩,
                    free := ⟨st.2.free.count + 1, curr :: st.2.free.list⟩ })
    else _sweeper_inuse_loop rest st

/-- `_sweeper_inuse`. -/
def _sweeper_inuse (m : mc) : List mc_call × mc := _sweeper_inuse_loop m.inuse.list ([], m)

/-- `_sweeper_item`, the predicate handed to `hashmap_eviction`; its effects
are the `clean` calls and the free list, threaded as the state. -/
def _sweeper_item (freeable : Nat → Bool) (st : List mc_call × _list_mgr_t) (link : Nat) :
    Int × (List mc_call × _list_mgr_t) :=
  if freeable link then
    (0, (st.1 ++ [mc_call.clean link], ⟨st.2.count + 1, link :: st.2.list⟩))
  else (-1, st)

/-- The call `hashmap_eviction(mc->map, depth, mc, _sweeper_item)`. -/
def mc.evict (m : mc) (depth : Nat) : List mc_call × mc :=
  let e := hashmap_eviction m.map depth (_sweeper_item m.freeable) ([], m.free)
  (e.2.1, { m with map := e.1, free := e.2.2 })

/-- The `while` loop of `_sweeper_main`; `depth` strictly decreases, the
first argument bounds the number of rounds. -/
def _sweeper_main_loop : Nat → Nat → List mc_call × mc → List mc_call × mc
  | 0, _, st => st
  | fuel + 1, depth, st =>
    if _evict_enable st.2 (M_LIMIT st.2.scale) ∧ depth > 0 then
      let avg_depth := st.2.map.total_keys / st.2.map.b_count
      let depth1 := if depth > avg_depth then avg_depth else depth
      let e := st.2.evict (depth1 / 2)
      _sweeper_main_loop fuel (depth1 / 2) (st.1 ++ e.1, e.2)
    else st

/-- `_sweeper_main`, one run of the background sweeper. -/
def _sweeper_main (m : mc) : List mc_call × mc :=
  _sweeper_main_loop (m.scale + 1) m.scale (_sweeper_inuse m)

/-- One pass of the forced eviction of `_alloc_item` (`_evict_begin` returns
0: no other thread is evicting). -/
def _evict_pass (m : mc) : List mc_call × mc :=
  let s := _sweeper_inuse m
  let e := s.2.evict 0
  (s.1 ++ e.1, e.2)

/-- The `for` loop of `_alloc_item`; the first argument is
`MC_RETRY - retry`.  The flag is `false` when the function returns `NULL`
from inside the loop. -/
def _alloc_item_evict : Nat → List mc_call × mc → Bool × List mc_call × mc
  | n, st =>
    if _evict_enable st.2 st.2.scale then
      match n with
      | 0 => (false, st)
      | n + 1 => _alloc_item_evict n (st.1 ++ (_evict_pass st.2).1, (_evict_pass st.2).2)
    else (true, st)

/-- What `_alloc_item` / `mc_item_alloc` hand back: the item (`none` for
`NULL`), the `clean` calls, whether the sweeper was woken up, whether the item
comes from `calloc`, the cache and the payload memory. -/
structure alloc_item_result where
  out : Option Nat
  calls : List mc_call
  wakeup : Bool
  fresh : Bool
  mc : mc
  mem : Nat → List Nat

/-- `_alloc_item`; `calloc` is the address `calloc` returns if it is called. -/
def _alloc_item (m : mc) (mem : Nat → List Nat) (calloc : Option Nat) : alloc_item_result :=
  let ev := _alloc_item_evict MC_RETRY ([], m)
  if ev.1 = false then ⟨none, ev.2.1, false, false, ev.2.2, mem⟩
  else
    let m1 := ev.2.2
    let wakeup := _evict_enable m1 (M_LIMIT m1.scale)
    match m1.free.list with
    | item :: _ =>
      ⟨some item, ev.2.1, wakeup, false,
        { m1 with free := ⟨m1.free.count - 1, m1.free.list.erase item⟩ }, mem⟩
    | [] =>
      match m1.inuse.list.find? m1.freeable with
      | some item =>
        ⟨some item, ev.2.1 ++ [mc_call.clean item], wakeup, false,
          { m1 with inuse := ⟨m1.inuse.count - 1, m1.inuse.list.erase item⟩ }, mem⟩
      | none =>
        if m1.alloc_count < m1.scale then
          match calloc with
          | some item =>
            ⟨some item, ev.2.1, wakeup, true,
              { m1 with alloc_count := u32_inc m1.alloc_count,
                        item := Function.update m1.item item ⟨0, false, 0⟩ },
              Function.update mem item (List.replicate m1.size 0)⟩
          | none => ⟨none, ev.2.1, wakeup, false, m1, mem⟩
        else ⟨none, ev.2.1, wakeup, false, m1, mem⟩

/-- `mc_item_alloc` (for `mc` not `NULL`). -/
def mc_item_alloc (m : mc) (mem : Nat → List Nat) (calloc : Option Nat) : alloc_item_result :=
  let r := _alloc_item m mem calloc
  match r.out with
  | none => r
  | some item =>
    { r with mc := { r.mc with
        item := Function.update r.mc.item item { r.mc.item item with magic := r.mc.magic, free_out := true } } }

/-- `mc_item_free` (for `mc` and `mem` not `NULL`): the `clean` calls and the cache. -/
def mc_item_free (m : mc) (mem : Nat) : List mc_call × mc :=
  if (m.item mem).magic ≠ m.magic ∨ !(m.item mem).free_out then ([], m)
  else ([mc_call.clean mem], { m with alloc_count := u32_dec m.alloc_count })

/-- `mc_create` with `name`, `cmp`, `hash` and `freeable` not `NULL` and
every allocation succeeding; `magic` is `hashstr` of the name and `b_count`
the bucket count `_adjust_size(scale / AVG_DEPTH)` that `hashmap_create`
computes in floating point.  `none` is the `NULL` returned for `scale = 0`. -/
def mc_create (magic b_count scale isize : Nat) (cmp : Nat → Nat → Int) (hash : Nat → Nat)
    (freeable : Nat → Bool) : Option mc :=
  if scale = 0 then none
  else
    some ⟨magic, hashmap_init b_count cmp hash, scale, 0, ROUND8 isize, freeable, ⟨0, []⟩,
      ⟨0, []⟩, fun _ => ⟨0, false, 0⟩⟩

/-- A cache of scale 16 with four buckets, `u64` keys and 8-byte payloads
whose `freeable` callback always returns true. -/
def mc_sample16 : mc :=
  ⟨77, hashmap_init 4 u64_cmp u64_hash, 16, 0, 8, fun _ => true, ⟨0, []⟩, ⟨0, []⟩,
    fun _ => ⟨0, false, 0⟩⟩

/-- One round of the fill scenario: `mc_item_alloc` (where `calloc`, if
called, returns the address `a`), then `mc_item_setkey` to `key` and
`mc_item_insert` of the item obtained.  The result is the item and the return
code of the insert, then the cache and the payload memory. -/
def mc_alloc_insert (s : mc × (Nat → List Nat)) (a key : Nat) :
    Option (Nat × Int) × mc × (Nat → List Nat) :=
  let r := mc_item_alloc s.1 s.2 (some a)
  match r.out with
  | none => (none, r.mc, r.mem)
  | some x =>
    let i := mc_item_insert (mc_item_setkey r.mc x key).2 x false
    (some (x, i.ret), i.mc, r.mem)

/-- The fill scenario: `n` rounds of `mc_alloc_insert`, round `i` with
`calloc` address `i` and key `100 + i`; the results of the rounds, in order,
and the final cache and payload memory. -/
def mc_alloc_insert_many : Nat → mc × (Nat → List Nat) →
    List (Option (Nat × Int)) × mc × (Nat → List Nat)
  | 0, s => ([], s)
  | n + 1, s =>
    let r := mc_alloc_insert_many n s
    let t := mc_alloc_insert r.2 (n + 1) (100 + (n + 1))
    (r.1 ++ [t.1], t.2)

/-- The fields of the cache that the eviction passes leave alone. -/
structure SameItems (m m' : mc) : Prop where
  magic : m'.magic = m.magic
  scale : m'.scale = m.scale
  alloc_count : m'.alloc_count = m.alloc_count
  size : m'.size = m.size
  freeable : m'.freeable = m.freeable
  item : m'.item = m.item

/-- The state in which the recycling scenario allocates for the second time:
item 1 was allocated in `mc_sample16`, its payload was filled with the bytes
1 to 8 by the user, it was given the key 101, inserted, and deleted again. -/
def mc_recycle_state : mc × (Nat → List Nat) :=
  let r := mc_item_alloc mc_sample16 (fun _ => []) (some 1)
  let i := mc_item_insert (mc_item_setkey r.mc 1 101).2 1 false
  let d := mc_item_delete i.mc 101 none
  (d.mc, Function.update r.mem 1 [1, 2, 3, 4, 5, 6, 7, 8])

/-- The entries linked in a hash table, bucket after bucket. -/
def hashmap.entries (map : hashmap) : List Nat := (map.buckets.map _bucket_t.list).flatten

/-- The items linked in the hash table of a cache. -/
def mc.resident (m : mc) : List Nat := m.map.entries

/-- The items the cache keeps: in the hash table, on the in-use list and on
the free list. -/
def mc.pooled (m : mc) : List Nat := m.resident ++ m.inuse.list ++ m.free.list

/-- The invariant of a cache used sequentially; `held` lists the items the
user holds (returned by `mc_item_alloc`, not yet inserted or freed). -/
structure McInv (m : mc) (held : List Nat) : Prop where
  b_pos : 1 ≤ m.map.b_count
  b_lt : m.map.b_count < 4294967296
  len : m.map.buckets.length = m.map.b_count
  scale_lt : m.scale < 2147483648
  keys : m.map.total_keys = m.resident.length
  icount : m.inuse.count = m.inuse.list.length
  fcount : m.free.count = m.free.list.length
  count : m.alloc_count = (m.pooled ++ held).length
  le : m.alloc_count ≤ m.scale
  nodup : (m.pooled ++ held).Nodup
  held_ok : ∀ x ∈ held, (m.item x).magic = m.magic ∧ (m.item x).free_out = true
  pooled_ok : ∀ x ∈ m.pooled, (m.item x).free_out = false

/-- The states of a cache reachable from `m0` by sequential calls, together
with the list of the items the user holds: an item enters the list when
`mc_item_alloc` returns it and leaves it when it is freed or inserted.
`calloc` never returns the address of a live item; `mc_item_free` is called
on live items, `mc_item_insert` on items the user holds; the answers of the
`freeable` callback may change between the calls. -/
inductive McReachable (m0 : mc) : mc → List Nat → Prop
  | init : McReachable m0 m0 []
  | alloc {m : mc} {held : List Nat} (mem : Nat → List Nat) (calloc : Option Nat) :
      McReachable m0 m held → (∀ a, calloc = some a → a ∉ m.pooled ++ held) →
      McReachable m0 (mc_item_alloc m mem calloc).mc
        (match (mc_item_alloc m mem calloc).out with
          | some a => a :: held
          | none => held)
  | free {m : mc} {held : List Nat} (x : Nat) :
      McReachable m0 m held → x ∈ m.pooled ++ held →
      McReachable m0 (mc_item_free m x).2 (held.erase x)
  | setkey {m : mc} {held : List Nat} (x key : Nat) :
      McReachable m0 m held → McReachable m0 (mc_item_setkey m x key).2 held
  | insert {m : mc} {held : List Nat} (x : Nat) (found : Bool) :
      McReachable m0 m held → x ∈ held →
      McReachable m0 (mc_item_insert m x found).mc
        (if (mc_item_insert m x found).ret = 0 then held.erase x else held)
  | delete {m : mc} {held : List Nat} (key : Nat) (condition : Option (Nat → Int)) :
      McReachable m0 m held → McReachable m0 (mc_item_delete m key condition).mc held
  | search {m : mc} {held : List Nat} (key : Nat) (found : Bool) :
      McReachable m0 m held → McReachable m0 (mc_item_search m key found).mc held
  | sweep {m : mc} {held : List Nat} :
      McReachable m0 m held → McReachable m0 (_sweeper_main m).2 held
  | evict {m : mc} {held : List Nat} :
      McReachable m0 m held → McReachable m0 (_evict_pass m).2 held
  | freeable {m : mc} {held : List Nat} (f : Nat → Bool) :
      McReachable m0 m held → McReachable m0 { m with freeable := f } held

/-! ## coroutine.c
An LWT, a worker and a cosem are identified by a number (the address of the
object, the index of the worker).  An intrusive list is the `List` of the
objects linked in it, head first.  The statistics (`LWT_BEGIN`, `LWT_END`)
and the locks are left out; `swapcontext` is where a function of the model
ends. -/

/-- `_cosem_t`; `lwt` is `none` for `NULL`, `linked` tells whether the node
`link` is on a list (`list_empty(&cosem->link)` is false). -/
structure _cosem_t where
  lwt : Option Nat
  val : Int
  ret : Int
  linked : Bool
deriving DecidableEq, Repr

/-- `_sleeper_t`. -/
structure _sleeper_t where
  lwt : Nat
  timeout : Nat
deriving DecidableEq, Repr

/-- `struct _worker`: the ready queue `lwt.head` with `lwt.wait` and
`lwt.count`, the cosem queue `sem.head` with `sem.count`, and `swapped`. -/
structure _worker_t where
  lwt_count : Int
  lwt_wait : Int
  lwt_head : List Nat
  sem_count : Int
  sem_head : List Nat
  swapped : Bool
deriving DecidableEq, Repr

/-- `struct coroutine_mgr` with the memory of the LWTs (`lwt->worker`, as
`lwt_worker`) and of the cosems (`sem`). -/
structure comgr where
  sleeper : List _sleeper_t
  worker_idx : Nat
  worker_count : Nat
  worker : Nat → _worker_t
  lwt_worker : Nat → Nat
  sem : Nat → _cosem_t

/-- The statements `list_add_tail(&lwt->link, &worker->lwt.head); ++(worker->lwt.wait);`. -/
def _worker_t.add_tail (w : _worker_t) (lwt : Nat) : _worker_t :=
  { w with lwt_head := w.lwt_head ++ [lwt], lwt_wait := wrap_int (w.lwt_wait + 1) }

/-- The statements `list_add(&lwt->link, &worker->lwt.head); ++(worker->lwt.wait);`. -/
def _worker_t.add_head (w : _worker_t) (lwt : Nat) : _worker_t :=
  { w with lwt_head := lwt :: w.lwt_head, lwt_wait := wrap_int (w.lwt_wait + 1) }

/-- The `list_foreach_safe` loop of `_timer_svc`, from the node `curr` on:
the sleepers left, the workers, and the LWTs moved to their ready queues, in
the order in which they were moved. -/
def _timer_wake (lwt_worker : Nat → Nat) :
    List _sleeper_t → (Nat → _worker_t) → List _sleeper_t × (Nat → _worker_t) × List Nat
  | [], worker => ([], worker, [])
  | _slp :: rest, worker =>
    if _slp.timeout ≠ 0 then (_slp :: rest, worker, [])
    else
      let r := _timer_wake lwt_worker rest
        (Function.update worker (lwt_worker _slp.lwt)
          ((worker (lwt_worker _slp.lwt)).add_head _slp.lwt))
      (r.1, r.2.1, _slp.lwt :: r.2.2)

/-- `_timer_svc`, one tick of the timer: the manager and the LWTs woken up,
in the order in which they were moved to the ready queues. -/
def _timer_svc (mgr : comgr) : comgr × List Nat :=
  match mgr.sleeper with
  | [] => (mgr, [])
  | sleeper :: rest =>
    let timeout := if sleeper.timeout ≠ 0 then sleeper.timeout - 1 else sleeper.timeout
    if timeout > 0 then ({ mgr with sleeper := ⟨sleeper.lwt, timeout⟩ :: rest }, [])
    else
      let r := _timer_wake mgr.lwt_worker (⟨sleeper.lwt, timeout⟩ :: rest) mgr.worker
      ({ mgr with sleeper := r.1, worker := r.2.1 }, r.2.2)

/-- The `list_foreach` loop of `cosem_sleep` with the `list_add_tail` that
follows it: the sleeper list with `sleeper` linked in. -/
def _sleeper_insert : List _sleeper_t → _sleeper_t → List _sleeper_t
  | [], sleeper => [sleeper]
  | _slp :: rest, sleeper =>
    if _slp.timeout > sleeper.timeout then
      sleeper :: ⟨_slp.lwt, _slp.timeout - sleeper.timeout⟩ :: rest
    else _slp :: _sleeper_insert rest ⟨sleeper.lwt, sleeper.timeout - _slp.timeout⟩

/-- `cosem_sleep`, up to the `swapcontext`; `lwt_curr` is `none` for `NULL`. -/
def cosem_sleep (mgr : comgr) (lwt_curr : Option Nat) (ms : Nat) : comgr :=
  match lwt_curr with
  | none => mgr
  | some lwt =>
    { mgr with
      sleeper := _sleeper_insert mgr.sleeper ⟨lwt, ms⟩,
      worker := Function.update mgr.worker (mgr.lwt_worker lwt)
        { mgr.worker (mgr.lwt_worker lwt) with swapped := true } }

/-- `cosem_init`: the return code and the manager. -/
def cosem_init (mgr : comgr) (lwt_curr : Option Nat) (sem : Nat) : Int × comgr :=
  match lwt_curr with
  | none => (-1, mgr)
  | some lwt => (0, { mgr with sem := Function.update mgr.sem sem ⟨some lwt, 0, 0, false⟩ })

/-- `cosem_fini`. -/
def cosem_fini (mgr : comgr) (sem : Nat) : Int × comgr :=
  if (mgr.sem sem).linked ∨ (mgr.sem sem).val ≠ 0 then (-1, mgr)
  else (0, { mgr with sem := Function.update mgr.sem sem { mgr.sem sem with lwt := none, val := 0 } })

/-- `cosem_up`: the return code, the manager, and the worker woken up by
`threadraw_wakeup`, if any. -/
def cosem_up (mgr : comgr) (sem : Nat) : Int × comgr × Option Nat :=
  match (mgr.sem sem).lwt with
  | none => (-1, mgr, none)
  | some lwt =>
    let val := wrap_int ((mgr.sem sem).val - 1)
    if val ≠ 0 then
      (0, { mgr with sem := Function.update mgr.sem sem { mgr.sem sem with val := val } }, none)
    else
      let worker := mgr.worker (mgr.lwt_worker lwt)
      let worker1 := { worker with sem_head := worker.sem_head.erase sem, sem_count := wrap_int (worker.sem_count - 1) }
      (0, { mgr with
            sem := Function.update mgr.sem sem { mgr.sem sem with val := val, linked := false },
            worker := Function.update mgr.worker (mgr.lwt_worker lwt) (worker1.add_head lwt) },
        some (mgr.lwt_worker lwt))

/-- How `cosem_down` leaves the running LWT. -/
inductive down_result where
  /-- the function returned, with this code, without switching -/
  | returned (ret : Int) (mgr : comgr)
  /-- the LWT switched to its worker through `swapcontext` -/
  | suspended (mgr : comgr)

/-- `cosem_down`, up to the `swapcontext`. -/
def cosem_down (mgr : comgr) (sem : Nat) : down_result :=
  match (mgr.sem sem).lwt with
  | none => .returned (-1) mgr
  | some lwt =>
    let val := wrap_int ((mgr.sem sem).val + 1)
    if 0 ≥ val then
      .returned 0 { mgr with sem := Function.update mgr.sem sem { mgr.sem sem with val := val } }
    else
      let worker := mgr.worker (mgr.lwt_worker lwt)
      .suspended { mgr with
        sem := Function.update mgr.sem sem { mgr.sem sem with val := val, linked := true },
        worker := Function.update mgr.worker (mgr.lwt_worker lwt)
          { worker with swapped := true, sem_head := worker.sem_head ++ [sem], sem_count := wrap_int (worker.sem_count + 1) } }

/-- The value `cosem_down` returns when the LWT runs again after the
`swapcontext`: `cosem->ret`. -/
def cosem_down_resume (mgr : comgr) (sem : Nat) : Int := (mgr.sem sem).ret

/-- `coroutine_run` (`getcontext` succeeding); `lwt` is what `mempool_alloc`
returned, `none` for `NULL`.  The return code, the manager and the worker
woken up, if any. -/
def coroutine_run (mgr : comgr) (lwt : Option Nat) : Int × comgr × Option Nat :=
  match lwt with
  | none => (-1, mgr, none)
  | some lwt =>
    let idx := (mgr.worker_idx + 1) % 4294967296
    let worker := idx % mgr.worker_count
    (0, { mgr with
          worker_idx := idx,
          lwt_worker := Function.update mgr.lwt_worker lwt worker,
          worker := Function.update mgr.worker worker
            { (mgr.worker worker).add_tail lwt with lwt_count := wrap_int ((mgr.worker worker).lwt_count + 1) } },
      some worker)

/-- `coroutine_yield`, up to the `swapcontext`. -/
def coroutine_yield (mgr : comgr) (lwt_curr : Option Nat) : comgr :=
  match lwt_curr with
  | none => mgr
  | some lwt =>
    { mgr with
      worker := Function.update mgr.worker (mgr.lwt_worker lwt)
        { (mgr.worker (mgr.lwt_worker lwt)).add_tail lwt with swapped := true } }

/-- The `while` loop of `_worker_svc` over the local list `lwt_head`; `run`
is what happens between the `swapcontext` into an LWT and the switch back to
the worker, the rest of the iteration included.  The LWTs executed, in order,
and the manager. -/
def _worker_svc_loop (run : Nat → comgr → comgr) : List Nat → comgr → List Nat × comgr
  | [], mgr => ([], mgr)
  | lwt :: rest, mgr =>
    let r := _worker_svc_loop run rest (run lwt mgr)
    (lwt :: r.1, r.2)

/-- `_worker_svc` for the worker `w`: the ready queue is spliced onto a local
list, `lwt.wait` is reset, and the local list is executed. -/
def _worker_svc (run : Nat → comgr → comgr) (mgr : comgr) (w : Nat) : List Nat × comgr :=
  _worker_svc_loop run (mgr.worker w).lwt_head
    { mgr with worker := Function.update mgr.worker w { mgr.worker w with lwt_head := [], lwt_wait := 0 } }

/-- The number of ticks after which the sleeper of the LWT `l` is due: the
sum of the deltas up to its entry (`none` when `l` is not on the list). -/
def sleeper_left (l : Nat) : List _sleeper_t → Option Nat
  | [] => none
  | e :: rest =>
    if e.lwt = l then some e.timeout else (sleeper_left l rest).map (fun t => t + e.timeout)

/-- The number of entries of the LWT `l` on the sleeper list. -/
def sleeper_count (l : Nat) (s : List _sleeper_t) : Nat := s.countP (fun e => decide (e.lwt = l))

/-- The manager right after creation, with one worker: no sleeper, empty queues. -/
def comgr_sample : comgr :=
  ⟨[], 0, 1, fun _ => ⟨0, 0, [], 0, [], false⟩, fun _ => 0, fun _ => ⟨none, 0, 0, false⟩⟩

/-- The manager a `cosem_down` leaves behind. -/
def down_result.mgr : down_result → comgr
  | .returned _ mgr => mgr
  | .suspended mgr => mgr

/-- The state of the reordering scenario: in `comgr_sample` the running LWT 2
initialises the cosem 7 and blocks in `cosem_down`; LWT 1 is spawned by
`coroutine_run`; then `cosem_up` wakes LWT 2 up. -/
def comgr_reorder : comgr :=
  (cosem_up
    (coroutine_run (cosem_down (cosem_init comgr_sample (some 2) 7).2 7).mgr (some 1)).2.1 7).2.1

/-! ## task.c
The task set is run by one thread at a time.  The user's side is part of the
model: the jobs `job_fetch` still has to hand out (`supply`), whether
`job_handle` finishes a job before it returns (`sync`) and the code every job
is finished with (`ret`); a job not finished inside `job_handle` waits for its
`taskjob_fini` (`waiting`).  The callbacks are recorded in `calls`.  A result
`none` stands for `abort()`, for a call through a `NULL` callback or for an
access to the set after `_taskset_destroy`. -/

/-- `_MAX_DEPTH`. -/
abbrev _MAX_DEPTH : Nat := 128

/-- `_MIN_DEPTH`. -/
abbrev _MIN_DEPTH : Nat := 4

/-- `ENOMEM`. -/
abbrev ENOMEM : Int := 12

/-- `JOB_INIT`. -/
abbrev JOB_INIT : Int := 0

/-- `JOB_DONE`. -/
abbrev JOB_DONE : Int := 1

/-- `JOB_FAIL`. -/
abbrev JOB_FAIL : Int := 2

/-- `struct taskjob` (`set` and `link` are left out: there is one set, and the
list a job is on is the list that holds it). -/
structure taskjob where
  job : Nat
  retcode : Int
  state : Int
deriving DecidableEq, Repr

/-- `struct taskset`; `free_list` is the number of `tjob_t` on `mem.free_list`,
`release_ok` tells whether `ops.job_release` is not `NULL` (the other
callbacks of a set are never `NULL`). -/
structure taskset where
  retcode : Int
  ref : Int
  done : Bool
  run : Bool
  no_jobs : Bool
  max_depth : Nat
  cur_depth : Nat
  job_list : List taskjob
  free_list : Nat
  release_ok : Bool
deriving DecidableEq, Repr

/-- A callback of the user invoked by the task set. -/
inductive tset_call where
  | task_done (ret : Int)
  | job_fetch
  | job_handle (job : Nat)
  | job_release (job : Nat)
deriving DecidableEq, Repr

/-- What the user's `job_handle` does with a job: `sync job` tells whether it
calls `taskjob_fini` before it returns, `ret job` is the code the job is
finished with. -/
structure tset_user where
  sync : Nat → Bool
  ret : Nat → Int

/-- The task set and its surroundings: `freed` tells whether
`_taskset_destroy` has run; `peak` is the largest value `cur_depth` has had. -/
structure tset_world where
  set : taskset
  freed : Bool
  peak : Nat
  supply : List Nat
  waiting : List Nat
  calls : List tset_call
deriving DecidableEq, Repr

/-- The user's `job_fetch`: it hands out the next job of the supply through
`taskjob_init` (`_job_alloc` aborts when the free list is empty), and returns
`NULL` when the supply is used up. -/
def user_job_fetch (w : tset_world) : Option (Option taskjob × tset_world) :=
  match w.supply with
  | [] => some (none, { w with calls := w.calls ++ [tset_call.job_fetch] })
  | job :: rest =>
    if w.set.free_list = 0 then none
    else
      some (some ⟨job, 0, JOB_INIT⟩,
        { w with set := { w.set with free_list := w.set.free_list - 1 }, supply := rest,
                 calls := w.calls ++ [tset_call.job_fetch] })

/-- `_fetch_job`. -/
def _fetch_job (w : tset_world) : Option tset_world :=
  if w.set.retcode ≠ 0 then some { w with set := { w.set with no_jobs := true } }
  else
    match user_job_fetch w with
    | none => none
    | some (none, w1) => some { w1 with set := { w1.set with no_jobs := true } }
    | some (some job, w1) =>
      some { w1 with
        set := { w1.set with job_list := w1.set.job_list ++ [⟨job.job, job.retcode, JOB_INIT⟩],
                             cur_depth := u32_inc w1.set.cur_depth },
        peak := max w1.peak (u32_inc w1.set.cur_depth) }

/-- `_taskset_dec`. -/
def _taskset_dec (w : tset_world) : Option tset_world :=
  if w.freed then none
  else if 0 > wrap_int (w.set.ref - 1) then none
  else if wrap_int (w.set.ref - 1) = 0 then
    some { w with set := { w.set with ref := wrap_int (w.set.ref - 1) }, freed := true,
                  calls := w.calls ++ [tset_call.task_done w.set.retcode] }
  else some { w with set := { w.set with ref := wrap_int (w.set.ref - 1) } }

/-- `_taskset_process` when entered while the set is being processed:
`set->run` is set and the call returns at once.  This is the only way in
which the loop of `_taskset_process` enters the function again. -/
def _taskset_process_running (w : tset_world) : Option tset_world :=
  if w.freed then none else if w.set.run then some w else none

/-- `taskjob_fini` for the job `tjob`, given what its call of
`_taskset_process` does. -/
def taskjob_fini_with (process : tset_world → Option tset_world) (w : tset_world)
    (tjob : taskjob) (ret : Int) : Option tset_world :=
  if w.freed then none
  else
    (process { w with set := { w.set with
        ref := wrap_int (w.set.ref + 1),
        job_list := w.set.job_list ++ [⟨tjob.job, ret, if ret = 0 then JOB_DONE else JOB_FAIL⟩] } }).bind
      _taskset_dec

/-- The user's `job_handle`. -/
def user_job_handle (u : tset_user) (w : tset_world) (job : taskjob) : Option tset_world :=
  if u.sync job.job then
    taskjob_fini_with _taskset_process_running
      { w with calls := w.calls ++ [tset_call.job_handle job.job] } job (u.ret job.job)
  else
    some { w with calls := w.calls ++ [tset_call.job_handle job.job],
                  waiting := w.waiting ++ [job.job] }

/-- The `while` loop of `_taskset_process`; the first argument bounds the
number of iterations. -/
def _taskset_process_loop (u : tset_user) : Nat → tset_world → Option tset_world
  | 0, w => if w.set.job_list = [] then some w else none
  | fuel + 1, w =>
    if w.freed then none
    else
      match w.set.job_list with
      | [] => some w
      | job :: rest =>
        if job.state = JOB_INIT then
          (user_job_handle u { w with set := { w.set with job_list := rest } } job).bind
            (_taskset_process_loop u fuel)
        else if job.state = JOB_DONE then
          if w.set.release_ok = false then none
          else
            (_fetch_job { w with
                set := { w.set with job_list := rest, free_list := w.set.free_list + 1,
                                    cur_depth := u32_dec w.set.cur_depth },
                calls := w.calls ++ [tset_call.job_release job.job] }).bind
              (_taskset_process_loop u fuel)
        else if job.state = JOB_FAIL then
          if w.set.release_ok = false then none
          else
            _taskset_process_loop u fuel { w with
              set := { w.set with job_list := rest, retcode := job.retcode, no_jobs := true,
                                  free_list := w.set.free_list + 1,
                                  cur_depth := u32_dec w.set.cur_depth },
              calls := w.calls ++ [tset_call.job_release job.job] }
        else none

/-- The end of `_taskset_process`, after the loop. -/
def _taskset_process_end (w : tset_world) : tset_world :=
  if w.set.no_jobs ∧ w.set.cur_depth = 0 ∧ w.set.done = false then
    { w with set := { w.set with done := true, ref := wrap_int (w.set.ref - 1), run := false } }
  else { w with set := { w.set with run := false } }

/-- `_taskset_process`. -/
def _taskset_process (u : tset_user) (w : tset_world) : Option tset_world :=
  if w.freed then none
  else if w.set.run then some w
  else
    (_taskset_process_loop u (2 * (w.supply.length + w.set.job_list.length) + 1)
      { w with set := { w.set with run := true } }).map _taskset_process_end

/-- `taskjob_fini`, called by the user for a job that is waiting for it. -/
def taskjob_fini (u : tset_user) (w : tset_world) (job : Nat) : Option tset_world :=
  taskjob_fini_with (_taskset_process u) { w with waiting := w.waiting.erase job }
    ⟨job, 0, JOB_INIT⟩ (u.ret job)

/-- The `for` loop of `taskset_process` that fetches the first jobs; the
first argument is `max_depth - i`. -/
def _taskset_fetch_first : Nat → tset_world → Option tset_world
  | 0, w => some w
  | n + 1, w =>
    (_fetch_job w).bind fun w1 => if w1.set.no_jobs then some w1 else _taskset_fetch_first n w1

/-- `taskset_process` (`task` and `task_done` not `NULL`); `fetch_ok`,
`handle_ok` and `release_ok` tell whether `job_fetch`, `job_handle` and
`job_release` are not `NULL`, `calloc_ok` whether the `calloc` of
`_taskset_create` succeeds.  Where no set is created the world holds a freed
dummy set. -/
def taskset_process (u : tset_user) (depth : Nat) (fetch_ok handle_ok release_ok calloc_ok : Bool)
    (supply : List Nat) : Option tset_world :=
  if fetch_ok = false ∨ handle_ok = false then
    some ⟨⟨0, 0, false, false, false, 0, 0, [], 0, release_ok⟩, true, 0, supply, [],
      [tset_call.task_done EINVAL]⟩
  else
    let depth1 := if depth < _MIN_DEPTH then _MIN_DEPTH else depth
    let depth2 := if depth1 > _MAX_DEPTH then _MAX_DEPTH else depth1
    if calloc_ok = false then
      some ⟨⟨0, 0, false, false, false, 0, 0, [], 0, release_ok⟩, true, 0, supply, [],
        [tset_call.task_done ENOMEM]⟩
    else
      (_taskset_fetch_first depth2
        ⟨⟨0, 1, false, false, false, depth2, 0, [], depth2, release_ok⟩, false, 0, supply, [],
          []⟩).bind fun w1 =>
        (_taskset_process u { w1 with set := { w1.set with ref := wrap_int (w1.set.ref + 1) } }).bind
          _taskset_dec

/-- The jobs released so far, in order. -/
def tset_released : List tset_call → List Nat
  | [] => []
  | tset_call.job_release job :: rest => job :: tset_released rest
  | _ :: rest => tset_released rest

/-- The number of `task_done` calls. -/
def tset_done_count : List tset_call → Nat
  | [] => 0
  | tset_call.task_done _ :: rest => tset_done_count rest + 1
  | _ :: rest => tset_done_count rest

/-- Every call of `job_fetch` comes before the release of any failed job. -/
def FetchBeforeFail (u : tset_user) (calls : List tset_call) : Prop :=
  ∀ pre post, calls = pre ++ tset_call.job_fetch :: post → ∀ j ∈ tset_released pre, u.ret j = 0

/-- The number of iterations a job on the job list still needs. -/
def job_cost (job : taskjob) : Nat := if job.state = JOB_INIT then 2 else 1

/-- A bound on the number of iterations left for `_taskset_process`. -/
def tset_measure (w : tset_world) : Nat :=
  2 * w.supply.length + (w.set.job_list.map job_cost).sum

/-- The requested depth clamped into `[_MIN_DEPTH, _MAX_DEPTH]`. -/
def tset_depth (depth : Nat) : Nat :=
  if (if depth < _MIN_DEPTH then _MIN_DEPTH else depth) > _MAX_DEPTH then _MAX_DEPTH
  else (if depth < _MIN_DEPTH then _MIN_DEPTH else depth)

/-- What holds of a live task set between two steps. -/
structure TsetBase (u : tset_user) (D : Nat) (supply0 : List Nat) (w : tset_world) : Prop where
  alive : w.freed = false
  dmax : w.set.max_depth = D
  dhi : D ≤ 128
  depth : w.set.cur_depth = w.waiting.length + w.set.job_list.length
  mem : w.set.free_list + w.set.cur_depth = D
  peak : w.peak ≤ D
  jobs : ∀ job ∈ w.set.job_list, job.state = JOB_INIT ∨
    (job.state = JOB_DONE ∧ u.ret job.job = 0) ∨
    (job.state = JOB_FAIL ∧ job.retcode = u.ret job.job ∧ u.ret job.job ≠ 0)
  fetched : ∃ f, supply0 = f ++ w.supply ∧
    f.Perm (tset_released w.calls ++ w.waiting ++ w.set.job_list.map taskjob.job)
  failed : w.set.retcode ≠ 0 ↔ ∃ j ∈ tset_released w.calls, u.ret j ≠ 0
  latch : w.set.retcode ≠ 0 → w.set.no_jobs = true
  empty : w.set.no_jobs = true → w.set.retcode ≠ 0 ∨ w.supply = []
  undone : w.set.done = false
  nodone : tset_done_count w.calls = 0
  order : FetchBeforeFail u w.calls
  release : w.set.release_ok = true

/-- The state of a job after `taskjob_fini` with the code `ret`. -/
def job_finished (job : Nat) (ret : Int) : taskjob :=
  ⟨job, ret, if ret = 0 then JOB_DONE else JOB_FAIL⟩

/-- What holds of a task set inside the loop of `_taskset_process`. -/
structure TsetRunning (u : tset_user) (D : Nat) (supply0 : List Nat) (w : tset_world) : Prop where
  base : TsetBase u D supply0 w
  full : w.set.no_jobs = true ∨ w.set.cur_depth = D
  run : w.set.run = true
  ref : w.set.ref = 2
  dlo : 4 ≤ D

/-- A task set at rest whose jobs in flight have not all been finished. -/
structure TsetWaiting (u : tset_user) (D : Nat) (supply0 : List Nat) (w : tset_world) : Prop where
  base : TsetBase u D supply0 w
  full : w.set.no_jobs = true ∨ w.set.cur_depth = D
  run : w.set.run = false
  ref : w.set.ref = 1
  dlo : 4 ≤ D
  list : w.set.job_list = []
  more : w.waiting ≠ []

/-- A task set that has completed: `task_done` has been called and the set is freed. -/
structure TsetFinal (u : tset_user) (D : Nat) (supply0 : List Nat) (w : tset_world) : Prop where
  freed : w.freed = true
  dmax : w.set.max_depth = D
  peak : w.peak ≤ D
  depth : w.set.cur_depth = 0
  waiting : w.waiting = []
  no_jobs : w.set.no_jobs = true
  failed : w.set.retcode ≠ 0 ↔ ∃ j ∈ tset_released w.calls, u.ret j ≠ 0
  empty : w.set.retcode ≠ 0 ∨ w.supply = []
  order : FetchBeforeFail u w.calls
  calls : ∃ pre f, w.calls = pre ++ [tset_call.task_done w.set.retcode] ∧
    tset_done_count pre = 0 ∧ supply0 = f ++ w.supply ∧ f.Perm (tset_released pre)

/-- The states in which a task set is seen from outside: when `taskset_process`
has returned (all four callbacks given, the set allocated), and after each
`taskjob_fini` of a job in flight. -/
inductive TsetReachable (u : tset_user) (depth : Nat) (supply0 : List Nat) : tset_world → Prop
  | start {w : tset_world} :
    taskset_process u depth true true true true supply0 = some w → TsetReachable u depth supply0 w
  | finish {w w1 : tset_world} {job : Nat} :
    TsetReachable u depth supply0 w → job ∈ w.waiting → taskjob_fini u w job = some w1 →
    TsetReachable u depth supply0 w1

/-- The states that follow a state when jobs in flight are finished. -/
inductive TsetLater (u : tset_user) (w : tset_world) : tset_world → Prop
  | now : TsetLater u w w
  | finish {w1 w2 : tset_world} {job : Nat} :
    TsetLater u w w1 → job ∈ w1.waiting → taskjob_fini u w1 job = some w2 → TsetLater u w w2

/-- A task set at rest, waiting or completed. -/
def TsetRest (u : tset_user) (D : Nat) (supply0 : List Nat) (w : tset_world) : Prop :=
  TsetWaiting u D supply0 w ∨ TsetFinal u D supply0 w

/-- Finish the given jobs in flight one after the other. -/
def tset_finish_all (u : tset_user) : List Nat → tset_world → Option tset_world
  | [], w => some w
  | job :: rest, w =>
    if job ∈ w.waiting then (taskjob_fini u w job).bind (tset_finish_all u rest) else none

/-- A run of a task set: `taskset_process` with all callbacks given and the set
allocated, then the `taskjob_fini` of the given jobs in flight. -/
def tset_run (u : tset_user) (depth : Nat) (supply0 jobs : List Nat) : Option tset_world :=
  (taskset_process u depth true true true true supply0).bind (tset_finish_all u jobs)

/-- The state a run ends in (a freed dummy set if it aborts). -/
def tset_run_end (u : tset_user) (depth : Nat) (supply0 jobs : List Nat) : tset_world :=
  (tset_run u depth supply0 jobs).getD
    ⟨⟨0, 0, false, false, false, 0, 0, [], 0, false⟩, true, 0, [], [], []⟩

/-- A user whose `job_handle` finishes every job at once, with code `0`. -/
def tset_user_sync : tset_user := ⟨fun _ => true, fun _ => 0⟩

/-- A user whose `job_handle` finishes the even jobs at once and leaves the odd
jobs in flight; job `3` is finished with code `5`, the others with `0`. -/
def tset_user_mixed : tset_user := ⟨fun j => j % 2 == 0, fun j => if j = 3 then 5 else 0⟩

/-- A bitmap of 300 bits in which the bits 0 … 254 are allocated. -/
def bitmap_sample255 : bitmap :=
  ⟨300, 2, [⟨2, [0]⟩, ⟨300, [18446744073709551615, 18446744073709551615, 18446744073709551615,
    9223372036854775807, 0]⟩]⟩

/-- The bitmap `bitmap_sample255` after bit 255 has been allocated as well. -/
def bitmap_sample256 : bitmap :=
  ⟨300, 2, [⟨2, [1]⟩, ⟨300, [18446744073709551615, 18446744073709551615, 18446744073709551615,
    18446744073709551615, 0]⟩]⟩

/-- The absolute wake times of the entries of a sleeper list, head first: the
sums of the deltas from the head up to and including the entry, on top of `acc`. -/
def sleeper_times_from (acc : Nat) : List _sleeper_t → List Nat
  | [] => []
  | e :: rest => (acc + e.timeout) :: sleeper_times_from (acc + e.timeout) rest

/-- The absolute wake times of the entries of a sleeper list, in ticks from now. -/
def sleeper_times (s : List _sleeper_t) : List Nat := sleeper_times_from 0 s

/-- The `while` loop of `_sweeper_main` once more, this time recording the
depth passed to each `hashmap_eviction` call, in call order, and the value of
`depth` when the loop is left. -/
def _sweeper_main_trace : Nat → Nat → List mc_call × mc → List Nat × Nat × (List mc_call × mc)
  | 0, depth, st => ([], depth, st)
  | fuel + 1, depth, st =>
    if _evict_enable st.2 (M_LIMIT st.2.scale) ∧ depth > 0 then
      let avg_depth := st.2.map.total_keys / st.2.map.b_count
      let depth1 := if depth > avg_depth then avg_depth else depth
      let e := st.2.evict (depth1 / 2)
      let r := _sweeper_main_trace fuel (depth1 / 2) (st.1 ++ e.1, e.2)
      ((depth1 / 2) :: r.1, r.2)
    else ([], depth, st)

/-! ## cmdline.cpp
A C string is the list of its characters before the terminating NUL.  A
`std::map` is the list of its (key, value) pairs; the position of a pair in
the list stands for nothing.  A pointer is a number, `0` for `NULL`. -/

/-- `tolower` in the "C" locale. -/
def tolower (c : Char) : Char :=
  if 65 ≤ c.toNat ∧ c.toNat ≤ 90 then Char.ofNat (c.toNat + 32) else c

/-- `strcasecmp`: the difference of the first two characters that differ after
`tolower` (a string that has ended counts as NUL), `0` if there are none. -/
def strcasecmp : List Char → List Char → Int
  | [], [] => 0
  | [], c2 :: _ => 0 - ((tolower c2).toNat : Int)
  | c1 :: _, [] => ((tolower c1).toNat : Int)
  | c1 :: s1, c2 :: s2 =>
    if tolower c1 = tolower c2 then strcasecmp s1 s2
    else ((tolower c1).toNat : Int) - ((tolower c2).toNat : Int)

/-- `class Cmd`. -/
structure Cmd where
  name : List Char
  ctx : Nat
  help : Nat
  func : Nat
deriving DecidableEq, Repr

/-- The expression `new Cmd(name, ctx, help, func)` with `name` not `NULL`:
`none` when `std::bad_alloc` is thrown, by the constructor for a `NULL`
`help` or `func`, or by the allocation (`alloc_ok = false`). -/
def new_Cmd (name : List Char) (ctx help func : Nat) (alloc_ok : Bool) : Option Cmd :=
  if alloc_ok = false ∨ help = 0 ∨ func = 0 then none else some ⟨name, ctx, help, func⟩

/-- `CmdSet::FindCmd` on the map `cmdMap`; `none` for `NULL`. -/
def CmdSet.FindCmd (cmdMap : List (List Char × Cmd)) (name : List Char) : Option Cmd :=
  (cmdMap.find? (fun e => decide (e.1 = name))).map Prod.snd

/-- `CmdSet::RegisterCmd`: the map afterwards.  The right operand of the
assignment `cmdMap[std::string(name)] = new Cmd(…)` is evaluated first, so no
entry is made when it throws. -/
def CmdSet.RegisterCmd (cmdMap : List (List Char × Cmd)) (name : List Char)
    (ctx help func : Nat) (alloc_ok : Bool) : List (List Char × Cmd) :=
  match cmdMap.find? (fun e => decide (e.1 = name)) with
  | some _ => cmdMap
  | none =>
    match new_Cmd name ctx help func alloc_ok with
    | some cmd => cmdMap ++ [(name, cmd)]
    | none => cmdMap

/-- `CmdSet::UnregisterCmd`: the map afterwards. -/
def CmdSet.UnregisterCmd (cmdMap : List (List Char × Cmd)) (name : List Char) :
    List (List Char × Cmd) :=
  cmdMap.eraseP (fun e => decide (e.1 = name))

/-- `cmd_register`: the map afterwards. -/
def cmd_register (cmdMap : List (List Char × Cmd)) (name : List Char)
    (ctx help func : Nat) (alloc_ok : Bool) : List (List Char × Cmd) :=
  if strcasecmp name ['h', 'e', 'l', 'p'] = 0 then cmdMap
  else CmdSet.RegisterCmd cmdMap name ctx help func alloc_ok

/-- `cmd_unregister`: the map afterwards. -/
def cmd_unregister (cmdMap : List (List Char × Cmd)) (name : List Char) :
    List (List Char × Cmd) :=
  CmdSet.UnregisterCmd cmdMap name

/-- The maps reachable from the empty map by `cmd_register` and `cmd_unregister`. -/
inductive CmdReachable : List (List Char × Cmd) → Prop
  | init : CmdReachable []
  | register {cmdMap : List (List Char × Cmd)} (name : List Char) (ctx help func : Nat)
      (alloc_ok : Bool) :
      CmdReachable cmdMap → CmdReachable (cmd_register cmdMap name ctx help func alloc_ok)
  | unregister {cmdMap : List (List Char × Cmd)} (name : List Char) :
      CmdReachable cmdMap → CmdReachable (cmd_unregister cmdMap name)

/-- What holds of a reachable command map: the keys are pairwise different, no
key is a case variant of `help`, and every command is filed under its name. -/
structure CmdInv (cmdMap : List (List Char × Cmd)) : Prop where
  nodup : (cmdMap.map Prod.fst).Nodup
  nohelp : ∀ e ∈ cmdMap, strcasecmp e.1 ['h', 'e', 'l', 'p'] ≠ 0
  named : ∀ e ∈ cmdMap, e.2.name = e.1

/-! ## hashmap.c: replace, cleanup -/

/-- The statements `list_add(&new_data->list_node, &bucket->list); bucket->depth++;`
and `atomic_u64_inc(&map->total_keys)` of `hashmap_insert` and `hashmap_replace`. -/
def hashmap.link (map : hashmap) (hash_val new_data : Nat) : hashmap :=
  { map with
    buckets := map.buckets.set hash_val
      ⟨new_data :: (map.bucket hash_val).list, u64_inc (map.bucket hash_val).depth⟩,
    total_keys := u64_inc map.total_keys }

/-- `hashmap_replace`; `func` is the callback (`none` for `NULL`), given as the
value it returns on each entry; `out` is the entry written to `*old_data`. -/
def hashmap_replace (map : hashmap) (key_of : Nat → Nat) (new_data : Nat)
    (func : Option (Nat → Int)) : hm_result :=
  let hash_val := map.index (key_of new_data)
  let map1 := map.touch hash_val
  match (map1.bucket hash_val).list.find?
      (fun exist_data => decide (map.cmp (key_of new_data) (key_of exist_data) = 0)) with
  | some exist_data =>
    match func with
    | some f =>
      if f exist_data ≠ 0 then ⟨f exist_data, none, [exist_data], map1⟩
      else
        ⟨0, some exist_data, [exist_data],
          (map1.unlink hash_val exist_data).link hash_val new_data⟩
    | none => ⟨0, some exist_data, [], (map1.unlink hash_val exist_data).link hash_val new_data⟩
  | none => ⟨0, none, [], map1.link hash_val new_data⟩

/-- The `list_foreach_safe` loop of `hashmap_cleanup` over one bucket:
`total_keys` after one `atomic_u64_dec` per entry. -/
def _cleanup_scan : List Nat → Nat → Nat
  | [], total_keys => total_keys
  | _ :: rest, total_keys => _cleanup_scan rest (u64_dec total_keys)

/-- The `for` loop of `hashmap_cleanup` over the buckets: the buckets,
`total_keys`, and the entries handed to the callback, in order. -/
def _cleanup_buckets : List _bucket_t → Nat → List _bucket_t × Nat × List Nat
  | [], total_keys => ([], total_keys, [])
  | bucket :: rest, total_keys =>
    let r := _cleanup_buckets rest (_cleanup_scan bucket.list total_keys)
    (⟨[], 0⟩ :: r.1, r.2.1, bucket.list ++ r.2.2)

/-- `hashmap_cleanup`; `func` tells whether the callback pointer is not `NULL`:
the calls made and the map afterwards. -/
def hashmap_cleanup (map : hashmap) (func : Bool) : List Nat × hashmap :=
  let r := _cleanup_buckets map.buckets map.total_keys
  (if func then r.2.2 else [], { map with buckets := r.1, total_keys := r.2.1 })

/-- The tables (with the keys currently stored in the entries) reachable,
one call after the other, from an empty table of `B` buckets by
`hashmap_insert`, `hashmap_replace`, `hashmap_search`, `hashmap_delete`,
`hashmap_eviction` and `hashmap_cleanup`, and by changing the key of an entry
that is not linked in the table. -/
inductive HmReachable (cmp : Nat → Nat → Int) (hash : Nat → Nat) (B : Nat) :
    hashmap → (Nat → Nat) → Prop
  | init (key_of : Nat → Nat) : HmReachable cmp hash B (hashmap_init B cmp hash) key_of
  | insert {map : hashmap} {key_of : Nat → Nat} (new_data : Nat) (func : Bool) :
      HmReachable cmp hash B map key_of →
      HmReachable cmp hash B (hashmap_insert map key_of new_data func).map key_of
  | replace {map : hashmap} {key_of : Nat → Nat} (new_data : Nat) (func : Option (Nat → Int)) :
      HmReachable cmp hash B map key_of →
      HmReachable cmp hash B (hashmap_replace map key_of new_data func).map key_of
  | search {map : hashmap} {key_of : Nat → Nat} (key : Nat) (func : Bool) :
      HmReachable cmp hash B map key_of →
      HmReachable cmp hash B (hashmap_search map key_of key func).map key_of
  | delete {map : hashmap} {key_of : Nat → Nat} (key : Nat) (func : Option (Nat → Int)) :
      HmReachable cmp hash B map key_of →
      HmReachable cmp hash B (hashmap_delete map key_of key func).map key_of
  | evict {map : hashmap} {key_of : Nat → Nat} {σ : Type} (depth : Nat)
      (func : σ → Nat → Int × σ) (st : σ) :
      HmReachable cmp hash B map key_of →
      HmReachable cmp hash B (hashmap_eviction map depth func st).1 key_of
  | cleanup {map : hashmap} {key_of : Nat → Nat} (func : Bool) :
      HmReachable cmp hash B map key_of →
      HmReachable cmp hash B (hashmap_cleanup map func).2 key_of
  | setkey {map : hashmap} {key_of : Nat → Nat} (x key : Nat) :
      HmReachable cmp hash B map key_of → (∀ i, x ∉ (map.bucket i).list) →
      HmReachable cmp hash B map (Function.update key_of x key)

/-- The counters of a table agree with its lists, as `uint64_t` values: every
bucket's `depth` is the number of entries linked in it, and `total_keys` is
the number of entries of all buckets. -/
structure MapCount (B : Nat) (map : hashmap) : Prop where
  b_eq : map.b_count = B
  len : map.buckets.length = B
  depth : ∀ i, (map.bucket i).depth = (map.bucket i).list.length % 18446744073709551616
  total : map.total_keys =
    (map.buckets.map fun b => b.list.length).sum % 18446744073709551616

/-- A sample run: a table of two buckets with `u64` keys (the entry at address
`a` has the key `a`) after the inserts of 5 and 6, a replace of 5, a delete of
6 and an eviction with `depth = 0` whose predicate keeps every entry. -/
def hashmap_sample_run : hashmap :=
  (hashmap_eviction (hashmap_delete (hashmap_replace (hashmap_insert (hashmap_insert
    (hashmap_init 2 u64_cmp u64_hash) id 5 false).map id 6 false).map id 5 none).map id 6
    none).map 0 (fun (st : Unit) (_ : Nat) => ((1 : Int), st)) ()).1

/-- `hashmap_protect`; `work` is the callback (`none` for `NULL`), given as the
value it returns on each entry. -/
def hashmap_protect (map : hashmap) (key_of : Nat → Nat) (key : Nat)
    (work : Option (Nat → Int)) : hm_result :=
  let hash_val := map.index key
  let map1 := map.touch hash_val
  match (map1.bucket hash_val).list.find?
      (fun exist_data => decide (map.cmp key (key_of exist_data) = 0)) with
  | some exist_data =>
    match work with
    | some f => ⟨f exist_data, none, [exist_data], map1⟩
    | none => ⟨0, none, [], map1⟩
  | none => ⟨ENOENT, none, [], map1⟩

/-- The eviction of one bucket in the words of the specification, for the
entries beyond the first `k`: the predicate is called on each of them once, in
order; the entries for which it returned non-zero, in their order, and the
state of the predicate at the end. -/
def evict_keep {σ : Type} (func : σ → Nat → Int × σ) : List Nat → σ → List Nat × σ
  | [], st => ([], st)
  | e :: rest, st =>
    let r := evict_keep func rest (func st e).2
    (if (func st e).1 = 0 then r.1 else e :: r.1, r.2)

/-- The eviction of a table in the words of the specification, with keep
count `k`: a bucket holding at most `k` entries is left as it is, any other
bucket ends up with its first `k` entries followed by the entries beyond them
that the predicate kept.  The lists of the buckets afterwards and the state of
the predicate at the end. -/
def evict_spec {σ : Type} (func : σ → Nat → Int × σ) (k : Nat) :
    List _bucket_t → σ → List (List Nat) × σ
  | [], st => ([], st)
  | b :: rest, st =>
    if b.list.length ≤ k then
      let r := evict_spec func k rest st
      (b.list :: r.1, r.2)
    else
      let s := evict_keep func (b.list.drop k) st
      let r := evict_spec func k rest s.2
      ((b.list.take k ++ s.1) :: r.1, r.2)

/-- The entries offered to the predicate by an eviction with keep count `k`,
in order: those beyond the first `k` of every bucket that holds more than `k`. -/
def evict_offered (k : Nat) (bs : List _bucket_t) : List Nat :=
  (bs.map fun b => if b.list.length ≤ k then [] else b.list.drop k).flatten

/-- A predicate that also records the entries it is called on. -/
def evict_logged {σ : Type} (func : σ → Nat → Int × σ) (st : σ × List Nat) (e : Nat) :
    Int × (σ × List Nat) :=
  ((func st.1 e).1, ((func st.1 e).2, st.2 ++ [e]))

/-- A table of two buckets holding `2, 4, 6, 8` and `1`. -/
def hashmap_sample_evict : hashmap :=
  { total_keys := 5, cmp := u64_cmp, hash := u64_hash, max_depth := 0, b_count := 2,
    buckets := [⟨[2, 4, 6, 8], 4⟩, ⟨[1], 1⟩] }

/-! ## hashmap.c: hashmap_create
The value of a `double` is a rational number.  The library call
`log((double)size) / log((double)2)` is not part of the program: the `double`
it evaluates to is a parameter `exp` of the model.  The subtraction
`exp - (double)shift` is exact in `double` arithmetic, `shift` being the
integer part of `exp`. -/

/-- `AVG_DEPTH`. -/
def AVG_DEPTH : Nat := 4

/-- `DOUBLE_ZERO`: the `double` nearest to `0.00000001`. -/
def DOUBLE_ZERO : ℚ := 3022314549036573 / 302231454903657293676544

/-- `_adjust_size`, where `exp` is the value of
`log((double)size) / log((double)2)`.  The conversion `(uint32_t)exp` drops the
fraction and is undefined when the result does not fit; so is `1U << shift`
for `shift ≥ 32`. -/
def _adjust_size (exp : ℚ) : Option Nat :=
  if exp ≤ -1 ∨ 4294967296 ≤ exp then none
  else
    let shift := ⌊exp⌋₊
    let shift := if exp - (shift : ℚ) > DOUBLE_ZERO ∨ shift = 0 then u32_inc shift else shift
    if 32 ≤ shift then none else some (2 ^ shift)

/-- `hashmap_create`: the return code and the table written to `*map`.
`exp` is the value of `log((double)size) / log((double)2)` for
`size = scale / AVG_DEPTH`; for `size = 0` it is minus infinity, whose
conversion to `uint32_t` is undefined.  `malloc_ok` says whether `malloc`
succeeds. -/
def hashmap_create (scale : Nat) (exp : ℚ) (cmp : Nat → Nat → Int) (hash : Nat → Nat)
    (malloc_ok : Bool) : Option (Int × Option hashmap) :=
  if scale = 0 then some (EINVAL, none)
  else if scale / AVG_DEPTH = 0 then none
  else (_adjust_size exp).bind fun b_count =>
    if malloc_ok = false then some (ENOMEM, none)
    else some (0, some (hashmap_init b_count cmp hash))

/-! ## coroutine.c: the manager, its workers and the LWTs
The state of a manager with the memory of its pool and the variables of its
worker threads.  A step is what one call does under the lock, up to the
`swapcontext` that ends it; `none` says that the step cannot be taken in the
state. -/

/-- `MIN_WORKER`. -/
def MIN_WORKER : Nat := 1

/-- `comgr_create`, every allocation succeeding: the manager with its workers,
no LWT and no cosem initialised. -/
def comgr_create (max_worker : Nat) : comgr :=
  { sleeper := [],
    worker_idx := 0,
    worker_count := if max_worker < MIN_WORKER then MIN_WORKER else max_worker,
    worker := fun _ => ⟨0, 0, [], 0, [], false⟩,
    lwt_worker := fun _ => 0,
    sem := fun _ => ⟨none, 0, 0, false⟩ }

/-- A manager at run time: `used` tells which blocks of `mgr->mem` are handed
out (the LWTs started and not finished); for each worker thread, `lwt_curr` is
the LWT it is executing (`none` while the thread is in `_worker_svc` itself or
asleep) and `lwt_head` is the local list of its `_worker_svc`. -/
structure costate where
  mgr : comgr
  used : Nat → Bool
  lwt_curr : Nat → Option Nat
  lwt_head : Nat → List Nat

/-- The steps of a manager. -/
inductive coaction where
  /-- `coroutine_run`, `mempool_alloc` returning the block `lwt` -/
  | spawn (lwt : Nat)
  /-- the worker `w` enters `_worker_svc` and splices its ready queue onto the local list -/
  | dispatch (w : Nat)
  /-- the loop of `_worker_svc` takes the first LWT of the local list and switches to it -/
  | resume (w : Nat)
  /-- the LWT executing on `w` calls `coroutine_yield` -/
  | yield (w : Nat)
  /-- the LWT executing on `w` calls `cosem_sleep(ms)` -/
  | sleep (w : Nat) (ms : Nat)
  /-- the LWT executing on `w` calls `cosem_init(sem)` -/
  | init (w : Nat) (sem : Nat)
  /-- `cosem_fini(sem)` -/
  | fini (sem : Nat)
  /-- the LWT executing on `w` calls `cosem_down(sem)` on a cosem it owns -/
  | down (w : Nat) (sem : Nat)
  /-- `cosem_up(sem)`, from any thread -/
  | up (sem : Nat)
  /-- the function of the LWT executing on `w` returns -/
  | finish (w : Nat)
  /-- `_timer_svc`, one tick of the timer -/
  | tick
deriving DecidableEq, Repr

/-- The start of `_worker_svc`: the local list and the manager after the splice. -/
def _worker_svc_splice (mgr : comgr) (w : Nat) : List Nat × comgr :=
  ((mgr.worker w).lwt_head,
    { mgr with
      worker := Function.update mgr.worker w
        { mgr.worker w with lwt_head := [], lwt_wait := 0 } })

/-- One step of the manager.  `spawn` needs a block that is not in use;
`dispatch` a worker that is not inside `_worker_svc`; `init` a cosem that is
not linked in a queue; `down` the owner of the cosem; `up` a value that can be
decremented (`--` on `INT32_MIN` is undefined). -/
def costep (st : costate) : coaction → Option costate
  | .spawn lwt =>
    if st.used lwt = true then none
    else some { st with
      mgr := (coroutine_run st.mgr (some lwt)).2.1,
      used := Function.update st.used lwt true }
  | .dispatch w =>
    if st.mgr.worker_count ≤ w ∨ st.lwt_curr w ≠ none ∨ st.lwt_head w ≠ [] then none
    else some { st with
      mgr := (_worker_svc_splice st.mgr w).2,
      lwt_head := Function.update st.lwt_head w (_worker_svc_splice st.mgr w).1 }
  | .resume w =>
    match st.lwt_curr w, st.lwt_head w with
    | none, lwt :: rest =>
      some { st with
        mgr :=
          { st.mgr with
            worker := Function.update st.mgr.worker w
              { st.mgr.worker w with swapped := false } },
        lwt_curr := Function.update st.lwt_curr w (some lwt),
        lwt_head := Function.update st.lwt_head w rest }
    | _, _ => none
  | .yield w =>
    match st.lwt_curr w with
    | none => none
    | some lwt =>
      some { st with
        mgr := coroutine_yield st.mgr (some lwt),
        lwt_curr := Function.update st.lwt_curr w none }
  | .sleep w ms =>
    match st.lwt_curr w with
    | none => none
    | some lwt =>
      some { st with
        mgr := cosem_sleep st.mgr (some lwt) ms,
        lwt_curr := Function.update st.lwt_curr w none }
  | .init w sem =>
    match st.lwt_curr w with
    | none => none
    | some lwt =>
      if (st.mgr.sem sem).linked = true then none
      else some { st with mgr := (cosem_init st.mgr (some lwt) sem).2 }
  | .fini sem => some { st with mgr := (cosem_fini st.mgr sem).2 }
  | .down w sem =>
    match st.lwt_curr w with
    | none => none
    | some lwt =>
      if (st.mgr.sem sem).lwt ≠ some lwt then none
      else
        match cosem_down st.mgr sem with
        | .returned _ mgr => some { st with mgr := mgr }
        | .suspended mgr =>
          some { st with mgr := mgr, lwt_curr := Function.update st.lwt_curr w none }
  | .up sem =>
    if (st.mgr.sem sem).val = -2147483648 then none
    else some { st with mgr := (cosem_up st.mgr sem).2.1 }
  | .finish w =>
    match st.lwt_curr w with
    | none => none
    | some lwt =>
      if (st.mgr.worker w).swapped = true then
        some { st with lwt_curr := Function.update st.lwt_curr w none }
      else
        some { st with
          mgr :=
            { st.mgr with
              worker := Function.update st.mgr.worker w
                { st.mgr.worker w with
                  lwt_count := wrap_int ((st.mgr.worker w).lwt_count - 1) } },
          used := Function.update st.used lwt false,
          lwt_curr := Function.update st.lwt_curr w none }
  | .tick => some { st with mgr := (_timer_svc st.mgr).1 }

/-- The steps of a list taken one after the other. -/
def corun : costate → List coaction → Option costate
  | st, [] => some st
  | st, a :: rest => (costep st a).bind fun st1 => corun st1 rest

/-- The state `comgr_create` leaves: no block in use, no worker running. -/
def costate_create (max_worker : Nat) : costate :=
  ⟨comgr_create max_worker, fun _ => false, fun _ => none, fun _ => []⟩

/-- How often the LWT `lwt` is linked in the ready queue of the worker `w`. -/
def ready_links (st : costate) (w lwt : Nat) : Nat := (st.mgr.worker w).lwt_head.count lwt

/-- How often the LWT `lwt` is linked in the local list of the worker `w`. -/
def local_links (st : costate) (w lwt : Nat) : Nat := (st.lwt_head w).count lwt

/-- How many cosems owned by the LWT `lwt` are linked in the cosem queue of
the worker `w`. -/
def cosem_links (st : costate) (w lwt : Nat) : Nat :=
  (st.mgr.worker w).sem_head.countP fun s => decide ((st.mgr.sem s).lwt = some lwt)

/-- How often the LWT `lwt` is linked in the sleeper list. -/
def sleeper_links (st : costate) (lwt : Nat) : Nat :=
  st.mgr.sleeper.countP fun e => decide (e.lwt = lwt)

/-- Where an LWT is: executing on its worker, linked in the ready queue of
its worker, linked in the local list of its worker, waiting on a cosem linked
in the cosem queue of its worker, or linked in the sleeper list. -/
inductive lwt_place where
  | run
  | ready
  | head
  | wait (sem : Nat)
  | sleep
deriving DecidableEq, Repr

/-- The state `st` is laid out as `place` says: every queue holds, once each,
the LWTs (the cosems of the LWTs) that `place` puts there, and a cosem has the
value 1 exactly when its owner waits on it. -/
structure CoPlaces (st : costate) (place : Nat → Option lwt_place) : Prop where
  used_iff : ∀ l, st.used l = true ↔ place l ≠ none
  curr_iff : ∀ w l, st.lwt_curr w = some l ↔ place l = some .run ∧ st.mgr.lwt_worker l = w
  curr_sw : ∀ w l, st.lwt_curr w = some l → (st.mgr.worker w).swapped = false
  ready_iff : ∀ w l, l ∈ (st.mgr.worker w).lwt_head ↔
    place l = some .ready ∧ st.mgr.lwt_worker l = w
  ready_nd : ∀ w, (st.mgr.worker w).lwt_head.Nodup
  head_iff : ∀ w l, l ∈ st.lwt_head w ↔ place l = some .head ∧ st.mgr.lwt_worker l = w
  head_nd : ∀ w, (st.lwt_head w).Nodup
  sem_iff : ∀ w s, s ∈ (st.mgr.worker w).sem_head ↔
    ∃ l, place l = some (.wait s) ∧ st.mgr.lwt_worker l = w
  sem_nd : ∀ w, (st.mgr.worker w).sem_head.Nodup
  wait_own : ∀ l s, place l = some (.wait s) →
    (st.mgr.sem s).lwt = some l ∧ (st.mgr.sem s).val = 1 ∧ (st.mgr.sem s).linked = true
  val_one : ∀ s, (st.mgr.sem s).val = 1 → ∃ l, place l = some (.wait s)
  val_range : ∀ s, -2147483648 ≤ (st.mgr.sem s).val ∧ (st.mgr.sem s).val ≤ 1
  sleep_iff : ∀ l, l ∈ st.mgr.sleeper.map _sleeper_t.lwt ↔ place l = some .sleep
  sleep_nd : (st.mgr.sleeper.map _sleeper_t.lwt).Nodup

/-- A run on one worker: LWT 1 initialises the cosem 7 and waits on it, LWT 2
sleeps, `cosem_up` wakes LWT 1 and the timer ticks. -/
def coactions_sample : List coaction :=
  [coaction.spawn 1, coaction.spawn 2, coaction.dispatch 0, coaction.resume 0,
    coaction.init 0 7, coaction.down 0 7, coaction.resume 0, coaction.sleep 0 3,
    coaction.up 7, coaction.tick]

/-! # Theorems -/

theorem not_u64_testBit (x i : Nat) (hi : i < 64) : (not_u64 x).testBit i = !x.testBit i := by
  have h1 : x % 2 ^ 64 < 2 ^ 64 := Nat.mod_lt _ (by norm_num)
  have h2 : not_u64 x = 2 ^ 64 - (x % 2 ^ 64 + 1) := by unfold not_u64; omega
  rw [h2, Nat.testBit_two_pow_sub_succ h1, Nat.testBit_mod_two_pow]
  simp [hi]

theorem bmap_bsf_spec (w : Nat) :
    (bmap_bsf w = -1 ∧ ∀ i, i < 64 → w.testBit i = false) ∨
    (∃ k : Nat, k < 64 ∧ bmap_bsf w = (k : Int) ∧ w.testBit k = true ∧
      ∀ i, i < k → w.testBit i = false) := by
  unfold bmap_bsf
  cases h : (List.range 64).find? (fun i => w.testBit i) with
  | none =>
    left
    refine ⟨rfl, fun i hi => ?_⟩
    rw [List.find?_eq_none] at h
    have := h i (List.mem_range.mpr hi)
    simpa using this
  | some k =>
    right
    rw [List.find?_range_eq_some] at h
    obtain ⟨h1, h2, h3⟩ := h
    refine ⟨k, List.mem_range.mp h2, rfl, h1, fun i hi => ?_⟩
    have := h3 i hi
    simpa using this

theorem and_one_shiftLeft_ne_zero (w off : Nat) : (w &&& (1 <<< off) ≠ 0) ↔ w.testBit off = true := by
  rw [Nat.one_shiftLeft, Nat.and_two_pow]
  cases h : w.testBit off <;> simp

theorem and_63_eq_mod (pos : Nat) : pos &&& 63 = pos % 64 :=
  Nat.and_pow_two_sub_one_eq_mod pos 6

theorem tb_set (area : List Nat) (idx : Nat) (w : Nat) (j : Nat) (h : idx < area.length) :
    tb (area.set idx w) j = if j / 64 = idx then w.testBit (j % 64) else tb area j := by
  unfold tb
  rw [List.getD_eq_getElem?_getD, List.getD_eq_getElem?_getD, List.getElem?_set]
  by_cases hj : j / 64 = idx
  · subst hj; simp [h]
  · have : ¬ idx = j / 64 := fun e => hj e.symm
    simp [this, hj]

theorem tb_drop (area : List Nat) (k j : Nat) : tb (area.drop k) j = tb area (64 * k + j) := by
  unfold tb
  rw [List.getD_eq_getElem?_getD, List.getD_eq_getElem?_getD, List.getElem?_drop]
  have h1 : (64 * k + j) / 64 = k + j / 64 := by omega
  have h2 : (64 * k + j) % 64 = j % 64 := by omega
  rw [h1, h2]

theorem bmap_testset_bit_eq (off w : Nat) :
    bmap_testset_bit off w = if w.testBit off = true then (-1, w) else (0, w ||| 2 ^ off) := by
  unfold bmap_testset_bit
  by_cases h : w.testBit off = true
  · rw [if_pos ((and_one_shiftLeft_ne_zero _ _).mpr h), if_pos h]
  · rw [if_neg (fun e => h ((and_one_shiftLeft_ne_zero _ _).mp e)), if_neg h, Nat.one_shiftLeft]

theorem bmap_testclear_bit_eq (off w : Nat) :
    bmap_testclear_bit off w =
      if w.testBit off = true then (-1, w &&& not_u64 (2 ^ off)) else (0, w) := by
  unfold bmap_testclear_bit
  by_cases h : w.testBit off = true
  · rw [if_pos ((and_one_shiftLeft_ne_zero _ _).mpr h), if_pos h, Nat.one_shiftLeft]
  · rw [if_neg (fun e => h ((and_one_shiftLeft_ne_zero _ _).mp e)), if_neg h]

theorem _set_bit_fail (bits : _bits_t) (pos : Nat) (h : tb bits.area pos = true) :
    _set_bit bits pos = (BIT_FAIL, bits) := by
  have hh : (bits.area.getD (pos / 64) 0).testBit (pos % 64) = true := h
  unfold _set_bit
  dsimp only
  rw [and_63_eq_mod, bmap_testset_bit_eq, if_pos hh]
  rfl

theorem _set_bit_ok (bits : _bits_t) (pos : Nat) (h : tb bits.area pos = false)
    (hlen : pos / 64 < bits.area.length) :
    (_set_bit bits pos).1 = BIT_OK ∧ (_set_bit bits pos).2.count = bits.count ∧
    (_set_bit bits pos).2.area.length = bits.area.length ∧
    ∀ j, tb (_set_bit bits pos).2.area j = (decide (j = pos) || tb bits.area j) := by
  have hh : ¬ (bits.area.getD (pos / 64) 0).testBit (pos % 64) = true := by
    have : (bits.area.getD (pos / 64) 0).testBit (pos % 64) = false := h
    rw [this]; decide
  have e : _set_bit bits pos = (BIT_OK, { bits with
      area := bits.area.set (pos / 64) (bits.area.getD (pos / 64) 0 ||| 2 ^ (pos % 64)) }) := by
    unfold _set_bit
    dsimp only
    rw [and_63_eq_mod, bmap_testset_bit_eq, if_neg hh]
    rfl
  rw [e]
  refine ⟨rfl, rfl, List.length_set _ _ _, fun j => ?_⟩
  show tb (bits.area.set (pos / 64) _) j = _
  rw [tb_set _ _ _ _ hlen, Nat.testBit_or, Nat.testBit_two_pow]
  by_cases hj : j / 64 = pos / 64
  · rw [if_pos hj]
    have e1 : tb bits.area j = (bits.area.getD (pos / 64) 0).testBit (j % 64) := by
      unfold tb; rw [hj]
    rw [e1, Bool.or_comm]
    congr 1
    apply decide_eq_decide.mpr
    omega
  · rw [if_neg hj]
    have : ¬ j = pos := fun e => hj (by rw [e])
    simp [this]

theorem _clear_bit_fail (bits : _bits_t) (pos : Nat) (h : tb bits.area pos = false) :
    _clear_bit bits pos = (BIT_FAIL, bits) := by
  have hh : ¬ (bits.area.getD (pos / 64) 0).testBit (pos % 64) = true := by
    have : (bits.area.getD (pos / 64) 0).testBit (pos % 64) = false := h
    rw [this]; decide
  unfold _clear_bit
  dsimp only
  rw [and_63_eq_mod, bmap_testclear_bit_eq, if_neg hh]
  rfl

theorem _clear_bit_ok (bits : _bits_t) (pos : Nat) (h : tb bits.area pos = true)
    (hlen : pos / 64 < bits.area.length) :
    (_clear_bit bits pos).1 = BIT_OK ∧ (_clear_bit bits pos).2.count = bits.count ∧
    (_clear_bit bits pos).2.area.length = bits.area.length ∧
    ∀ j, tb (_clear_bit bits pos).2.area j = (!decide (j = pos) && tb bits.area j) := by
  have hh : (bits.area.getD (pos / 64) 0).testBit (pos % 64) = true := h
  have e : _clear_bit bits pos = (BIT_OK, { bits with
      area := bits.area.set (pos / 64) (bits.area.getD (pos / 64) 0 &&& not_u64 (2 ^ (pos % 64))) }) := by
    unfold _clear_bit
    dsimp only
    rw [and_63_eq_mod, bmap_testclear_bit_eq, if_pos hh]
    rfl
  rw [e]
  refine ⟨rfl, rfl, List.length_set _ _ _, fun j => ?_⟩
  show tb (bits.area.set (pos / 64) _) j = _
  rw [tb_set _ _ _ _ hlen, Nat.testBit_and]
  by_cases hj : j / 64 = pos / 64
  · rw [if_pos hj]
    have e1 : tb bits.area j = (bits.area.getD (pos / 64) 0).testBit (j % 64) := by
      unfold tb; rw [hj]
    have hlt : j % 64 < 64 := Nat.mod_lt _ (by norm_num)
    rw [e1, not_u64_testBit _ _ hlt, Nat.testBit_two_pow, Bool.and_comm]
    congr 2
    apply decide_eq_decide.mpr
    omega
  · rw [if_neg hj]
    have : ¬ j = pos := fun e => hj (by rw [e])
    simp [this]

theorem wrap_int_id (x : Int) (h0 : -2147483648 ≤ x) (h1 : x < 2147483648) : wrap_int x = x := by
  unfold wrap_int; omega

theorem _div_upward_round_eq (num base : Int) (h0 : 0 ≤ num) (hb : 0 < base)
    (h1 : num + base ≤ 2147483648) : _div_upward_round num base = (num + base - 1) / base := by
  unfold _div_upward_round
  rw [wrap_int_id _ (by omega) (by omega), Int.tdiv_eq_ediv (by omega) (by omega)]

theorem _find_first_zero_loop_spec (area : List Nat) : ∀ (fuel i : Nat) (res0 : Int),
    (∃ p : Nat, _find_first_zero_loop area fuel i res0 = (p : Int) ∧ 64 * i ≤ p ∧
      p < 64 * (i + fuel) ∧ tb area p = false ∧ ∀ j, 64 * i ≤ j → j < p → tb area j = true) ∨
    ((∀ j, 64 * i ≤ j → j < 64 * (i + fuel) → tb area j = true) ∧
      _find_first_zero_loop area fuel i res0 = if fuel = 0 then res0 else -1) := by
  intro fuel
  induction fuel with
  | zero =>
    intro i res0
    right
    refine ⟨fun j h1 h2 => by omega, ?_⟩
    simp [_find_first_zero_loop]
  | succ fuel ih =>
    intro i res0
    unfold _find_first_zero_loop
    dsimp only
    have hword : ∀ t, t < 64 → tb area (64 * i + t) = (area.getD i 0).testBit t := by
      intro t ht
      unfold tb
      have h1 : (64 * i + t) / 64 = i := by omega
      have h2 : (64 * i + t) % 64 = t := by omega
      rw [h1, h2]
    rcases bmap_bsf_spec (not_u64 (area.getD i 0)) with ⟨hb, hall⟩ | ⟨k, hk, hb, hset, hlow⟩
    · rw [hb, if_neg (by decide)]
      have hfull : ∀ j, 64 * i ≤ j → j < 64 * (i + 1) → tb area j = true := by
        intro j h1 h2
        have e : j = 64 * i + (j - 64 * i) := by omega
        have ht : j - 64 * i < 64 := by omega
        rw [e, hword _ ht]
        have := hall _ ht
        rw [not_u64_testBit _ _ ht] at this
        simpa using this
      rcases ih (i + 1) (-1) with ⟨p, hp1, hp2, hp3, hp4, hp5⟩ | ⟨hall2, hres⟩
      · left
        refine ⟨p, hp1, by omega, by omega, hp4, fun j h1 h2 => ?_⟩
        by_cases hj : j < 64 * (i + 1)
        · exact hfull j h1 hj
        · exact hp5 j (by omega) h2
      · right
        refine ⟨fun j h1 h2 => ?_, ?_⟩
        · by_cases hj : j < 64 * (i + 1)
          · exact hfull j h1 hj
          · exact hall2 j (by omega) (by omega)
        · rw [hres]; split <;> simp
    · left
      rw [hb, if_pos (by omega)]
      refine ⟨64 * i + k, by push_cast; ring, by omega, by omega, ?_, fun j h1 h2 => ?_⟩
      · rw [hword _ hk]
        rw [not_u64_testBit _ _ hk] at hset
        simpa using hset
      · have e : j = 64 * i + (j - 64 * i) := by omega
        have ht : j - 64 * i < 64 := by omega
        rw [e, hword _ ht]
        have := hlow (j - 64 * i) (by omega)
        rw [not_u64_testBit _ _ ht] at this
        simpa using this

theorem _find_first_zero_bit_cases (bits : _bits_t) (hc0 : 0 ≤ bits.count)
    (hc1 : bits.count ≤ 2147483584) :
    (∃ p : Nat, _find_first_zero_bit bits = some p ∧ (p : Int) < bits.count ∧
      tb bits.area p = false ∧ ∀ j, j < p → tb bits.area j = true) ∨
    (_find_first_zero_bit bits = none ∧
      ∀ j : Nat, (j : Int) < bits.count → tb bits.area j = true) := by
  unfold _find_first_zero_bit
  dsimp only
  rw [_div_upward_round_eq _ _ hc0 (by norm_num) (by omega)]
  rcases _find_first_zero_loop_spec bits.area ((bits.count + 64 - 1) / 64).toNat 0 0 with
    ⟨p, hp1, _, hp3, hp4, hp5⟩ | ⟨hall, hres⟩
  · rw [hp1]
    by_cases hlt : (p : Int) < bits.count
    · left
      refine ⟨p, ?_, hlt, hp4, fun j hj => hp5 j (by omega) hj⟩
      rw [if_neg (by omega)]
      simp
    · right
      refine ⟨?_, fun j hj => hp5 j (by omega) (by omega)⟩
      rw [if_pos (by omega)]
  · right
    refine ⟨?_, fun j hj => hall j (by omega) (by omega)⟩
    rw [hres]
    split
    · rename_i h0
      rw [if_pos (by omega)]
    · rw [if_pos (by omega)]

theorem _find_first_zero_bit_none (bits : _bits_t) (hc0 : 0 ≤ bits.count)
    (hc1 : bits.count ≤ 2147483584) :
    _find_first_zero_bit bits = none ↔
      ∀ j : Nat, (j : Int) < bits.count → tb bits.area j = true := by
  rcases _find_first_zero_bit_cases bits hc0 hc1 with ⟨p, h1, h2, h3, _⟩ | ⟨h1, h2⟩
  · constructor
    · intro h; rw [h] at h1; cases h1
    · intro h; have := h p h2; rw [h3] at this; cases this
  · exact ⟨fun _ => h2, fun _ => h1⟩

theorem _find_first_zero_bit_some (bits : _bits_t) (hc0 : 0 ≤ bits.count)
    (hc1 : bits.count ≤ 2147483584) (p : Nat) :
    _find_first_zero_bit bits = some p ↔
      ((p : Int) < bits.count ∧ tb bits.area p = false ∧
        ∀ j, j < p → tb bits.area j = true) := by
  rcases _find_first_zero_bit_cases bits hc0 hc1 with ⟨q, h1, h2, h3, h4⟩ | ⟨h1, h2⟩
  · constructor
    · intro h
      rw [h] at h1
      cases h1
      exact ⟨h2, h3, h4⟩
    · rintro ⟨g1, g2, g3⟩
      rw [h1]
      rcases Nat.lt_trichotomy p q with hlt | heq | hgt
      · have := h4 p hlt; rw [g2] at this; cases this
      · rw [heq]
      · have := g3 q hgt; rw [h3] at this; cases this
  · constructor
    · intro h; rw [h] at h1; cases h1
    · rintro ⟨g1, g2, _⟩
      have := h2 p g1; rw [g2] at this; cases this

theorem SameShape.refl (b : bitmap) : SameShape b b := ⟨rfl, rfl, rfl, fun _ => ⟨rfl, rfl⟩⟩

theorem SameShape.trans {a b c : bitmap} (h1 : SameShape a b) (h2 : SameShape b c) :
    SameShape a c := by
  obtain ⟨a1, a2, a3, a4⟩ := h1
  obtain ⟨b1, b2, b3, b4⟩ := h2
  refine ⟨by rw [b1, a1], by rw [b2, a2], by rw [b3, a3], fun k => ?_⟩
  rw [(b4 k).1, (b4 k).2, (a4 k).1, (a4 k).2]
  exact ⟨rfl, rfl⟩

theorem SameShape.cnt {b b' : bitmap} (h : SameShape b b') (k : Nat) : b'.cnt k = b.cnt k := by
  unfold bitmap.cnt; rw [(h.2.2.2 k).1]

theorem Shape.of_same {b b' : bitmap} (hs : Shape b) (h : SameShape b b') : Shape b' := by
  obtain ⟨a1, a2, a3, a4⟩ := h
  constructor
  · rw [a2]; exact hs.level_pos
  · rw [a3, a2]; exact hs.len
  · rw [a2, (a4 _).1, a1]; exact hs.max_eq
  · intro k hk; rw [(a4 k).1]; exact hs.count_pos k (by omega)
  · intro k hk; rw [(a4 k).1]; exact hs.count_le k (by omega)
  · intro k hk; rw [(a4 k).1, (a4 k).2]; exact hs.area_len k (by omega)
  · intro k hk; rw [(a4 k).1, (a4 (k + 1)).1]; exact hs.parent k (by omega)

theorem Shape.cnt_eq {b : bitmap} (hs : Shape b) (k : Nat) (hk : k < b.level) :
    (b.at k).count = (b.cnt k : Int) := by
  have := hs.count_pos k hk
  unfold bitmap.cnt; omega

theorem Shape.cnt_parent {b : bitmap} (hs : Shape b) (k : Nat) (hk : k + 1 < b.level) :
    b.cnt k = (b.cnt (k + 1) + 255) / 256 := by
  have h1 := hs.parent k hk
  have h2 := hs.cnt_eq k (by omega)
  have h3 := hs.cnt_eq (k + 1) hk
  rw [h2, h3] at h1
  omega

theorem at_set (b : bitmap) (i : Nat) (x : _bits_t) (hi : i < b.layer.length) (k : Nat) :
    ({ b with layer := b.layer.set i x } : bitmap).at k = if k = i then x else b.at k := by
  unfold bitmap.at
  dsimp only
  rw [List.getD_eq_getElem?_getD, List.getD_eq_getElem?_getD, List.getElem?_set]
  by_cases h : k = i
  · subst h; simp [hi]
  · have : ¬ i = k := fun e => h e.symm
    simp [this, h]

theorem _get_slice_bit_count_eq (l : _bits_t) (pos s : Nat) (hs : pos / 256 = s) :
    _get_slice_bit_count l pos = min (l.count - ((256 * s : Nat) : Int)) 256 := by
  unfold _get_slice_bit_count
  dsimp only
  subst hs
  have : pos / 256 * 256 = 256 * (pos / 256) := Nat.mul_comm _ _
  rw [this]
  split <;> omega

theorem slice_none (l : _bits_t) (c s : Nat) (hc : l.count = (c : Int))
    (hs : 256 * s < c) (cs : Int) (hcs : cs = min (l.count - ((256 * s : Nat) : Int)) 256) :
    _find_first_zero_bit ⟨cs, l.area.drop (4 * s)⟩ = none ↔
      ∀ j, 256 * s ≤ j → j < 256 * s + 256 → j < c → tb l.area j = true := by
  rw [_find_first_zero_bit_none _ (by show 0 ≤ cs; omega) (by show cs ≤ _; omega)]
  show (∀ j : Nat, (j : Int) < cs → tb (l.area.drop (4 * s)) j = true) ↔ _
  constructor
  · intro h j h1 h2 h3
    have := h (j - 256 * s) (by omega)
    rw [tb_drop] at this
    have e : 64 * (4 * s) + (j - 256 * s) = j := by omega
    rwa [e] at this
  · intro h j hj
    rw [tb_drop]
    have e : 64 * (4 * s) + j = 256 * s + j := by omega
    rw [e]
    exact h _ (by omega) (by omega) (by omega)

theorem slice_some (l : _bits_t) (c s : Nat) (hc : l.count = (c : Int))
    (hs : 256 * s < c) (cs : Int) (hcs : cs = min (l.count - ((256 * s : Nat) : Int)) 256)
    (p : Nat) :
    _find_first_zero_bit ⟨cs, l.area.drop (4 * s)⟩ = some p ↔
      (p < 256 ∧ 256 * s + p < c ∧ tb l.area (256 * s + p) = false ∧
        ∀ j, j < p → tb l.area (256 * s + j) = true) := by
  rw [_find_first_zero_bit_some _ (by show 0 ≤ cs; omega) (by show cs ≤ _; omega)]
  show ((p : Int) < cs ∧ tb (l.area.drop (4 * s)) p = false ∧
    ∀ j, j < p → tb (l.area.drop (4 * s)) j = true) ↔ _
  have e : ∀ j, 64 * (4 * s) + j = 256 * s + j := fun j => by omega
  simp only [tb_drop, e]
  constructor
  · rintro ⟨h1, h2, h3⟩
    exact ⟨by omega, by omega, h2, h3⟩
  · rintro ⟨h1, h2, h3, h4⟩
    exact ⟨by omega, h3, h4⟩

theorem Hprop_transfer {b b1 : bitmap} {k q : Nat} (hc : b1.cnt (k + 1) = b.cnt (k + 1))
    (hp : b1.bit k q = b.bit k q)
    (hch : ∀ j, 256 * q ≤ j → j < 256 * q + 256 → b1.bit (k + 1) j = b.bit (k + 1) j)
    (h : Hprop b k q) : Hprop b1 k q := by
  unfold Hprop at *
  rw [hp, hc, h]
  constructor
  · intro g j h1 h2 h3; rw [hch j h1 h2]; exact g j h1 h2 h3
  · intro g j h1 h2 h3; rw [← hch j h1 h2]; exact g j h1 h2 h3

theorem Shape.idx_lt {b : bitmap} (hs : Shape b) (i bit : Nat) (hi : i < b.level)
    (hb : bit < b.cnt i) : bit / 64 < (b.at i).area.length := by
  rw [hs.area_len i hi, hs.cnt_eq i hi]
  omega

/-- Effect of one `_set_bit` on layer `i` of the bitmap. -/
theorem set_one (b : bitmap) (i bit : Nat) (hs : Shape b) (hi : i < b.level)
    (hb : bit < b.cnt i) (hclear : b.bit i bit = false) :
    (_set_bit (b.at i) bit).1 = BIT_OK ∧
    SameShape b { b with layer := b.layer.set i (_set_bit (b.at i) bit).2 } ∧
    ∀ k j, ({ b with layer := b.layer.set i (_set_bit (b.at i) bit).2 } : bitmap).bit k j =
      if k = i then (decide (j = bit) || b.bit i j) else b.bit k j := by
  obtain ⟨h1, h2, h3, h4⟩ := _set_bit_ok (b.at i) bit hclear (hs.idx_lt i bit hi hb)
  have hlen : i < b.layer.length := by rw [hs.len]; exact hi
  refine ⟨h1, ⟨rfl, rfl, List.length_set _ _ _, fun k => ?_⟩, fun k j => ?_⟩
  · rw [at_set b i _ hlen k]
    by_cases hk : k = i
    · subst hk; rw [if_pos rfl]; exact ⟨h2, h3⟩
    · rw [if_neg hk]; exact ⟨rfl, rfl⟩
  · unfold bitmap.bit
    rw [at_set b i _ hlen k]
    by_cases hk : k = i
    · subst hk; rw [if_pos rfl, if_pos rfl]; exact h4 j
    · rw [if_neg hk, if_neg hk]

/-- Effect of one `_clear_bit` on layer `i` of the bitmap. -/
theorem clear_one (b : bitmap) (i bit : Nat) (hs : Shape b) (hi : i < b.level)
    (hb : bit < b.cnt i) (hset : b.bit i bit = true) :
    (_clear_bit (b.at i) bit).1 = BIT_OK ∧
    SameShape b { b with layer := b.layer.set i (_clear_bit (b.at i) bit).2 } ∧
    ∀ k j, ({ b with layer := b.layer.set i (_clear_bit (b.at i) bit).2 } : bitmap).bit k j =
      if k = i then (!decide (j = bit) && b.bit i j) else b.bit k j := by
  obtain ⟨h1, h2, h3, h4⟩ := _clear_bit_ok (b.at i) bit hset (hs.idx_lt i bit hi hb)
  have hlen : i < b.layer.length := by rw [hs.len]; exact hi
  refine ⟨h1, ⟨rfl, rfl, List.length_set _ _ _, fun k => ?_⟩, fun k j => ?_⟩
  · rw [at_set b i _ hlen k]
    by_cases hk : k = i
    · subst hk; rw [if_pos rfl]; exact ⟨h2, h3⟩
    · rw [if_neg hk]; exact ⟨rfl, rfl⟩
  · unfold bitmap.bit
    rw [at_set b i _ hlen k]
    by_cases hk : k = i
    · subst hk; rw [if_pos rfl, if_pos rfl]; exact h4 j
    · rw [if_neg hk, if_neg hk]

/-- After a bit of layer `i` has been set, every hierarchy fact that does not
involve that bit as a parent, nor its slice as children, still holds. -/
theorem Hprop_after_set {b b1 : bitmap} {i bit : Nat} (hsame : SameShape b b1)
    (hbits : ∀ k j, b1.bit k j = if k = i then (decide (j = bit) || b.bit i j) else b.bit k j)
    {k q : Nat} (h : Hprop b k q) (hne1 : ¬ (k = i ∧ q = bit))
    (hne2 : ¬ (k + 1 = i ∧ q = bit / 256)) : Hprop b1 k q := by
  apply Hprop_transfer (hsame.cnt _) _ _ h
  · rw [hbits]
    by_cases hk : k = i
    · rw [if_pos hk]
      have : ¬ q = bit := fun e => hne1 ⟨hk, e⟩
      simp [this, hk]
    · rw [if_neg hk]
  · intro j h1 h2
    rw [hbits]
    by_cases hk : k + 1 = i
    · rw [if_pos hk]
      have : ¬ j = bit := by
        intro e; apply hne2; refine ⟨hk, ?_⟩; omega
      simp [this, hk]
    · rw [if_neg hk]

theorem _bitmap_set_bit_loop_spec : ∀ (i : Nat) (b : bitmap) (bit : Nat), Shape b → i < b.level →
    bit < b.cnt i → b.bit i bit = false → HierExcept b i bit →
    (i + 1 < b.level → ∀ j, 256 * bit ≤ j → j < 256 * bit + 256 → j < b.cnt (i + 1) →
      b.bit (i + 1) j = true) →
    (_bitmap_set_bit_loop b i bit).1 = BIT_OK ∧
    SameShape b (_bitmap_set_bit_loop b i bit).2 ∧
    Hier (_bitmap_set_bit_loop b i bit).2 ∧
    (∀ k, i < k → ∀ j, (_bitmap_set_bit_loop b i bit).2.bit k j = b.bit k j) ∧
    (∀ j, (_bitmap_set_bit_loop b i bit).2.bit i j = (decide (j = bit) || b.bit i j)) := by
  intro i
  induction i with
  | zero =>
    intro b bit hs hi hb hclear hex hfull
    obtain ⟨h1, h2, h3⟩ := set_one b 0 bit hs hi hb hclear
    unfold _bitmap_set_bit_loop
    dsimp only
    refine ⟨h1, h2, ?_, fun k hk j => ?_, fun j => ?_⟩
    · intro k hk q hq
      have hk' : k + 1 < b.level := hk
      rw [h2.cnt] at hq
      by_cases hkq : k = 0 ∧ q = bit
      · obtain ⟨rfl, rfl⟩ := hkq
        unfold Hprop
        rw [h3, h2.cnt]
        simp only [if_true, decide_True, Bool.true_or, true_iff]
        intro j g1 g2 g3
        rw [h3, if_neg (by omega)]
        exact hfull hk' j g1 g2 g3
      · rcases hex k hk' q hq with hl | hr
        · exact absurd hl hkq
        · exact Hprop_after_set h2 h3 hr hkq (by omega)
    · rw [h3, if_neg (by omega)]
    · rw [h3, if_pos rfl]
  | succ i ih =>
    intro b bit hs hi hb hclear hex hfull
    obtain ⟨h1, h2, h3⟩ := set_one b (i + 1) bit hs hi hb hclear
    have hs1 := hs.of_same h2
    have hlen : i + 1 < b.layer.length := by rw [hs.len]; exact hi
    -- facts on the parent of `bit`
    have hcp := hs.cnt_parent i hi
    have hslice : bit / 256 < b.cnt i := by omega
    have hpar : b.bit i (bit / 256) = false := by
      rcases hex i hi (bit / 256) hslice with hl | hr
      · omega
      · unfold Hprop at hr
        by_contra hne
        have ht : b.bit i (bit / 256) = true := by simpa using hne
        have := hr.mp ht bit (by omega) (by omega) hb
        rw [hclear] at this; cases this
    -- every hierarchy fact except the one of the parent survives
    have hrest : ∀ k, k + 1 < b.level → ∀ q, q < b.cnt k → ¬ (k = i ∧ q = bit / 256) →
        Hprop { b with layer := b.layer.set (i + 1) (_set_bit (b.at (i + 1)) bit).2 } k q := by
      intro k hk q hq hne
      by_cases hkq : k = i + 1 ∧ q = bit
      · obtain ⟨rfl, rfl⟩ := hkq
        unfold Hprop
        rw [h3, h2.cnt]
        simp only [if_true, decide_True, Bool.true_or, true_iff]
        intro j g1 g2 g3
        rw [h3, if_neg (by omega)]
        exact hfull hk j g1 g2 g3
      · rcases hex k hk q hq with hl | hr
        · exact absurd hl hkq
        · exact Hprop_after_set h2 h3 hr hkq (by omega)
    -- the slice check
    have hcount := _get_slice_bit_count_eq
      (({ b with layer := b.layer.set (i + 1) (_set_bit (b.at (i + 1)) bit).2 } : bitmap).at (i + 1))
      bit (bit / 256) rfl
    have hcnt1 := hs1.cnt_eq (i + 1) hi
    have hnone := slice_none _ _ (bit / 256) hcnt1 (by rw [h2.cnt]; omega) _ hcount
    unfold _bitmap_set_bit_loop
    dsimp only
    rw [if_neg (by rw [h1]; simp)]
    rw [Nat.mul_comm (bit / 256) 4]
    cases hf : _find_first_zero_bit
      ⟨_get_slice_bit_count
        (({ b with layer := b.layer.set (i + 1) (_set_bit (b.at (i + 1)) bit).2 } : bitmap).at (i + 1)) bit,
        (({ b with layer := b.layer.set (i + 1) (_set_bit (b.at (i + 1)) bit).2 } : bitmap).at (i + 1)).area.drop
          (4 * (bit / 256))⟩ with
    | some p =>
      simp only [Option.isSome_some, if_true]
      have hnotfull : ¬ ∀ j, 256 * (bit / 256) ≤ j → j < 256 * (bit / 256) + 256 →
          j < ({ b with layer := b.layer.set (i + 1) (_set_bit (b.at (i + 1)) bit).2 } : bitmap).cnt (i + 1) →
          ({ b with layer := b.layer.set (i + 1) (_set_bit (b.at (i + 1)) bit).2 } : bitmap).bit (i + 1) j = true := by
        intro hall
        have := hnone.mpr hall
        rw [hf] at this; cases this
      refine ⟨h1, h2, ?_, fun k hk j => ?_, fun j => ?_⟩
      · intro k hk q hq
        have hk' : k + 1 < b.level := hk
        rw [h2.cnt] at hq
        by_cases hkq : k = i ∧ q = bit / 256
        · obtain ⟨rfl, rfl⟩ := hkq
          unfold Hprop
          rw [h3, if_neg (by omega), hpar]
          constructor
          · intro hh; cases hh
          · intro hh; exact absurd hh hnotfull
        · exact hrest k hk' q hq hkq
      · rw [h3, if_neg (by omega)]
      · rw [h3, if_pos rfl]
    | none =>
      simp only [Option.isSome_none, Bool.false_eq_true, if_false]
      have hfull1 := hnone.mp hf
      have hpar1 : ({ b with layer := b.layer.set (i + 1) (_set_bit (b.at (i + 1)) bit).2 } : bitmap).bit i (bit / 256)
          = false := by
        rw [h3, if_neg (by omega)]; exact hpar
      obtain ⟨g1, g2, g3, g4, g5⟩ := ih _ (bit / 256) hs1 (by show i < b.level; omega)
        (by rw [h2.cnt]; exact hslice) hpar1
        (by
          intro k hk q hq
          rw [h2.cnt] at hq
          by_cases hkq : k = i ∧ q = bit / 256
          · exact Or.inl hkq
          · exact Or.inr (hrest k hk q hq hkq))
        (fun _ => hfull1)
      refine ⟨g1, h2.trans g2, g3, fun k hk j => ?_, fun j => ?_⟩
      · rw [g4 k (by omega) j, h3, if_neg (by omega)]
      · rw [g4 (i + 1) (by omega) j, h3, if_pos rfl]

/-- A hierarchy fact survives a change of the single bit `bit` of layer `i`
when it involves that bit neither as the parent nor as a child. -/
theorem Hprop_frame {b b1 : bitmap} {i bit : Nat} (hsame : SameShape b b1)
    (hbits : ∀ k j, ¬ (k = i ∧ j = bit) → b1.bit k j = b.bit k j)
    {k q : Nat} (h : Hprop b k q) (hne1 : ¬ (k = i ∧ q = bit))
    (hne2 : ¬ (k + 1 = i ∧ q = bit / 256)) : Hprop b1 k q := by
  apply Hprop_transfer (hsame.cnt _) (hbits _ _ hne1) _ h
  intro j h1 h2
  apply hbits
  rintro ⟨e1, e2⟩
  apply hne2
  exact ⟨e1, by omega⟩

theorem _bitmap_clear_bit_loop_spec : ∀ (m : Nat) (b : bitmap) (q : Nat), Shape b →
    m < b.level → (0 < m → q < b.cnt (m - 1)) →
    (∀ k, k + 1 < b.level → ∀ q', q' < b.cnt k → (k + 1 = m ∧ q' = q) ∨ Hprop b k q') →
    (0 < m → ∃ j, 256 * q ≤ j ∧ j < 256 * q + 256 ∧ j < b.cnt m ∧ b.bit m j = false) →
    SameShape b (_bitmap_clear_bit_loop b m q) ∧ Hier (_bitmap_clear_bit_loop b m q) ∧
    ∀ k, m ≤ k → ∀ j, (_bitmap_clear_bit_loop b m q).bit k j = b.bit k j := by
  intro m
  induction m with
  | zero =>
    intro b q hs _ _ hex _
    unfold _bitmap_clear_bit_loop
    refine ⟨SameShape.refl b, ?_, fun _ _ _ => rfl⟩
    intro k hk q' hq'
    rcases hex k hk q' hq' with hl | hr
    · omega
    · exact hr
  | succ i ih =>
    intro b q hs hm hq hex hwit
    have hq0 : q < b.cnt i := hq (by omega)
    obtain ⟨w, w1, w2, w3, w4⟩ := hwit (by omega)
    have hi : i < b.level := by omega
    unfold _bitmap_clear_bit_loop
    dsimp only
    cases hbit : b.bit i q with
    | false =>
      rw [_clear_bit_fail (b.at i) q hbit]
      rw [if_pos (show (BIT_FAIL, b.at i).1 ≠ BIT_OK by simp)]
      refine ⟨SameShape.refl b, ?_, fun _ _ _ => rfl⟩
      intro k hk q' hq'
      rcases hex k hk q' hq' with hl | hr
      · obtain ⟨e1, e2⟩ := hl
        have e1' : k = i := by omega
        subst e1' e2
        unfold Hprop
        rw [hbit]
        constructor
        · intro hh; cases hh
        · intro hh
          have := hh w w1 w2 w3
          rw [w4] at this; cases this
      · exact hr
    | true =>
      obtain ⟨h1, h2, h3⟩ := clear_one b i q hs hi hq0 hbit
      have hs1 := hs.of_same h2
      rw [if_neg (by rw [h1]; simp)]
      have hframe : ∀ k j, ¬ (k = i ∧ j = q) →
          ({ b with layer := b.layer.set i (_clear_bit (b.at i) q).2 } : bitmap).bit k j = b.bit k j := by
        intro k j hne
        rw [h3]
        by_cases hk : k = i
        · rw [if_pos hk]
          have : ¬ j = q := fun e => hne ⟨hk, e⟩
          simp [this, hk]
        · rw [if_neg hk]
      obtain ⟨g1, g2, g3⟩ := ih _ (q / 256) hs1 (by show i < b.level; omega)
        (by
          intro hi0
          rw [h2.cnt]
          have := hs.cnt_parent (i - 1) (by omega)
          have e : i - 1 + 1 = i := by omega
          rw [e] at this
          omega)
        (by
          intro k hk q' hq'
          have hk' : k + 1 < b.level := hk
          rw [h2.cnt] at hq'
          by_cases hkq : k = i ∧ q' = q
          · right
            obtain ⟨rfl, rfl⟩ := hkq
            unfold Hprop
            rw [h3, if_pos rfl]
            simp only [decide_True, Bool.not_true, Bool.false_and, Bool.false_eq_true, false_iff]
            intro hh
            have := hh w w1 w2 (by rw [h2.cnt]; exact w3)
            rw [hframe _ _ (by omega), w4] at this
            cases this
          · by_cases hkq2 : k + 1 = i ∧ q' = q / 256
            · exact Or.inl hkq2
            · right
              rcases hex k hk' q' hq' with hl | hr
              · omega
              · exact Hprop_frame h2 hframe hr hkq hkq2)
        (by
          intro _
          refine ⟨q, by omega, by omega, by rw [h2.cnt]; exact hq0, ?_⟩
          rw [h3, if_pos rfl]
          simp)
      refine ⟨h2.trans g1, g2, fun k hk j => ?_⟩
      rw [g3 k (by omega) j, hframe k j (by omega)]

theorem _bitmap_clear_bit_fail (b : bitmap) (pos : Nat)
    (hclear : b.bit (b.level - 1) pos = false) : _bitmap_clear_bit b pos = (BIT_FAIL, b) := by
  unfold _bitmap_clear_bit
  dsimp only
  rw [_clear_bit_fail _ _ hclear]
  rfl

theorem _bitmap_clear_bit_ok (b : bitmap) (pos : Nat) (hs : Shape b) (hh : Hier b)
    (hpos : pos < b.cnt (b.level - 1)) (hset : b.bit (b.level - 1) pos = true) :
    (_bitmap_clear_bit b pos).1 = BIT_OK ∧ SameShape b (_bitmap_clear_bit b pos).2 ∧
    Hier (_bitmap_clear_bit b pos).2 ∧
    ∀ j, (_bitmap_clear_bit b pos).2.bit (b.level - 1) j =
      (!decide (j = pos) && b.bit (b.level - 1) j) := by
  have hlv := hs.level_pos
  obtain ⟨h1, h2, h3⟩ := clear_one b (b.level - 1) pos hs (by omega) hpos hset
  have hs1 := hs.of_same h2
  have hframe : ∀ k j, ¬ (k = b.level - 1 ∧ j = pos) →
      ({ b with layer := b.layer.set (b.level - 1) (_clear_bit (b.at (b.level - 1)) pos).2 } :
        bitmap).bit k j = b.bit k j := by
    intro k j hne
    rw [h3]
    by_cases hk : k = b.level - 1
    · rw [if_pos hk]
      have : ¬ j = pos := fun e => hne ⟨hk, e⟩
      simp [this, hk]
    · rw [if_neg hk]
  obtain ⟨g1, g2, g3⟩ := _bitmap_clear_bit_loop_spec (b.level - 1) _ (pos / 256) hs1
    (by show b.level - 1 < b.level; omega)
    (by
      intro hi0
      rw [h2.cnt]
      have := hs.cnt_parent (b.level - 1 - 1) (by omega)
      have e : b.level - 1 - 1 + 1 = b.level - 1 := by omega
      rw [e] at this
      omega)
    (by
      intro k hk q' hq'
      have hk' : k + 1 < b.level := hk
      rw [h2.cnt] at hq'
      by_cases hkq2 : k + 1 = b.level - 1 ∧ q' = pos / 256
      · exact Or.inl hkq2
      · right
        exact Hprop_frame h2 hframe (hh k hk' q' hq') (by omega) hkq2)
    (by
      intro _
      refine ⟨pos, by omega, by omega, by rw [h2.cnt]; exact hpos, ?_⟩
      rw [h3, if_pos rfl]
      simp)
  unfold _bitmap_clear_bit
  dsimp only
  rw [if_neg (by rw [h1]; simp)]
  refine ⟨rfl, h2.trans g1, g2, fun j => ?_⟩
  show (_bitmap_clear_bit_loop _ (b.level - 1) (pos / 256)).bit (b.level - 1) j = _
  rw [g3 (b.level - 1) (le_refl _) j, h3, if_pos rfl]

theorem FirstZero.unique {b : bitmap} {k p q : Nat} (hp : FirstZero b k p)
    (hq : FirstZero b k q) : p = q := by
  rcases Nat.lt_trichotomy p q with h | h | h
  · have := hq.2.2 p h; rw [hp.2.1] at this; cases this
  · exact h
  · have := hp.2.2 q h; rw [hq.2.1] at this; cases this

theorem AllSet_or_FirstZero (b : bitmap) (k : Nat) : AllSet b k ∨ ∃ p, FirstZero b k p := by
  by_cases h : ∃ p, p < b.cnt k ∧ b.bit k p = false
  · right
    refine ⟨Nat.find h, (Nat.find_spec h).1, (Nat.find_spec h).2, fun j hj => ?_⟩
    have := Nat.find_min h hj
    have hlt : j < b.cnt k := lt_trans hj (Nat.find_spec h).1
    by_contra hne
    exact this ⟨hlt, by simpa using hne⟩
  · left
    intro j hj
    by_contra hne
    exact h ⟨j, hj, by simpa using hne⟩

theorem AllSet_step {b : bitmap} (hs : Shape b) (hh : Hier b) (k : Nat) (hk : k + 1 < b.level) :
    AllSet b k ↔ AllSet b (k + 1) := by
  have hcp := hs.cnt_parent k hk
  constructor
  · intro h j hj
    have hq : j / 256 < b.cnt k := by omega
    exact (hh k hk _ hq).mp (h _ hq) j (by omega) (by omega) hj
  · intro h q hq
    exact (hh k hk q hq).mpr (fun j _ _ h3 => h j h3)

theorem AllSet_top {b : bitmap} (hs : Shape b) (hh : Hier b) :
    ∀ k, k < b.level → (AllSet b 0 ↔ AllSet b k) := by
  intro k
  induction k with
  | zero => intro _; exact Iff.rfl
  | succ k ih =>
    intro hk
    exact (ih (by omega)).trans (AllSet_step hs hh k hk)

theorem _bitmap_alloc_loop_succ (b : bitmap) (fuel i start pos : Nat) :
    _bitmap_alloc_loop b (fuel + 1) i start pos =
      match _find_first_zero_bit
        ⟨_get_slice_bit_count (b.at i) ((start + pos) * 256),
          (b.at i).area.drop ((start + pos) * 256 / 64)⟩ with
      | none => none
      | some p => _bitmap_alloc_loop b fuel (i + 1) ((start + pos) * 256) p := rfl

theorem _bitmap_alloc_loop_spec (b : bitmap) (hs : Shape b) (hh : Hier b) :
    ∀ (fuel i start pos : Nat), 1 ≤ i → i + fuel = b.level → FirstZero b (i - 1) (start + pos) →
    ∃ start' pos', _bitmap_alloc_loop b fuel i start pos = some (start', pos') ∧
      FirstZero b (b.level - 1) (start' + pos') := by
  intro fuel
  induction fuel with
  | zero =>
    intro i start pos _ hfuel hfz
    refine ⟨start, pos, rfl, ?_⟩
    have e : b.level - 1 = i - 1 := by omega
    rw [e]; exact hfz
  | succ fuel ih =>
    intro i start pos hi hfuel hfz
    obtain ⟨i', rfl⟩ : ∃ i', i = i' + 1 := ⟨i - 1, by omega⟩
    rw [Nat.add_sub_cancel] at hfz
    obtain ⟨f1, f2, f3⟩ := hfz
    have hil : i' + 1 < b.level := by omega
    have hcp := hs.cnt_parent i' hil
    have hcnt := hs.cnt_eq (i' + 1) hil
    have hs256 : 256 * (start + pos) < b.cnt (i' + 1) := by omega
    have hcount := _get_slice_bit_count_eq (b.at (i' + 1)) ((start + pos) * 256) (start + pos)
      (by omega)
    have e64 : (start + pos) * 256 / 64 = 4 * (start + pos) := by omega
    have hpar := hh i' hil (start + pos) f1
    rw [_bitmap_alloc_loop_succ, e64]
    cases hf : _find_first_zero_bit
      ⟨_get_slice_bit_count (b.at (i' + 1)) ((start + pos) * 256),
        (b.at (i' + 1)).area.drop (4 * (start + pos))⟩ with
    | none =>
      exfalso
      have hfull := (slice_none (b.at (i' + 1)) _ (start + pos) hcnt hs256 _ hcount).mp hf
      have := hpar.mpr hfull
      rw [f2] at this; cases this
    | some p =>
      obtain ⟨p1, p2, p3, p4⟩ :=
        (slice_some (b.at (i' + 1)) _ (start + pos) hcnt hs256 _ hcount p).mp hf
      dsimp only
      apply ih (i' + 1 + 1) ((start + pos) * 256) p (by omega) (by omega)
      rw [Nat.add_sub_cancel]
      have e2 : (start + pos) * 256 + p = 256 * (start + pos) + p := by omega
      rw [e2]
      refine ⟨p2, p3, fun j hj => ?_⟩
      by_cases hge : 256 * (start + pos) ≤ j
      · have := p4 (j - 256 * (start + pos)) (by omega)
        have e3 : 256 * (start + pos) + (j - 256 * (start + pos)) = j := by omega
        rw [e3] at this
        exact this
      · have hq : j / 256 < start + pos := by omega
        have hq2 : j / 256 < b.cnt i' := by omega
        exact (hh i' hil (j / 256) hq2).mp (f3 _ hq) j (by omega) (by omega) (by omega)

theorem _bitmap_set_bit_spec (b : bitmap) (p : Nat) (hs : Shape b) (hh : Hier b)
    (hp : p < b.cnt (b.level - 1)) (hclear : b.bit (b.level - 1) p = false) :
    (_bitmap_set_bit b p).1 = BIT_OK ∧ SameShape b (_bitmap_set_bit b p).2 ∧
    Hier (_bitmap_set_bit b p).2 ∧
    ∀ j, (_bitmap_set_bit b p).2.bit (b.level - 1) j =
      (decide (j = p) || b.bit (b.level - 1) j) := by
  have hlv := hs.level_pos
  unfold _bitmap_set_bit
  rw [if_neg (by omega)]
  obtain ⟨g1, g2, g3, _, g5⟩ := _bitmap_set_bit_loop_spec (b.level - 1) b p hs (by omega) hp hclear
    (fun k hk q hq => Or.inr (hh k hk q hq)) (fun h => by omega)
  exact ⟨g1, g2, g3, g5⟩

theorem bitmap_allocbit_fail (b : bitmap) (hs : Shape b) (hh : Hier b)
    (hall : AllSet b (b.level - 1)) : bitmap_allocbit b = .fail := by
  have hlv := hs.level_pos
  have htop := (AllSet_top hs hh (b.level - 1) (by omega)).mpr hall
  have hcnt := hs.cnt_eq 0 (by omega)
  have hle := hs.count_le 0 (by omega)
  have hnone := (_find_first_zero_bit_none (b.at 0) (by omega) (by omega)).mpr
    (fun j hj => htop j (by omega))
  unfold bitmap_allocbit
  rw [hnone]

theorem bitmap_allocbit_ok (b : bitmap) (hs : Shape b) (hh : Hier b) (p : Nat)
    (hfz : FirstZero b (b.level - 1) p) :
    (_bitmap_set_bit b p).1 = BIT_OK ∧ bitmap_allocbit b = .ok p (_bitmap_set_bit b p).2 := by
  have hlv := hs.level_pos
  have hset := _bitmap_set_bit_spec b p hs hh hfz.1 hfz.2.1
  refine ⟨hset.1, ?_⟩
  have hcnt := hs.cnt_eq 0 (by omega)
  have hle := hs.count_le 0 (by omega)
  rcases _find_first_zero_bit_cases (b.at 0) (by omega) (by omega) with
    ⟨p0, h1, h2, h3, h4⟩ | ⟨_, h2⟩
  · have hfz0 : FirstZero b 0 (0 + p0) := by
      rw [Nat.zero_add]; exact ⟨by omega, h3, h4⟩
    obtain ⟨start', pos', g1, g2⟩ :=
      _bitmap_alloc_loop_spec b hs hh (b.level - 1) 1 0 p0 (le_refl 1) (by omega) hfz0
    have e := g2.unique hfz
    unfold bitmap_allocbit
    rw [h1]
    dsimp only
    rw [g1]
    dsimp only
    rw [e, if_pos hset.1]
  · exfalso
    have htop : AllSet b 0 := fun j hj => h2 j (by omega)
    have := (AllSet_top hs hh (b.level - 1) (by omega)).mp htop p hfz.1
    rw [hfz.2.1] at this; cases this

theorem _bitmap_level_loop_bounds : ∀ (fuel : Nat) (i : Int) (l d : Nat), 0 ≤ i →
    l ≤ _bitmap_level_loop fuel i l ∧
    (i < 256 ^ d → d ≤ fuel → _bitmap_level_loop fuel i l ≤ l + d) := by
  intro fuel
  induction fuel with
  | zero =>
    intro i l d _
    exact ⟨le_refl _, fun _ _ => Nat.le_add_right _ _⟩
  | succ fuel ih =>
    intro i l d hi
    unfold _bitmap_level_loop
    by_cases h0 : i = 0
    · rw [if_pos h0]
      exact ⟨le_refl _, fun _ _ => Nat.le_add_right _ _⟩
    · rw [if_neg h0, Int.tdiv_eq_ediv hi (by norm_num)]
      have hq : (0 : Int) ≤ i / 256 := by omega
      refine ⟨le_trans (Nat.le_succ l) (ih (i / 256) (l + 1) 0 hq).1, fun hd hf => ?_⟩
      cases d with
      | zero => simp at hd; omega
      | succ d =>
        have hlt : i / 256 < 256 ^ d := by
          rw [pow_succ] at hd
          omega
        have := (ih (i / 256) (l + 1) d hq).2 hlt (by omega)
        omega

theorem _bitmap_level_loop_pos (n : Int) (h0 : 0 < n) : 1 ≤ _bitmap_level_loop 32 n 0 := by
  have e : _bitmap_level_loop 32 n 0 = _bitmap_level_loop 31 (Int.tdiv n 256) 1 := by
    show (if n = 0 then 0 else _bitmap_level_loop 31 (Int.tdiv n 256) 1) = _
    rw [if_neg (by omega)]
  rw [e, Int.tdiv_eq_ediv (by omega) (by norm_num)]
  exact (_bitmap_level_loop_bounds 31 (n / 256) 1 0 (by omega)).1

theorem _bitmap_level_loop_le (n : Int) (h0 : 0 < n) (h1 : n < 4294967296) :
    _bitmap_level_loop 32 n 0 ≤ 4 := by
  have := (_bitmap_level_loop_bounds 32 n 0 4 (by omega)).2 (by norm_num; omega) (by norm_num)
  omega

theorem _bitmap_layer_loop_length : ∀ (k : Nat) (bits : Int) (acc : List _bits_t),
    (_bitmap_layer_loop k bits acc).length = k + acc.length := by
  intro k
  induction k with
  | zero => intro bits acc; simp [_bitmap_layer_loop]
  | succ k ih =>
    intro bits acc
    unfold _bitmap_layer_loop
    rw [ih, List.length_cons]
    omega

theorem _bitmap_layer_loop_getD : ∀ (k : Nat) (bits : Int) (acc : List _bits_t) (j : Nat)
    (d : _bits_t),
    (_bitmap_layer_loop k bits acc).getD j d =
      if j < k then fresh_layer ((fun x => _div_upward_round x 256)^[k - 1 - j] bits)
      else acc.getD (j - k) d := by
  intro k
  induction k with
  | zero => intro bits acc j d; simp [_bitmap_layer_loop]
  | succ k ih =>
    intro bits acc j d
    unfold _bitmap_layer_loop
    rw [ih]
    by_cases h1 : j < k
    · rw [if_pos h1, if_pos (by omega)]
      have e : k + 1 - 1 - j = (k - 1 - j) + 1 := by omega
      rw [e, Function.iterate_succ_apply]
    · rw [if_neg h1]
      by_cases h2 : j = k
      · subst h2
        rw [if_pos (by omega)]
        have e : j + 1 - 1 - j = 0 := by omega
        rw [e, Nat.sub_self]
        rfl
      · rw [if_neg (by omega)]
        have e : j - k = (j - (k + 1)) + 1 := by omega
        rw [e]
        rfl

theorem div_iter_bounds (n : Int) (h0 : 0 < n) (h1 : n ≤ 2147483392) : ∀ t : Nat,
    0 < (fun x => _div_upward_round x 256)^[t] n ∧
    (fun x => _div_upward_round x 256)^[t] n ≤ n := by
  intro t
  induction t with
  | zero => exact ⟨h0, le_refl _⟩
  | succ t ih =>
    rw [Function.iterate_succ_apply']
    rw [_div_upward_round_eq _ _ (by omega) (by norm_num) (by omega)]
    omega

theorem tb_replicate_zero (m i : Nat) : tb (List.replicate m 0) i = false := by
  unfold tb
  rw [List.getD_eq_getElem?_getD, List.getElem?_replicate]
  split <;> simp

theorem bitmap_create_spec (n : Int) (h0 : 0 < n) (h1 : n ≤ 2147483392) :
    ∃ b, bitmap_create n = some b ∧ Shape b ∧ Hier b ∧ b.max = n ∧ ∀ k j, b.bit k j = false := by
  have hl1 := _bitmap_level_loop_pos n h0
  have hl2 := _bitmap_level_loop_le n h0 (by omega)
  refine ⟨⟨n, _bitmap_level_loop 32 n 0, _bitmap_layer_loop (_bitmap_level_loop 32 n 0) n []⟩,
    ?_, ?_, ?_, rfl, ?_⟩
  · unfold bitmap_create
    rw [if_neg (by omega)]
    dsimp only
    rw [if_neg (by omega)]
  all_goals
    have hat : ∀ k, k < _bitmap_level_loop 32 n 0 →
        (⟨n, _bitmap_level_loop 32 n 0,
          _bitmap_layer_loop (_bitmap_level_loop 32 n 0) n []⟩ : bitmap).at k =
        fresh_layer ((fun x => _div_upward_round x 256)^[_bitmap_level_loop 32 n 0 - 1 - k] n) := by
      intro k hk
      unfold bitmap.at
      dsimp only
      rw [_bitmap_layer_loop_getD, if_pos hk]
  · constructor
    · exact hl1
    · show (_bitmap_layer_loop _ n []).length = _
      rw [_bitmap_layer_loop_length]; rfl
    · show (bitmap.at _ (_bitmap_level_loop 32 n 0 - 1)).count = n
      rw [hat _ (by omega), Nat.sub_self]
      rfl
    · intro k hk
      rw [hat k hk]
      exact (div_iter_bounds n h0 h1 _).1
    · intro k hk
      rw [hat k hk]
      have := (div_iter_bounds n h0 h1 (_bitmap_level_loop 32 n 0 - 1 - k)).2
      show _ ≤ (2147483392 : Int)
      unfold fresh_layer
      dsimp only
      omega
    · intro k hk
      rw [hat k hk]
      have hb := div_iter_bounds n h0 h1 (_bitmap_level_loop 32 n 0 - 1 - k)
      unfold fresh_layer
      dsimp only
      rw [List.length_replicate, _div_upward_round_eq _ _ (by omega) (by norm_num) (by omega)]
      omega
    · intro k hk
      have hk' : k + 1 < _bitmap_level_loop 32 n 0 := hk
      rw [hat k (by omega), hat (k + 1) hk']
      have hb := div_iter_bounds n h0 h1 (_bitmap_level_loop 32 n 0 - 1 - (k + 1))
      have e : _bitmap_level_loop 32 n 0 - 1 - k = (_bitmap_level_loop 32 n 0 - 1 - (k + 1)) + 1 := by
        omega
      rw [e, Function.iterate_succ_apply']
      unfold fresh_layer
      dsimp only
      rw [_div_upward_round_eq _ _ (by omega) (by norm_num) (by omega)]
      omega
  · -- all bits are clear, so no slice is full
    have hzero : ∀ k j, (⟨n, _bitmap_level_loop 32 n 0,
          _bitmap_layer_loop (_bitmap_level_loop 32 n 0) n []⟩ : bitmap).bit k j = false := by
      intro k j
      unfold bitmap.bit
      by_cases hk : k < _bitmap_level_loop 32 n 0
      · rw [hat k hk]; exact tb_replicate_zero _ _
      · unfold bitmap.at
        dsimp only
        rw [_bitmap_layer_loop_getD, if_neg hk]
        simp [tb]
    intro k hk q hq
    have hk' : k + 1 < _bitmap_level_loop 32 n 0 := hk
    unfold Hprop
    rw [hzero]
    constructor
    · intro hh; cases hh
    · intro hh
      exfalso
      have hq' : q < (bitmap.at ⟨n, _bitmap_level_loop 32 n 0,
          _bitmap_layer_loop (_bitmap_level_loop 32 n 0) n []⟩ k).count.toNat := hq
      rw [hat k (by omega)] at hq'
      have hb := div_iter_bounds n h0 h1 (_bitmap_level_loop 32 n 0 - 1 - (k + 1))
      have e : _bitmap_level_loop 32 n 0 - 1 - k = (_bitmap_level_loop 32 n 0 - 1 - (k + 1)) + 1 := by
        omega
      rw [e, Function.iterate_succ_apply'] at hq'
      unfold fresh_layer at hq'
      dsimp only at hq'
      rw [_div_upward_round_eq _ _ (by omega) (by norm_num) (by omega)] at hq'
      have hc : (bitmap.cnt ⟨n, _bitmap_level_loop 32 n 0,
          _bitmap_layer_loop (_bitmap_level_loop 32 n 0) n []⟩ (k + 1)) =
          ((fun x => _div_upward_round x 256)^[_bitmap_level_loop 32 n 0 - 1 - (k + 1)] n).toNat := by
        unfold bitmap.cnt
        rw [hat (k + 1) hk']
        rfl
      have := hh (256 * q) (le_refl _) (by omega) (by rw [hc]; omega)
      rw [hzero] at this
      cases this
  · intro k j
    unfold bitmap.bit
    by_cases hk : k < _bitmap_level_loop 32 n 0
    · rw [hat k hk]; exact tb_replicate_zero _ _
    · unfold bitmap.at
      dsimp only
      rw [_bitmap_layer_loop_getD, if_neg hk]
      simp [tb]

theorem Inv.cnt_finest {n : Int} {s : bitmap} (h : Inv n s) : (s.cnt (s.level - 1) : Int) = n := by
  have hlv := h.shape.level_pos
  rw [← h.shape.cnt_eq _ (by omega), h.shape.max_eq, h.max_eq]

theorem Inv.n_pos {n : Int} {s : bitmap} (h : Inv n s) : 0 < n := by
  have hlv := h.shape.level_pos
  have := h.shape.count_pos (s.level - 1) (by omega)
  rw [h.shape.max_eq, h.max_eq] at this
  exact this

theorem Inv.same_inv {n : Int} {s s' : bitmap} (h : Inv n s) (hs : SameShape s s')
    (hh : Hier s') : Inv n s' :=
  ⟨h.shape.of_same hs, hh, by rw [hs.1, h.max_eq]⟩

/-- Full description of a `bitmap_allocbit` call on a state that satisfies the invariant. -/
theorem Inv.alloc {n : Int} {s : bitmap} (h : Inv n s) :
    (bitmap_allocbit s = .fail ∧ ∀ j : Nat, (j : Int) < n → s.finest j = true) ∨
    (∃ bit s', bitmap_allocbit s = .ok bit s' ∧ Inv n s' ∧ (bit : Int) < n ∧
      s.finest bit = false ∧ (∀ j, j < bit → s.finest j = true) ∧
      ∀ j, s'.finest j = (decide (j = bit) || s.finest j)) := by
  have hc := h.cnt_finest
  rcases AllSet_or_FirstZero s (s.level - 1) with hall | ⟨p, hp⟩
  · left
    exact ⟨bitmap_allocbit_fail s h.shape h.hier hall, fun j hj => hall j (by omega)⟩
  · right
    obtain ⟨_, g2⟩ := bitmap_allocbit_ok s h.shape h.hier p hp
    obtain ⟨_, k2, k3, k4⟩ := _bitmap_set_bit_spec s p h.shape h.hier hp.1 hp.2.1
    refine ⟨p, _, g2, h.same_inv k2 k3, by have := hp.1; omega, hp.2.1, hp.2.2, fun j => ?_⟩
    unfold bitmap.finest
    rw [k2.2.1]
    exact k4 j

/-- Full description of a `bitmap_freebit` call on a state that satisfies the invariant. -/
theorem Inv.free {n : Int} {s : bitmap} (h : Inv n s) (bit : Nat) :
    ((bitmap_freebit s bit).1 = BIT_FAIL ∧ (bitmap_freebit s bit).2 = s ∧
      ¬ ((bit : Int) < n ∧ s.finest bit = true)) ∨
    ((bitmap_freebit s bit).1 = BIT_OK ∧ Inv n (bitmap_freebit s bit).2 ∧ (bit : Int) < n ∧
      s.finest bit = true ∧
      ∀ j, (bitmap_freebit s bit).2.finest j = (!decide (j = bit) && s.finest j)) := by
  have hc := h.cnt_finest
  have hm := h.max_eq
  unfold bitmap_freebit
  by_cases hge : (bit : Int) ≥ s.max
  · left
    rw [if_pos hge]
    exact ⟨rfl, rfl, fun hh => by omega⟩
  · rw [if_neg hge]
    cases hb : s.finest bit with
    | false =>
      left
      rw [_bitmap_clear_bit_fail s bit hb]
      exact ⟨rfl, rfl, fun hh => by simp at hh⟩
    | true =>
      right
      obtain ⟨k1, k2, k3, k4⟩ := _bitmap_clear_bit_ok s bit h.shape h.hier (by omega) hb
      refine ⟨k1, h.same_inv k2 k3, by omega, rfl, fun j => ?_⟩
      unfold bitmap.finest
      rw [k2.2.1]
      exact k4 j

theorem Reachable.inv {n : Int} {s : bitmap} (hn : n ≤ 2147483392) (hr : Reachable n s) :
    Inv n s := by
  induction hr with
  | create hc =>
    have h0 : 0 < n := by
      unfold bitmap_create at hc
      by_contra hle
      rw [if_pos (by omega)] at hc
      cases hc
    obtain ⟨b, g1, g2, g3, g4, _⟩ := bitmap_create_spec n h0 hn
    rw [g1] at hc
    cases hc
    exact ⟨g2, g3, g4⟩
  | alloc _ ha ih =>
    rcases ih.alloc with ⟨g1, _⟩ | ⟨bit, s', g1, g2, _⟩
    · rw [g1] at ha; cases ha
    · rw [g1] at ha
      cases ha
      exact g2
  | free bit _ ih =>
    rcases ih.free bit with ⟨_, g2, _⟩ | ⟨_, g2, _⟩
    · rw [g2]; exact ih
    · exact g2

theorem alloc_many_succ (k : Nat) (s : bitmap) :
    alloc_many (k + 1) s =
      match bitmap_allocbit s with
      | .ok bit s' => (alloc_many k s').map (fun r => (bit :: r.1, r.2))
      | _ => none := rfl

theorem run_ops_nil (st : bitmap × (Nat → Bool)) : run_ops [] st = some st := rfl

theorem run_ops_alloc (ops : List bitmap_op) (s : bitmap) (live : Nat → Bool) :
    run_ops (.alloc :: ops) (s, live) =
      match bitmap_allocbit s with
      | .ok bit s' => run_ops ops (s', fun j => decide (j = bit) || live j)
      | .fail => run_ops ops (s, live)
      | .abort => none := rfl

theorem run_ops_free (bit : Nat) (ops : List bitmap_op) (s : bitmap) (live : Nat → Bool) :
    run_ops (.free bit :: ops) (s, live) =
      if (bitmap_freebit s bit).1 = 0 then
        run_ops ops ((bitmap_freebit s bit).2, fun j => !decide (j = bit) && live j)
      else run_ops ops ((bitmap_freebit s bit).2, live) := rfl

theorem alloc_many_spec (n : Int) : ∀ (k m : Nat) (s : bitmap), Inv n s → Reachable n s →
    (∀ j, s.finest j = decide (j < m)) → ((m + k : Nat) : Int) ≤ n →
    ∃ s', alloc_many k s = some (List.range' m k, s') ∧ Inv n s' ∧ Reachable n s' ∧
      ∀ j, s'.finest j = decide (j < m + k) := by
  intro k
  induction k with
  | zero =>
    intro m s hi hr hf _
    exact ⟨s, rfl, hi, hr, hf⟩
  | succ k ih =>
    intro m s hi hr hf hle
    rcases hi.alloc with ⟨_, g2⟩ | ⟨bit, s', g1, g2, _, g4, g5, g6⟩
    · have := g2 m (by push_cast at hle ⊢; omega)
      rw [hf] at this
      simp at this
    · have hbm : bit = m := by
        rcases Nat.lt_trichotomy bit m with h | h | h
        · rw [hf] at g4; simp at g4; omega
        · exact h
        · have := g5 m h
          rw [hf] at this
          simp at this
      subst hbm
      obtain ⟨s'', k1, k2, k3, k4⟩ := ih (bit + 1) s' g2 (Reachable.alloc hr g1)
        (by
          intro j
          rw [g6, hf]
          by_cases h1 : j = bit
          · simp [h1]
          · have : (j < bit + 1) ↔ (j < bit) := by omega
            simp [h1, this])
        (by push_cast at hle ⊢; omega)
      refine ⟨s'', ?_, k2, k3, fun j => ?_⟩
      · rw [alloc_many_succ, g1]
        dsimp only
        rw [k1]
        rfl
      · rw [k4]
        congr 1
        apply propext
        omega

theorem bitmap_fill (n : Int) (h0 : 0 < n) (hn : n ≤ 2147483392) :
    ∃ s0 sn, bitmap_create n = some s0 ∧
      alloc_many n.toNat s0 = some (List.range n.toNat, sn) ∧ Reachable n sn ∧
      (∀ j : Nat, (j : Int) < n → sn.finest j = true) ∧ bitmap_allocbit sn = .fail := by
  obtain ⟨s0, g1, g2, g3, g4, g5⟩ := bitmap_create_spec n h0 hn
  have hi : Inv n s0 := ⟨g2, g3, g4⟩
  obtain ⟨sn, k1, k2, k3, k4⟩ := alloc_many_spec n n.toNat 0 s0 hi (Reachable.create g1)
    (fun j => by
      unfold bitmap.finest
      rw [g5]
      simp)
    (by omega)
  have hfull : ∀ j : Nat, (j : Int) < n → sn.finest j = true := by
    intro j hj
    rw [k4]
    simp
    omega
  refine ⟨s0, sn, g1, ?_, k3, hfull, ?_⟩
  · rw [k1, List.range_eq_range']
  · rcases k2.alloc with ⟨a1, _⟩ | ⟨bit, _, _, _, a3, a4, _⟩
    · exact a1
    · rw [hfull bit a3] at a4
      cases a4

/-- C1 (first-zero rule).  In every state reachable from `bitmap_create n`, a
successful `bitmap_allocbit` returns the smallest index in `[0, n)` whose
finest-layer bit is clear; in particular, when every bit is allocated and bit
`b < n` is freed, the free succeeds and the next allocation returns exactly `b`. -/
theorem bitmap_allocbit_first_zero (n : Int) (hn : n ≤ 2147483392) (s : bitmap)
    (hr : Reachable n s) :
    (∀ bit s', bitmap_allocbit s = .ok bit s' →
      (bit : Int) < n ∧ s.finest bit = false ∧ ∀ j, j < bit → s.finest j = true) ∧
    (∀ b : Nat, (b : Int) < n → (∀ j : Nat, (j : Int) < n → s.finest j = true) →
      (bitmap_freebit s b).1 = BIT_OK ∧
      ∃ s', bitmap_allocbit (bitmap_freebit s b).2 = .ok b s') := by
  have hi := hr.inv hn
  constructor
  · intro bit s' ha
    rcases hi.alloc with ⟨g1, _⟩ | ⟨bit', s'', g1, _, g3, g4, g5, _⟩
    · rw [g1] at ha; cases ha
    · rw [g1] at ha
      cases ha
      exact ⟨g3, g4, g5⟩
  · intro b hb hfull
    rcases hi.free b with ⟨_, _, g3⟩ | ⟨g1, g2, _, _, g5⟩
    · exact absurd ⟨hb, hfull b hb⟩ g3
    · refine ⟨g1, ?_⟩
      rcases g2.alloc with ⟨_, k2⟩ | ⟨bit, s', k1, _, k3, k4, k5, _⟩
      · have := k2 b hb
        rw [g5] at this
        simp at this
      · have hbb : bit = b := by
          rcases Nat.lt_trichotomy bit b with h | h | h
          · rw [g5, hfull bit k3] at k4
            have : ¬ bit = b := by omega
            simp [this] at k4
          · exact h
          · have := k5 b h
            rw [g5] at this
            simp at this
        subst hbb
        exact ⟨s', k1⟩

/-- C2.  For `n` in the range where the `int` arithmetic of `bitmap_create`
does not overflow: in every reachable state `bitmap_allocbit` returns
`BIT_FAIL` iff all `n` bits are allocated; and on a fresh `n`-bit bitmap the
first `n` calls return `0, 1, ..., n - 1` in that order and the next call fails. -/
theorem bitmap_allocbit_fail_iff_full (n : Int) (hn : n ≤ 2147483392) :
    (∀ s, Reachable n s →
      (bitmap_allocbit s = .fail ↔ ∀ j : Nat, (j : Int) < n → s.finest j = true)) ∧
    (0 < n → ∃ s0 sn, bitmap_create n = some s0 ∧
      alloc_many n.toNat s0 = some (List.range n.toNat, sn) ∧ bitmap_allocbit sn = .fail) := by
  constructor
  · intro s hr
    have hi := hr.inv hn
    rcases hi.alloc with ⟨g1, g2⟩ | ⟨bit, s', g1, _, g3, g4, _⟩
    · exact ⟨fun _ => g2, fun _ => g1⟩
    · constructor
      · intro h; rw [g1] at h; cases h
      · intro h
        rw [h bit g3] at g4
        cases g4
  · intro h0
    obtain ⟨s0, sn, g1, g2, _, _, g5⟩ := bitmap_fill n h0 hn
    exact ⟨s0, sn, g1, g2, g5⟩

/-- C3 (double-free detection).  For every bitmap state and every `bit ≥ 0`,
`bitmap_freebit` returns `0` iff `bit < max` and the finest-layer bit is set;
whenever it returns non-zero the whole bitmap (every layer) is unchanged. -/
theorem bitmap_freebit_detects (s : bitmap) (bit : Nat) :
    ((bitmap_freebit s bit).1 = 0 ↔ ((bit : Int) < s.max ∧ s.finest bit = true)) ∧
    ((bitmap_freebit s bit).1 ≠ 0 → (bitmap_freebit s bit).2 = s) := by
  unfold bitmap_freebit
  by_cases hge : (bit : Int) ≥ s.max
  · rw [if_pos hge]
    refine ⟨⟨fun h => by simp at h, fun h => by omega⟩, fun _ => rfl⟩
  · rw [if_neg hge]
    cases hb : s.finest bit with
    | false =>
      rw [_bitmap_clear_bit_fail s bit hb]
      refine ⟨⟨fun h => by simp at h, fun h => by simp at h⟩, fun _ => rfl⟩
    | true =>
      have hset : tb (s.at (s.level - 1)).area bit = true := hb
      have hne : ¬ (_clear_bit (s.at (s.level - 1)) bit).1 ≠ BIT_OK := by
        unfold _clear_bit
        dsimp only
        rw [and_63_eq_mod, bmap_testclear_bit_eq]
        have : (((s.at (s.level - 1)).area.getD (bit / 64) 0).testBit (bit % 64)) = true := hset
        rw [if_pos this]
        simp
      unfold _bitmap_clear_bit
      dsimp only
      rw [if_neg hne]
      refine ⟨⟨fun _ => ⟨by omega, rfl⟩, fun _ => rfl⟩, fun h => absurd rfl h⟩

theorem run_ops_spec (n : Int) : ∀ (ops : List bitmap_op) (s : bitmap) (live : Nat → Bool)
    (s' : bitmap) (live' : Nat → Bool), Inv n s → (∀ j, s.finest j = live j) →
    run_ops ops (s, live) = some (s', live') → ∀ j, s'.finest j = live' j := by
  intro ops
  induction ops with
  | nil =>
    intro s live s' live' _ hl hrun
    rw [run_ops_nil] at hrun
    cases hrun
    exact hl
  | cons op ops ih =>
    intro s live s' live' hi hl hrun
    cases op with
    | alloc =>
      rw [run_ops_alloc] at hrun
      rcases hi.alloc with ⟨g1, _⟩ | ⟨bit, s1, g1, g2, _, _, _, g6⟩
      · rw [g1] at hrun
        exact ih s live s' live' hi hl hrun
      · rw [g1] at hrun
        exact ih s1 _ s' live' g2 (fun j => by rw [g6, hl]) hrun
    | free bit =>
      rw [run_ops_free] at hrun
      rcases hi.free bit with ⟨g1, g2, _⟩ | ⟨g1, g2, _, _, g5⟩
      · rw [if_neg (by rw [g1]; decide), g2] at hrun
        exact ih s live s' live' hi hl hrun
      · rw [if_pos g1] at hrun
        exact ih _ _ s' live' g2 (fun j => by rw [g5, hl]) hrun

/-- C4 (frame).  In every reachable state a successful `bitmap_allocbit`
returning `bit` changes the finest layer only by setting `bit`, which was
clear, and a successful `bitmap_freebit bit` changes it only by clearing
`bit`; hence after any sequence of calls on a fresh bitmap the set bits of the
finest layer are exactly the bits allocated and not yet freed. -/
theorem bitmap_finest_frame (n : Int) (hn : n ≤ 2147483392) :
    (∀ s, Reachable n s →
      (∀ bit s', bitmap_allocbit s = .ok bit s' →
        s.finest bit = false ∧ ∀ j, s'.finest j = (decide (j = bit) || s.finest j)) ∧
      (∀ bit, (bitmap_freebit s bit).1 = 0 →
        ∀ j, (bitmap_freebit s bit).2.finest j = (!decide (j = bit) && s.finest j))) ∧
    (∀ s0 ops s' live', bitmap_create n = some s0 →
      run_ops ops (s0, fun _ => false) = some (s', live') → ∀ j, s'.finest j = live' j) := by
  constructor
  · intro s hr
    have hi := hr.inv hn
    constructor
    · intro bit s' ha
      rcases hi.alloc with ⟨g1, _⟩ | ⟨bit', s'', g1, _, _, g4, _, g6⟩
      · rw [g1] at ha; cases ha
      · rw [g1] at ha
        cases ha
        exact ⟨g4, g6⟩
    · intro bit hret
      rcases hi.free bit with ⟨g1, _, _⟩ | ⟨_, _, _, _, g5⟩
      · rw [g1] at hret; cases hret
      · exact g5
  · intro s0 ops s' live' hc hrun
    have hi := (Reachable.create hc).inv hn
    have h0 := hi.n_pos
    obtain ⟨b, g1, _, _, _, g5⟩ := bitmap_create_spec n h0 hn
    rw [g1] at hc
    cases hc
    exact run_ops_spec n ops _ _ s' live' hi (fun j => g5 _ j) hrun

theorem bitmap_allocbit_first_zero_witness :
    (((0 : Nat) : Int) < 300 ∧
      bitmap.finest ⟨300, 2, [⟨2, [0]⟩, ⟨300, [0, 0, 0, 0, 0]⟩]⟩ 0 = false ∧
      ∀ j, j < 0 → bitmap.finest ⟨300, 2, [⟨2, [0]⟩, ⟨300, [0, 0, 0, 0, 0]⟩]⟩ j = true) ∧
    (∃ s0 sn, bitmap_create 1048576 = some s0 ∧
      alloc_many 1048576 s0 = some (List.range 1048576, sn) ∧
      (bitmap_freebit sn 12345).1 = BIT_OK ∧
      ∃ s', bitmap_allocbit (bitmap_freebit sn 12345).2 = .ok 12345 s') := by
  constructor
  · exact (bitmap_allocbit_first_zero 300 (by norm_num)
      ⟨300, 2, [⟨2, [0]⟩, ⟨300, [0, 0, 0, 0, 0]⟩]⟩ (Reachable.create rfl)).1 0
      ⟨300, 2, [⟨2, [0]⟩, ⟨300, [1, 0, 0, 0, 0]⟩]⟩ rfl
  · obtain ⟨s0, sn, g1, g2, g3, g4, _⟩ := bitmap_fill 1048576 (by norm_num) (by norm_num)
    exact ⟨s0, sn, g1, g2,
      (bitmap_allocbit_first_zero 1048576 (by norm_num) sn g3).2 12345 (by norm_num) g4⟩

theorem bitmap_allocbit_fail_iff_full_witness :
    (bitmap_allocbit ⟨3, 1, [⟨3, [7]⟩]⟩ = .fail ↔
      ∀ j : Nat, (j : Int) < 3 → bitmap.finest ⟨3, 1, [⟨3, [7]⟩]⟩ j = true) ∧
    (∃ s0 sn, bitmap_create 1048576 = some s0 ∧
      alloc_many 1048576 s0 = some (List.range 1048576, sn) ∧ bitmap_allocbit sn = .fail) := by
  have hr : Reachable 3 ⟨3, 1, [⟨3, [7]⟩]⟩ :=
    @Reachable.alloc 3 ⟨3, 1, [⟨3, [3]⟩]⟩ _ 2
      (@Reachable.alloc 3 ⟨3, 1, [⟨3, [1]⟩]⟩ _ 1
        (@Reachable.alloc 3 ⟨3, 1, [⟨3, [0]⟩]⟩ _ 0 (Reachable.create rfl) rfl) rfl) rfl
  exact ⟨(bitmap_allocbit_fail_iff_full 3 (by norm_num)).1 _ hr,
    (bitmap_allocbit_fail_iff_full 1048576 (by norm_num)).2 (by norm_num)⟩

theorem bitmap_finest_frame_witness :
    (bitmap.finest ⟨300, 2, [⟨2, [0]⟩, ⟨300, [0, 0, 0, 0, 0]⟩]⟩ 0 = false ∧
      ∀ j, bitmap.finest ⟨300, 2, [⟨2, [0]⟩, ⟨300, [1, 0, 0, 0, 0]⟩]⟩ j =
        (decide (j = 0) || bitmap.finest ⟨300, 2, [⟨2, [0]⟩, ⟨300, [0, 0, 0, 0, 0]⟩]⟩ j)) ∧
    (run_ops [.alloc, .alloc, .free 0, .free 5, .alloc]
        (⟨300, 2, [⟨2, [0]⟩, ⟨300, [0, 0, 0, 0, 0]⟩]⟩, fun _ => false) =
        some (⟨300, 2, [⟨2, [0]⟩, ⟨300, [3, 0, 0, 0, 0]⟩]⟩,
          fun j => decide (j = 0) || (!decide (j = 0) && (decide (j = 1) ||
            (decide (j = 0) || false)))) ∧
      ∀ j, bitmap.finest ⟨300, 2, [⟨2, [0]⟩, ⟨300, [3, 0, 0, 0, 0]⟩]⟩ j =
        (decide (j = 0) || (!decide (j = 0) && (decide (j = 1) || (decide (j = 0) || false))))) := by
  constructor
  · exact ((bitmap_finest_frame 300 (by norm_num)).1 _ (Reachable.create rfl)).1 0 _ rfl
  · exact ⟨rfl, (bitmap_finest_frame 300 (by norm_num)).2
      ⟨300, 2, [⟨2, [0]⟩, ⟨300, [0, 0, 0, 0, 0]⟩]⟩
      [.alloc, .alloc, .free 0, .free 5, .alloc]
      ⟨300, 2, [⟨2, [0]⟩, ⟨300, [3, 0, 0, 0, 0]⟩]⟩
      (fun j => decide (j = 0) || (!decide (j = 0) && (decide (j = 1) ||
            (decide (j = 0) || false)))) rfl rfl⟩

theorem _mempool_cpu_b_cnt_le (cpu : Int) : _mempool_cpu_b_cnt cpu ≤ 64 := by
  unfold _mempool_cpu_b_cnt
  dsimp only
  generalize (if 0 > cpu then (64 : Int) else cpu).toNat * 5 % 4294967296 / 4 = b
  split <;> omega

theorem _mempool_b_cnt_facts (cpu : Int) (count : Nat) (hcount : 0 < count)
    (hguard : _mempool_cpu_b_cnt cpu ≠ 0) :
    1 ≤ _mempool_b_cnt cpu count ∧ _mempool_b_cnt cpu count ≤ 64 ∧
    _mempool_b_cnt cpu count * _mempool_b_cnt cpu count ≤ count := by
  have hb1 := _mempool_cpu_b_cnt_le cpu
  unfold _mempool_b_cnt
  dsimp only
  by_cases hlt : count / _mempool_cpu_b_cnt cpu < 256
  · rw [if_pos hlt]
    have h1 : count < 256 * _mempool_cpu_b_cnt cpu := by
      have := (Nat.div_lt_iff_lt_mul (Nat.pos_of_ne_zero hguard)).mp hlt
      omega
    by_cases h256 : count < 256
    · have e : count / 256 = 0 := by omega
      rw [e]
      simp
      omega
    · have hN : (if count % 256 ≠ 0 ∨ 0 = count / 256 then count / 256 + 1 else count / 256)
          ≤ count / 256 + 1 := by split <;> omega
      have hN1 : 1 ≤ (if count % 256 ≠ 0 ∨ 0 = count / 256 then count / 256 + 1
          else count / 256) := by split <;> omega
      refine ⟨hN1, by omega, ?_⟩
      calc _ ≤ (if count % 256 ≠ 0 ∨ 0 = count / 256 then count / 256 + 1 else count / 256) * 64 :=
            Nat.mul_le_mul_left _ (by omega)
        _ ≤ count := by omega
  · rw [if_neg hlt]
    have h1 : 256 * _mempool_cpu_b_cnt cpu ≤ count := by
      have := (Nat.le_div_iff_mul_le (Nat.pos_of_ne_zero hguard)).mp (Nat.le_of_not_lt hlt)
      omega
    refine ⟨Nat.pos_of_ne_zero hguard, hb1, ?_⟩
    calc _ ≤ _mempool_cpu_b_cnt cpu * 64 := Nat.mul_le_mul_left _ hb1
      _ ≤ count := by omega

theorem _mempool_create_bitmaps_cons (bits : Nat) (rest : List Nat) :
    _mempool_create_bitmaps (bits :: rest) =
      (bitmap_create (wrap_int (bits : Int))).bind fun bm =>
        (_mempool_create_bitmaps rest).map fun bms => bm :: bms := by
  rw [_mempool_create_bitmaps]

theorem _mempool_create_bitmaps_spec : ∀ (l : List Nat) (maps : List bitmap),
    _mempool_create_bitmaps l = some maps →
    maps.length = l.length ∧
    ∀ i, i < l.length → bitmap_create (wrap_int ((l.getD i 0 : Nat) : Int)) =
      some (maps.getD i ⟨0, 0, []⟩) := by
  intro l
  induction l with
  | nil =>
    intro maps h
    have e : _mempool_create_bitmaps [] = some [] := rfl
    rw [e] at h
    injection h with h
    subst h
    exact ⟨rfl, fun i hi => absurd hi (Nat.not_lt_zero i)⟩
  | cons bits rest ih =>
    intro maps h
    rw [_mempool_create_bitmaps_cons] at h
    cases hb : bitmap_create (wrap_int (bits : Int)) with
    | none => rw [hb] at h; cases h
    | some bm =>
      rw [hb, Option.some_bind] at h
      cases hr : _mempool_create_bitmaps rest with
      | none => rw [hr] at h; cases h
      | some bms =>
        rw [hr, Option.map_some'] at h
        injection h with h
        subst h
        obtain ⟨g1, g2⟩ := ih bms hr
        refine ⟨by rw [List.length_cons, List.length_cons, g1], fun i hi => ?_⟩
        cases i with
        | zero => exact hb
        | succ i =>
          rw [List.length_cons] at hi
          exact g2 i (by omega)

theorem _mempool_bits_in_map_spec (N count : Nat) (hN : 1 ≤ N) :
    (_mempool_bits_in_map N count).length = N ∧
    ∀ i, i < N → (_mempool_bits_in_map N count).getD i 0 = pool_bits N (count / N) count i := by
  unfold _mempool_bits_in_map pool_bits
  dsimp only
  by_cases h : N * (count / N) < count
  · rw [if_pos h]
    refine ⟨by simp; omega, fun i hi => ?_⟩
    rw [List.getD_eq_getElem?_getD]
    by_cases hi2 : i + 1 = N
    · rw [if_pos hi2, List.getElem?_append_right (by simp; omega)]
      have : i - (List.replicate (N - 1) (count / N)).length = 0 := by simp; omega
      rw [this]
      rfl
    · rw [if_neg hi2, List.getElem?_append_left (by simp; omega), List.getElem?_replicate,
        if_pos (by omega)]
      rfl
  · rw [if_neg h]
    refine ⟨by simp, fun i hi => ?_⟩
    rw [List.getD_eq_getElem?_getD, List.getElem?_replicate, if_pos hi]
    have : count - N * (count / N) = 0 := by omega
    rw [this]
    split <;> rfl

theorem bitmap_create_some {n : Int} {b : bitmap} (h : bitmap_create n = some b) :
    0 < n ∧ b.max = n := by
  unfold bitmap_create at h
  by_cases h0 : n ≤ 0
  · rw [if_pos h0] at h; cases h
  · rw [if_neg h0] at h
    dsimp only at h
    by_cases h6 : _bitmap_level_loop 32 n 0 > 6
    · rw [if_pos h6] at h; cases h
    · rw [if_neg h6] at h
      injection h with h
      subst h
      exact ⟨by omega, rfl⟩

theorem mempool_create_inv (cpu : Int) (size count : Nat) (p0 : mempool)
    (hcount : count < 4294967296) (hc : mempool_create cpu size count = some p0)
    (hb : (∀ i, (p0.map i).max ≤ 2147483392) ∨ count ≤ 2147483392) :
    PoolInv size count (_mempool_b_cnt cpu count) (count / _mempool_b_cnt cpu count) p0 ∧
    p0.used = 0 := by
  unfold mempool_create at hc
  by_cases h0 : count = 0
  · rw [if_pos h0] at hc; cases hc
  rw [if_neg h0] at hc
  by_cases hg : _mempool_cpu_b_cnt cpu = 0
  · rw [if_pos hg] at hc; cases hc
  rw [if_neg hg] at hc
  dsimp only at hc
  obtain ⟨hN1, hN64, hNN⟩ := _mempool_b_cnt_facts cpu count (Nat.pos_of_ne_zero h0) hg
  generalize _mempool_b_cnt cpu count = N at *
  obtain ⟨hlen, hget⟩ := _mempool_bits_in_map_spec N count hN1
  cases hm : _mempool_create_bitmaps (_mempool_bits_in_map N count) with
  | none => rw [hm] at hc; cases hc
  | some maps =>
    rw [hm, Option.map_some'] at hc
    injection hc with hc
    subst hc
    obtain ⟨g1, g2⟩ := _mempool_create_bitmaps_spec _ _ hm
    rw [hlen] at g1 g2
    have htotal : N * (count / N) ≤ count := Nat.mul_div_le count N
    have hrem : count < N * (count / N) + N := by
      have := Nat.div_add_mod count N
      have := Nat.mod_lt count (show 0 < N by omega)
      omega
    have havg : N ≤ count / N := (Nat.le_div_iff_mul_le (by omega)).mpr hNN
    have havle : count / N ≤ count := Nat.div_le_self _ _
    generalize count / N = avg at *
    have hmul : avg ≤ N * avg := Nat.le_mul_of_pos_left _ (by omega)
    have hbits : ∀ i, i < N → bitmap_create ((pool_bits N avg count i : Nat) : Int) =
        some (maps.getD i ⟨0, 0, []⟩) ∧ pool_bits N avg count i ≤ 2147483392 := by
      intro i hi
      have hc1 := g2 i hi
      rw [hget i hi] at hc1
      have hlt : pool_bits N avg count i < 4294967296 := by
        unfold pool_bits; split <;> omega
      obtain ⟨k1, k2⟩ := bitmap_create_some hc1
      have hw : wrap_int ((pool_bits N avg count i : Nat) : Int) =
          ((pool_bits N avg count i : Nat) : Int) := by
        unfold wrap_int at k1 ⊢; omega
      rw [hw] at hc1
      refine ⟨hc1, ?_⟩
      rcases hb with hb | hb
      · have hbi := hb i
        unfold mempool.map at hbi
        dsimp only at hbi
        rw [k2, hw] at hbi
        omega
      · have : pool_bits N avg count i ≤ count := by
          unfold pool_bits; split <;> omega
        omega
    have hlast := (hbits (N - 1) (by omega)).2
    have hlast' : avg + (count - N * avg) ≤ 2147483392 := by
      unfold pool_bits at hlast
      rw [if_pos (by omega)] at hlast
      exact hlast
    refine ⟨⟨rfl, rfl, rfl, ?_, g1, hN1, havg, htotal, hrem, hcount, ?_, hlast'⟩, rfl⟩
    · show wrap_int ((avg : Nat) : Int) = _
      unfold wrap_int; omega
    · intro i hi
      obtain ⟨k1, k2⟩ := hbits i hi
      exact (Reachable.create k1).inv (by omega)

theorem pool_bits_sum {size count N avg : Nat} {p : mempool} (h : PoolInv size count N avg p)
    (i bit : Nat) (hi : i < N) (hbit : bit < pool_bits N avg count i) :
    i * avg + bit < count ∧ (i + 1 < N → bit < avg) := by
  have h1 := h.total
  have h2 := h.N_pos
  unfold pool_bits at hbit
  by_cases hl : i + 1 = N
  · rw [if_pos hl] at hbit
    subst hl
    have e : (i + 1) * avg = i * avg + avg := by ring
    rw [e] at h1 hbit
    exact ⟨by omega, fun hh => by omega⟩
  · rw [if_neg hl] at hbit
    have h3 : (i + 1) * avg ≤ N * avg := Nat.mul_le_mul_right _ (by omega)
    have e : (i + 1) * avg = i * avg + avg := by ring
    rw [e] at h3
    exact ⟨by omega, fun _ => hbit⟩

theorem slot_decode {size count N avg : Nat} {p : mempool} (h : PoolInv size count N avg p)
    (i bit : Nat) (hi : i < N) (hbit : bit < pool_bits N avg count i) :
    p.slot_idx (i * avg + bit) = i ∧ p.slot_bit (i * avg + bit) = bit := by
  have hidx : p.slot_idx (i * avg + bit) = i := by
    unfold mempool.slot_idx
    rw [h.avg_eq, h.cnt, Int.toNat_ofNat, Int.toNat_ofNat]
    have hpos : 0 < avg := lt_of_lt_of_le h.N_pos h.N_le_avg
    by_cases hl : i + 1 = N
    · have : i ≤ (i * avg + bit) / avg := (Nat.le_div_iff_mul_le hpos).mpr (by omega)
      omega
    · have hb := (pool_bits_sum h i bit hi hbit).2 (by omega)
      have : (i * avg + bit) / avg = i :=
        Nat.div_eq_of_lt_le (by omega) (by rw [Nat.succ_mul]; omega)
      omega
  refine ⟨hidx, ?_⟩
  unfold mempool.slot_bit
  rw [hidx, h.avg_eq, Int.toNat_ofNat]
  omega

theorem slot_encode {size count N avg : Nat} {p : mempool} (h : PoolInv size count N avg p)
    (pos : Nat) :
    p.slot_idx pos < N ∧ pos = p.slot_idx pos * avg + p.slot_bit pos ∧
    (pos < count → p.slot_bit pos < pool_bits N avg count (p.slot_idx pos)) := by
  have hpos : 0 < avg := lt_of_lt_of_le h.N_pos h.N_le_avg
  have hN := h.N_pos
  have hle : p.slot_idx pos * avg ≤ pos := by
    unfold mempool.slot_idx
    rw [h.avg_eq, h.cnt, Int.toNat_ofNat, Int.toNat_ofNat]
    calc min (pos / avg) (N - 1) * avg ≤ pos / avg * avg :=
          Nat.mul_le_mul_right _ (Nat.min_le_left _ _)
      _ ≤ pos := Nat.div_mul_le_self pos avg
  have hidx : p.slot_idx pos = min (pos / avg) (N - 1) := by
    unfold mempool.slot_idx
    rw [h.avg_eq, h.cnt, Int.toNat_ofNat, Int.toNat_ofNat]
  have hbit : p.slot_bit pos = pos - p.slot_idx pos * avg := by
    unfold mempool.slot_bit
    rw [h.avg_eq, Int.toNat_ofNat]
  refine ⟨by rw [hidx]; omega, by omega, fun hlt => ?_⟩
  rw [hbit]
  unfold pool_bits
  by_cases hl : p.slot_idx pos + 1 = N
  · rw [if_pos hl]
    have e : N * avg = p.slot_idx pos * avg + avg := by rw [← hl]; ring
    have := h.total
    omega
  · rw [if_neg hl]
    have hq : p.slot_idx pos = pos / avg := by omega
    rw [hq]
    have := Nat.div_add_mod pos avg
    have := Nat.mod_lt pos hpos
    have e : avg * (pos / avg) = pos / avg * avg := Nat.mul_comm _ _
    omega

theorem map_set (p : mempool) (i : Nat) (bm : bitmap) (hi : i < p.b_map.length) (k : Nat)
    (maps : List bitmap) (hm : maps = p.b_map.set i bm) :
    maps.getD k ⟨0, 0, []⟩ = if k = i then bm else p.map k := by
  subst hm
  unfold mempool.map
  rw [List.getD_eq_getElem?_getD, List.getD_eq_getElem?_getD, List.getElem?_set]
  by_cases h : k = i
  · subst h; simp [hi]
  · have : ¬ i = k := fun e => h e.symm
    simp [this, h]

theorem PoolInv.congr {size count N avg : Nat} {p p' : mempool} (h : PoolInv size count N avg p)
    (hc : SameCfg p p') (hlen : p'.b_map.length = N)
    (hinv : ∀ i, i < N → Inv (pool_bits N avg count i : Nat) (p'.map i)) :
    PoolInv size count N avg p' := by
  obtain ⟨c1, c2, c3, c4⟩ := hc
  exact ⟨by rw [c1, h.fix], by rw [c2, h.max], by rw [c4, h.cnt], by rw [c3, h.avg_eq], hlen,
    h.N_pos, h.N_le_avg, h.total, h.rem, h.count_lt, hinv, h.bound⟩

theorem pool_bits_le {size count N avg : Nat} {p : mempool} (h : PoolInv size count N avg p)
    (i : Nat) : pool_bits N avg count i ≤ 2147483392 := by
  have := h.bound
  unfold pool_bits
  split <;> omega

/-- Effect on the pool of a successful `bitmap_allocbit` in sub-bitmap `i`. -/
theorem pool_after_alloc {size count N avg : Nat} {p p' : mempool}
    (h : PoolInv size count N avg p) {i bit : Nat} {bm : bitmap} (hi : i < N)
    (ha : bitmap_allocbit (p.map i) = .ok bit bm) (hm : p'.b_map = p.b_map.set i bm)
    (hc : SameCfg p p') :
    PoolInv size count N avg p' ∧ i * avg + bit < count ∧
    p.slot_set (i * avg + bit) = false ∧
    ∀ j, p'.slot_set j = (decide (j = i * avg + bit) || p.slot_set j) := by
  have hmap : ∀ k, p'.map k = if k = i then bm else p.map k := by
    intro k
    have := map_set p i bm (by rw [h.len]; exact hi) k _ hm
    exact this
  rcases (h.inv i hi).alloc with ⟨g1, _⟩ | ⟨bit', bm', g1, g2, g3, g4, _, g6⟩
  · rw [g1] at ha; cases ha
  rw [g1] at ha
  injection ha with e1 e2
  subst e1 e2
  have hbit : bit' < pool_bits N avg count i := by omega
  obtain ⟨d1, d2⟩ := slot_decode h i bit' hi hbit
  have hinv' : PoolInv size count N avg p' := by
    refine h.congr hc (by rw [hm, List.length_set]; exact h.len) (fun k hk => ?_)
    rw [hmap k]
    by_cases hki : k = i
    · rw [if_pos hki, hki]; exact g2
    · rw [if_neg hki]; exact h.inv k hk
  have hidx' : ∀ j, p'.slot_idx j = p.slot_idx j := by
    intro j; unfold mempool.slot_idx; rw [hc.2.2.1, hc.2.2.2]
  have hbit' : ∀ j, p'.slot_bit j = p.slot_bit j := by
    intro j; unfold mempool.slot_bit; rw [hidx', hc.2.2.1]
  refine ⟨hinv', (pool_bits_sum h i bit' hi hbit).1, ?_, fun j => ?_⟩
  · unfold mempool.slot_set
    rw [d1, d2]; exact g4
  · unfold mempool.slot_set
    rw [hidx', hbit', hmap]
    by_cases hji : p.slot_idx j = i
    · rw [if_pos hji, g6, hji]
      congr 1
      apply decide_eq_decide.mpr
      have := (slot_encode h j).2.1
      rw [hji] at this
      omega
    · rw [if_neg hji]
      have : ¬ j = i * avg + bit' := by
        intro e
        rw [e, d1] at hji
        exact hji rfl
      simp [this]

theorem wrap_int_low (x : Int) (h0 : 0 ≤ x) (h1 : x < 2147483648) : wrap_int x = x := by
  unfold wrap_int
  rw [Int.emod_eq_of_lt (by omega) (by omega)]
  omega

theorem wrap_int_high (x : Int) (h0 : 2147483648 ≤ x) (h1 : x < 4294967296) :
    wrap_int x = x - 4294967296 := by
  unfold wrap_int
  have e : x + 2147483648 = (x - 2147483648) + 4294967296 := by omega
  rw [e, Int.add_emod_self, Int.emod_eq_of_lt (by omega) (by omega)]
  omega

theorem wrap_int_mod (x : Nat) (h : x < 4294967296) :
    (wrap_int (x : Int) % 4294967296).toNat = x := by
  by_cases hlow : x < 2147483648
  · rw [wrap_int_low _ (by omega) (by omega), Int.emod_eq_of_lt (by omega) (by omega)]
    omega
  · rw [wrap_int_high _ (by omega) (by omega)]
    have e : (x : Int) - 4294967296 = ((x : Int) - 4294967296) + 0 := by omega
    rw [Int.sub_emod, Int.emod_self, Int.sub_zero, Int.emod_emod, Int.emod_eq_of_lt (by omega) (by omega)]
    omega

theorem _mempool_malloc_loop_succ (pool : mempool) (fuel : Nat) (_idx : Int) :
    _mempool_malloc_loop pool (fuel + 1) _idx =
      match bitmap_allocbit (pool.map _idx.toNat) with
      | .ok _bit bm =>
        .ptr (pool.fix_size * (wrap_int (_idx * pool.b_avg + (_bit : Int)) % 4294967296).toNat)
          { pool with b_map := pool.b_map.set _idx.toNat bm,
                      used := (pool.used + 1) % 4294967296 }
      | .fail => _mempool_malloc_loop pool fuel (Int.tmod (_idx + 1) pool.b_cnt)
      | .abort => .abort := rfl

theorem _mempool_malloc_loop_spec {size count N avg : Nat} {p : mempool}
    (h : PoolInv size count N avg p) : ∀ (fuel : Nat) (idx : Int), 0 ≤ idx → idx < N →
    AllocSpec size avg N p (_mempool_malloc_loop p fuel idx) := by
  intro fuel
  induction fuel with
  | zero =>
    intro idx _ _
    left
    exact ⟨p, rfl, rfl, rfl, rfl, rfl, rfl, rfl⟩
  | succ fuel ih =>
    intro idx h0 h1
    rw [_mempool_malloc_loop_succ]
    have hi : idx.toNat < N := by omega
    rcases (h.inv idx.toNat hi).alloc with ⟨g1, _⟩ | ⟨bit, bm, g1, _, g3, _⟩
    · rw [g1]
      dsimp only
      apply ih
      · rw [h.cnt]
        exact Int.tmod_nonneg _ (by omega)
      · rw [h.cnt, Int.tmod_eq_emod (by omega) (by omega)]
        exact Int.emod_lt_of_pos _ (by have := h.N_pos; omega)
    · rw [g1]
      dsimp only
      right
      have hbit : bit < pool_bits N avg count idx.toNat := by omega
      have hsum := (pool_bits_sum h idx.toNat bit hi hbit).1
      have hcl := h.count_lt
      have epos : (wrap_int (idx * p.b_avg + (bit : Int)) % 4294967296).toNat =
          idx.toNat * avg + bit := by
        rw [h.avg_eq]
        have e1 : idx * (avg : Int) + (bit : Int) = ((idx.toNat * avg + bit : Nat) : Int) := by
          push_cast
          rw [Int.toNat_of_nonneg h0]
        rw [e1]
        exact wrap_int_mod _ (by omega)
      refine ⟨idx.toNat, bit, bm,
        { p with b_map := p.b_map.set idx.toNat bm, used := (p.used + 1) % 4294967296 },
        ?_, hi, g1, rfl, rfl, rfl, rfl, rfl, rfl⟩
      rw [epos, h.fix]

theorem _mempool_malloc_spec {size count N avg : Nat} {p : mempool}
    (h : PoolInv size count N avg p) : AllocSpec size avg N p (_mempool_malloc p) := by
  unfold _mempool_malloc
  dsimp only
  have hN := h.N_pos
  have h1 : PoolInv size count N avg { p with b_idx := (p.b_idx + 1) % 18446744073709551616 } :=
    h.congr ⟨rfl, rfl, rfl, rfl⟩ h.len h.inv
  have hidx0 : 0 ≤ wrap_int (((p.b_idx + 1) % 18446744073709551616 %
      (p.b_cnt % 4294967296).toNat : Nat) : Int) ∧
      wrap_int (((p.b_idx + 1) % 18446744073709551616 %
      (p.b_cnt % 4294967296).toNat : Nat) : Int) < N := by
    rw [h.cnt]
    have hlt : N ≤ 2147483392 := by
      have := h.N_le_avg
      have := h.bound
      omega
    have e : ((N : Int) % 4294967296).toNat = N := by omega
    rw [e]
    have := Nat.mod_lt ((p.b_idx + 1) % 18446744073709551616) (show 0 < N by omega)
    generalize (p.b_idx + 1) % 18446744073709551616 % N = x at this ⊢
    unfold wrap_int
    omega
  have := _mempool_malloc_loop_spec h1 p.b_cnt.toNat _ hidx0.1 hidx0.2
  rcases this with ⟨p', g1, g2, g3, g4⟩ | ⟨i, bit, bm, p', g1, g2, g3, g4, g5, g6⟩
  · left; exact ⟨p', g1, g2, g3, g4⟩
  · right; exact ⟨i, bit, bm, p', g1, g2, g3, g4, g5, g6⟩

theorem AllocSpec.keeps {size count N avg : Nat} {p : mempool} (h : PoolInv size count N avg p)
    {p' : mempool} (hm : p'.b_map = p.b_map) (hc : SameCfg p p') :
    PoolInv size count N avg p' ∧ ∀ j, p'.slot_set j = p.slot_set j := by
  have hmap : ∀ k, p'.map k = p.map k := by
    intro k; unfold mempool.map; rw [hm]
  refine ⟨h.congr hc (by rw [hm]; exact h.len) (fun i hi => by rw [hmap]; exact h.inv i hi),
    fun j => ?_⟩
  unfold mempool.slot_set mempool.slot_bit mempool.slot_idx
  rw [hmap, hc.2.2.1, hc.2.2.2]

theorem _mempool_alloc_loop_spec {size count N avg : Nat} : ∀ (tws : List Nat) (p : mempool),
    PoolInv size count N avg p → AllocSpec size avg N p (_mempool_alloc_loop tws p) := by
  intro tws
  induction tws with
  | nil =>
    intro p _
    left
    exact ⟨p, rfl, rfl, rfl, rfl, rfl, rfl, rfl⟩
  | cons tw tws ih =>
    intro p h
    have e : _mempool_alloc_loop (tw :: tws) p =
        match _mempool_malloc p with
        | .ptr off pool1 => .ptr off pool1
        | .null pool1 => _mempool_alloc_loop tws pool1
        | .abort => .abort := rfl
    rw [e]
    rcases _mempool_malloc_spec h with ⟨p1, g1, g2, g3, g4⟩ | ⟨i, bit, bm, p1, g1, g2, g3, g4, g5, g6⟩
    · rw [g1]
      dsimp only
      have h1 := (AllocSpec.keeps h g2 g4).1
      have hmap : ∀ k, p1.map k = p.map k := by
        intro k; unfold mempool.map; rw [g2]
      rcases ih p1 h1 with ⟨p2, k1, k2, k3, k4⟩ | ⟨i, bit, bm, p2, k1, k2, k3, k4, k5, k6⟩
      · left
        exact ⟨p2, k1, by rw [k2, g2], by rw [k3, g3],
          by
            obtain ⟨a1, a2, a3, a4⟩ := g4
            obtain ⟨b1, b2, b3, b4⟩ := k4
            exact ⟨by rw [b1, a1], by rw [b2, a2], by rw [b3, a3], by rw [b4, a4]⟩⟩
      · right
        refine ⟨i, bit, bm, p2, k1, k2, by rw [← hmap]; exact k3, by rw [k4, g2],
          by rw [k5, g3], ?_⟩
        obtain ⟨a1, a2, a3, a4⟩ := g4
        obtain ⟨b1, b2, b3, b4⟩ := k6
        exact ⟨by rw [b1, a1], by rw [b2, a2], by rw [b3, a3], by rw [b4, a4]⟩
    · rw [g1]
      right
      exact ⟨i, bit, bm, p1, rfl, g2, g3, g4, g5, g6⟩

theorem mempool_alloc_spec {size count N avg : Nat} {p : mempool}
    (h : PoolInv size count N avg p) : AllocSpec size avg N p (mempool_alloc p) :=
  _mempool_alloc_loop_spec _ p h

/-- Effect on the pool of a successful `bitmap_freebit` on the bit of slot `pos`. -/
theorem pool_after_free {size count N avg : Nat} {p p' : mempool}
    (h : PoolInv size count N avg p) (pos : Nat)
    (hret : (bitmap_freebit (p.map (p.slot_idx pos)) (p.slot_bit pos)).1 = 0)
    (hm : p'.b_map = p.b_map.set (p.slot_idx pos)
      (bitmap_freebit (p.map (p.slot_idx pos)) (p.slot_bit pos)).2)
    (hc : SameCfg p p') :
    PoolInv size count N avg p' ∧
    ∀ j, p'.slot_set j = (!decide (j = pos) && p.slot_set j) := by
  obtain ⟨e1, e2, _⟩ := slot_encode h pos
  have hmap : ∀ k, p'.map k = if k = p.slot_idx pos then
      (bitmap_freebit (p.map (p.slot_idx pos)) (p.slot_bit pos)).2 else p.map k := by
    intro k
    exact map_set p _ _ (by rw [h.len]; exact e1) k _ hm
  rcases (h.inv _ e1).free (p.slot_bit pos) with ⟨g1, _⟩ | ⟨_, g2, _, _, g5⟩
  · rw [g1] at hret; cases hret
  have hinv' : PoolInv size count N avg p' := by
    refine h.congr hc (by rw [hm, List.length_set]; exact h.len) (fun k hk => ?_)
    rw [hmap k]
    by_cases hki : k = p.slot_idx pos
    · rw [if_pos hki, hki]; exact g2
    · rw [if_neg hki]; exact h.inv k hk
  have hidx' : ∀ j, p'.slot_idx j = p.slot_idx j := by
    intro j; unfold mempool.slot_idx; rw [hc.2.2.1, hc.2.2.2]
  have hbit' : ∀ j, p'.slot_bit j = p.slot_bit j := by
    intro j; unfold mempool.slot_bit; rw [hidx', hc.2.2.1]
  refine ⟨hinv', fun j => ?_⟩
  unfold mempool.slot_set
  rw [hidx', hbit', hmap]
  by_cases hji : p.slot_idx j = p.slot_idx pos
  · rw [if_pos hji, g5, hji]
    congr 2
    apply decide_eq_decide.mpr
    have := (slot_encode h j).2.1
    rw [hji] at this
    omega
  · rw [if_neg hji]
    have : ¬ j = pos := by
      intro e
      rw [e] at hji
      exact hji rfl
    simp [this]

/-- The `(idx, bit)` computed by `mempool_free` from a slot number in
`[0, count)` is the owner of the slot by the range partition. -/
theorem mempool_free_decode {size count N avg : Nat} {p : mempool}
    (h : PoolInv size count N avg p) (Q : Nat) (hQ : Q < count) :
    (if Int.tdiv (Q : Int) p.b_avg > p.b_cnt - 1 then p.b_cnt - 1
      else Int.tdiv (Q : Int) p.b_avg).toNat = p.slot_idx Q ∧
    (if Int.tdiv (Q : Int) p.b_avg > p.b_cnt - 1 then Int.tmod (Q : Int) p.b_avg + p.b_avg
      else Int.tmod (Q : Int) p.b_avg).toNat = p.slot_bit Q := by
  have hpos : 0 < avg := lt_of_lt_of_le h.N_pos h.N_le_avg
  have hN := h.N_pos
  have hidx : p.slot_idx Q = min (Q / avg) (N - 1) := by
    unfold mempool.slot_idx
    rw [h.avg_eq, h.cnt, Int.toNat_ofNat, Int.toNat_ofNat]
  have hbit : p.slot_bit Q = Q - p.slot_idx Q * avg := by
    unfold mempool.slot_bit
    rw [h.avg_eq, Int.toNat_ofNat]
  rw [h.avg_eq, h.cnt, ← Int.ofNat_tdiv, ← Int.ofNat_tmod, hbit, hidx]
  have hdm := Nat.div_add_mod Q avg
  have hml := Nat.mod_lt Q hpos
  have hcomm : avg * (Q / avg) = Q / avg * avg := Nat.mul_comm _ _
  have hle : Q / avg ≤ N := by
    have h1 := h.rem
    have h2 := h.N_le_avg
    have h3 : Q < (N + 1) * avg := by rw [Nat.succ_mul]; omega
    have := (Nat.div_lt_iff_lt_mul hpos).mpr h3
    omega
  by_cases hgt : Q / avg ≤ N - 1
  · rw [if_neg (by omega), if_neg (by omega), Nat.min_eq_left hgt]
    constructor <;> omega
  · have e : Q / avg = N := by omega
    rw [if_pos (by omega), if_pos (by omega), Nat.min_eq_right (by omega)]
    have e2 : N * avg = (N - 1) * avg + avg := by
      have : N = (N - 1) + 1 := by omega
      conv_lhs => rw [this, Nat.succ_mul]
    rw [e] at hdm hcomm
    constructor <;> omega

theorem mempool_free_spec {size count N avg : Nat} {p : mempool}
    (h : PoolInv size count N avg p) (hs1 : 1 ≤ size) (hs2 : size < 2147483648)
    (hc : count < 2147483648) (off : Int) :
    ((wrap_int (Int.tdiv off (size : Int)) < 0 ∨
        (count : Int) ≤ wrap_int (Int.tdiv off (size : Int))) →
      mempool_free p off = .rejected) ∧
    (0 ≤ wrap_int (Int.tdiv off (size : Int)) →
      wrap_int (Int.tdiv off (size : Int)) < (count : Int) →
      (p.slot_set (wrap_int (Int.tdiv off (size : Int))).toNat = false →
        mempool_free p off = .abort) ∧
      (p.slot_set (wrap_int (Int.tdiv off (size : Int))).toNat = true →
        ∃ p', mempool_free p off = .freed p' ∧ PoolInv size count N avg p' ∧
          p'.used = (4294967295 + p.used) % 4294967296 ∧
          ∀ j, p'.slot_set j =
            (!decide (j = (wrap_int (Int.tdiv off (size : Int))).toNat) && p.slot_set j))) := by
  have hfs : wrap_int (p.fix_size : Int) = (size : Int) := by
    rw [h.fix]; exact wrap_int_low _ (by omega) (by omega)
  have hmx : wrap_int (p.max : Int) = (count : Int) := by
    rw [h.max]; exact wrap_int_low _ (by omega) (by omega)
  have hpos : 0 < avg := lt_of_lt_of_le h.N_pos h.N_le_avg
  generalize hq : wrap_int (Int.tdiv off (size : Int)) = q
  unfold mempool_free
  dsimp only
  rw [hfs, hmx, if_neg (by omega), hq]
  constructor
  · intro hrej
    rw [if_pos (by omega)]
  · intro h0 h1
    rw [if_neg (by omega), if_neg (by rw [h.avg_eq]; omega)]
    obtain ⟨Q, rfl⟩ : ∃ Q : Nat, q = (Q : Int) := ⟨q.toNat, by omega⟩
    have hQ : Q < count := by omega
    obtain ⟨d1, d2⟩ := mempool_free_decode h Q hQ
    rw [d1, d2, Int.toNat_ofNat]
    obtain ⟨e1, _, e3⟩ := slot_encode h Q
    have hb := e3 hQ
    constructor
    · intro hclr
      rcases (h.inv _ e1).free (p.slot_bit Q) with ⟨g1, _, _⟩ | ⟨_, _, _, g4, _⟩
      · rw [if_pos (by rw [g1]; decide)]
      · unfold mempool.slot_set at hclr
        rw [hclr] at g4; cases g4
    · intro hset
      rcases (h.inv _ e1).free (p.slot_bit Q) with ⟨_, _, g3⟩ | ⟨g1, _, _, _, _⟩
      · exfalso
        apply g3
        exact ⟨by omega, hset⟩
      · rw [if_neg (by rw [g1]; decide)]
        obtain ⟨k1, k2⟩ := @pool_after_free size count N avg p
          { p with
            b_map := p.b_map.set (p.slot_idx Q)
              (bitmap_freebit (p.map (p.slot_idx Q)) (p.slot_bit Q)).2,
            used := (4294967295 + p.used) % 4294967296 } h Q g1 rfl ⟨rfl, rfl, rfl, rfl⟩
        exact ⟨_, rfl, k1, rfl, k2⟩

theorem mempool_free_inv {size count N avg : Nat} {p p' : mempool}
    (h : PoolInv size count N avg p) (off : Int) (hf : mempool_free p off = .freed p') :
    PoolInv size count N avg p' := by
  unfold mempool_free at hf
  dsimp only at hf
  split at hf
  · cases hf
  split at hf
  · cases hf
  split at hf
  · cases hf
  generalize (if Int.tdiv (wrap_int (Int.tdiv off (wrap_int (p.fix_size : Int)))) p.b_avg >
      p.b_cnt - 1 then p.b_cnt - 1
      else Int.tdiv (wrap_int (Int.tdiv off (wrap_int (p.fix_size : Int)))) p.b_avg).toNat = i
    at hf
  generalize (if Int.tdiv (wrap_int (Int.tdiv off (wrap_int (p.fix_size : Int)))) p.b_avg >
      p.b_cnt - 1 then
      Int.tmod (wrap_int (Int.tdiv off (wrap_int (p.fix_size : Int)))) p.b_avg + p.b_avg
      else Int.tmod (wrap_int (Int.tdiv off (wrap_int (p.fix_size : Int)))) p.b_avg).toNat = b
    at hf
  split at hf
  · cases hf
  injection hf with hf
  subst hf
  refine h.congr ⟨rfl, rfl, rfl, rfl⟩ (by show (p.b_map.set i _).length = N; rw [List.length_set]; exact h.len)
    (fun k hk => ?_)
  by_cases hi : i < N
  · have hmap := map_set p i (bitmap_freebit (p.map i) b).2 (by rw [h.len]; exact hi) k _ rfl
    show Inv _ ((p.b_map.set i (bitmap_freebit (p.map i) b).2).getD k ⟨0, 0, []⟩)
    rw [hmap]
    by_cases hki : k = i
    · rw [if_pos hki, hki]
      rcases (h.inv i hi).free b with ⟨_, g2, _⟩ | ⟨_, g2, _⟩
      · rw [g2]; exact h.inv i hi
      · exact g2
    · rw [if_neg hki]; exact h.inv k hk
  · show Inv _ ((p.b_map.set i (bitmap_freebit (p.map i) b).2).getD k ⟨0, 0, []⟩)
    rw [List.set_eq_of_length_le (by rw [h.len]; omega)]
    exact h.inv k hk

theorem PoolReachable.pool_inv {size count N avg : Nat} {p0 p : mempool}
    (h0 : PoolInv size count N avg p0) (hr : PoolReachable p0 p) :
    PoolInv size count N avg p := by
  induction hr with
  | init => exact h0
  | alloc_ptr _ ha ih =>
    rcases mempool_alloc_spec ih with ⟨p1, g1, _⟩ | ⟨i, bit, bm, p1, g1, g2, g3, g4, _, g6⟩
    · rw [g1] at ha; cases ha
    · rw [g1] at ha
      injection ha with _ e
      subst e
      exact (pool_after_alloc ih g2 g3 g4 g6).1
  | alloc_null _ ha ih =>
    rcases mempool_alloc_spec ih with ⟨p1, g1, g2, _, g4⟩ | ⟨i, bit, bm, p1, g1, _⟩
    · rw [g1] at ha
      injection ha with e
      subst e
      exact (AllocSpec.keeps ih g2 g4).1
    · rw [g1] at ha; cases ha
  | free _ hf ih => exact mempool_free_inv ih _ hf

/-- A pointer handed out by `mempool_alloc` is the address of a slot that was
free, and the call marks exactly that slot. -/
theorem mempool_alloc_slot {size count N avg : Nat} {p p' : mempool}
    (h : PoolInv size count N avg p) {off : Nat} (ha : mempool_alloc p = .ptr off p') :
    ∃ pos, pos < count ∧ off = size * pos ∧ p.slot_set pos = false ∧
      p'.used = (p.used + 1) % 4294967296 ∧
      ∀ j, p'.slot_set j = (decide (j = pos) || p.slot_set j) := by
  rcases mempool_alloc_spec h with ⟨p1, g1, _⟩ | ⟨i, bit, bm, p1, g1, g2, g3, g4, g5, g6⟩
  · rw [g1] at ha; cases ha
  · rw [g1] at ha
    injection ha with e1 e2
    subst e2
    obtain ⟨_, k2, k3, k4⟩ := pool_after_alloc h g2 g3 g4 g6
    exact ⟨i * avg + bit, k2, e1.symm, k3, g5, k4⟩

/-- Round trip for element sizes below `2^31`: the pointer just handed out by
`mempool_alloc` is accepted by `mempool_free`, which clears exactly that slot
and brings `used` back. -/
theorem mempool_free_roundtrip (cpu : Int) (size count : Nat) (p0 : mempool)
    (hs1 : 1 ≤ size) (hs2 : size < 2147483648) (hcount : count ≤ 2147483392)
    (hc : mempool_create cpu size count = some p0) (p : mempool) (hr : PoolReachable p0 p)
    (off : Nat) (p' : mempool) (ha : mempool_alloc p = .ptr off p') :
    ∃ pos p'', pos < count ∧ off = size * pos ∧ p.slot_set pos = false ∧
      mempool_free p' (off : Int) = .freed p'' ∧
      p''.used = (4294967295 + p'.used) % 4294967296 ∧
      ∀ j, p''.slot_set j = p.slot_set j := by
  have hi0 := (mempool_create_inv cpu size count p0 (by omega) hc (Or.inr hcount)).1
  have hi := hr.pool_inv hi0
  obtain ⟨pos, k1, k2, k3, _, k5⟩ := mempool_alloc_slot hi ha
  have hi' := (PoolReachable.alloc_ptr hr ha).pool_inv hi0
  have hq : wrap_int (Int.tdiv (off : Int) (size : Int)) = (pos : Int) := by
    rw [k2, ← Int.ofNat_tdiv, Nat.mul_div_cancel_left _ (by omega)]
    exact wrap_int_low _ (by omega) (by omega)
  have hspec := (mempool_free_spec hi' hs1 hs2 (by omega) (off : Int)).2
  rw [hq, Int.toNat_ofNat] at hspec
  have hset : p'.slot_set pos = true := by rw [k5]; simp
  obtain ⟨p'', g1, _, g3, g4⟩ := (hspec (by omega) (by omega)).2 hset
  refine ⟨pos, p'', k1, k2, k3, g1, g3, fun j => ?_⟩
  rw [g4, k5]
  by_cases hj : j = pos
  · rw [hj, k3]; simp
  · simp [hj]

/-- C5 (the code at the failing input).  With an element size of `2^31` bytes,
`(int)fix_size` is negative: in a pool of two such slots the pointer of the
second slot, just handed out by `mempool_alloc`, is turned down by
`mempool_free` as "not in mempool" - no bit is cleared and `used` stays at 2. -/
theorem mempool_free_rejects_allocated_slot :
    mempool_create 1 2147483648 2 =
      some ⟨2147483648, 2, 0, 0, 2, 1, [⟨2, 1, [⟨2, [0]⟩]⟩]⟩ ∧
    mempool_alloc ⟨2147483648, 2, 0, 0, 2, 1, [⟨2, 1, [⟨2, [0]⟩]⟩]⟩ =
      .ptr 0 ⟨2147483648, 2, 1, 1, 2, 1, [⟨2, 1, [⟨2, [1]⟩]⟩]⟩ ∧
    mempool_alloc ⟨2147483648, 2, 1, 1, 2, 1, [⟨2, 1, [⟨2, [1]⟩]⟩]⟩ =
      .ptr 2147483648 ⟨2147483648, 2, 2, 2, 2, 1, [⟨2, 1, [⟨2, [3]⟩]⟩]⟩ ∧
    mempool_free ⟨2147483648, 2, 2, 2, 2, 1, [⟨2, 1, [⟨2, [3]⟩]⟩]⟩ 2147483648 = .rejected :=
  ⟨rfl, rfl, rfl, rfl⟩

/-- C6.  For a pool created with `count` slots whose sub-bitmaps are of a size
for which the `int` arithmetic of `bitmap_create` is defined: with
`N = b_cnt` and `avg = b_avg = count / N`, sub-bitmap `i` has `avg` bits for
`i < N - 1` and `avg + (count - N * avg)` bits for `i = N - 1`; the ranges
`[i * avg, i * avg + bits_i)` lie in `[0, count)` and every slot below `count`
is in exactly one of them; and in every reachable state a pointer returned by
`mempool_alloc` is `mem + size * pos` with `pos < count`, the slot `pos` was
not allocated before the call and is the only slot whose state changes. -/
theorem mempool_partition (cpu : Int) (size count : Nat) (p0 : mempool)
    (hcount : count < 4294967296) (hc : mempool_create cpu size count = some p0)
    (hb : ∀ i, (p0.map i).max ≤ 2147483392) :
    1 ≤ p0.b_cnt.toNat ∧ p0.b_avg.toNat = count / p0.b_cnt.toNat ∧
    (∀ i, i < p0.b_cnt.toNat →
      (p0.map i).max = (pool_bits p0.b_cnt.toNat p0.b_avg.toNat count i : Nat) ∧
      i * p0.b_avg.toNat + pool_bits p0.b_cnt.toNat p0.b_avg.toNat count i ≤ count) ∧
    (∀ pos, pos < count → ∃! i, i < p0.b_cnt.toNat ∧ i * p0.b_avg.toNat ≤ pos ∧
      pos < i * p0.b_avg.toNat + pool_bits p0.b_cnt.toNat p0.b_avg.toNat count i) ∧
    (∀ p, PoolReachable p0 p → ∀ off p', mempool_alloc p = .ptr off p' →
      ∃ pos, pos < count ∧ off = size * pos ∧ p.slot_set pos = false ∧
        ∀ j, p'.slot_set j = (decide (j = pos) || p.slot_set j)) := by
  have hi0 := (mempool_create_inv cpu size count p0 hcount hc (Or.inl hb)).1
  have hN : p0.b_cnt.toNat = _mempool_b_cnt cpu count := by rw [hi0.cnt, Int.toNat_ofNat]
  have havg : p0.b_avg.toNat = count / _mempool_b_cnt cpu count := by
    rw [hi0.avg_eq, Int.toNat_ofNat]
  rw [hN, havg]
  generalize _mempool_b_cnt cpu count = N at *
  generalize count / N = avg at *
  refine ⟨hi0.N_pos, rfl, fun i hi => ⟨(hi0.inv i hi).max_eq, ?_⟩, fun pos hpos => ?_,
    fun p hr off p' ha => ?_⟩
  · have h1 := hi0.total
    unfold pool_bits
    by_cases hl : i + 1 = N
    · rw [if_pos hl]
      have e : N * avg = i * avg + avg := by rw [← hl, Nat.succ_mul]
      omega
    · rw [if_neg hl]
      have h3 : (i + 1) * avg ≤ N * avg := Nat.mul_le_mul_right _ (by omega)
      rw [Nat.succ_mul] at h3
      omega
  · obtain ⟨e1, e2, e3⟩ := slot_encode hi0 pos
    refine ⟨p0.slot_idx pos, ⟨e1, by omega, by have := e3 hpos; omega⟩, ?_⟩
    rintro i ⟨g1, g2, g3⟩
    have := (slot_decode hi0 i (pos - i * avg) g1 (by omega)).1
    have e : i * avg + (pos - i * avg) = pos := by omega
    rw [e] at this
    exact this.symm
  · obtain ⟨pos, k1, k2, k3, _, k5⟩ := mempool_alloc_slot (hr.pool_inv hi0) ha
    exact ⟨pos, k1, k2, k3, k5⟩

theorem mempool_partition_witness :
    (∃! i, i < 2 ∧ i * 128 ≤ 256 ∧ 256 < i * 128 + pool_bits 2 128 257 i) ∧
    (∃ pos, pos < 257 ∧ 2048 = 16 * pos ∧
      mempool.slot_set ⟨16, 257, 0, 0, 128, 2,
        [⟨128, 1, [⟨128, [0, 0]⟩]⟩, ⟨129, 1, [⟨129, [0, 0, 0]⟩]⟩]⟩ pos = false ∧
      ∀ j, mempool.slot_set ⟨16, 257, 1, 1, 128, 2,
        [⟨128, 1, [⟨128, [0, 0]⟩]⟩, ⟨129, 1, [⟨129, [1, 0, 0]⟩]⟩]⟩ j =
        (decide (j = pos) || mempool.slot_set ⟨16, 257, 0, 0, 128, 2,
          [⟨128, 1, [⟨128, [0, 0]⟩]⟩, ⟨129, 1, [⟨129, [0, 0, 0]⟩]⟩]⟩ j)) := by
  have hb : ∀ i, ((⟨16, 257, 0, 0, 128, 2,
      [⟨128, 1, [⟨128, [0, 0]⟩]⟩, ⟨129, 1, [⟨129, [0, 0, 0]⟩]⟩]⟩ : mempool).map i).max
      ≤ 2147483392 := by
    intro i
    match i with
    | 0 => decide
    | 1 => decide
    | _ + 2 => show (0 : Int) ≤ 2147483392; decide
  have h := mempool_partition 8 16 257 _ (by norm_num) rfl hb
  exact ⟨h.2.2.2.1 256 (by norm_num), h.2.2.2.2 _ PoolReachable.init 2048 _ rfl⟩

/-- C7 (counterexample).  In a pool of four 8-byte slots the pointer
`mem + 32`, the first byte after the storage region `[mem, mem + 32)`, was
never returned by `mempool_alloc`; `mempool_free` logs and returns, it does
not abort. -/
theorem mempool_free_outside_returns :
    mempool_create 1 8 4 = some ⟨8, 4, 0, 0, 4, 1, [⟨4, 1, [⟨4, [0]⟩]⟩]⟩ ∧
    mempool_free ⟨8, 4, 0, 0, 4, 1, [⟨4, 1, [⟨4, [0]⟩]⟩]⟩ 32 = .rejected ∧
    mempool_free ⟨8, 4, 0, 0, 4, 1, [⟨4, 1, [⟨4, [0]⟩]⟩]⟩ 32 ≠ .abort :=
  ⟨rfl, rfl, by decide⟩

theorem mempool_free_spec_int {size count N avg : Nat} {p : mempool}
    (h : PoolInv size count N avg p) (hs1 : 1 ≤ size) (hs2 : size < 4294967296)
    (hc : count < 2147483648) (off : Int) :
    ((wrap_int (Int.tdiv off (wrap_int (size : Int))) < 0 ∨
        (count : Int) ≤ wrap_int (Int.tdiv off (wrap_int (size : Int)))) →
      mempool_free p off = .rejected) ∧
    (0 ≤ wrap_int (Int.tdiv off (wrap_int (size : Int))) →
      wrap_int (Int.tdiv off (wrap_int (size : Int))) < (count : Int) →
      (p.slot_set (wrap_int (Int.tdiv off (wrap_int (size : Int)))).toNat = false →
        mempool_free p off = .abort) ∧
      (p.slot_set (wrap_int (Int.tdiv off (wrap_int (size : Int)))).toNat = true →
        ∃ p', mempool_free p off = .freed p' ∧ PoolInv size count N avg p' ∧
          p'.used = (4294967295 + p.used) % 4294967296 ∧
          ∀ j, p'.slot_set j =
            (!decide (j = (wrap_int (Int.tdiv off (wrap_int (size : Int)))).toNat) &&
              p.slot_set j))) := by
  have hfs : wrap_int (p.fix_size : Int) = wrap_int (size : Int) := by
    rw [h.fix]
  have hfs0 : wrap_int (size : Int) ≠ 0 := by
    unfold wrap_int
    omega
  have hmx : wrap_int (p.max : Int) = (count : Int) := by
    rw [h.max]
    exact wrap_int_low _ (by omega) (by omega)
  have hpos : 0 < avg := lt_of_lt_of_le h.N_pos h.N_le_avg
  generalize hq : wrap_int (Int.tdiv off (wrap_int (size : Int))) = q
  unfold mempool_free
  dsimp only
  rw [hfs, hmx, if_neg hfs0, hq]
  constructor
  · intro hrej
    rw [if_pos (by omega)]
  · intro h0 h1
    rw [if_neg (by omega), if_neg (by rw [h.avg_eq]; omega)]
    obtain ⟨Q, rfl⟩ : ∃ Q : Nat, q = (Q : Int) := ⟨q.toNat, by omega⟩
    have hQ : Q < count := by omega
    obtain ⟨d1, d2⟩ := mempool_free_decode h Q hQ
    rw [d1, d2, Int.toNat_ofNat]
    obtain ⟨e1, _, e3⟩ := slot_encode h Q
    have hb := e3 hQ
    constructor
    · intro hclr
      rcases (h.inv _ e1).free (p.slot_bit Q) with ⟨g1, _, _⟩ | ⟨_, _, _, g4, _⟩
      · rw [if_pos (by rw [g1]; decide)]
      · unfold mempool.slot_set at hclr
        rw [hclr] at g4
        cases g4
    · intro hset
      rcases (h.inv _ e1).free (p.slot_bit Q) with ⟨_, _, g3⟩ | ⟨g1, _, _, _, _⟩
      · exfalso
        apply g3
        exact ⟨by omega, hset⟩
      · rw [if_neg (by rw [g1]; decide)]
        obtain ⟨k1, k2⟩ := @pool_after_free size count N avg p
          { p with
            b_map := p.b_map.set (p.slot_idx Q)
              (bitmap_freebit (p.map (p.slot_idx Q)) (p.slot_bit Q)).2,
            used := (4294967295 + p.used) % 4294967296 } h Q g1 rfl ⟨rfl, rfl, rfl, rfl⟩
        exact ⟨_, rfl, k1, rfl, k2⟩

theorem slot_number_beyond (size count : Nat) (off : Int) (hs1 : 1 ≤ size)
    (hs2 : size < 2147483648) (hc : count < 2147483648)
    (h1 : (count : Int) * (size : Int) ≤ off) (h2 : off < 2147483648 * (size : Int)) :
    (count : Int) ≤ wrap_int (Int.tdiv off (wrap_int (size : Int))) := by
  have hsz : (0 : Int) < (size : Int) := by omega
  have hoff : (0 : Int) ≤ off := le_trans (mul_nonneg (by omega) (by omega)) h1
  rw [show wrap_int (size : Int) = (size : Int) from wrap_int_low _ (by omega) (by omega),
    Int.tdiv_eq_ediv hoff (by omega)]
  have a : (count : Int) ≤ off / (size : Int) := Int.le_ediv_of_mul_le hsz h1
  have b : off / (size : Int) < 2147483648 := Int.ediv_lt_of_lt_mul hsz h2
  rw [wrap_int_id _ (by omega) b]
  exact a

theorem slot_number_below (size : Nat) (off : Int) (hs1 : 1 ≤ size)
    (hs2 : size < 2147483648) (h1 : -(2147483648 * (size : Int)) ≤ off)
    (h2 : off ≤ -(size : Int)) :
    wrap_int (Int.tdiv off (wrap_int (size : Int))) < 0 := by
  have hsz : (0 : Int) < (size : Int) := by omega
  obtain ⟨m, rfl⟩ : ∃ m : Int, off = -m := ⟨-off, by omega⟩
  have hm1 : (size : Int) ≤ m := by omega
  have hm2 : m ≤ 2147483648 * (size : Int) := by omega
  rw [show wrap_int (size : Int) = (size : Int) from wrap_int_low _ (by omega) (by omega),
    Int.neg_tdiv, Int.tdiv_eq_ediv (by omega) (by omega)]
  have a : (1 : Int) ≤ m / (size : Int) := Int.le_ediv_of_mul_le hsz (by omega)
  have b : m / (size : Int) ≤ 2147483648 := by
    have : m / (size : Int) ≤ 2147483648 * (size : Int) / (size : Int) :=
      Int.ediv_le_ediv hsz hm2
    rw [Int.mul_ediv_cancel _ (by omega)] at this
    exact this
  rw [wrap_int_id _ (by omega) (by omega)]
  omega

/-- In the pool of four 8-byte slots the pointers `mem + 2^35` and
`mem - 2^35` lie far outside the storage, but the quotient `2^32` truncated to
`int` is 0: `mempool_free` handles them as slot 0.  It aborts while slot 0 is
free and frees slot 0 once it is allocated.  A pointer less than one slot
below `mem` is handled as slot 0 as well. -/
theorem mempool_free_wrapped_offset :
    mempool_free ⟨8, 4, 0, 0, 4, 1, [⟨4, 1, [⟨4, [0]⟩]⟩]⟩ 34359738368 = .abort ∧
    mempool_alloc ⟨8, 4, 0, 0, 4, 1, [⟨4, 1, [⟨4, [0]⟩]⟩]⟩ =
      .ptr 0 ⟨8, 4, 1, 1, 4, 1, [⟨4, 1, [⟨4, [1]⟩]⟩]⟩ ∧
    mempool_free ⟨8, 4, 1, 1, 4, 1, [⟨4, 1, [⟨4, [1]⟩]⟩]⟩ 34359738368 =
      .freed ⟨8, 4, 0, 1, 4, 1, [⟨4, 1, [⟨4, [0]⟩]⟩]⟩ ∧
    mempool_free ⟨8, 4, 1, 1, 4, 1, [⟨4, 1, [⟨4, [1]⟩]⟩]⟩ (-34359738368) =
      .freed ⟨8, 4, 0, 1, 4, 1, [⟨4, 1, [⟨4, [0]⟩]⟩]⟩ ∧
    mempool_free ⟨8, 4, 1, 1, 4, 1, [⟨4, 1, [⟨4, [1]⟩]⟩]⟩ (-1) =
      .freed ⟨8, 4, 0, 1, 4, 1, [⟨4, 1, [⟨4, [0]⟩]⟩]⟩ :=
  ⟨rfl, rfl, rfl, rfl, rfl⟩

/-- C7 (amended).  For a pool created with `1 ≤ fix_size < 2^32`, in every
reachable state, `mempool_free` of the pointer `mem + off` computes the slot
number `q = (int)(off / (int)fix_size)` (truncating division, the quotient
truncated to 32 bits).  When `q < 0` or `q ≥ count` the call logs and returns
without aborting, the pool untouched; with `fix_size < 2^31` this is so for
every `off` in `[fix_size * count, fix_size * 2^31)` and in
`[-fix_size * 2^31, -fix_size]`.  When `0 ≤ q < count` the process is aborted
exactly when slot `q` is not marked allocated; otherwise the call returns, slot
`q` is free afterwards, every other slot is as before and `used` is
decremented. -/
theorem mempool_free_outcome (cpu : Int) (size count : Nat) (p0 : mempool)
    (hs1 : 1 ≤ size) (hs2 : size < 4294967296) (hcount : count ≤ 2147483392)
    (hc : mempool_create cpu size count = some p0) (p : mempool) (hr : PoolReachable p0 p)
    (off : Int) :
    ((wrap_int (Int.tdiv off (wrap_int (size : Int))) < 0 ∨
        (count : Int) ≤ wrap_int (Int.tdiv off (wrap_int (size : Int)))) →
      mempool_free p off = .rejected) ∧
    (size < 2147483648 →
      ((count : Int) * (size : Int) ≤ off ∧ off < 2147483648 * (size : Int)) ∨
        (-(2147483648 * (size : Int)) ≤ off ∧ off ≤ -(size : Int)) →
      mempool_free p off = .rejected) ∧
    (0 ≤ wrap_int (Int.tdiv off (wrap_int (size : Int))) →
      wrap_int (Int.tdiv off (wrap_int (size : Int))) < (count : Int) →
      (mempool_free p off = .abort ↔
        p.slot_set (wrap_int (Int.tdiv off (wrap_int (size : Int)))).toNat = false) ∧
      (p.slot_set (wrap_int (Int.tdiv off (wrap_int (size : Int)))).toNat = true →
        ∃ p', mempool_free p off = .freed p' ∧ PoolReachable p0 p' ∧
          p'.used = (4294967295 + p.used) % 4294967296 ∧
          ∀ j, p'.slot_set j =
            (!decide (j = (wrap_int (Int.tdiv off (wrap_int (size : Int)))).toNat) &&
              p.slot_set j))) := by
  have hi0 := (mempool_create_inv cpu size count p0 (by omega) hc (Or.inr hcount)).1
  have hi := hr.pool_inv hi0
  obtain ⟨g1, g2⟩ := mempool_free_spec_int hi hs1 hs2 (by omega) off
  refine ⟨g1, fun hs3 hoff => ?_, fun h0 h1 => ?_⟩
  · rcases hoff with ⟨a, b⟩ | ⟨a, b⟩
    · exact g1 (Or.inr (slot_number_beyond size count off hs1 hs3 (by omega) a b))
    · exact g1 (Or.inl (slot_number_below size off hs1 hs3 a b))
  · obtain ⟨k1, k2⟩ := g2 h0 h1
    refine ⟨⟨fun hab => ?_, k1⟩, fun hset => ?_⟩
    · by_contra hne
      have hset : p.slot_set (wrap_int (Int.tdiv off (wrap_int (size : Int)))).toNat = true := by
        simpa using hne
      obtain ⟨p', e, _⟩ := k2 hset
      rw [e] at hab
      cases hab
    · obtain ⟨p', e, _, e2, e3⟩ := k2 hset
      exact ⟨p', e, PoolReachable.free hr e, e2, e3⟩

/-- C7 (witness).  The pool of four 8-byte slots: `mem + 32` is turned down
as a pointer from the end of the storage on; `mem + 8` aborts exactly when slot
1 is free; after one `mempool_alloc` the pointer `mem` is freed. -/
theorem mempool_free_outcome_witness :
    mempool_free ⟨8, 4, 0, 0, 4, 1, [⟨4, 1, [⟨4, [0]⟩]⟩]⟩ 32 = .rejected ∧
    (mempool_free ⟨8, 4, 0, 0, 4, 1, [⟨4, 1, [⟨4, [0]⟩]⟩]⟩ 8 = .abort ↔
      mempool.slot_set ⟨8, 4, 0, 0, 4, 1, [⟨4, 1, [⟨4, [0]⟩]⟩]⟩ 1 = false) ∧
    ∃ p', mempool_free ⟨8, 4, 1, 1, 4, 1, [⟨4, 1, [⟨4, [1]⟩]⟩]⟩ 0 = .freed p' ∧
      PoolReachable ⟨8, 4, 0, 0, 4, 1, [⟨4, 1, [⟨4, [0]⟩]⟩]⟩ p' ∧
      p'.used = (4294967295 + 1) % 4294967296 ∧
      ∀ j, p'.slot_set j =
        (!decide (j = 0) && mempool.slot_set ⟨8, 4, 1, 1, 4, 1, [⟨4, 1, [⟨4, [1]⟩]⟩]⟩ j) :=
  ⟨(mempool_free_outcome 1 8 4 _ (by norm_num) (by norm_num) (by norm_num) rfl _
      PoolReachable.init 32).2.1 (by norm_num) (Or.inl ⟨by norm_num, by norm_num⟩),
    ((mempool_free_outcome 1 8 4 _ (by norm_num) (by norm_num) (by norm_num) rfl _
      PoolReachable.init 8).2.2 (by decide) (by decide)).1,
    ((mempool_free_outcome 1 8 4 _ (by norm_num) (by norm_num) (by norm_num) rfl
      ⟨8, 4, 1, 1, 4, 1, [⟨4, 1, [⟨4, [1]⟩]⟩]⟩
      (PoolReachable.alloc_ptr PoolReachable.init (show mempool_alloc _ = .ptr 0 _ from rfl))
      0).2.2 (by decide) (by decide)).2 (by decide)⟩

theorem hashmap_index_lt (map : hashmap) (key : Nat) (h1 : 1 ≤ map.b_count)
    (h2 : map.b_count < 4294967296) : map.index key < map.b_count := by
  unfold hashmap.index
  have e : (4294967295 + map.b_count) % 4294967296 = map.b_count - 1 := by omega
  rw [e]
  have := @Nat.and_le_right (map.hash key % 4294967296) (map.b_count - 1)
  omega

theorem hashmap_touch_fields (map : hashmap) (i : Nat) :
    (map.touch i).buckets = map.buckets ∧ (map.touch i).total_keys = map.total_keys ∧
    (map.touch i).cmp = map.cmp ∧ (map.touch i).hash = map.hash ∧
    (map.touch i).b_count = map.b_count := by
  unfold hashmap.touch
  split <;> exact ⟨rfl, rfl, rfl, rfl, rfl⟩

theorem hashmap_touch_bucket (map : hashmap) (i j : Nat) :
    (map.touch i).bucket j = map.bucket j := by
  unfold hashmap.bucket
  rw [(hashmap_touch_fields map i).1]

theorem bucket_set (buckets : List _bucket_t) (i : Nat) (b : _bucket_t)
    (hi : i < buckets.length) (j : Nat) :
    (buckets.set i b).getD j ⟨[], 0⟩ = if j = i then b else buckets.getD j ⟨[], 0⟩ := by
  rw [List.getD_eq_getElem?_getD, List.getD_eq_getElem?_getD, List.getElem?_set]
  by_cases h : j = i
  · subst h; simp [hi]
  · have : ¬ i = j := fun e => h e.symm
    simp [this, h]

theorem find_some_mem {p : Nat → Bool} {l : List Nat} {e : Nat} (h : l.find? p = some e) :
    e ∈ l ∧ p e = true := ⟨List.mem_of_find?_eq_some h, List.find?_some h⟩

theorem find_none_all {p : Nat → Bool} {l : List Nat} (h : l.find? p = none) :
    ∀ x, x ∈ l → p x = false := by
  intro x hx
  have := List.find?_eq_none.mp h x hx
  simpa using this

theorem find_exists {p : Nat → Bool} {l : List Nat} (h : ∃ x, x ∈ l ∧ p x = true) :
    ∃ e, l.find? p = some e := by
  cases hf : l.find? p with
  | some e => exact ⟨e, rfl⟩
  | none =>
    obtain ⟨x, hx, hp⟩ := h
    have := find_none_all hf x hx
    rw [hp] at this; cases this

/-- The two cases of `hashmap_insert`. -/
theorem hashmap_insert_cases (map : hashmap) (key_of : Nat → Nat) (new_data : Nat)
    (func : Bool) (h1 : 1 ≤ map.b_count) (h2 : map.b_count < 4294967296)
    (hlen : map.buckets.length = map.b_count) :
    (∃ e, (map.bucket (map.index (key_of new_data))).list.find?
        (fun x => decide (map.cmp (key_of new_data) (key_of x) = 0)) = some e ∧
      hashmap_insert map key_of new_data func =
        ⟨EEXIST, some e, if func then [e] else [], map.touch (map.index (key_of new_data))⟩) ∨
    ((map.bucket (map.index (key_of new_data))).list.find?
        (fun x => decide (map.cmp (key_of new_data) (key_of x) = 0)) = none ∧
      (hashmap_insert map key_of new_data func).ret = 0 ∧
      (hashmap_insert map key_of new_data func).out = none ∧
      (hashmap_insert map key_of new_data func).calls = [] ∧
      (hashmap_insert map key_of new_data func).map.total_keys = u64_inc map.total_keys ∧
      (hashmap_insert map key_of new_data func).map.cmp = map.cmp ∧
      (hashmap_insert map key_of new_data func).map.hash = map.hash ∧
      (hashmap_insert map key_of new_data func).map.b_count = map.b_count ∧
      (hashmap_insert map key_of new_data func).map.buckets.length = map.buckets.length ∧
      ∀ j, (hashmap_insert map key_of new_data func).map.bucket j =
        if j = map.index (key_of new_data) then
          ⟨new_data :: (map.bucket (map.index (key_of new_data))).list,
            u64_inc (map.bucket (map.index (key_of new_data))).depth⟩
        else map.bucket j) := by
  obtain ⟨t1, t2, t3, t4, t5⟩ := hashmap_touch_fields map (map.index (key_of new_data))
  have hidx := hashmap_index_lt map (key_of new_data) h1 h2
  unfold hashmap_insert
  dsimp only
  rw [hashmap_touch_bucket]
  cases hf : (map.bucket (map.index (key_of new_data))).list.find?
      (fun x => decide (map.cmp (key_of new_data) (key_of x) = 0)) with
  | some e => left; exact ⟨e, rfl, rfl⟩
  | none =>
    right
    dsimp only
    refine ⟨rfl, rfl, rfl, rfl, by rw [t2], t3, t4, t5, by rw [List.length_set, t1], fun j => ?_⟩
    unfold hashmap.bucket
    dsimp only
    rw [t1, bucket_set _ _ _ (by rw [hlen]; exact hidx)]

/-- The cases of `hashmap_search`. -/
theorem hashmap_search_cases (map : hashmap) (key_of : Nat → Nat) (key : Nat) (func : Bool) :
    (∃ e, (map.bucket (map.index key)).list.find?
        (fun x => decide (map.cmp key (key_of x) = 0)) = some e ∧
      hashmap_search map key_of key func =
        ⟨EEXIST, some e, if func then [e] else [], map.touch (map.index key)⟩) ∨
    ((map.bucket (map.index key)).list.find?
        (fun x => decide (map.cmp key (key_of x) = 0)) = none ∧
      hashmap_search map key_of key func = ⟨ENOENT, none, [], map.touch (map.index key)⟩) := by
  unfold hashmap_search
  dsimp only
  rw [hashmap_touch_bucket]
  cases hf : (map.bucket (map.index key)).list.find?
      (fun x => decide (map.cmp key (key_of x) = 0)) with
  | some e => left; exact ⟨e, rfl, rfl⟩
  | none => right; exact ⟨rfl, rfl⟩

theorem hashmap_unlink_fields (map : hashmap) (i e : Nat) (hi : i < map.buckets.length) :
    (map.unlink i e).total_keys = u64_dec map.total_keys ∧
    (map.unlink i e).cmp = map.cmp ∧ (map.unlink i e).hash = map.hash ∧
    (map.unlink i e).b_count = map.b_count ∧
    (map.unlink i e).buckets.length = map.buckets.length ∧
    ∀ j, (map.unlink i e).bucket j =
      if j = i then ⟨(map.bucket i).list.erase e, u64_dec (map.bucket i).depth⟩
      else map.bucket j := by
  unfold hashmap.unlink
  refine ⟨rfl, rfl, rfl, rfl, List.length_set _ _ _, fun j => ?_⟩
  unfold hashmap.bucket
  dsimp only
  rw [bucket_set _ _ _ hi]

/-- The cases of `hashmap_delete`. -/
theorem hashmap_delete_cases (map : hashmap) (key_of : Nat → Nat) (key : Nat)
    (func : Option (Nat → Int)) :
    ((map.bucket (map.index key)).list.find?
        (fun x => decide (map.cmp key (key_of x) = 0)) = none ∧
      hashmap_delete map key_of key func = ⟨ENOENT, none, [], map.touch (map.index key)⟩) ∨
    (∃ e, (map.bucket (map.index key)).list.find?
        (fun x => decide (map.cmp key (key_of x) = 0)) = some e ∧
      ((∃ f, func = some f ∧ f e ≠ 0 ∧
          hashmap_delete map key_of key func =
            ⟨f e, none, [e], map.touch (map.index key)⟩) ∨
        ((∀ f, func = some f → f e = 0) ∧
          hashmap_delete map key_of key func =
            ⟨0, some e, if func.isSome then [e] else [],
              (map.touch (map.index key)).unlink (map.index key) e⟩))) := by
  unfold hashmap_delete
  dsimp only
  rw [hashmap_touch_bucket]
  cases hf : (map.bucket (map.index key)).list.find?
      (fun x => decide (map.cmp key (key_of x) = 0)) with
  | none => left; exact ⟨rfl, rfl⟩
  | some e =>
    right
    refine ⟨e, rfl, ?_⟩
    cases func with
    | none => right; exact ⟨fun f hf => (by cases hf), rfl⟩
    | some f =>
      dsimp only
      by_cases h0 : f e ≠ 0
      · left
        exact ⟨f, rfl, h0, by rw [if_pos h0]⟩
      · right
        refine ⟨fun g hg => ?_, by rw [if_neg h0]; rfl⟩
        injection hg with hg
        subst hg
        simpa using h0

theorem u64_inc_eq (x : Nat) (h : x + 1 < 18446744073709551616) : u64_inc x = x + 1 := by
  unfold u64_inc; omega

theorem u64_dec_eq (x : Nat) (h1 : 1 ≤ x) (h2 : x < 18446744073709551616) :
    u64_dec x + 1 = x := by
  unfold u64_dec; omega

theorem find_some_iff_first {p : Nat → Bool} {l : List Nat} :
    (∃ x, x ∈ l ∧ p x = true) ↔ ∃ e, l.find? p = some e :=
  ⟨find_exists, fun ⟨e, he⟩ => ⟨e, (find_some_mem he).1, (find_some_mem he).2⟩⟩

/-- C8.  `mc_item_insert` of an item whose magic matches, on a table with
`b_count` buckets.  If the target bucket holds an entry whose key compares
equal, the call returns `EEXIST`, invokes `found` (when given) exactly once,
on the first such entry, stores that entry in `*old`, and leaves bucket lists,
depths, `total_keys`, the items (so the new item's `free_out`) and both lists
unchanged.  Otherwise it returns `0`, invokes nothing, links the item at the
head of its bucket (the other buckets unchanged), increases `total_keys` by
one and clears the item's `free_out`, no other item being touched. -/
theorem mc_item_insert_spec (m : mc) (ne : Nat) (found : Bool)
    (hmagic : (m.item ne).magic = m.magic) (h1 : 1 ≤ m.map.b_count)
    (h2 : m.map.b_count < 4294967296) (hlen : m.map.buckets.length = m.map.b_count)
    (htk : m.map.total_keys + 1 < 18446744073709551616) :
    ((∃ x, x ∈ (m.map.bucket (m.map.index (m.key_of ne))).list ∧
        m.map.cmp (m.key_of ne) (m.key_of x) = 0) →
      ∃ e, (m.map.bucket (m.map.index (m.key_of ne))).list.find?
          (fun x => decide (m.map.cmp (m.key_of ne) (m.key_of x) = 0)) = some e ∧
        e ∈ (m.map.bucket (m.map.index (m.key_of ne))).list ∧
        m.map.cmp (m.key_of ne) (m.key_of e) = 0 ∧
        (mc_item_insert m ne found).ret = EEXIST ∧
        (mc_item_insert m ne found).calls = (if found then [mc_call.found e] else []) ∧
        (mc_item_insert m ne found).out = some e ∧
        (mc_item_insert m ne found).mc.map.buckets = m.map.buckets ∧
        (mc_item_insert m ne found).mc.map.total_keys = m.map.total_keys ∧
        (mc_item_insert m ne found).mc.item = m.item ∧
        (mc_item_insert m ne found).mc.free = m.free ∧
        (mc_item_insert m ne found).mc.inuse = m.inuse) ∧
    ((∀ x, x ∈ (m.map.bucket (m.map.index (m.key_of ne))).list →
        m.map.cmp (m.key_of ne) (m.key_of x) ≠ 0) →
      (mc_item_insert m ne found).ret = 0 ∧
      (mc_item_insert m ne found).calls = [] ∧
      (mc_item_insert m ne found).mc.map.total_keys = m.map.total_keys + 1 ∧
      (∀ j, (mc_item_insert m ne found).mc.map.bucket j =
        if j = m.map.index (m.key_of ne) then
          ⟨ne :: (m.map.bucket (m.map.index (m.key_of ne))).list,
            u64_inc (m.map.bucket (m.map.index (m.key_of ne))).depth⟩
        else m.map.bucket j) ∧
      (mc_item_insert m ne found).mc.item ne = { m.item ne with free_out := false } ∧
      (∀ a, a ≠ ne → (mc_item_insert m ne found).mc.item a = m.item a) ∧
      (mc_item_insert m ne found).mc.free = m.free ∧
      (mc_item_insert m ne found).mc.inuse = m.inuse) := by
  have hm : ¬ (m.item ne).magic ≠ m.magic := fun h => h hmagic
  rcases hashmap_insert_cases m.map m.key_of ne true h1 h2 hlen with
    ⟨e, hf, hr⟩ | ⟨hf, k1, k2, k3, k4, _, _, _, _, k9⟩
  · constructor
    · intro _
      obtain ⟨he1, he2⟩ := find_some_mem hf
      refine ⟨e, hf, he1, by simpa using he2, ?_⟩
      unfold mc_item_insert
      rw [if_neg hm]
      dsimp only
      rw [hr]
      dsimp only
      rw [if_pos rfl]
      refine ⟨rfl, ?_, rfl, (hashmap_touch_fields _ _).1, (hashmap_touch_fields _ _).2.1, rfl,
        rfl, rfl⟩
      cases found <;> rfl
    · intro hall
      obtain ⟨he1, he2⟩ := find_some_mem hf
      exact absurd (by simpa using he2) (hall e he1)
  · constructor
    · intro hex
      obtain ⟨e, he⟩ := find_exists (p := fun x => decide (m.map.cmp (m.key_of ne) (m.key_of x) = 0))
        (by obtain ⟨x, hx1, hx2⟩ := hex; exact ⟨x, hx1, by simpa using hx2⟩)
      rw [hf] at he
      cases he
    · intro _
      have hne : ¬ (hashmap_insert m.map m.key_of ne true).ret = EEXIST := by
        rw [k1]; decide
      unfold mc_item_insert
      rw [if_neg hm]
      dsimp only
      rw [if_neg hne, k3]
      refine ⟨rfl, by cases found <;> rfl, ?_, k9, ?_, fun a ha => ?_, rfl, rfl⟩
      · show (hashmap_insert m.map m.key_of ne true).map.total_keys = _
        rw [k4, u64_inc_eq _ htk]
      · show Function.update m.item ne _ ne = _
        rw [Function.update_same]
      · show Function.update m.item ne _ a = _
        rw [Function.update_noteq ha]

theorem mc_item_insert_spec_witness :
    ((mc_item_insert mc_sample 1 true).ret = 0 ∧
      (mc_item_insert mc_sample 1 true).mc.map.total_keys = 0 + 1 ∧
      (mc_item_insert mc_sample 1 true).mc.item 1 = ⟨77, false, 10⟩) ∧
    (∃ e, (mc_item_insert (mc_item_insert mc_sample 1 true).mc 5 true).ret = EEXIST ∧
      (mc_item_insert (mc_item_insert mc_sample 1 true).mc 5 true).calls = [mc_call.found e] ∧
      (mc_item_insert (mc_item_insert mc_sample 1 true).mc 5 true).out = some e ∧
      (mc_item_insert (mc_item_insert mc_sample 1 true).mc 5 true).mc.map.total_keys = 1) := by
  have hempty : (mc_sample.map.bucket (mc_sample.map.index (mc_sample.key_of 1))).list = [] := rfl
  have h := (mc_item_insert_spec mc_sample 1 true rfl (by decide) (by decide) rfl
    (by decide)).2 (fun x hx => by rw [hempty] at hx; cases hx)
  obtain ⟨e, _, _, _, g1, g2, g3, _, g5, _⟩ :=
    (mc_item_insert_spec (mc_item_insert mc_sample 1 true).mc 5 true rfl (by decide)
      (by decide) rfl (by decide)).1 ⟨1, by decide, by decide⟩
  exact ⟨⟨h.1, h.2.2.1, h.2.2.2.2.1⟩, e, g1, g2, g3, g5⟩

theorem mc_item_delete_removed (m : mc) (key : Nat) (condition : Option (Nat → Int))
    (e : Nat) (cs : List Nat) (map' : hashmap)
    (hr : hashmap_delete m.map m.key_of key (some (_int_found condition)) =
      ⟨0, some e, cs, map'⟩) :
    mc_item_delete m key condition =
      ⟨0, none, (if condition.isSome then cs.map mc_call.cond else []) ++
        (_free_item { m with map := map' } e).1, (_free_item { m with map := map' } e).2⟩ := by
  unfold mc_item_delete
  dsimp only
  rw [hr]
  rfl

theorem _free_item_freeable (m : mc) (e : Nat) (h : m.freeable e = true) :
    _free_item m e =
      ([mc_call.clean e], { m with free := ⟨m.free.count + 1, e :: m.free.list⟩ }) := by
  unfold _free_item
  rw [if_pos h]

theorem _free_item_inuse (m : mc) (e : Nat) (h : m.freeable e = false) :
    _free_item m e =
      ([], { m with inuse := ⟨m.inuse.count + 1, m.inuse.list ++ [e]⟩ }) := by
  unfold _free_item
  rw [if_neg (by rw [h]; decide)]

/-- C10.  `mc_item_delete key condition` looks at the bucket of `key`.
If no entry there has an equal key it returns `ENOENT`, calls nothing and
leaves buckets, `total_keys`, items and both lists as they are.  If `e` is the
first entry with an equal key: when `condition` returns `r ≠ 0` on `e` the call
returns `r` with the same things unchanged; when `condition` is `NULL` or
returns `0`, the call returns `0`, `e` is unlinked from its bucket (the other
buckets untouched), `total_keys` goes down by one, and `e` is put at the head
of the free list after `clean` ran on it when `freeable e` holds, at the tail of
the in-use list (no `clean`) otherwise. -/
theorem mc_item_delete_spec (m : mc) (key : Nat) (condition : Option (Nat → Int))
    (h1 : 1 ≤ m.map.b_count) (h2 : m.map.b_count < 4294967296)
    (hlen : m.map.buckets.length = m.map.b_count) :
    ((∀ x, x ∈ (m.map.bucket (m.map.index key)).list → m.map.cmp key (m.key_of x) ≠ 0) →
      (mc_item_delete m key condition).ret = ENOENT ∧
      (mc_item_delete m key condition).calls = [] ∧
      (mc_item_delete m key condition).mc.map.buckets = m.map.buckets ∧
      (mc_item_delete m key condition).mc.map.total_keys = m.map.total_keys ∧
      (mc_item_delete m key condition).mc.item = m.item ∧
      (mc_item_delete m key condition).mc.free = m.free ∧
      (mc_item_delete m key condition).mc.inuse = m.inuse) ∧
    (∀ e, (m.map.bucket (m.map.index key)).list.find?
        (fun x => decide (m.map.cmp key (m.key_of x) = 0)) = some e →
      (∀ f, condition = some f → f e ≠ 0 →
        (mc_item_delete m key condition).ret = f e ∧
        (mc_item_delete m key condition).calls = [mc_call.cond e] ∧
        (mc_item_delete m key condition).mc.map.buckets = m.map.buckets ∧
        (mc_item_delete m key condition).mc.map.total_keys = m.map.total_keys ∧
        (mc_item_delete m key condition).mc.item = m.item ∧
        (mc_item_delete m key condition).mc.free = m.free ∧
        (mc_item_delete m key condition).mc.inuse = m.inuse) ∧
      ((∀ f, condition = some f → f e = 0) →
        (mc_item_delete m key condition).ret = 0 ∧
        (∀ j, (mc_item_delete m key condition).mc.map.bucket j =
          if j = m.map.index key then
            ⟨(m.map.bucket (m.map.index key)).list.erase e,
              u64_dec (m.map.bucket (m.map.index key)).depth⟩
          else m.map.bucket j) ∧
        (mc_item_delete m key condition).mc.map.total_keys = u64_dec m.map.total_keys ∧
        (1 ≤ m.map.total_keys → m.map.total_keys < 18446744073709551616 →
          (mc_item_delete m key condition).mc.map.total_keys + 1 = m.map.total_keys) ∧
        (mc_item_delete m key condition).mc.item = m.item ∧
        (m.freeable e = true →
          (mc_item_delete m key condition).calls =
            (if condition.isSome then [mc_call.cond e] else []) ++ [mc_call.clean e] ∧
          (mc_item_delete m key condition).mc.free = ⟨m.free.count + 1, e :: m.free.list⟩ ∧
          (mc_item_delete m key condition).mc.inuse = m.inuse) ∧
        (m.freeable e = false →
          (mc_item_delete m key condition).calls =
            (if condition.isSome then [mc_call.cond e] else []) ∧
          (mc_item_delete m key condition).mc.inuse =
            ⟨m.inuse.count + 1, m.inuse.list ++ [e]⟩ ∧
          (mc_item_delete m key condition).mc.free = m.free))) := by
  obtain ⟨t1, t2, _, _, t5⟩ := hashmap_touch_fields m.map (m.map.index key)
  have hidx := hashmap_index_lt m.map key h1 h2
  rcases hashmap_delete_cases m.map m.key_of key (some (_int_found condition)) with
    ⟨hf, hr⟩ | ⟨e, hf, hcase⟩
  · constructor
    · intro _
      unfold mc_item_delete
      dsimp only
      rw [hr]
      dsimp only
      rw [if_neg (by decide)]
      refine ⟨rfl, by cases condition <;> rfl, t1, t2, rfl, rfl, rfl⟩
    · intro e he
      rw [hf] at he
      cases he
  · constructor
    · intro hall
      obtain ⟨he1, he2⟩ := find_some_mem hf
      exact absurd (by simpa using he2) (hall e he1)
    · intro e' he'
      rw [hf] at he'
      injection he' with he'
      subst he'
      rcases hcase with ⟨f, hfe, hne, hr⟩ | ⟨hz, hr⟩
      · injection hfe with hfe
        subst hfe
        constructor
        · intro g hg hgne
          subst hg
          unfold mc_item_delete
          dsimp only
          rw [hr]
          dsimp only
          rw [if_neg hne]
          exact ⟨rfl, rfl, t1, t2, rfl, rfl, rfl⟩
        · intro hzero
          exfalso
          cases condition with
          | none => exact hne rfl
          | some g => exact hne (hzero g rfl)
      · constructor
        · intro g hg hgne
          exfalso
          subst hg
          exact hgne (hz _ rfl)
        · intro _
          obtain ⟨u1, _, _, _, _, u6⟩ := hashmap_unlink_fields (m.map.touch (m.map.index key))
            (m.map.index key) e (by rw [t1, hlen]; exact hidx)
          have hcalls : (if condition.isSome then
              List.map mc_call.cond (if (some (_int_found condition)).isSome then [e] else [])
              else []) = (if condition.isSome then [mc_call.cond e] else []) := by
            cases condition <;> rfl
          rw [mc_item_delete_removed m key condition e _ _ hr, hcalls]
          have hb : ∀ j, ((m.map.touch (m.map.index key)).unlink (m.map.index key) e).bucket j =
              if j = m.map.index key then
                ⟨(m.map.bucket (m.map.index key)).list.erase e,
                  u64_dec (m.map.bucket (m.map.index key)).depth⟩
              else m.map.bucket j := by
            intro j
            rw [u6 j, hashmap_touch_bucket, hashmap_touch_bucket]
          have htk : ((m.map.touch (m.map.index key)).unlink (m.map.index key) e).total_keys =
              u64_dec m.map.total_keys := by rw [u1, t2]
          cases hfree : m.freeable e with
          | true =>
            rw [_free_item_freeable ({ m with map := (m.map.touch (m.map.index key)).unlink (m.map.index key) e } : mc) e hfree]
            exact ⟨rfl, hb, htk, fun k1 k2 => (by rw [htk]; exact u64_dec_eq _ k1 k2), rfl,
              fun _ => ⟨rfl, rfl, rfl⟩, fun hh => (by cases hh)⟩
          | false =>
            rw [_free_item_inuse ({ m with map := (m.map.touch (m.map.index key)).unlink (m.map.index key) e } : mc) e hfree]
            exact ⟨rfl, hb, htk, fun k1 k2 => (by rw [htk]; exact u64_dec_eq _ k1 k2), rfl,
              fun hh => (by cases hh), fun _ => ⟨List.append_nil _, rfl, rfl⟩⟩
theorem mc_item_delete_spec_witness :
    ((mc_item_delete (mc_item_insert mc_sample 1 true).mc 20 none).ret = ENOENT ∧
      (mc_item_delete (mc_item_insert mc_sample 1 true).mc 20 none).calls = []) ∧
    ((mc_item_delete (mc_item_insert mc_sample 1 true).mc 10 (some (fun _ => 7))).ret = 7 ∧
      (mc_item_delete (mc_item_insert mc_sample 1 true).mc 10 (some (fun _ => 7))).calls =
        [mc_call.cond 1]) ∧
    ((mc_item_delete (mc_item_insert mc_sample 1 true).mc 10 none).ret = 0 ∧
      (mc_item_delete (mc_item_insert mc_sample 1 true).mc 10 none).mc.map.total_keys + 1 = 1 ∧
      (mc_item_delete (mc_item_insert mc_sample 1 true).mc 10 none).calls = [mc_call.clean 1] ∧
      (mc_item_delete (mc_item_insert mc_sample 1 true).mc 10 none).mc.free = ⟨1, [1]⟩) ∧
    ((mc_item_delete (mc_item_insert mc_sample 3 true).mc 30 none).ret = 0 ∧
      (mc_item_delete (mc_item_insert mc_sample 3 true).mc 30 none).calls = [] ∧
      (mc_item_delete (mc_item_insert mc_sample 3 true).mc 30 none).mc.inuse = ⟨1, [3]⟩) := by
  have hempty : ((mc_item_insert mc_sample 1 true).mc.map.bucket
      ((mc_item_insert mc_sample 1 true).mc.map.index 20)).list = [] := rfl
  have a := (mc_item_delete_spec (mc_item_insert mc_sample 1 true).mc 20 none (by decide)
    (by decide) rfl).1 (fun x hx => by rw [hempty] at hx; cases hx)
  have b := ((mc_item_delete_spec (mc_item_insert mc_sample 1 true).mc 10
    (some (fun _ => 7)) (by decide) (by decide) rfl).2 1 rfl).1 _ rfl (by decide)
  have c := ((mc_item_delete_spec (mc_item_insert mc_sample 1 true).mc 10 none (by decide)
    (by decide) rfl).2 1 rfl).2 (fun f hf => by cases hf)
  have d := ((mc_item_delete_spec (mc_item_insert mc_sample 3 true).mc 30 none (by decide)
    (by decide) rfl).2 3 rfl).2 (fun f hf => by cases hf)
  exact ⟨⟨a.1, a.2.1⟩, ⟨b.1, b.2.1⟩,
    ⟨c.1, c.2.2.2.1 (by decide) (by decide), (c.2.2.2.2.2.1 rfl).1, (c.2.2.2.2.2.1 rfl).2.1⟩,
    ⟨d.1, (d.2.2.2.2.2.2 rfl).1, (d.2.2.2.2.2.2 rfl).2.1⟩⟩

theorem MapWF.of_buckets {cmp : Nat → Nat → Int} {hash : Nat → Nat} {B : Nat}
    {map map' : hashmap} {key_of : Nat → Nat} (h : MapWF cmp hash B map key_of)
    (hc : map'.cmp = map.cmp) (hh : map'.hash = map.hash) (hb : map'.b_count = map.b_count)
    (hl : map'.buckets.length = map.buckets.length)
    (hsub : ∀ i, (map'.bucket i).list.Sublist (map.bucket i).list) :
    MapWF cmp hash B map' key_of := by
  have hidx : ∀ k, map'.index k = map.index k := by
    intro k; unfold hashmap.index; rw [hh, hb]
  exact ⟨by rw [hc, h.cmp_eq], by rw [hh, h.hash_eq], by rw [hb, h.b_eq], by rw [hl, h.len],
    fun i e he => by rw [hidx]; exact h.home i e ((hsub i).subset he),
    fun i => (h.uniq i).sublist (hsub i)⟩

theorem MapWF.touch {cmp : Nat → Nat → Int} {hash : Nat → Nat} {B : Nat}
    {map : hashmap} {key_of : Nat → Nat} (h : MapWF cmp hash B map key_of) (i : Nat) :
    MapWF cmp hash B (map.touch i) key_of := by
  obtain ⟨t1, _, t3, t4, t5⟩ := hashmap_touch_fields map i
  exact h.of_buckets t3 t4 t5 (by rw [t1])
    (fun j => by rw [hashmap_touch_bucket])

theorem _eviction_scan_sublist {σ : Type} (func : σ → Nat → Int × σ) :
    ∀ (l : List Nat) (skip depth tk : Nat) (st : σ),
      (_eviction_scan func l skip depth tk st).1.Sublist l := by
  intro l
  induction l with
  | nil => intro skip depth tk st; exact List.Sublist.refl _
  | cons curr rest ih =>
    intro skip depth tk st
    rw [_eviction_scan]
    split
    · exact (ih _ _ _ _).cons₂ curr
    · dsimp only
      split
      · exact (ih _ _ _ _).cons curr
      · exact (ih _ _ _ _).cons₂ curr

theorem _eviction_buckets_spec {σ : Type} (func : σ → Nat → Int × σ) (avg : Nat) :
    ∀ (bs : List _bucket_t) (tk : Nat) (st : σ),
      (_eviction_buckets func avg bs tk st).1.length = bs.length ∧
      ∀ i, ((_eviction_buckets func avg bs tk st).1.getD i ⟨[], 0⟩).list.Sublist
        (bs.getD i ⟨[], 0⟩).list := by
  intro bs
  induction bs with
  | nil =>
    intro tk st
    exact ⟨rfl, fun i => List.Sublist.refl _⟩
  | cons b rest ih =>
    intro tk st
    rw [_eviction_buckets]
    split
    · obtain ⟨g1, g2⟩ := ih tk st
      refine ⟨by simp [g1], fun i => ?_⟩
      cases i with
      | zero => exact List.Sublist.refl _
      | succ i => exact g2 i
    · dsimp only
      obtain ⟨g1, g2⟩ := ih (_eviction_scan func b.list avg b.depth tk st).2.2.1
        (_eviction_scan func b.list avg b.depth tk st).2.2.2
      refine ⟨by simp [g1], fun i => ?_⟩
      cases i with
      | zero => exact _eviction_scan_sublist func _ _ _ _ _
      | succ i => exact g2 i

theorem MapWF.nodup {cmp : Nat → Nat → Int} {hash : Nat → Nat} {B : Nat}
    {map : hashmap} {key_of : Nat → Nat} (hk : KeyLaws cmp hash)
    (h : MapWF cmp hash B map key_of) (i : Nat) : (map.bucket i).list.Nodup := by
  apply (h.uniq i).imp
  intro a b hab e
  rw [e] at hab
  exact hab (hk.refl _)

theorem MapReachable.wf {cmp : Nat → Nat → Int} {hash : Nat → Nat} {B : Nat}
    (hB1 : 1 ≤ B) (hB2 : B < 4294967296) {map : hashmap} {key_of : Nat → Nat}
    (hr : MapReachable cmp hash B map key_of) : MapWF cmp hash B map key_of := by
  induction hr with
  | init key_of =>
    have hb : ∀ i, ((hashmap_init B cmp hash).bucket i).list = [] := by
      intro i
      unfold hashmap.bucket hashmap_init
      dsimp only
      rw [List.getD_eq_getElem?_getD, List.getElem?_replicate]
      split <;> rfl
    exact ⟨rfl, rfl, rfl, List.length_replicate _ _,
      fun i e he => (by rw [hb] at he; cases he), fun i => (by rw [hb]; exact List.Pairwise.nil)⟩
  | @insert map key_of new_data func _ ih =>
    rcases hashmap_insert_cases map key_of new_data func (by rw [ih.b_eq]; exact hB1)
      (by rw [ih.b_eq]; exact hB2) (by rw [ih.len, ih.b_eq]) with
      ⟨e, _, hr⟩ | ⟨hf, _, _, _, _, k5, k6, k7, k8, k9⟩
    · rw [hr]; exact ih.touch _
    · have hidx : ∀ k, (hashmap_insert map key_of new_data func).map.index k = map.index k := by
        intro k; unfold hashmap.index; rw [k6, k7]
      refine ⟨by rw [k5, ih.cmp_eq], by rw [k6, ih.hash_eq], by rw [k7, ih.b_eq],
        by rw [k8, ih.len], fun i e he => ?_, fun i => ?_⟩
      · rw [k9 i] at he
        rw [hidx]
        by_cases hi : i = map.index (key_of new_data)
        · rw [if_pos hi] at he
          rcases List.mem_cons.mp he with h1 | h1
          · rw [h1, hi]
          · rw [hi]; exact ih.home _ e h1
        · rw [if_neg hi] at he
          exact ih.home i e he
      · rw [k9 i]
        by_cases hi : i = map.index (key_of new_data)
        · rw [if_pos hi]
          refine List.pairwise_cons.mpr ⟨fun a ha => ?_, ih.uniq _⟩
          have := find_none_all hf a ha
          rw [ih.cmp_eq] at this
          simpa using this
        · rw [if_neg hi]; exact ih.uniq i
  | @search map key_of key func _ ih =>
    rcases hashmap_search_cases map key_of key func with ⟨e, _, hr⟩ | ⟨_, hr⟩
    · rw [hr]; exact ih.touch _
    · rw [hr]; exact ih.touch _
  | @delete map key_of key func _ ih =>
    have hidx := hashmap_index_lt map key (by rw [ih.b_eq]; exact hB1)
      (by rw [ih.b_eq]; exact hB2)
    obtain ⟨t1, _, _, _, _⟩ := hashmap_touch_fields map (map.index key)
    rcases hashmap_delete_cases map key_of key func with
      ⟨_, hr⟩ | ⟨e, _, ⟨f, _, _, hr⟩ | ⟨_, hr⟩⟩
    · rw [hr]; exact ih.touch _
    · rw [hr]; exact ih.touch _
    · rw [hr]
      obtain ⟨_, u2, u3, u4, u5, u6⟩ := hashmap_unlink_fields (map.touch (map.index key))
        (map.index key) e (by rw [t1, ih.len, ← ih.b_eq]; exact hidx)
      refine (ih.touch (map.index key)).of_buckets u2 u3 u4 u5 (fun j => ?_)
      show (((map.touch (map.index key)).unlink (map.index key) e).bucket j).list.Sublist _
      rw [u6 j]
      by_cases hj : j = map.index key
      · rw [if_pos hj, hj]; exact List.erase_sublist _ _
      · rw [if_neg hj]
  | @evict map key_of σ depth func st _ ih =>
    obtain ⟨g1, g2⟩ := _eviction_buckets_spec func
      (if map.total_keys / map.b_count > depth then depth else map.total_keys / map.b_count)
      map.buckets map.total_keys st
    exact ih.of_buckets rfl rfl rfl g1 g2
  | @setkey map key_of x key _ hx ih =>
    have hk : ∀ i e, e ∈ (map.bucket i).list → Function.update key_of x key e = key_of e := by
      intro i e he
      apply Function.update_noteq
      intro heq
      rw [heq] at he
      exact hx i he
    refine ⟨ih.cmp_eq, ih.hash_eq, ih.b_eq, ih.len, fun i e he => ?_, fun i => ?_⟩
    · rw [hk i e he]; exact ih.home i e he
    · apply (ih.uniq i).imp_of_mem
      intro a b ha hb hab
      rw [hk i a ha, hk i b hb]
      exact hab

/-- In a well-formed table a search for a key equal to the key of a linked
entry finds exactly that entry. -/
theorem MapWF.find_resident {cmp : Nat → Nat → Int} {hash : Nat → Nat} {B : Nat}
    {map : hashmap} {key_of : Nat → Nat} (hk : KeyLaws cmp hash)
    (h : MapWF cmp hash B map key_of) (x q i : Nat) (hx : x ∈ (map.bucket i).list)
    (hq : cmp q (key_of x) = 0) :
    (map.bucket (map.index q)).list.find? (fun e => decide (map.cmp q (key_of e) = 0)) =
      some x := by
  have hi : map.index q = i := by
    rw [← h.home i x hx]
    unfold hashmap.index
    rw [h.hash_eq, hk.hash_eq q (key_of x) hq]
  rw [hi]
  obtain ⟨e, he⟩ := find_exists (l := (map.bucket i).list)
    (p := fun e => decide (map.cmp q (key_of e) = 0))
    ⟨x, hx, by rw [h.cmp_eq]; simpa using hq⟩
  rw [he]
  obtain ⟨m1, m2⟩ := find_some_mem he
  have m3 : cmp q (key_of e) = 0 := by rw [h.cmp_eq] at m2; simpa using m2
  by_contra hne
  have hne' : e ≠ x := fun heq => hne (by rw [heq])
  have hsym : Symmetric (fun a b => cmp (key_of a) (key_of b) ≠ 0) :=
    fun a b hab hba => hab (hk.symm _ _ hba)
  exact (h.uniq i).forall hsym m1 hx hne' (hk.trans _ _ _ (hk.symm _ _ m3) hq)

theorem hashmap_insert_cases_ret (map : hashmap) (key_of : Nat → Nat) (new_data : Nat)
    (func : Bool) :
    (hashmap_insert map key_of new_data func).ret = EEXIST ∨
    (hashmap_insert map key_of new_data func).ret = 0 := by
  unfold hashmap_insert
  dsimp only
  split
  · exact Or.inl rfl
  · exact Or.inr rfl

theorem _free_item_frame (m : mc) (e : Nat) :
    (_free_item m e).2.map = m.map ∧ (_free_item m e).2.key_of = m.key_of := by
  unfold _free_item
  split <;> exact ⟨rfl, rfl⟩

theorem mc_item_search_map (m : mc) (q : Nat) (fs : Bool) :
    (mc_item_search m q fs).mc.map = (hashmap_search m.map m.key_of q true).map ∧
    (mc_item_search m q fs).mc.key_of = m.key_of := by
  unfold mc_item_search
  dsimp only
  split <;> exact ⟨rfl, rfl⟩

theorem mc_item_insert_map (m : mc) (ne : Nat) (fi : Bool) :
    ((mc_item_insert m ne fi).mc.map = m.map ∨
      (mc_item_insert m ne fi).mc.map = (hashmap_insert m.map m.key_of ne true).map) ∧
    (mc_item_insert m ne fi).mc.key_of = m.key_of ∧
    ((mc_item_insert m ne fi).ret = 0 →
      (hashmap_insert m.map m.key_of ne true).ret = 0 ∧
      (mc_item_insert m ne fi).mc.map = (hashmap_insert m.map m.key_of ne true).map) := by
  unfold mc_item_insert
  split
  · exact ⟨Or.inl rfl, rfl, fun h => absurd (show EINVAL = 0 from h) (by decide)⟩
  · dsimp only
    split
    · exact ⟨Or.inr rfl, rfl, fun h => absurd (show EEXIST = 0 from h) (by decide)⟩
    · rename_i hne
      refine ⟨Or.inr rfl, ?_, fun _ => ?_⟩
      · funext a
        show (Function.update m.item ne _ a).key = (m.item a).key
        by_cases ha : a = ne
        · rw [ha, Function.update_same]
        · rw [Function.update_noteq ha]
      · refine ⟨?_, rfl⟩
        rcases hashmap_insert_cases_ret m.map m.key_of ne true with h | h
        · exact absurd h hne
        · exact h

theorem mc_item_delete_map (m : mc) (q : Nat) (c : Option (Nat → Int)) :
    (mc_item_delete m q c).mc.map = (hashmap_delete m.map m.key_of q (some (_int_found c))).map ∧
    (mc_item_delete m q c).mc.key_of = m.key_of ∧
    (mc_item_delete m q c).ret = (hashmap_delete m.map m.key_of q (some (_int_found c))).ret := by
  unfold mc_item_delete
  dsimp only
  split
  · rename_i h0
    split
    · exact ⟨(_free_item_frame _ _).1, (_free_item_frame _ _).2, h0.symm⟩
    · exact ⟨rfl, rfl, h0.symm⟩
  · exact ⟨rfl, rfl, rfl⟩

theorem mc_item_search_resident {cmp : Nat → Nat → Int} {hash : Nat → Nat} {B : Nat}
    (hk : KeyLaws cmp hash) (m : mc) (h : MapWF cmp hash B m.map m.key_of)
    (x q i : Nat) (fs : Bool) (hx : x ∈ (m.map.bucket i).list)
    (hq : cmp q (m.key_of x) = 0) :
    (mc_item_search m q fs).out = some x ∧
    (mc_item_search m q fs).calls = (if fs then [mc_call.found x] else []) := by
  have hf := h.find_resident hk x q i hx hq
  rcases hashmap_search_cases m.map m.key_of q true with ⟨e, he, hr⟩ | ⟨hn, _⟩
  · rw [hf] at he
    cases he
    unfold mc_item_search
    dsimp only
    rw [hr]
    cases fs <;> exact ⟨rfl, rfl⟩
  · rw [hf] at hn
    cases hn

theorem mc_item_search_absent {cmp : Nat → Nat → Int} {hash : Nat → Nat} {B : Nat}
    (m : mc) (h : MapWF cmp hash B m.map m.key_of) (q : Nat) (fs : Bool)
    (hx : ∀ i x, x ∈ (m.map.bucket i).list → cmp q (m.key_of x) ≠ 0) :
    (mc_item_search m q fs).out = none ∧ (mc_item_search m q fs).calls = [] := by
  rcases hashmap_search_cases m.map m.key_of q true with ⟨e, he, _⟩ | ⟨_, hr⟩
  · obtain ⟨m1, m2⟩ := find_some_mem he
    rw [h.cmp_eq] at m2
    exact absurd (by simpa using m2) (hx _ e m1)
  · unfold mc_item_search
    dsimp only
    rw [hr]
    cases fs <;> exact ⟨rfl, rfl⟩

/-- C9: insert/search round trip.  For a comparison that is an equality test
on keys with a hash that respects it, in every table reachable from the empty
one by inserts, searches, deletes, evictions and key changes of unlinked
items: (1) after `mc_item_insert` returned 0, `mc_item_search` of the item's
key returns the item and calls `found` once on it; (2) the search of any key
equal to the key of a linked item returns that item and calls `found` once on
it; (3) the search of a key with no equal entry returns `NULL` and calls
nothing; (4) after `mc_item_delete` returned 0, the search of the same key
returns `NULL`; (5) a linked item stays linked across an insert, a search and
a delete that does not remove an equal key; (6) the three calls keep the keys
and lead to reachable tables again. -/
theorem mc_item_search_round_trip (cmp : Nat → Nat → Int) (hash : Nat → Nat) (B : Nat)
    (hk : KeyLaws cmp hash) (hB1 : 1 ≤ B) (hB2 : B < 4294967296) (m : mc)
    (hr : MapReachable cmp hash B m.map m.key_of) :
    (∀ ne fi fs, (mc_item_insert m ne fi).ret = 0 →
      (mc_item_search (mc_item_insert m ne fi).mc (m.key_of ne) fs).out = some ne ∧
      (mc_item_search (mc_item_insert m ne fi).mc (m.key_of ne) fs).calls =
        (if fs then [mc_call.found ne] else [])) ∧
    (∀ x i q fs, x ∈ (m.map.bucket i).list → cmp q (m.key_of x) = 0 →
      (mc_item_search m q fs).out = some x ∧
      (mc_item_search m q fs).calls = (if fs then [mc_call.found x] else [])) ∧
    (∀ q fs, (∀ i x, x ∈ (m.map.bucket i).list → cmp q (m.key_of x) ≠ 0) →
      (mc_item_search m q fs).out = none ∧ (mc_item_search m q fs).calls = []) ∧
    (∀ q c fs, (mc_item_delete m q c).ret = 0 →
      (mc_item_search (mc_item_delete m q c).mc q fs).out = none ∧
      (mc_item_search (mc_item_delete m q c).mc q fs).calls = []) ∧
    (∀ x i, x ∈ (m.map.bucket i).list →
      (∀ ne fi, x ∈ ((mc_item_insert m ne fi).mc.map.bucket i).list) ∧
      (∀ q fs, x ∈ ((mc_item_search m q fs).mc.map.bucket i).list) ∧
      (∀ q c, cmp q (m.key_of x) ≠ 0 ∨ (mc_item_delete m q c).ret ≠ 0 →
        x ∈ ((mc_item_delete m q c).mc.map.bucket i).list)) ∧
    (∀ ne fi, (mc_item_insert m ne fi).mc.key_of = m.key_of ∧
      MapReachable cmp hash B (mc_item_insert m ne fi).mc.map (mc_item_insert m ne fi).mc.key_of) ∧
    (∀ q fs, (mc_item_search m q fs).mc.key_of = m.key_of ∧
      MapReachable cmp hash B (mc_item_search m q fs).mc.map (mc_item_search m q fs).mc.key_of) ∧
    (∀ q c, (mc_item_delete m q c).mc.key_of = m.key_of ∧
      MapReachable cmp hash B (mc_item_delete m q c).mc.map (mc_item_delete m q c).mc.key_of) := by
  have wf := hr.wf hB1 hB2
  have hb1 : 1 ≤ m.map.b_count := by rw [wf.b_eq]; exact hB1
  have hb2 : m.map.b_count < 4294967296 := by rw [wf.b_eq]; exact hB2
  have hlen : m.map.buckets.length = m.map.b_count := by rw [wf.len, wf.b_eq]
  have rins : ∀ ne fi, (mc_item_insert m ne fi).mc.key_of = m.key_of ∧
      MapReachable cmp hash B (mc_item_insert m ne fi).mc.map
        (mc_item_insert m ne fi).mc.key_of := by
    intro ne fi
    obtain ⟨h1, h2, _⟩ := mc_item_insert_map m ne fi
    refine ⟨h2, ?_⟩
    rw [h2]
    rcases h1 with h1 | h1
    · rw [h1]; exact hr
    · rw [h1]; exact hr.insert ne true
  have rsea : ∀ q fs, (mc_item_search m q fs).mc.key_of = m.key_of ∧
      MapReachable cmp hash B (mc_item_search m q fs).mc.map
        (mc_item_search m q fs).mc.key_of := by
    intro q fs
    obtain ⟨h1, h2⟩ := mc_item_search_map m q fs
    refine ⟨h2, ?_⟩
    rw [h1, h2]
    exact hr.search q true
  have rdel : ∀ q c, (mc_item_delete m q c).mc.key_of = m.key_of ∧
      MapReachable cmp hash B (mc_item_delete m q c).mc.map
        (mc_item_delete m q c).mc.key_of := by
    intro q c
    obtain ⟨h1, h2, _⟩ := mc_item_delete_map m q c
    refine ⟨h2, ?_⟩
    rw [h1, h2]
    exact hr.delete q _
  refine ⟨fun ne fi fs h0 => ?_, fun x i q fs hx hq => mc_item_search_resident hk m wf x q i fs hx hq,
    fun q fs hx => mc_item_search_absent m wf q fs hx, fun q c fs h0 => ?_,
    fun x i hx => ⟨fun ne fi => ?_, fun q fs => ?_, fun q c hc => ?_⟩, rins, rsea, rdel⟩
  · obtain ⟨_, h2, h3⟩ := mc_item_insert_map m ne fi
    obtain ⟨g1, g2⟩ := h3 h0
    have wf1 := (rins ne fi).2.wf hB1 hB2
    rcases hashmap_insert_cases m.map m.key_of ne true hb1 hb2 hlen with
      ⟨e, _, hr1⟩ | ⟨_, _, _, _, _, _, _, _, _, k9⟩
    · rw [hr1] at g1
      exact absurd (show EEXIST = 0 from g1) (by decide)
    · have hmem : ne ∈ ((mc_item_insert m ne fi).mc.map.bucket
          (m.map.index (m.key_of ne))).list := by
        rw [g2, k9, if_pos rfl]
        exact List.mem_cons_self _ _
      have := mc_item_search_resident hk _ wf1 ne (m.key_of ne) _ fs hmem
        (by rw [h2]; exact hk.refl _)
      exact this
  · obtain ⟨h1, h2, h3⟩ := mc_item_delete_map m q c
    have wf1 := (rdel q c).2.wf hB1 hB2
    apply mc_item_search_absent _ wf1
    intro i x hx hq
    rw [h2] at hq
    rw [h3] at h0
    rw [h1] at hx
    have hidx := hashmap_index_lt m.map q hb1 hb2
    obtain ⟨t1, _, _, _, _⟩ := hashmap_touch_fields m.map (m.map.index q)
    rcases hashmap_delete_cases m.map m.key_of q (some (_int_found c)) with
      ⟨_, hd⟩ | ⟨e, he, ⟨f, _, hf, hd⟩ | ⟨_, hd⟩⟩
    · rw [hd] at h0
      exact absurd (show ENOENT = 0 from h0) (by decide)
    · rw [hd] at h0
      exact hf h0
    · rw [hd] at hx
      obtain ⟨_, _, _, _, _, u6⟩ := hashmap_unlink_fields (m.map.touch (m.map.index q))
        (m.map.index q) e (by rw [t1, hlen]; exact hidx)
      have hx1 : x ∈ (((m.map.touch (m.map.index q)).unlink (m.map.index q) e).bucket i).list :=
        hx
      rw [u6 i] at hx1
      obtain ⟨m1, m2⟩ := find_some_mem he
      have m3 : cmp q (m.key_of e) = 0 := by rw [wf.cmp_eq] at m2; simpa using m2
      by_cases hi : i = m.map.index q
      · rw [if_pos hi, hashmap_touch_bucket] at hx1
        have hnd := wf.nodup hk (m.map.index q)
        obtain ⟨hne, hxm⟩ := (hnd.mem_erase_iff).mp hx1
        have hsym : Symmetric (fun a b => cmp (m.key_of a) (m.key_of b) ≠ 0) :=
          fun a b hab hba => hab (hk.symm _ _ hba)
        exact (wf.uniq (m.map.index q)).forall hsym m1 hxm (Ne.symm hne)
          (hk.trans _ _ _ (hk.symm _ _ m3) hq)
      · rw [if_neg hi, hashmap_touch_bucket] at hx1
        apply hi
        rw [← wf.home i x hx1]
        unfold hashmap.index
        rw [wf.hash_eq, hk.hash_eq q (m.key_of x) hq]
  · obtain ⟨h1, _, _⟩ := mc_item_insert_map m ne fi
    rcases h1 with h1 | h1
    · rw [h1]; exact hx
    · rw [h1]
      rcases hashmap_insert_cases m.map m.key_of ne true hb1 hb2 hlen with
        ⟨e, _, hr1⟩ | ⟨_, _, _, _, _, _, _, _, _, k9⟩
      · rw [hr1]
        show x ∈ ((m.map.touch _).bucket i).list
        rw [hashmap_touch_bucket]; exact hx
      · rw [k9]
        by_cases hi : i = m.map.index (m.key_of ne)
        · rw [if_pos hi]
          rw [hi] at hx
          exact List.mem_cons_of_mem _ hx
        · rw [if_neg hi]; exact hx
  · rw [(mc_item_search_map m q fs).1]
    rcases hashmap_search_cases m.map m.key_of q true with ⟨e, _, hr1⟩ | ⟨_, hr1⟩
    · rw [hr1]
      show x ∈ ((m.map.touch _).bucket i).list
      rw [hashmap_touch_bucket]; exact hx
    · rw [hr1]
      show x ∈ ((m.map.touch _).bucket i).list
      rw [hashmap_touch_bucket]; exact hx
  · obtain ⟨h1, _, h3⟩ := mc_item_delete_map m q c
    rw [h1]
    rw [h3] at hc
    have hidx := hashmap_index_lt m.map q hb1 hb2
    obtain ⟨t1, _, _, _, _⟩ := hashmap_touch_fields m.map (m.map.index q)
    rcases hashmap_delete_cases m.map m.key_of q (some (_int_found c)) with
      ⟨_, hd⟩ | ⟨e, he, ⟨f, _, hf, hd⟩ | ⟨_, hd⟩⟩
    · rw [hd]
      show x ∈ ((m.map.touch _).bucket i).list
      rw [hashmap_touch_bucket]; exact hx
    · rw [hd]
      show x ∈ ((m.map.touch _).bucket i).list
      rw [hashmap_touch_bucket]; exact hx
    · rw [hd] at hc ⊢
      rcases hc with hc | hc
      · obtain ⟨_, _, _, _, _, u6⟩ := hashmap_unlink_fields (m.map.touch (m.map.index q))
          (m.map.index q) e (by rw [t1, hlen]; exact hidx)
        show x ∈ (((m.map.touch (m.map.index q)).unlink (m.map.index q) e).bucket i).list
        rw [u6 i]
        obtain ⟨_, m2⟩ := find_some_mem he
        have m3 : cmp q (m.key_of e) = 0 := by rw [wf.cmp_eq] at m2; simpa using m2
        have hxe : x ≠ e := fun h => hc (by rw [h]; exact m3)
        by_cases hi : i = m.map.index q
        · rw [if_pos hi, hashmap_touch_bucket]
          rw [hi] at hx
          exact (List.mem_erase_of_ne hxe).mpr hx
        · rw [if_neg hi, hashmap_touch_bucket]; exact hx
      · exact absurd rfl hc

theorem u64_key_laws : KeyLaws u64_cmp u64_hash := by
  refine ⟨fun a => ?_, fun a b h => ?_, fun a b c h1 h2 => ?_, fun a b h => ?_⟩
  · unfold u64_cmp; rw [if_pos rfl]
  · unfold u64_cmp at *
    split at h
    · rename_i e; rw [if_pos e.symm]
    · cases h
  · unfold u64_cmp at *
    split at h1
    · rename_i e; rw [e]; exact h2
    · cases h1
  · unfold u64_cmp at h
    split at h
    · rename_i e; rw [e]
    · cases h

theorem mc_item_search_round_trip_witness :
    ((mc_item_insert mc_sample 1 true).ret = 0 ∧
      (mc_item_search (mc_item_insert mc_sample 1 true).mc (mc_sample.key_of 1) true).out =
        some 1 ∧
      (mc_item_search (mc_item_insert mc_sample 1 true).mc (mc_sample.key_of 1) true).calls =
        (if true then [mc_call.found 1] else [])) ∧
    (mc_item_search mc_sample 10 true).out = none ∧
    (mc_item_search mc_sample 10 true).calls = [] :=
  have h := mc_item_search_round_trip u64_cmp u64_hash 4 u64_key_laws (by decide) (by decide)
    mc_sample (MapReachable.init _)
  ⟨⟨rfl, h.1 1 true true rfl⟩, h.2.2.1 10 true (fun i x hx => by
    have hb : (mc_sample.map.bucket i).list = [] := by
      show ((List.replicate 4 (⟨[], 0⟩ : _bucket_t)).getD i ⟨[], 0⟩).list = []
      rw [List.getD_eq_getElem?_getD, List.getElem?_replicate]
      split <;> rfl
    rw [hb] at hx
    cases hx)⟩

set_option maxRecDepth 8000 in
/-- C11 (the code at the failing input).  In a cache of scale 16 whose
`freeable` always returns true, 16 items with distinct keys are allocated and
inserted (every insert returns 0).  Then `holds = 16 = scale`,
`_evict_enable` for the limit `scale` is false, and the 17th `mc_item_alloc`
runs no eviction pass (no `clean` call, `total_keys` still 16), only wakes the
sweeper up, and returns `NULL`. -/
theorem mc_item_alloc_at_scale_returns_null :
    mc_create 77 4 16 8 u64_cmp u64_hash (fun _ => true) = some mc_sample16 ∧
    (mc_alloc_insert_many 16 (mc_sample16, fun _ => [])).1 =
      (List.range 16).map (fun i => some (i + 1, 0)) ∧
    (mc_alloc_insert_many 16 (mc_sample16, fun _ => [])).2.1.holds = 16 ∧
    (mc_alloc_insert_many 16 (mc_sample16, fun _ => [])).2.1.alloc_count = 16 ∧
    _evict_enable (mc_alloc_insert_many 16 (mc_sample16, fun _ => [])).2.1 16 = false ∧
    (mc_item_alloc (mc_alloc_insert_many 16 (mc_sample16, fun _ => [])).2.1
      (mc_alloc_insert_many 16 (mc_sample16, fun _ => [])).2.2 (some 17)).out = none ∧
    (mc_item_alloc (mc_alloc_insert_many 16 (mc_sample16, fun _ => [])).2.1
      (mc_alloc_insert_many 16 (mc_sample16, fun _ => [])).2.2 (some 17)).calls = [] ∧
    (mc_item_alloc (mc_alloc_insert_many 16 (mc_sample16, fun _ => [])).2.1
      (mc_alloc_insert_many 16 (mc_sample16, fun _ => [])).2.2 (some 17)).wakeup = true ∧
    (mc_item_alloc (mc_alloc_insert_many 16 (mc_sample16, fun _ => [])).2.1
      (mc_alloc_insert_many 16 (mc_sample16, fun _ => [])).2.2 (some 17)).mc.map.total_keys = 16 :=
  ⟨rfl, by decide, by decide, by decide, by decide, by decide, by decide, by decide, by decide⟩

theorem SameItems.rfl_items (m : mc) : SameItems m m := ⟨rfl, rfl, rfl, rfl, rfl, rfl⟩

theorem SameItems.trans_items {a b c : mc} (h1 : SameItems a b) (h2 : SameItems b c) :
    SameItems a c :=
  ⟨h2.magic.trans h1.magic, h2.scale.trans h1.scale, h2.alloc_count.trans h1.alloc_count,
    h2.size.trans h1.size, h2.freeable.trans h1.freeable, h2.item.trans h1.item⟩

theorem _sweeper_inuse_loop_same (l : List Nat) :
    ∀ st : List mc_call × mc, SameItems st.2 (_sweeper_inuse_loop l st).2 ∧
      (_sweeper_inuse_loop l st).2.map = st.2.map := by
  induction l with
  | nil => intro st; exact ⟨SameItems.rfl_items _, rfl⟩
  | cons curr rest ih =>
    intro st
    rw [_sweeper_inuse_loop]
    split
    · obtain ⟨g1, g2⟩ := ih (st.1 ++ [mc_call.clean curr],
        { st.2 with inuse := ⟨st.2.inuse.count - 1, st.2.inuse.list.erase curr⟩,
                    free := ⟨st.2.free.count + 1, curr :: st.2.free.list⟩ })
      refine ⟨SameItems.trans_items ?_ g1, g2⟩
      exact ⟨rfl, rfl, rfl, rfl, rfl, rfl⟩
    · exact ih st

theorem _sweeper_inuse_same (m : mc) :
    SameItems m (_sweeper_inuse m).2 ∧ (_sweeper_inuse m).2.map = m.map :=
  _sweeper_inuse_loop_same m.inuse.list ([], m)

theorem mc_evict_same (m : mc) (depth : Nat) :
    SameItems m (m.evict depth).2 ∧ (m.evict depth).2.inuse = m.inuse :=
  ⟨⟨rfl, rfl, rfl, rfl, rfl, rfl⟩, rfl⟩

theorem _evict_pass_same (m : mc) : SameItems m (_evict_pass m).2 :=
  SameItems.trans_items (_sweeper_inuse_same m).1 (mc_evict_same _ 0).1

theorem _alloc_item_evict_same (n : Nat) :
    ∀ st : List mc_call × mc, SameItems st.2 (_alloc_item_evict n st).2.2 := by
  induction n with
  | zero =>
    intro st
    rw [_alloc_item_evict]
    split <;> exact SameItems.rfl_items _
  | succ n ih =>
    intro st
    rw [_alloc_item_evict]
    split
    · exact SameItems.trans_items (_evict_pass_same st.2)
        (ih (st.1 ++ (_evict_pass st.2).1, (_evict_pass st.2).2))
    · exact SameItems.rfl_items _

theorem _sweeper_main_loop_same (fuel : Nat) :
    ∀ (depth : Nat) (st : List mc_call × mc),
      SameItems st.2 (_sweeper_main_loop fuel depth st).2 := by
  induction fuel with
  | zero => intro depth st; exact SameItems.rfl_items _
  | succ fuel ih =>
    intro depth st
    rw [_sweeper_main_loop]
    split
    · refine SameItems.trans_items ?_ (ih _ _)
      exact (mc_evict_same st.2 _).1
    · exact SameItems.rfl_items _

/-- What `_alloc_item` returns, by the place the item comes from. -/
theorem _alloc_item_cases (m : mc) (mem : Nat → List Nat) (calloc : Option Nat) :
    ∃ m1 calls, SameItems m m1 ∧ m1 = (_alloc_item_evict MC_RETRY ([], m)).2.2 ∧
      (_alloc_item m mem calloc = ⟨none, calls, false, false, m1, mem⟩ ∨
      (∃ w, _alloc_item m mem calloc = ⟨none, calls, w, false, m1, mem⟩ ∧
        m1.free.list = [] ∧ m1.inuse.list.find? m1.freeable = none) ∨
      (∃ w item rest, m1.free.list = item :: rest ∧
        _alloc_item m mem calloc = ⟨some item, calls, w, false,
          { m1 with free := ⟨m1.free.count - 1, m1.free.list.erase item⟩ }, mem⟩) ∨
      (∃ w item, m1.free.list = [] ∧ m1.inuse.list.find? m1.freeable = some item ∧
        _alloc_item m mem calloc = ⟨some item, calls ++ [mc_call.clean item], w, false,
          { m1 with inuse := ⟨m1.inuse.count - 1, m1.inuse.list.erase item⟩ }, mem⟩) ∨
      (∃ w item, m1.free.list = [] ∧ m1.inuse.list.find? m1.freeable = none ∧
        m1.alloc_count < m1.scale ∧ calloc = some item ∧
        _alloc_item m mem calloc = ⟨some item, calls, w, true,
          { m1 with alloc_count := u32_inc m1.alloc_count,
                    item := Function.update m1.item item ⟨0, false, 0⟩ },
          Function.update mem item (List.replicate m1.size 0)⟩)) := by
  refine ⟨(_alloc_item_evict MC_RETRY ([], m)).2.2, (_alloc_item_evict MC_RETRY ([], m)).2.1,
    _alloc_item_evict_same MC_RETRY ([], m), rfl, ?_⟩
  unfold _alloc_item
  dsimp only
  split
  · exact Or.inl rfl
  · split
    · rename_i item rest hf
      exact Or.inr (Or.inr (Or.inl ⟨_, item, rest, hf, rfl⟩))
    · rename_i hf
      split
      · rename_i item hi
        exact Or.inr (Or.inr (Or.inr (Or.inl ⟨_, item, hf, hi, rfl⟩)))
      · rename_i hi
        split
        · rename_i hlt
          split
          · rename_i item
            exact Or.inr (Or.inr (Or.inr (Or.inr ⟨_, item, hf, hi, hlt, rfl, rfl⟩)))
          · exact Or.inr (Or.inl ⟨_, rfl, hf, hi⟩)
        · exact Or.inr (Or.inl ⟨_, rfl, hf, hi⟩)

theorem mc_item_alloc_none (m : mc) (mem : Nat → List Nat) (calloc : Option Nat)
    (c : List mc_call) (w f : Bool) (m1 : mc) (mem1 : Nat → List Nat)
    (h : _alloc_item m mem calloc = ⟨none, c, w, f, m1, mem1⟩) :
    mc_item_alloc m mem calloc = ⟨none, c, w, f, m1, mem1⟩ := by
  unfold mc_item_alloc
  rw [h]

theorem mc_item_alloc_some (m : mc) (mem : Nat → List Nat) (calloc : Option Nat)
    (x : Nat) (c : List mc_call) (w f : Bool) (m1 : mc) (mem1 : Nat → List Nat)
    (h : _alloc_item m mem calloc = ⟨some x, c, w, f, m1, mem1⟩) :
    mc_item_alloc m mem calloc = ⟨some x, c, w, f,
      { m1 with item := Function.update m1.item x ⟨m1.magic, true, (m1.item x).key⟩ }, mem1⟩ := by
  unfold mc_item_alloc
  rw [h]

/-- C12 (counterexample).  In the cache `mc_sample16` (8-byte payloads) item 1
is allocated with a zero payload; the user writes the bytes 1 to 8 into it,
inserts it under the key 101 and deletes it, which puts it on the free list.
The next `mc_item_alloc` returns item 1 again, from the free list, with
`free_out` set and the magic of the cache - and with the payload still
holding the bytes 1 to 8. -/
theorem mc_item_alloc_recycled_not_zeroed :
    (mc_item_alloc mc_sample16 (fun _ => []) (some 1)).out = some 1 ∧
    (mc_item_alloc mc_sample16 (fun _ => []) (some 1)).mem 1 = List.replicate 8 0 ∧
    mc_recycle_state.1.free.list = [1] ∧
    (mc_item_alloc mc_recycle_state.1 mc_recycle_state.2 (some 2)).out = some 1 ∧
    (mc_item_alloc mc_recycle_state.1 mc_recycle_state.2 (some 2)).fresh = false ∧
    ((mc_item_alloc mc_recycle_state.1 mc_recycle_state.2 (some 2)).mc.item 1).free_out = true ∧
    ((mc_item_alloc mc_recycle_state.1 mc_recycle_state.2 (some 2)).mc.item 1).magic = 77 ∧
    (mc_item_alloc mc_recycle_state.1 mc_recycle_state.2 (some 2)).mem 1 =
      [1, 2, 3, 4, 5, 6, 7, 8] ∧
    (mc_item_alloc mc_recycle_state.1 mc_recycle_state.2 (some 2)).mem 1 ≠
      List.replicate mc_sample16.size 0 :=
  ⟨by decide, by decide, by decide, by decide, by decide, by decide, by decide, by decide,
    by decide⟩

/-- C12 (amended).  Every item returned by `mc_item_alloc` is marked
`free_out = true` and carries the magic of the cache.  When it comes from
`calloc` its payload is `size` zero bytes (and `alloc_count` was incremented);
when it is recycled from the free list or the in-use list the payload memory
is exactly what it was before the call. -/
theorem mc_item_alloc_payload (m : mc) (mem : Nat → List Nat) (calloc : Option Nat) (a : Nat)
    (h : (mc_item_alloc m mem calloc).out = some a) :
    ((mc_item_alloc m mem calloc).mc.item a).free_out = true ∧
    ((mc_item_alloc m mem calloc).mc.item a).magic = m.magic ∧
    (mc_item_alloc m mem calloc).mc.magic = m.magic ∧
    (mc_item_alloc m mem calloc).mc.size = m.size ∧
    ((mc_item_alloc m mem calloc).fresh = true →
      calloc = some a ∧ (mc_item_alloc m mem calloc).mem a = List.replicate m.size 0 ∧
      (∀ b, b ≠ a → (mc_item_alloc m mem calloc).mem b = mem b) ∧
      (mc_item_alloc m mem calloc).mc.alloc_count = u32_inc m.alloc_count) ∧
    ((mc_item_alloc m mem calloc).fresh = false →
      (mc_item_alloc m mem calloc).mem = mem ∧
      (mc_item_alloc m mem calloc).mc.alloc_count = m.alloc_count) := by
  obtain ⟨m1, calls, hs, _, hc⟩ := _alloc_item_cases m mem calloc
  rcases hc with hc | ⟨w, hc, _, _⟩ | ⟨w, item, rest, _, hc⟩ | ⟨w, item, _, _, hc⟩ |
    ⟨w, item, _, _, _, hcal, hc⟩
  · rw [mc_item_alloc_none _ _ _ _ _ _ _ _ hc] at h
    cases h
  · rw [mc_item_alloc_none _ _ _ _ _ _ _ _ hc] at h
    cases h
  · rw [mc_item_alloc_some _ _ _ _ _ _ _ _ _ hc] at h ⊢
    cases h
    refine ⟨?_, ?_, hs.magic, hs.size, fun hf => (by cases hf), fun _ => ⟨rfl, hs.alloc_count⟩⟩
    · dsimp only
      rw [Function.update_same]
    · dsimp only
      rw [Function.update_same]
      exact hs.magic
  · rw [mc_item_alloc_some _ _ _ _ _ _ _ _ _ hc] at h ⊢
    cases h
    refine ⟨?_, ?_, hs.magic, hs.size, fun hf => (by cases hf), fun _ => ⟨rfl, hs.alloc_count⟩⟩
    · dsimp only
      rw [Function.update_same]
    · dsimp only
      rw [Function.update_same]
      exact hs.magic
  · rw [mc_item_alloc_some _ _ _ _ _ _ _ _ _ hc] at h ⊢
    cases h
    refine ⟨?_, ?_, hs.magic, hs.size, fun _ => ⟨hcal, ?_, fun b hb => ?_, ?_⟩,
      fun hf => (by cases hf)⟩
    · dsimp only
      rw [Function.update_same]
    · dsimp only
      rw [Function.update_same]
      exact hs.magic
    · show Function.update mem a _ a = _
      rw [Function.update_same, hs.size]
    · show Function.update mem a _ b = _
      rw [Function.update_noteq hb]
    · show u32_inc m1.alloc_count = _
      rw [hs.alloc_count]

theorem mc_item_alloc_payload_witness :
    ((mc_item_alloc mc_sample16 (fun _ => []) (some 1)).mc.item 1).free_out = true ∧
    (mc_item_alloc mc_sample16 (fun _ => []) (some 1)).mem 1 = List.replicate 8 0 ∧
    (mc_item_alloc mc_recycle_state.1 mc_recycle_state.2 (some 2)).mem = mc_recycle_state.2 :=
  ⟨(mc_item_alloc_payload mc_sample16 (fun _ => []) (some 1) 1 (by decide)).1,
    ((mc_item_alloc_payload mc_sample16 (fun _ => []) (some 1) 1
      (by decide)).2.2.2.2.1 (by decide)).2.1,
    ((mc_item_alloc_payload mc_recycle_state.1 mc_recycle_state.2 (some 2) 1
      (by decide)).2.2.2.2.2 (by decide)).1⟩

/-- C13 (counterexample).  Item 1 of `mc_sample` is inserted, so it is
resident in the hash table with `free_out = false` and the key 10;
`mc_item_setkey` on it returns 0 and the key of the linked item is now 99. -/
theorem mc_item_setkey_resident_changes_key :
    ((mc_item_insert mc_sample 1 true).mc.item 1).magic = (mc_item_insert mc_sample 1 true).mc.magic ∧
    ((mc_item_insert mc_sample 1 true).mc.item 1).free_out = false ∧
    ((mc_item_insert mc_sample 1 true).mc.item 1).key = 10 ∧
    1 ∈ ((mc_item_insert mc_sample 1 true).mc.map.bucket 2).list ∧
    (mc_item_setkey (mc_item_insert mc_sample 1 true).mc 1 99).1 = 0 ∧
    ((mc_item_setkey (mc_item_insert mc_sample 1 true).mc 1 99).2.item 1).key = 99 ∧
    ((mc_item_setkey (mc_item_insert mc_sample 1 true).mc 1 99).2.item 1).key ≠
      ((mc_item_insert mc_sample 1 true).mc.item 1).key :=
  ⟨by decide, by decide, by decide, by decide, by decide, by decide, by decide⟩

/-- C13 (amended).  `mc_item_free` is a no-op (no `clean` call, the cache
unchanged) on an item whose magic does not match or whose `free_out` is
false.  `mc_item_insert` and `mc_item_setkey` are no-ops returning `EINVAL`
on an item whose magic does not match.  They do not look at `free_out`: for
an item with the magic of the cache `mc_item_setkey` returns 0 and stores the
key, changing nothing else, and `mc_item_insert` returns what
`hashmap_insert` returns. -/
theorem mc_item_guards (m : mc) (x : Nat) :
    ((m.item x).magic ≠ m.magic ∨ (m.item x).free_out = false → mc_item_free m x = ([], m)) ∧
    ((m.item x).magic ≠ m.magic →
      ∀ found, mc_item_insert m x found = ⟨EINVAL, none, [], m⟩) ∧
    ((m.item x).magic ≠ m.magic → ∀ key, mc_item_setkey m x key = (EINVAL, m)) ∧
    ((m.item x).magic = m.magic → ∀ key,
      (mc_item_setkey m x key).1 = 0 ∧
      (mc_item_setkey m x key).2.item x = ⟨(m.item x).magic, (m.item x).free_out, key⟩ ∧
      (∀ y, y ≠ x → (mc_item_setkey m x key).2.item y = m.item y) ∧
      (mc_item_setkey m x key).2.map = m.map ∧
      (mc_item_setkey m x key).2.free = m.free ∧
      (mc_item_setkey m x key).2.inuse = m.inuse ∧
      (mc_item_setkey m x key).2.alloc_count = m.alloc_count) ∧
    ((m.item x).magic = m.magic → ∀ found,
      (mc_item_insert m x found).ret = (hashmap_insert m.map m.key_of x true).ret ∧
      (mc_item_insert m x found).mc.map = (hashmap_insert m.map m.key_of x true).map) := by
  refine ⟨fun h => ?_, fun h found => ?_, fun h key => ?_, fun h key => ?_, fun h found => ?_⟩
  · unfold mc_item_free
    rw [if_pos]
    rcases h with h | h
    · exact Or.inl h
    · exact Or.inr (by rw [h]; rfl)
  · unfold mc_item_insert
    rw [if_pos h]
  · unfold mc_item_setkey
    rw [if_pos h]
  · unfold mc_item_setkey
    rw [if_neg (not_not.mpr h)]
    refine ⟨rfl, ?_, fun y hy => ?_, rfl, rfl, rfl, rfl⟩
    · dsimp only
      rw [Function.update_same]
    · dsimp only
      rw [Function.update_noteq hy]
  · unfold mc_item_insert
    rw [if_neg (not_not.mpr h)]
    dsimp only
    rcases hashmap_insert_cases_ret m.map m.key_of x true with hr | hr
    · rw [if_pos hr, hr]
      exact ⟨rfl, rfl⟩
    · rw [if_neg (by rw [hr]; decide), hr]
      exact ⟨rfl, rfl⟩

theorem join_set_cons (x k : Nat) :
    ∀ (bs : List _bucket_t) (i : Nat), i < bs.length →
      List.Perm ((bs.set i ⟨x :: (bs.getD i ⟨[], 0⟩).list, k⟩).map _bucket_t.list).flatten
        (x :: (bs.map _bucket_t.list).flatten) := by
  intro bs
  induction bs with
  | nil => intro i hi; cases hi
  | cons b rest ih =>
    intro i hi
    cases i with
    | zero => exact List.Perm.refl _
    | succ i =>
      have h1 := ih i (by simpa using hi)
      show List.Perm (b.list ++ _) (x :: (b.list ++ _))
      exact (List.Perm.append_left b.list h1).trans List.perm_middle

theorem join_set_erase (e k : Nat) :
    ∀ (bs : List _bucket_t) (i : Nat), i < bs.length → e ∈ (bs.getD i ⟨[], 0⟩).list →
      List.Perm (e :: ((bs.set i ⟨(bs.getD i ⟨[], 0⟩).list.erase e, k⟩).map _bucket_t.list).flatten)
        (bs.map _bucket_t.list).flatten := by
  intro bs
  induction bs with
  | nil => intro i hi; cases hi
  | cons b rest ih =>
    intro i hi he
    cases i with
    | zero =>
      show List.Perm (e :: (b.list.erase e ++ _)) (b.list ++ _)
      exact List.Perm.append_right _ (List.perm_cons_erase he).symm
    | succ i =>
      have h1 := ih i (by simpa using hi) he
      show List.Perm (e :: (b.list ++ _)) (b.list ++ _)
      exact List.perm_middle.symm.trans (List.Perm.append_left b.list h1)

theorem perm_chain {a b c d e f g : List Nat} (h1 : (c ++ d).Perm (e ++ f))
    (h2 : (a ++ f).Perm (b ++ g)) : (a ++ c ++ d).Perm (b ++ e ++ g) := by
  rw [List.perm_iff_count]
  intro x
  have k1 := h1.count_eq x
  have k2 := h2.count_eq x
  simp only [List.count_append] at *
  omega

/-- What `_eviction_scan` with `_sweeper_item` does to one bucket: the items
taken out of the list are put on the free list and counted off `total_keys`
(`K` is the number of keys in the other buckets). -/
theorem _eviction_scan_sweep (fr : Nat → Bool) :
    ∀ (l : List Nat) (skip depth tk K : Nat) (st : List mc_call × _list_mgr_t),
      st.2.count = st.2.list.length → tk = l.length + K → tk < 18446744073709551616 →
      List.Perm ((_eviction_scan (_sweeper_item fr) l skip depth tk st).1 ++
          (_eviction_scan (_sweeper_item fr) l skip depth tk st).2.2.2.2.list)
        (l ++ st.2.list) ∧
      (_eviction_scan (_sweeper_item fr) l skip depth tk st).2.2.2.2.count =
        (_eviction_scan (_sweeper_item fr) l skip depth tk st).2.2.2.2.list.length ∧
      (_eviction_scan (_sweeper_item fr) l skip depth tk st).2.2.1 =
        (_eviction_scan (_sweeper_item fr) l skip depth tk st).1.length + K := by
  intro l
  induction l with
  | nil =>
    intro skip depth tk K st hc htk _
    rw [_eviction_scan]
    exact ⟨List.Perm.refl _, hc, htk⟩
  | cons curr rest ih =>
    intro skip depth tk K st hc htk hlt
    rw [_eviction_scan]
    have hlen : (curr :: rest).length = rest.length + 1 := rfl
    split
    · obtain ⟨g1, g2, g3⟩ := ih (skip - 1) depth tk (K + 1) st hc (by omega) hlt
      refine ⟨List.Perm.cons curr g1, g2, ?_⟩
      show _ = (_ :: _).length + K
      rw [g3, List.length_cons]
      omega
    · dsimp only
      by_cases hf : fr curr = true
      · have e : _sweeper_item fr st curr =
            (0, (st.1 ++ [mc_call.clean curr], ⟨st.2.count + 1, curr :: st.2.list⟩)) := by
          unfold _sweeper_item
          rw [if_pos hf]
        rw [e]
        dsimp only
        rw [if_pos rfl]
        have hd : u64_dec tk = rest.length + K := by
          have := u64_dec_eq tk (by omega) hlt
          omega
        obtain ⟨g1, g2, g3⟩ := ih 0 (u64_dec depth) (u64_dec tk) K
          (st.1 ++ [mc_call.clean curr], ⟨st.2.count + 1, curr :: st.2.list⟩)
          (by show st.2.count + 1 = ((curr :: st.2.list).length : Int)
              rw [hc, List.length_cons]; push_cast; ring) hd (by omega)
        exact ⟨g1.trans List.perm_middle, g2, g3⟩
      · have e : _sweeper_item fr st curr = (-1, st) := by
          unfold _sweeper_item
          rw [if_neg hf]
        rw [e]
        dsimp only
        rw [if_neg (by decide)]
        obtain ⟨g1, g2, g3⟩ := ih 0 depth tk (K + 1) st hc (by omega) hlt
        refine ⟨List.Perm.cons curr g1, g2, ?_⟩
        show _ = (_ :: _).length + K
        rw [g3, List.length_cons]
        omega

theorem _eviction_buckets_sweep (fr : Nat → Bool) (avg : Nat) :
    ∀ (bs : List _bucket_t) (tk K : Nat) (st : List mc_call × _list_mgr_t),
      st.2.count = st.2.list.length → tk = (bs.map _bucket_t.list).flatten.length + K →
      tk < 18446744073709551616 →
      (_eviction_buckets (_sweeper_item fr) avg bs tk st).1.length = bs.length ∧
      List.Perm
        (((_eviction_buckets (_sweeper_item fr) avg bs tk st).1.map _bucket_t.list).flatten ++
          (_eviction_buckets (_sweeper_item fr) avg bs tk st).2.2.2.list)
        ((bs.map _bucket_t.list).flatten ++ st.2.list) ∧
      (_eviction_buckets (_sweeper_item fr) avg bs tk st).2.2.2.count =
        (_eviction_buckets (_sweeper_item fr) avg bs tk st).2.2.2.list.length ∧
      (_eviction_buckets (_sweeper_item fr) avg bs tk st).2.1 =
        (((_eviction_buckets (_sweeper_item fr) avg bs tk st).1.map
          _bucket_t.list).flatten).length + K := by
  intro bs
  induction bs with
  | nil =>
    intro tk K st hc htk _
    rw [_eviction_buckets]
    exact ⟨rfl, List.Perm.refl _, hc, htk⟩
  | cons b rest ih =>
    intro tk K st hc htk hlt
    have hj : ∀ (x : _bucket_t) (xs : List _bucket_t),
        ((x :: xs).map _bucket_t.list).flatten = x.list ++ (xs.map _bucket_t.list).flatten :=
      fun _ _ => rfl
    rw [hj, List.length_append] at htk
    rw [_eviction_buckets]
    split
    · obtain ⟨g0, g1, g2, g3⟩ := ih tk (K + b.list.length) st hc (by omega) hlt
      refine ⟨by simp [g0], ?_, g2, ?_⟩
      · rw [hj, hj, List.append_assoc, List.append_assoc]
        exact List.Perm.append_left _ g1
      · rw [hj, List.length_append, g3]
        omega
    · dsimp only
      obtain ⟨s1, s2, s3⟩ := _eviction_scan_sweep fr b.list avg b.depth tk
        ((rest.map _bucket_t.list).flatten.length + K) st hc (by omega) hlt
      have s4 := (_eviction_scan_sublist (_sweeper_item fr) b.list avg b.depth tk st).length_le
      obtain ⟨g0, g1, g2, g3⟩ := ih
        (_eviction_scan (_sweeper_item fr) b.list avg b.depth tk st).2.2.1
        (K + (_eviction_scan (_sweeper_item fr) b.list avg b.depth tk st).1.length)
        (_eviction_scan (_sweeper_item fr) b.list avg b.depth tk st).2.2.2 s2
        (by rw [s3]; omega) (by rw [s3]; omega)
      refine ⟨by simp [g0], ?_, g2, ?_⟩
      · rw [hj, hj]
        exact perm_chain g1 s1
      · rw [hj, List.length_append, g3]
        dsimp only
        omega

theorem hashmap_touch_entries (map : hashmap) (i : Nat) : (map.touch i).entries = map.entries := by
  unfold hashmap.entries
  rw [(hashmap_touch_fields map i).1]

/-- What `hashmap_insert` does to the entries of the table. -/
theorem hashmap_insert_entries (map : hashmap) (key_of : Nat → Nat) (x : Nat) (func : Bool)
    (h1 : 1 ≤ map.b_count) (h2 : map.b_count < 4294967296)
    (hlen : map.buckets.length = map.b_count) :
    (hashmap_insert map key_of x func).map.b_count = map.b_count ∧
    (hashmap_insert map key_of x func).map.buckets.length = map.buckets.length ∧
    (((hashmap_insert map key_of x func).ret = EEXIST ∧
        (hashmap_insert map key_of x func).map.entries = map.entries ∧
        (hashmap_insert map key_of x func).map.total_keys = map.total_keys) ∨
      ((hashmap_insert map key_of x func).ret = 0 ∧
        ((hashmap_insert map key_of x func).map.entries).Perm (x :: map.entries) ∧
        (hashmap_insert map key_of x func).map.total_keys = u64_inc map.total_keys)) := by
  obtain ⟨t1, t2, _, _, t5⟩ := hashmap_touch_fields map (map.index (key_of x))
  have hidx := hashmap_index_lt map (key_of x) h1 h2
  unfold hashmap_insert
  dsimp only
  rw [hashmap_touch_bucket]
  cases hf : (map.bucket (map.index (key_of x))).list.find?
      (fun e => decide (map.cmp (key_of x) (key_of e) = 0)) with
  | some e =>
    dsimp only
    exact ⟨t5, by rw [t1], Or.inl ⟨rfl, hashmap_touch_entries _ _, t2⟩⟩
  | none =>
    dsimp only
    refine ⟨t5, by rw [List.length_set, t1], Or.inr ⟨rfl, ?_, by rw [t2]⟩⟩
    unfold hashmap.entries
    dsimp only
    rw [t1]
    exact join_set_cons x _ map.buckets _ (by rw [hlen]; exact hidx)

/-- What `hashmap_delete` does to the entries of the table. -/
theorem hashmap_delete_entries (map : hashmap) (key_of : Nat → Nat) (key : Nat)
    (func : Option (Nat → Int)) (h1 : 1 ≤ map.b_count) (h2 : map.b_count < 4294967296)
    (hlen : map.buckets.length = map.b_count) :
    (hashmap_delete map key_of key func).map.b_count = map.b_count ∧
    (hashmap_delete map key_of key func).map.buckets.length = map.buckets.length ∧
    ((((hashmap_delete map key_of key func).ret ≠ 0 ∨
          (hashmap_delete map key_of key func).out = none) ∧
        (hashmap_delete map key_of key func).map.entries = map.entries ∧
        (hashmap_delete map key_of key func).map.total_keys = map.total_keys) ∨
      (∃ e, (hashmap_delete map key_of key func).ret = 0 ∧
        (hashmap_delete map key_of key func).out = some e ∧
        (e :: (hashmap_delete map key_of key func).map.entries).Perm map.entries ∧
        (hashmap_delete map key_of key func).map.total_keys = u64_dec map.total_keys)) := by
  obtain ⟨t1, t2, _, _, t5⟩ := hashmap_touch_fields map (map.index key)
  have hidx := hashmap_index_lt map key h1 h2
  have hun : ∀ e, e ∈ (map.bucket (map.index key)).list →
      (e :: ((map.touch (map.index key)).unlink (map.index key) e).entries).Perm map.entries := by
    intro e he
    unfold hashmap.unlink hashmap.entries
    dsimp only
    rw [hashmap_touch_bucket, t1]
    exact join_set_erase e _ map.buckets _ (by rw [hlen]; exact hidx) he
  rcases hashmap_delete_cases map key_of key func with
    ⟨_, hd⟩ | ⟨e, he, ⟨f, _, hf, hd⟩ | ⟨_, hd⟩⟩
  · rw [hd]
    exact ⟨t5, by rw [t1], Or.inl ⟨Or.inr rfl, hashmap_touch_entries _ _, t2⟩⟩
  · rw [hd]
    exact ⟨t5, by rw [t1], Or.inl ⟨Or.inl hf, hashmap_touch_entries _ _, t2⟩⟩
  · rw [hd]
    refine ⟨t5, ?_, Or.inr ⟨e, rfl, rfl, hun e (find_some_mem he).1, ?_⟩⟩
    · show (List.set _ _ _).length = _
      rw [List.length_set, t1]
    · show u64_dec _ = _
      rw [t2]

/-- What `hashmap_eviction` with `_sweeper_item` does to the entries of the
table and to the free list. -/
theorem hashmap_eviction_sweep (map : hashmap) (depth : Nat) (fr : Nat → Bool)
    (st : List mc_call × _list_mgr_t) (hc : st.2.count = st.2.list.length)
    (hk : map.total_keys = map.entries.length) (hlt : map.total_keys < 18446744073709551616) :
    (hashmap_eviction map depth (_sweeper_item fr) st).1.b_count = map.b_count ∧
    (hashmap_eviction map depth (_sweeper_item fr) st).1.buckets.length = map.buckets.length ∧
    ((hashmap_eviction map depth (_sweeper_item fr) st).1.entries ++
      (hashmap_eviction map depth (_sweeper_item fr) st).2.2.list).Perm
        (map.entries ++ st.2.list) ∧
    (hashmap_eviction map depth (_sweeper_item fr) st).2.2.count =
      (hashmap_eviction map depth (_sweeper_item fr) st).2.2.list.length ∧
    (hashmap_eviction map depth (_sweeper_item fr) st).1.total_keys =
      (hashmap_eviction map depth (_sweeper_item fr) st).1.entries.length := by
  obtain ⟨g0, g1, g2, g3⟩ := _eviction_buckets_sweep fr
    (if map.total_keys / map.b_count > depth then depth else map.total_keys / map.b_count)
    map.buckets map.total_keys 0 st hc (by rw [hk]; rfl) hlt
  exact ⟨rfl, g0, g1, g2, g3⟩

theorem McInv.of_pooled {m m' : mc} {held : List Nat} (h : McInv m held)
    (hb : m'.map.b_count = m.map.b_count) (hl : m'.map.buckets.length = m.map.buckets.length)
    (hs : SameItems m m') (hk : m'.map.total_keys = m'.resident.length)
    (hi : m'.inuse.count = m'.inuse.list.length) (hf : m'.free.count = m'.free.list.length)
    (hp : m'.pooled.Perm m.pooled) : McInv m' held := by
  have hp2 := hp.append_right held
  refine ⟨by rw [hb]; exact h.b_pos, by rw [hb]; exact h.b_lt, by rw [hl, hb]; exact h.len,
    by rw [hs.scale]; exact h.scale_lt, hk, hi, hf, ?_, by rw [hs.alloc_count, hs.scale]; exact h.le,
    hp2.nodup_iff.mpr h.nodup, fun x hx => ?_, fun x hx => ?_⟩
  · rw [hs.alloc_count, h.count, hp2.length_eq]
  · rw [hs.item, hs.magic]; exact h.held_ok x hx
  · rw [hs.item]; exact h.pooled_ok x (hp.subset hx)

theorem McInv.keys_lt {m : mc} {held : List Nat} (h : McInv m held) :
    m.resident.length + m.inuse.list.length + m.free.list.length + held.length < 2147483648 := by
  have h1 := h.count
  have h2 := h.le
  have h3 := h.scale_lt
  unfold mc.pooled at h1
  rw [List.length_append, List.length_append, List.length_append] at h1
  omega

theorem mc_item_search_mc (m : mc) (q : Nat) (fs : Bool) :
    (mc_item_search m q fs).mc = { m with map := m.map.touch (m.map.index q) } := by
  unfold mc_item_search
  dsimp only
  rcases hashmap_search_cases m.map m.key_of q true with ⟨e, _, hr⟩ | ⟨_, hr⟩
  · rw [hr]; rfl
  · rw [hr]; rfl

theorem McInv.search {m : mc} {held : List Nat} (h : McInv m held) (q : Nat) (fs : Bool) :
    McInv (mc_item_search m q fs).mc held := by
  rw [mc_item_search_mc]
  obtain ⟨t1, t2, _, _, t5⟩ := hashmap_touch_fields m.map (m.map.index q)
  have he : ({ m with map := m.map.touch (m.map.index q) } : mc).resident = m.resident :=
    hashmap_touch_entries _ _
  refine h.of_pooled t5 (by show (m.map.touch _).buckets.length = _; rw [t1])
    ⟨rfl, rfl, rfl, rfl, rfl, rfl⟩ ?_ h.icount h.fcount ?_
  · rw [he]
    show (m.map.touch _).total_keys = _
    rw [t2]; exact h.keys
  · unfold mc.pooled
    rw [he]

theorem mc_item_delete_mc (m : mc) (q : Nat) (c : Option (Nat → Int)) :
    ((hashmap_delete m.map m.key_of q (some (_int_found c))).ret ≠ 0 ∨
        (hashmap_delete m.map m.key_of q (some (_int_found c))).out = none →
      (mc_item_delete m q c).mc =
        { m with map := (hashmap_delete m.map m.key_of q (some (_int_found c))).map }) ∧
    (∀ e, (hashmap_delete m.map m.key_of q (some (_int_found c))).ret = 0 →
      (hashmap_delete m.map m.key_of q (some (_int_found c))).out = some e →
      (mc_item_delete m q c).mc =
        (_free_item { m with map := (hashmap_delete m.map m.key_of q
          (some (_int_found c))).map } e).2) := by
  unfold mc_item_delete
  dsimp only
  constructor
  · intro h
    split
    · rename_i h0
      rcases h with h | h
      · exact absurd h0 h
      · rw [h]
    · rfl
  · intro e h0 he
    rw [if_pos h0, he]

theorem McInv.delete {m : mc} {held : List Nat} (h : McInv m held) (q : Nat)
    (c : Option (Nat → Int)) : McInv (mc_item_delete m q c).mc held := by
  obtain ⟨d1, d2⟩ := mc_item_delete_mc m q c
  obtain ⟨g1, g2, g3⟩ := hashmap_delete_entries m.map m.key_of q (some (_int_found c))
    h.b_pos h.b_lt h.len
  have hbound := h.keys_lt
  have hkeys := h.keys
  rcases g3 with ⟨k1, k2, k3⟩ | ⟨e, k1, k2, k3, k4⟩
  · rw [d1 k1]
    refine h.of_pooled g1 g2 ⟨rfl, rfl, rfl, rfl, rfl, rfl⟩ ?_ h.icount h.fcount ?_
    · show _ = (hashmap.entries _).length
      rw [k2, k3]; exact h.keys
    · show (hashmap.entries _ ++ _ ++ _).Perm _
      rw [k2]
      exact List.Perm.refl _
  · rw [d2 e k1 k2]
    have hlen := k3.length_eq
    rw [List.length_cons] at hlen
    have hk : u64_dec m.map.total_keys =
        ((hashmap_delete m.map m.key_of q (some (_int_found c))).map.entries).length := by
      have := u64_dec_eq m.map.total_keys (by rw [hkeys]; unfold mc.resident; omega)
        (by rw [hkeys]; omega)
      unfold mc.resident at hkeys
      omega
    unfold _free_item
    split
    · refine h.of_pooled g1 g2 ⟨rfl, rfl, rfl, rfl, rfl, rfl⟩ ?_ h.icount ?_ ?_
      · show _ = (hashmap.entries _).length
        rw [k4]; exact hk
      · show m.free.count + 1 = ((e :: m.free.list).length : Int)
        rw [h.fcount, List.length_cons]; push_cast; ring
      · show (hashmap.entries _ ++ m.inuse.list ++ (e :: m.free.list)).Perm
          (m.map.entries ++ m.inuse.list ++ m.free.list)
        rw [List.perm_iff_count]
        intro y
        have := k3.count_eq y
        simp only [List.count_append, List.count_cons] at *
        omega
    · refine h.of_pooled g1 g2 ⟨rfl, rfl, rfl, rfl, rfl, rfl⟩ ?_ ?_ h.fcount ?_
      · show _ = (hashmap.entries _).length
        rw [k4]; exact hk
      · show m.inuse.count + 1 = ((m.inuse.list ++ [e]).length : Int)
        rw [h.icount, List.length_append]; push_cast; rfl
      · show (hashmap.entries _ ++ (m.inuse.list ++ [e]) ++ m.free.list).Perm
          (m.map.entries ++ m.inuse.list ++ m.free.list)
        rw [List.perm_iff_count]
        intro y
        have := k3.count_eq y
        simp only [List.count_append, List.count_cons, List.count_nil] at *
        omega

theorem McInv.evict {m : mc} {held : List Nat} (h : McInv m held) (depth : Nat) :
    McInv (m.evict depth).2 held ∧ (m.evict depth).2.pooled.Perm m.pooled := by
  have hbound := h.keys_lt
  obtain ⟨g1, g2, g3, g4, g5⟩ := hashmap_eviction_sweep m.map depth m.freeable ([], m.free)
    h.fcount h.keys (by rw [h.keys]; omega)
  have hp : (m.evict depth).2.pooled.Perm m.pooled := by
    show ((hashmap_eviction m.map depth (_sweeper_item m.freeable) ([], m.free)).1.entries ++
      m.inuse.list ++
      (hashmap_eviction m.map depth (_sweeper_item m.freeable) ([], m.free)).2.2.list).Perm
      (m.map.entries ++ m.inuse.list ++ m.free.list)
    rw [List.perm_iff_count]
    intro y
    have := g3.count_eq y
    simp only [List.count_append] at *
    omega
  exact ⟨h.of_pooled g1 g2 ⟨rfl, rfl, rfl, rfl, rfl, rfl⟩ g5 h.icount g4 hp, hp⟩

theorem McInv.move_to_free {m : mc} {held : List Nat} (h : McInv m held) (curr : Nat)
    (hin : curr ∈ m.inuse.list) :
    McInv { m with inuse := ⟨m.inuse.count - 1, m.inuse.list.erase curr⟩,
                   free := ⟨m.free.count + 1, curr :: m.free.list⟩ } held ∧
    (mc.pooled { m with inuse := ⟨m.inuse.count - 1, m.inuse.list.erase curr⟩,
                        free := ⟨m.free.count + 1, curr :: m.free.list⟩ }).Perm m.pooled := by
  have hp : (m.map.entries ++ m.inuse.list.erase curr ++ (curr :: m.free.list)).Perm
      (m.map.entries ++ m.inuse.list ++ m.free.list) := by
    rw [List.perm_iff_count]
    intro y
    have := (List.perm_cons_erase hin).count_eq y
    simp only [List.count_append, List.count_cons] at *
    omega
  have hlen := List.length_erase_of_mem hin
  have hpos := List.length_pos_of_mem hin
  refine ⟨h.of_pooled rfl rfl ⟨rfl, rfl, rfl, rfl, rfl, rfl⟩ h.keys ?_ ?_ hp, hp⟩
  · show m.inuse.count - 1 = ((m.inuse.list.erase curr).length : Int)
    rw [h.icount, hlen]
    omega
  · show m.free.count + 1 = ((curr :: m.free.list).length : Int)
    rw [h.fcount, List.length_cons]; push_cast; ring

theorem _sweeper_inuse_loop_inv (held : List Nat) (l : List Nat) :
    ∀ st : List mc_call × mc, McInv st.2 held → l.Sublist st.2.inuse.list →
      McInv (_sweeper_inuse_loop l st).2 held ∧
      (_sweeper_inuse_loop l st).2.pooled.Perm st.2.pooled := by
  induction l with
  | nil =>
    intro st h _
    exact ⟨h, List.Perm.refl _⟩
  | cons curr rest ih =>
    intro st h hsub
    rw [_sweeper_inuse_loop]
    have hin : curr ∈ st.2.inuse.list := hsub.subset (List.mem_cons_self _ _)
    split
    · obtain ⟨h1, hp⟩ := h.move_to_free curr hin
      have hsub2 : rest.Sublist (st.2.inuse.list.erase curr) := by
        have := hsub.erase curr
        rwa [List.erase_cons_head] at this
      obtain ⟨k1, k2⟩ := ih (st.1 ++ [mc_call.clean curr], _) h1 hsub2
      exact ⟨k1, k2.trans hp⟩
    · exact ih st h ((List.sublist_cons_self _ _).trans hsub)

theorem McInv.sweeper_inuse {m : mc} {held : List Nat} (h : McInv m held) :
    McInv (_sweeper_inuse m).2 held ∧ (_sweeper_inuse m).2.pooled.Perm m.pooled :=
  _sweeper_inuse_loop_inv held m.inuse.list ([], m) h (List.Sublist.refl _)

theorem McInv.evict_pass {m : mc} {held : List Nat} (h : McInv m held) :
    McInv (_evict_pass m).2 held ∧ (_evict_pass m).2.pooled.Perm m.pooled := by
  obtain ⟨g1, g2⟩ := h.sweeper_inuse
  obtain ⟨k1, k2⟩ := g1.evict 0
  exact ⟨k1, k2.trans g2⟩

theorem _alloc_item_evict_inv (held : List Nat) (n : Nat) :
    ∀ st : List mc_call × mc, McInv st.2 held →
      McInv (_alloc_item_evict n st).2.2 held ∧
      (_alloc_item_evict n st).2.2.pooled.Perm st.2.pooled := by
  induction n with
  | zero =>
    intro st h
    rw [_alloc_item_evict]
    split <;> exact ⟨h, List.Perm.refl _⟩
  | succ n ih =>
    intro st h
    rw [_alloc_item_evict]
    split
    · obtain ⟨g1, g2⟩ := h.evict_pass
      obtain ⟨k1, k2⟩ := ih (st.1 ++ (_evict_pass st.2).1, (_evict_pass st.2).2) g1
      exact ⟨k1, k2.trans g2⟩
    · exact ⟨h, List.Perm.refl _⟩

theorem _sweeper_main_loop_inv (held : List Nat) (fuel : Nat) :
    ∀ (depth : Nat) (st : List mc_call × mc), McInv st.2 held →
      McInv (_sweeper_main_loop fuel depth st).2 held := by
  induction fuel with
  | zero => intro depth st h; exact h
  | succ fuel ih =>
    intro depth st h
    rw [_sweeper_main_loop]
    split
    · exact ih _ (_, _) (h.evict _).1
    · exact h

theorem McInv.sweeper_main {m : mc} {held : List Nat} (h : McInv m held) :
    McInv (_sweeper_main m).2 held :=
  _sweeper_main_loop_inv held _ _ _ h.sweeper_inuse.1

theorem mc_item_insert_mc (m : mc) (x : Nat) (fi : Bool) (hm : (m.item x).magic = m.magic) :
    ((hashmap_insert m.map m.key_of x true).ret = EEXIST →
      (mc_item_insert m x fi).ret = EEXIST ∧
      (mc_item_insert m x fi).mc = { m with map := (hashmap_insert m.map m.key_of x true).map }) ∧
    ((hashmap_insert m.map m.key_of x true).ret = 0 →
      (mc_item_insert m x fi).ret = 0 ∧
      (mc_item_insert m x fi).mc =
        { m with map := (hashmap_insert m.map m.key_of x true).map,
                 item := Function.update m.item x ⟨(m.item x).magic, false, (m.item x).key⟩ }) := by
  unfold mc_item_insert
  rw [if_neg (not_not.mpr hm)]
  dsimp only
  constructor
  · intro h
    rw [if_pos h]
    exact ⟨rfl, rfl⟩
  · intro h
    rw [if_neg (by rw [h]; decide)]
    exact ⟨rfl, rfl⟩

theorem McInv.held_nodup {m : mc} {held : List Nat} (h : McInv m held) : held.Nodup :=
  (List.nodup_append.mp h.nodup).2.1

theorem McInv.disjoint {m : mc} {held : List Nat} (h : McInv m held) (x : Nat)
    (h1 : x ∈ m.pooled) (h2 : x ∈ held) : False :=
  (List.nodup_append.mp h.nodup).2.2 h1 h2

theorem McInv.insert {m : mc} {held : List Nat} (h : McInv m held) (x : Nat) (hx : x ∈ held)
    (fi : Bool) :
    McInv (mc_item_insert m x fi).mc
      (if (mc_item_insert m x fi).ret = 0 then held.erase x else held) := by
  obtain ⟨i1, i2⟩ := mc_item_insert_mc m x fi (h.held_ok x hx).1
  obtain ⟨g1, g2, g3⟩ := hashmap_insert_entries m.map m.key_of x true h.b_pos h.b_lt h.len
  have hbound := h.keys_lt
  have hkeys := h.keys
  rcases g3 with ⟨k1, k2, k3⟩ | ⟨k1, k2, k3⟩
  · obtain ⟨j1, j2⟩ := i1 k1
    rw [j1, j2, if_neg (by decide)]
    refine h.of_pooled g1 g2 ⟨rfl, rfl, rfl, rfl, rfl, rfl⟩ ?_ h.icount h.fcount ?_
    · show _ = (hashmap.entries _).length
      rw [k2, k3]; exact h.keys
    · show (hashmap.entries _ ++ _ ++ _).Perm _
      rw [k2]
      exact List.Perm.refl _
  · obtain ⟨j1, j2⟩ := i2 k1
    rw [j1, j2, if_pos rfl]
    have hlen := k2.length_eq
    rw [List.length_cons] at hlen
    have hxl := List.length_erase_of_mem hx
    have hpos := List.length_pos_of_mem hx
    have hperm : ((hashmap_insert m.map m.key_of x true).map.entries ++ m.inuse.list ++
        m.free.list ++ held.erase x).Perm (m.pooled ++ held) := by
      unfold mc.pooled mc.resident
      rw [List.perm_iff_count]
      intro y
      have c1 := k2.count_eq y
      have c2 := (List.perm_cons_erase hx).count_eq y
      simp only [List.count_append, List.count_cons] at *
      omega
    have hnx : ∀ y, y ∈ held.erase x → y ≠ x ∧ y ∈ held :=
      fun y hy => (h.held_nodup.mem_erase_iff).mp hy
    refine ⟨by rw [show _ = _ from g1]; exact h.b_pos, by rw [show _ = _ from g1]; exact h.b_lt,
      by rw [show _ = _ from g2, show _ = _ from g1]; exact h.len, h.scale_lt, ?_, h.icount,
      h.fcount, ?_, h.le, hperm.nodup_iff.mpr h.nodup, fun y hy => ?_, fun y hy => ?_⟩
    · show (hashmap_insert m.map m.key_of x true).map.total_keys = (hashmap.entries _).length
      rw [k3, u64_inc_eq _ (by rw [hkeys]; omega), hlen, hkeys]
      rfl
    · show m.alloc_count = _
      rw [h.count, ← hperm.length_eq]
      rfl
    · obtain ⟨n1, n2⟩ := hnx y hy
      show (Function.update m.item x _ y).magic = m.magic ∧ (Function.update m.item x _ y).free_out = true
      rw [Function.update_noteq n1]
      exact h.held_ok y n2
    · show (Function.update m.item x _ y).free_out = false
      by_cases hyx : y = x
      · rw [hyx, Function.update_same]
      · rw [Function.update_noteq hyx]
        apply h.pooled_ok
        have hy1 : y ∈ (hashmap_insert m.map m.key_of x true).map.entries ++ m.inuse.list ++
            m.free.list := hy
        unfold mc.pooled mc.resident
        rw [List.mem_append, List.mem_append] at hy1 ⊢
        rcases hy1 with (hy1 | hy1) | hy1
        · rcases List.mem_cons.mp (k2.subset hy1) with e | e
          · exact absurd e hyx
          · exact Or.inl (Or.inl e)
        · exact Or.inl (Or.inr hy1)
        · exact Or.inr hy1

/-- Moving the item `x` from the free or in-use list to the user. -/
theorem McInv.take {m : mc} {held : List Nat} (h : McInv m held) (x : Nat)
    (fl il : _list_mgr_t) (hf : fl.count = fl.list.length) (hi : il.count = il.list.length)
    (hp : (x :: (m.map.entries ++ il.list ++ fl.list)).Perm m.pooled) :
    McInv { m with free := fl, inuse := il,
                   item := Function.update m.item x ⟨m.magic, true, (m.item x).key⟩ }
      (x :: held) := by
  have hperm : (m.map.entries ++ il.list ++ fl.list ++ x :: held).Perm (m.pooled ++ held) := by
    rw [List.perm_iff_count]
    intro y
    have c1 := hp.count_eq y
    simp only [List.count_append, List.count_cons] at *
    omega
  have hxp : x ∈ m.pooled := hp.subset (List.mem_cons_self _ _)
  have hnd := hperm.nodup_iff.mpr h.nodup
  have hxn : x ∉ m.map.entries ++ il.list ++ fl.list := by
    intro hx
    exact (List.nodup_append.mp hnd).2.2 hx (List.mem_cons_self _ _)
  refine ⟨h.b_pos, h.b_lt, h.len, h.scale_lt, h.keys, hi, hf, ?_, h.le, hnd, fun y hy => ?_,
    fun y hy => ?_⟩
  · show m.alloc_count = _
    rw [h.count, ← hperm.length_eq]
    rfl
  · show (Function.update m.item x _ y).magic = m.magic ∧ (Function.update m.item x _ y).free_out = true
    rcases List.mem_cons.mp hy with e | e
    · rw [e, Function.update_same]
      exact ⟨rfl, rfl⟩
    · have hne : y ≠ x := fun e2 => h.disjoint x hxp (e2 ▸ e)
      rw [Function.update_noteq hne]
      exact h.held_ok y e
  · show (Function.update m.item x _ y).free_out = false
    have hy1 : y ∈ m.map.entries ++ il.list ++ fl.list := hy
    have hne : y ≠ x := fun e2 => hxn (e2 ▸ hy1)
    rw [Function.update_noteq hne]
    exact h.pooled_ok y (hp.subset (List.mem_cons_of_mem _ hy1))

/-- Handing a newly allocated item to the user. -/
theorem McInv.add_fresh {m : mc} {held : List Nat} (h : McInv m held) (a : Nat)
    (ha : a ∉ m.pooled ++ held) (hlt : m.alloc_count < m.scale) (it : _item_t)
    (hit : it.magic = m.magic ∧ it.free_out = true) :
    McInv { m with alloc_count := u32_inc m.alloc_count, item := Function.update m.item a it }
      (a :: held) := by
  have hsl := h.scale_lt
  have hperm : (m.pooled ++ a :: held).Perm (a :: (m.pooled ++ held)) := List.perm_middle
  refine ⟨h.b_pos, h.b_lt, h.len, h.scale_lt, h.keys, h.icount, h.fcount, ?_, ?_,
    hperm.nodup_iff.mpr (List.nodup_cons.mpr ⟨ha, h.nodup⟩), fun y hy => ?_, fun y hy => ?_⟩
  · show u32_inc m.alloc_count = (m.pooled ++ a :: held).length
    rw [hperm.length_eq, List.length_cons, ← h.count]
    unfold u32_inc
    omega
  · show u32_inc m.alloc_count ≤ m.scale
    unfold u32_inc
    omega
  · show (Function.update m.item a it y).magic = m.magic ∧ (Function.update m.item a it y).free_out = true
    rcases List.mem_cons.mp hy with e | e
    · rw [e, Function.update_same]
      exact hit
    · have hne : y ≠ a := fun e2 => ha (List.mem_append_right _ (e2 ▸ e))
      rw [Function.update_noteq hne]
      exact h.held_ok y e
  · show (Function.update m.item a it y).free_out = false
    have hy1 : y ∈ m.pooled := hy
    have hne : y ≠ a := fun e2 => ha (List.mem_append_left _ (e2 ▸ hy1))
    rw [Function.update_noteq hne]
    exact h.pooled_ok y hy1

theorem McInv.alloc_inv {m : mc} {held : List Nat} (h : McInv m held) (mem : Nat → List Nat)
    (calloc : Option Nat) (hfresh : ∀ a, calloc = some a → a ∉ m.pooled ++ held) :
    McInv (mc_item_alloc m mem calloc).mc
      (match (mc_item_alloc m mem calloc).out with
        | some a => a :: held
        | none => held) := by
  obtain ⟨m1, calls, hs, hm1, hc⟩ := _alloc_item_cases m mem calloc
  obtain ⟨h1, hp1⟩ := _alloc_item_evict_inv held MC_RETRY ([], m) h
  rw [← hm1] at h1 hp1
  rcases hc with hc | ⟨w, hc, _, _⟩ | ⟨w, item, rest, hfl, hc⟩ | ⟨w, item, hfl, hfi, hc⟩ |
    ⟨w, item, _, _, hlt, hcal, hc⟩
  · rw [mc_item_alloc_none _ _ _ _ _ _ _ _ hc]
    exact h1
  · rw [mc_item_alloc_none _ _ _ _ _ _ _ _ hc]
    exact h1
  · rw [mc_item_alloc_some _ _ _ _ _ _ _ _ _ hc]
    have hin : item ∈ m1.free.list := by rw [hfl]; exact List.mem_cons_self _ _
    have hlen := List.length_erase_of_mem hin
    have hpos := List.length_pos_of_mem hin
    refine h1.take item ⟨m1.free.count - 1, m1.free.list.erase item⟩ m1.inuse ?_ h1.icount ?_
    · show m1.free.count - 1 = ((m1.free.list.erase item).length : Int)
      rw [h1.fcount, hlen]
      omega
    · show (item :: (m1.map.entries ++ m1.inuse.list ++ m1.free.list.erase item)).Perm
        (m1.map.entries ++ m1.inuse.list ++ m1.free.list)
      rw [List.perm_iff_count]
      intro y
      have := (List.perm_cons_erase hin).count_eq y
      simp only [List.count_append, List.count_cons] at *
      omega
  · rw [mc_item_alloc_some _ _ _ _ _ _ _ _ _ hc]
    have hin : item ∈ m1.inuse.list := (find_some_mem hfi).1
    have hlen := List.length_erase_of_mem hin
    have hpos := List.length_pos_of_mem hin
    refine h1.take item m1.free ⟨m1.inuse.count - 1, m1.inuse.list.erase item⟩ h1.fcount ?_ ?_
    · show m1.inuse.count - 1 = ((m1.inuse.list.erase item).length : Int)
      rw [h1.icount, hlen]
      omega
    · show (item :: (m1.map.entries ++ m1.inuse.list.erase item ++ m1.free.list)).Perm
        (m1.map.entries ++ m1.inuse.list ++ m1.free.list)
      rw [List.perm_iff_count]
      intro y
      have := (List.perm_cons_erase hin).count_eq y
      simp only [List.count_append, List.count_cons] at *
      omega
  · rw [mc_item_alloc_some _ _ _ _ _ _ _ _ _ hc]
    have ha : item ∉ m1.pooled ++ held := by
      intro hx
      apply hfresh item hcal
      rcases List.mem_append.mp hx with e | e
      · exact List.mem_append_left _ (hp1.subset e)
      · exact List.mem_append_right _ e
    have := h1.add_fresh item ha hlt ⟨m1.magic, true,
      (Function.update m1.item item ⟨0, false, 0⟩ item).key⟩ ⟨rfl, rfl⟩
    have e : Function.update (Function.update m1.item item ⟨0, false, 0⟩) item
        ⟨m1.magic, true, (Function.update m1.item item ⟨0, false, 0⟩ item).key⟩ =
        Function.update m1.item item
          ⟨m1.magic, true, (Function.update m1.item item ⟨0, false, 0⟩ item).key⟩ :=
      Function.update_idem _ _ _
    dsimp only
    rw [e]
    exact this

theorem McInv.free_inv {m : mc} {held : List Nat} (h : McInv m held) (x : Nat)
    (hx : x ∈ m.pooled ++ held) : McInv (mc_item_free m x).2 (held.erase x) := by
  unfold mc_item_free
  rcases List.mem_append.mp hx with e | e
  · have hn : x ∉ held := fun e2 => h.disjoint x e e2
    rw [List.erase_of_not_mem hn, if_pos (Or.inr (by rw [h.pooled_ok x e]; rfl))]
    exact h
  · obtain ⟨k1, k2⟩ := h.held_ok x e
    rw [if_neg (by rw [k2]; simp [k1])]
    have hperm : (x :: (m.pooled ++ held.erase x)).Perm (m.pooled ++ held) :=
      List.perm_middle.symm.trans (List.Perm.append_left _ (List.perm_cons_erase e).symm)
    have hlen := hperm.length_eq
    rw [List.length_cons] at hlen
    have hbound := h.scale_lt
    have hle := h.le
    have hcount := h.count
    refine ⟨h.b_pos, h.b_lt, h.len, h.scale_lt, h.keys, h.icount, h.fcount, ?_, ?_,
      (List.nodup_cons.mp (hperm.nodup_iff.mpr h.nodup)).2, fun y hy => ?_, h.pooled_ok⟩
    · show u32_dec m.alloc_count = (m.pooled ++ held.erase x).length
      unfold u32_dec
      omega
    · show u32_dec m.alloc_count ≤ m.scale
      unfold u32_dec
      omega
    · exact h.held_ok y (List.mem_of_mem_erase hy)

theorem McInv.setkey {m : mc} {held : List Nat} (h : McInv m held) (x key : Nat) :
    McInv (mc_item_setkey m x key).2 held := by
  unfold mc_item_setkey
  split
  · exact h
  · have hi : ∀ y, (Function.update m.item x ⟨(m.item x).magic, (m.item x).free_out, key⟩ y).magic =
          (m.item y).magic ∧
        (Function.update m.item x ⟨(m.item x).magic, (m.item x).free_out, key⟩ y).free_out =
          (m.item y).free_out := by
      intro y
      by_cases e : y = x
      · rw [e, Function.update_same]
        exact ⟨rfl, rfl⟩
      · rw [Function.update_noteq e]
        exact ⟨rfl, rfl⟩
    refine ⟨h.b_pos, h.b_lt, h.len, h.scale_lt, h.keys, h.icount, h.fcount, h.count, h.le,
      h.nodup, fun y hy => ?_, fun y hy => ?_⟩
    · show (Function.update m.item x ⟨(m.item x).magic, (m.item x).free_out, key⟩ y).magic =
          m.magic ∧ _
      rw [(hi y).1]
      exact ⟨(h.held_ok y hy).1, (hi y).2.trans (h.held_ok y hy).2⟩
    · exact (hi y).2.trans (h.pooled_ok y hy)

theorem mc_create_inv (magic b_count scale isize : Nat) (cmp : Nat → Nat → Int)
    (hash : Nat → Nat) (freeable : Nat → Bool) (m0 : mc)
    (hc : mc_create magic b_count scale isize cmp hash freeable = some m0)
    (hb1 : 1 ≤ b_count) (hb2 : b_count < 4294967296) (hs : scale < 2147483648) :
    McInv m0 [] ∧ m0.scale = scale := by
  unfold mc_create at hc
  split at hc
  · cases hc
  · cases hc
    have he : ∀ n, ((List.replicate n (⟨[], 0⟩ : _bucket_t)).map _bucket_t.list).flatten = [] := by
      intro n
      induction n with
      | zero => rfl
      | succ n ih => rw [List.replicate_succ]; exact ih
    have hr : (hashmap_init b_count cmp hash).entries = [] := he b_count
    refine ⟨⟨hb1, hb2, List.length_replicate _ _, hs, ?_, rfl, rfl, ?_, Nat.zero_le _, ?_,
      fun y hy => (by cases hy), fun y hy => ?_⟩, rfl⟩
    · show 0 = (hashmap_init b_count cmp hash).entries.length
      rw [hr]; rfl
    · show 0 = ((hashmap_init b_count cmp hash).entries ++ [] ++ [] ++ []).length
      rw [hr]; rfl
    · show ((hashmap_init b_count cmp hash).entries ++ [] ++ [] ++ []).Nodup
      rw [hr]; exact List.nodup_nil
    · have : y ∈ (hashmap_init b_count cmp hash).entries ++ [] ++ [] := hy
      rw [hr] at this

theorem mc_item_alloc_scale (m : mc) (mem : Nat → List Nat) (calloc : Option Nat) :
    (mc_item_alloc m mem calloc).mc.scale = m.scale := by
  obtain ⟨m1, calls, hs, _, hc⟩ := _alloc_item_cases m mem calloc
  rcases hc with hc | ⟨w, hc, _, _⟩ | ⟨w, item, rest, _, hc⟩ | ⟨w, item, _, _, hc⟩ |
    ⟨w, item, _, _, _, _, hc⟩
  · rw [mc_item_alloc_none _ _ _ _ _ _ _ _ hc]; exact hs.scale
  · rw [mc_item_alloc_none _ _ _ _ _ _ _ _ hc]; exact hs.scale
  · rw [mc_item_alloc_some _ _ _ _ _ _ _ _ _ hc]; exact hs.scale
  · rw [mc_item_alloc_some _ _ _ _ _ _ _ _ _ hc]; exact hs.scale
  · rw [mc_item_alloc_some _ _ _ _ _ _ _ _ _ hc]; exact hs.scale

theorem mc_item_delete_scale (m : mc) (q : Nat) (c : Option (Nat → Int)) :
    (mc_item_delete m q c).mc.scale = m.scale := by
  obtain ⟨d1, d2⟩ := mc_item_delete_mc m q c
  by_cases h0 : (hashmap_delete m.map m.key_of q (some (_int_found c))).ret = 0
  · cases ho : (hashmap_delete m.map m.key_of q (some (_int_found c))).out with
    | none => rw [d1 (Or.inr ho)]
    | some e =>
      rw [d2 e h0 ho]
      unfold _free_item
      split <;> rfl
  · rw [d1 (Or.inl h0)]

theorem mc_item_insert_scale (m : mc) (x : Nat) (fi : Bool) :
    (mc_item_insert m x fi).mc.scale = m.scale := by
  unfold mc_item_insert
  split
  · rfl
  · dsimp only
    split <;> rfl

theorem McReachable.inv_scale {m0 m : mc} {held : List Nat} (h0 : McInv m0 [])
    (hr : McReachable m0 m held) : McInv m held ∧ m.scale = m0.scale := by
  induction hr with
  | init => exact ⟨h0, rfl⟩
  | alloc mem calloc _ hf ih => exact ⟨ih.1.alloc_inv mem calloc hf, (mc_item_alloc_scale _ _ _).trans ih.2⟩
  | free x _ hx ih =>
    refine ⟨ih.1.free_inv x hx, ?_⟩
    unfold mc_item_free
    split <;> exact ih.2
  | setkey x key _ ih =>
    refine ⟨ih.1.setkey x key, ?_⟩
    unfold mc_item_setkey
    split <;> exact ih.2
  | insert x found _ hx ih => exact ⟨ih.1.insert x hx found, (mc_item_insert_scale _ _ _).trans ih.2⟩
  | delete key condition _ ih => exact ⟨ih.1.delete key condition, (mc_item_delete_scale _ _ _).trans ih.2⟩
  | search key found _ ih =>
    refine ⟨ih.1.search key found, ?_⟩
    rw [mc_item_search_mc]
    exact ih.2
  | @sweep m held _ ih =>
    refine ⟨ih.1.sweeper_main, ?_⟩
    have h1 := (_sweeper_inuse_same m).1.scale
    have h2 := (_sweeper_main_loop_same (m.scale + 1) m.scale (_sweeper_inuse m)).scale
    exact (h2.trans h1).trans ih.2
  | @evict m held _ ih => exact ⟨ih.1.evict_pass.1, (_evict_pass_same m).scale.trans ih.2⟩
  | freeable f _ ih =>
    exact ⟨⟨ih.1.b_pos, ih.1.b_lt, ih.1.len, ih.1.scale_lt, ih.1.keys, ih.1.icount, ih.1.fcount,
      ih.1.count, ih.1.le, ih.1.nodup, ih.1.held_ok, ih.1.pooled_ok⟩, ih.2⟩

theorem McInv.holds_eq {m : mc} {held : List Nat} (h : McInv m held) :
    m.holds = m.resident.length + m.inuse.list.length := by
  have hb := h.keys_lt
  unfold mc.holds u64_of_int
  rw [h.keys, h.icount]
  have e : ((m.inuse.list.length : Int) % 18446744073709551616).toNat = m.inuse.list.length := by
    rw [Int.emod_eq_of_lt (by omega) (by omega)]
    rfl
  rw [e]
  exact Nat.mod_eq_of_lt (by omega)

/-- C14: in every cache state reachable sequentially from `mc_create`
(`scale ≤ INT_MAX`, so that the `int` counters of the lists do not overflow)
through `mc_item_alloc`, `mc_item_free`, `mc_item_setkey`, `mc_item_insert`,
`mc_item_delete`, `mc_item_search` and the eviction passes:
`alloc_count ≤ scale`; `alloc_count` is the number of live items - those in
the hash table, on the in-use list, on the free list and held by the user,
which are pairwise distinct; `total_keys` and the list counters are the
lengths of the table and of the lists; and `holds` is the number of items in
the table and on the in-use list, at most `scale`. -/
theorem mc_alloc_count_le_scale (magic b_count scale isize : Nat) (cmp : Nat → Nat → Int)
    (hash : Nat → Nat) (freeable : Nat → Bool) (m0 : mc)
    (hb1 : 1 ≤ b_count) (hb2 : b_count < 4294967296) (hs : scale < 2147483648)
    (hc : mc_create magic b_count scale isize cmp hash freeable = some m0)
    (m : mc) (held : List Nat) (hr : McReachable m0 m held) :
    m.scale = scale ∧ m.alloc_count ≤ m.scale ∧
    m.alloc_count =
      m.resident.length + m.inuse.list.length + m.free.list.length + held.length ∧
    (m.resident ++ m.inuse.list ++ m.free.list ++ held).Nodup ∧
    m.map.total_keys = m.resident.length ∧
    m.inuse.count = m.inuse.list.length ∧
    m.free.count = m.free.list.length ∧
    m.holds = m.resident.length + m.inuse.list.length ∧
    m.holds ≤ m.scale ∧
    _evict_enable m m.scale = false := by
  obtain ⟨h0, hs0⟩ := mc_create_inv magic b_count scale isize cmp hash freeable m0 hc hb1 hb2 hs
  obtain ⟨h, hsc⟩ := hr.inv_scale h0
  have hcount : m.alloc_count =
      m.resident.length + m.inuse.list.length + m.free.list.length + held.length := by
    rw [h.count]
    unfold mc.pooled
    rw [List.length_append, List.length_append, List.length_append]
  have hle := h.le
  have hh := h.holds_eq
  refine ⟨hsc.trans hs0, hle, hcount, h.nodup, h.keys, h.icount, h.fcount, hh, by omega, ?_⟩
  unfold _evict_enable
  rw [decide_eq_false_iff_not]
  omega

theorem mc_alloc_count_le_scale_witness :
    (mc_item_alloc mc_sample16 (fun _ => []) (some 1)).mc.scale = 16 ∧
    (mc_item_alloc mc_sample16 (fun _ => []) (some 1)).mc.alloc_count ≤
      (mc_item_alloc mc_sample16 (fun _ => []) (some 1)).mc.scale ∧
    (mc_item_alloc mc_sample16 (fun _ => []) (some 1)).mc.alloc_count =
      (mc_item_alloc mc_sample16 (fun _ => []) (some 1)).mc.resident.length +
      (mc_item_alloc mc_sample16 (fun _ => []) (some 1)).mc.inuse.list.length +
      (mc_item_alloc mc_sample16 (fun _ => []) (some 1)).mc.free.list.length + [1].length :=
  have h := mc_alloc_count_le_scale 77 4 16 8 u64_cmp u64_hash (fun _ => true) mc_sample16
    (by decide) (by decide) (by decide) rfl
    (mc_item_alloc mc_sample16 (fun _ => []) (some 1)).mc [1]
    (@McReachable.alloc mc_sample16 mc_sample16 [] (fun _ => []) (some 1) McReachable.init
      (fun a _ h => absurd (show a ∈ ([] : List Nat) from h) (List.not_mem_nil a)))
  ⟨h.1, h.2.1, h.2.2.1⟩

theorem sleeper_left_cons (l : Nat) (e : _sleeper_t) (rest : List _sleeper_t) :
    sleeper_left l (e :: rest) =
      if e.lwt = l then some e.timeout
      else (sleeper_left l rest).map (fun t => t + e.timeout) := rfl

theorem sleeper_count_cons (l : Nat) (e : _sleeper_t) (s : List _sleeper_t) :
    sleeper_count l (e :: s) = sleeper_count l s + (if e.lwt = l then 1 else 0) := by
  unfold sleeper_count
  rw [List.countP_cons]
  by_cases h : e.lwt = l <;> simp [h]

theorem sleeper_left_some_count (l : Nat) :
    ∀ (s : List _sleeper_t) (r : Nat), sleeper_left l s = some r → 1 ≤ sleeper_count l s := by
  intro s
  induction s with
  | nil => intro r h; cases h
  | cons e rest ih =>
    intro r h
    rw [sleeper_count_cons]
    by_cases he : e.lwt = l
    · rw [if_pos he]; omega
    · rw [sleeper_left_cons, if_neg he] at h
      cases hr : sleeper_left l rest with
      | none => rw [hr] at h; cases h
      | some r1 => have := ih r1 hr; omega

theorem sleeper_count_zero_left (l : Nat) (s : List _sleeper_t) (h : sleeper_count l s = 0) :
    sleeper_left l s = none := by
  cases hr : sleeper_left l s with
  | none => rfl
  | some r => have := sleeper_left_some_count l s r hr; omega

theorem _timer_wake_stop (lw : Nat → Nat) (e : _sleeper_t) (rest : List _sleeper_t)
    (w : Nat → _worker_t) (h : e.timeout ≠ 0) :
    _timer_wake lw (e :: rest) w = (e :: rest, w, []) := by
  rw [_timer_wake, if_pos h]

theorem _timer_wake_go (lw : Nat → Nat) (e : _sleeper_t) (rest : List _sleeper_t)
    (w : Nat → _worker_t) (h : e.timeout = 0) :
    _timer_wake lw (e :: rest) w =
      ((_timer_wake lw rest (Function.update w (lw e.lwt) ((w (lw e.lwt)).add_head e.lwt))).1,
        (_timer_wake lw rest (Function.update w (lw e.lwt) ((w (lw e.lwt)).add_head e.lwt))).2.1,
        e.lwt ::
          (_timer_wake lw rest (Function.update w (lw e.lwt) ((w (lw e.lwt)).add_head e.lwt))).2.2) := by
  rw [_timer_wake, if_neg (not_not.mpr h)]

theorem _timer_svc_nil (mgr : comgr) (h : mgr.sleeper = []) : _timer_svc mgr = (mgr, []) := by
  unfold _timer_svc
  rw [h]

theorem _timer_svc_pos (mgr : comgr) (e : _sleeper_t) (rest : List _sleeper_t)
    (h : mgr.sleeper = e :: rest) (ht : 1 < e.timeout) :
    _timer_svc mgr = ({ mgr with sleeper := ⟨e.lwt, e.timeout - 1⟩ :: rest }, []) := by
  unfold _timer_svc
  rw [h]
  dsimp only
  rw [if_pos (show e.timeout ≠ 0 by omega), if_pos (show e.timeout - 1 > 0 by omega)]

theorem _timer_svc_wake (mgr : comgr) (e : _sleeper_t) (rest : List _sleeper_t)
    (h : mgr.sleeper = e :: rest) (ht : e.timeout ≤ 1) :
    _timer_svc mgr =
      ({ mgr with sleeper := (_timer_wake mgr.lwt_worker (⟨e.lwt, 0⟩ :: rest) mgr.worker).1,
                  worker := (_timer_wake mgr.lwt_worker (⟨e.lwt, 0⟩ :: rest) mgr.worker).2.1 },
        (_timer_wake mgr.lwt_worker (⟨e.lwt, 0⟩ :: rest) mgr.worker).2.2) := by
  unfold _timer_svc
  rw [h]
  dsimp only
  have e0 : (if e.timeout ≠ 0 then e.timeout - 1 else e.timeout) = 0 := by
    split <;> omega
  rw [e0, if_neg (by omega)]

theorem _worker_svc_loop_order (run : Nat → comgr → comgr) :
    ∀ (q : List Nat) (mgr : comgr), (_worker_svc_loop run q mgr).1 = q := by
  intro q
  induction q with
  | nil => intro mgr; rfl
  | cons lwt rest ih =>
    intro mgr
    rw [_worker_svc_loop]
    dsimp only
    rw [ih]

theorem _timer_wake_queue (lw : Nat → Nat) (k : Nat) :
    ∀ (q : List _sleeper_t) (w : Nat → _worker_t),
      ((_timer_wake lw q w).2.1 k).lwt_head =
        ((_timer_wake lw q w).2.2.filter (fun l => decide (lw l = k))).reverse ++
          (w k).lwt_head := by
  intro q
  induction q with
  | nil => intro w; rfl
  | cons e rest ih =>
    intro w
    by_cases hne : e.timeout ≠ 0
    · rw [_timer_wake_stop lw e rest w hne]
      rfl
    · rw [_timer_wake_go lw e rest w (not_not.mp hne)]
      dsimp only
      rw [ih]
      by_cases hk : lw e.lwt = k
      · rw [List.filter_cons_of_pos (by simpa using hk), List.reverse_cons, List.append_assoc,
          hk, Function.update_same]
        rfl
      · rw [List.filter_cons_of_neg (by simpa using hk),
          Function.update_noteq (fun h => hk h.symm)]

/-- C16 (counterexample).  LWT 1 is put on the ready queue of worker 0 by
`coroutine_run`, after that LWT 2 by the wake-up of `cosem_up`; the queue is
then `[2, 1]` and the drain `_worker_svc` executes LWT 2 before LWT 1. -/
theorem _worker_svc_runs_woken_first :
    ((coroutine_run (cosem_down (cosem_init comgr_sample (some 2) 7).2 7).mgr
      (some 1)).2.1.worker 0).lwt_head = [1] ∧
    (comgr_reorder.worker 0).lwt_head = [2, 1] ∧
    (_worker_svc (fun _ mgr => mgr) comgr_reorder 0).1 = [2, 1] ∧
    (_worker_svc (fun _ mgr => mgr) comgr_reorder 0).1 ≠ [1, 2] := by
  decide

/-- C16 (amended).  `_worker_svc` executes the ready queue of its worker
from the head to the tail.  `coroutine_run` and `coroutine_yield` append the
LWT at the tail of the queue of its worker; the wake-up of `cosem_up` puts the
LWT at the head; a timer tick puts the LWTs it wakes up at the head, one
after the other, so that they stand in front of the queue in the reverse of
the order in which they were woken.  No other queue is changed. -/
theorem ready_queue_order (mgr : comgr) :
    (∀ (run : Nat → comgr → comgr) (w : Nat),
      (_worker_svc run mgr w).1 = (mgr.worker w).lwt_head) ∧
    (∀ l k, ((coroutine_run mgr (some l)).2.1.worker k).lwt_head =
      if k = (mgr.worker_idx + 1) % 4294967296 % mgr.worker_count then
        (mgr.worker k).lwt_head ++ [l]
      else (mgr.worker k).lwt_head) ∧
    (∀ l k, ((coroutine_yield mgr (some l)).worker k).lwt_head =
      if k = mgr.lwt_worker l then (mgr.worker k).lwt_head ++ [l] else (mgr.worker k).lwt_head) ∧
    (∀ s k, ((cosem_up mgr s).2.1.worker k).lwt_head =
      match (mgr.sem s).lwt with
      | none => (mgr.worker k).lwt_head
      | some l =>
        if wrap_int ((mgr.sem s).val - 1) = 0 ∧ k = mgr.lwt_worker l then
          l :: (mgr.worker k).lwt_head
        else (mgr.worker k).lwt_head) ∧
    (∀ k, ((_timer_svc mgr).1.worker k).lwt_head =
      ((_timer_svc mgr).2.filter (fun l => decide (mgr.lwt_worker l = k))).reverse ++
        (mgr.worker k).lwt_head) := by
  refine ⟨fun run w => _worker_svc_loop_order run _ _, fun l k => ?_, fun l k => ?_,
    fun s k => ?_, fun k => ?_⟩
  · show (Function.update mgr.worker _ _ k).lwt_head = _
    by_cases hk : k = (mgr.worker_idx + 1) % 4294967296 % mgr.worker_count
    · rw [if_pos hk, hk, Function.update_same]
      rfl
    · rw [if_neg hk, Function.update_noteq hk]
  · show (Function.update mgr.worker _ _ k).lwt_head = _
    by_cases hk : k = mgr.lwt_worker l
    · rw [if_pos hk, hk, Function.update_same]
      rfl
    · rw [if_neg hk, Function.update_noteq hk]
  · unfold cosem_up
    cases hl : (mgr.sem s).lwt with
    | none => rfl
    | some l =>
      dsimp only
      by_cases hv : wrap_int ((mgr.sem s).val - 1) = 0
      · rw [if_neg (not_not.mpr hv)]
        dsimp only
        by_cases hk : k = mgr.lwt_worker l
        · rw [if_pos ⟨hv, hk⟩, hk, Function.update_same]
          rfl
        · rw [if_neg (fun h => hk h.2), Function.update_noteq hk]
      · rw [if_pos hv, if_neg (fun h => hv h.1)]
  · cases hsl : mgr.sleeper with
    | nil =>
      rw [_timer_svc_nil mgr hsl]
      rfl
    | cons e rest =>
      by_cases ht : 1 < e.timeout
      · rw [_timer_svc_pos mgr e rest hsl ht]
        rfl
      · rw [_timer_svc_wake mgr e rest hsl (by omega)]
        exact _timer_wake_queue mgr.lwt_worker k (⟨e.lwt, 0⟩ :: rest) mgr.worker

theorem cosem_up_pending (mgr : comgr) (s l : Nat) (hl : (mgr.sem s).lwt = some l)
    (hv : wrap_int ((mgr.sem s).val - 1) ≠ 0) :
    cosem_up mgr s =
      (0, { mgr with sem := (Function.update mgr.sem s
              ⟨(mgr.sem s).lwt, wrap_int ((mgr.sem s).val - 1), (mgr.sem s).ret, (mgr.sem s).linked⟩) },
        none) := by
  unfold cosem_up
  rw [hl]
  dsimp only
  rw [if_pos hv, hl]

theorem cosem_up_wake (mgr : comgr) (s l : Nat) (hl : (mgr.sem s).lwt = some l)
    (hv : wrap_int ((mgr.sem s).val - 1) = 0) :
    cosem_up mgr s =
      (0, { mgr with
            sem := Function.update mgr.sem s ⟨(mgr.sem s).lwt, 0, (mgr.sem s).ret, false⟩,
            worker := (Function.update mgr.worker (mgr.lwt_worker l)
              ⟨(mgr.worker (mgr.lwt_worker l)).lwt_count,
                wrap_int ((mgr.worker (mgr.lwt_worker l)).lwt_wait + 1),
                l :: (mgr.worker (mgr.lwt_worker l)).lwt_head,
                wrap_int ((mgr.worker (mgr.lwt_worker l)).sem_count - 1),
                (mgr.worker (mgr.lwt_worker l)).sem_head.erase s,
                (mgr.worker (mgr.lwt_worker l)).swapped⟩) },
        some (mgr.lwt_worker l)) := by
  unfold cosem_up
  rw [hl]
  dsimp only
  rw [if_neg (not_not.mpr hv), hv, hl]
  rfl

theorem cosem_down_pass (mgr : comgr) (s l : Nat) (hl : (mgr.sem s).lwt = some l)
    (hv : 0 ≥ wrap_int ((mgr.sem s).val + 1)) :
    cosem_down mgr s =
      .returned 0 { mgr with sem := (Function.update mgr.sem s
        ⟨(mgr.sem s).lwt, wrap_int ((mgr.sem s).val + 1), (mgr.sem s).ret, (mgr.sem s).linked⟩) } := by
  unfold cosem_down
  rw [hl]
  dsimp only
  rw [if_pos hv, hl]

theorem cosem_down_block (mgr : comgr) (s l : Nat) (hl : (mgr.sem s).lwt = some l)
    (hv : ¬ 0 ≥ wrap_int ((mgr.sem s).val + 1)) :
    cosem_down mgr s =
      .suspended { mgr with
        sem := (Function.update mgr.sem s
          ⟨(mgr.sem s).lwt, wrap_int ((mgr.sem s).val + 1), (mgr.sem s).ret, true⟩),
        worker := (Function.update mgr.worker (mgr.lwt_worker l)
          ⟨(mgr.worker (mgr.lwt_worker l)).lwt_count, (mgr.worker (mgr.lwt_worker l)).lwt_wait,
            (mgr.worker (mgr.lwt_worker l)).lwt_head,
            wrap_int ((mgr.worker (mgr.lwt_worker l)).sem_count + 1),
            (mgr.worker (mgr.lwt_worker l)).sem_head ++ [s], true⟩) } := by
  unfold cosem_down
  rw [hl]
  dsimp only
  rw [if_neg hv, hl]

theorem cosem_up_pending_sem (mgr : comgr) (s l : Nat) (v r : Int) (b : Bool)
    (h : mgr.sem s = ⟨some l, v, r, b⟩) (hv : wrap_int (v - 1) ≠ 0) :
    ∃ m1, cosem_up mgr s = (0, m1, none) ∧ m1.sem s = ⟨some l, wrap_int (v - 1), r, b⟩ ∧
      m1.worker = mgr.worker ∧ m1.lwt_worker = mgr.lwt_worker := by
  have hl : (mgr.sem s).lwt = some l := by rw [h]
  refine ⟨_, cosem_up_pending mgr s l hl (by rw [h]; exact hv), ?_, rfl, rfl⟩
  show Function.update mgr.sem s _ s = _
  rw [Function.update_same, h]

theorem cosem_up_wake_sem (mgr : comgr) (s l : Nat) (v r : Int) (b : Bool)
    (h : mgr.sem s = ⟨some l, v, r, b⟩) (hv : wrap_int (v - 1) = 0) :
    ∃ m1, cosem_up mgr s = (0, m1, some (mgr.lwt_worker l)) ∧ m1.sem s = ⟨some l, 0, r, false⟩ ∧
      m1.worker = Function.update mgr.worker (mgr.lwt_worker l)
        ⟨(mgr.worker (mgr.lwt_worker l)).lwt_count,
          wrap_int ((mgr.worker (mgr.lwt_worker l)).lwt_wait + 1),
          l :: (mgr.worker (mgr.lwt_worker l)).lwt_head,
          wrap_int ((mgr.worker (mgr.lwt_worker l)).sem_count - 1),
          (mgr.worker (mgr.lwt_worker l)).sem_head.erase s,
          (mgr.worker (mgr.lwt_worker l)).swapped⟩ ∧
      m1.lwt_worker = mgr.lwt_worker := by
  have hl : (mgr.sem s).lwt = some l := by rw [h]
  refine ⟨_, cosem_up_wake mgr s l hl (by rw [h]; exact hv), ?_, rfl, rfl⟩
  show Function.update mgr.sem s _ s = _
  rw [Function.update_same, h]

theorem cosem_down_pass_sem (mgr : comgr) (s l : Nat) (v r : Int) (b : Bool)
    (h : mgr.sem s = ⟨some l, v, r, b⟩) (hv : 0 ≥ wrap_int (v + 1)) :
    ∃ m1, cosem_down mgr s = .returned 0 m1 ∧ m1.sem s = ⟨some l, wrap_int (v + 1), r, b⟩ ∧
      m1.worker = mgr.worker ∧ m1.lwt_worker = mgr.lwt_worker := by
  have hl : (mgr.sem s).lwt = some l := by rw [h]
  refine ⟨_, cosem_down_pass mgr s l hl (by rw [h]; exact hv), ?_, rfl, rfl⟩
  show Function.update mgr.sem s _ s = _
  rw [Function.update_same, h]

theorem cosem_down_block_sem (mgr : comgr) (s l : Nat) (v r : Int) (b : Bool)
    (h : mgr.sem s = ⟨some l, v, r, b⟩) (hv : ¬ 0 ≥ wrap_int (v + 1)) :
    ∃ m1, cosem_down mgr s = .suspended m1 ∧ m1.sem s = ⟨some l, wrap_int (v + 1), r, true⟩ ∧
      m1.worker = Function.update mgr.worker (mgr.lwt_worker l)
        ⟨(mgr.worker (mgr.lwt_worker l)).lwt_count, (mgr.worker (mgr.lwt_worker l)).lwt_wait,
          (mgr.worker (mgr.lwt_worker l)).lwt_head,
          wrap_int ((mgr.worker (mgr.lwt_worker l)).sem_count + 1),
          (mgr.worker (mgr.lwt_worker l)).sem_head ++ [s], true⟩ ∧
      m1.lwt_worker = mgr.lwt_worker := by
  have hl : (mgr.sem s).lwt = some l := by rw [h]
  refine ⟨_, cosem_down_block mgr s l hl (by rw [h]; exact hv), ?_, rfl, rfl⟩
  show Function.update mgr.sem s _ s = _
  rw [Function.update_same, h]

theorem cosem_fini_idle (mgr : comgr) (s : Nat) (x : Option Nat) (r : Int)
    (h : mgr.sem s = ⟨x, 0, r, false⟩) : (cosem_fini mgr s).1 = 0 := by
  unfold cosem_fini
  rw [h, if_neg (by simp)]

/-- C17: the rendezvous on a cosem that `cosem_init` has just initialised for
the LWT `l` (the cosem is not on the cosem queue of the worker, whose counter
is below `INT32_MAX`).  `cosem_up` first: it returns 0, changes no worker and
leaves `val = -1`; the `cosem_down` that follows returns 0 without switching,
changes no worker and brings `val` back to 0.  `cosem_down` first: the LWT is
suspended with the cosem appended to the cosem queue of its worker and
`val = 1`; the `cosem_up` that follows returns 0, brings `val` back to 0,
takes the cosem off the queue again and puts `l` on the ready queue of the
worker, once, changing no other worker; the resumed `cosem_down` returns 0.
In both orders `cosem_fini` then returns 0. -/
theorem cosem_rendezvous (mgr : comgr) (l s : Nat)
    (hq : s ∉ (mgr.worker (mgr.lwt_worker l)).sem_head)
    (hc0 : -2147483648 ≤ (mgr.worker (mgr.lwt_worker l)).sem_count)
    (hc1 : (mgr.worker (mgr.lwt_worker l)).sem_count < 2147483647) :
    (cosem_init mgr (some l) s).1 = 0 ∧
    (cosem_init mgr (some l) s).2.sem s = ⟨some l, 0, 0, false⟩ ∧
    (cosem_init mgr (some l) s).2.worker = mgr.worker ∧
    (∃ m1 m2, cosem_up (cosem_init mgr (some l) s).2 s = (0, m1, none) ∧
      m1.worker = mgr.worker ∧ (m1.sem s).val = -1 ∧
      cosem_down m1 s = .returned 0 m2 ∧
      m2.worker = mgr.worker ∧ (m2.sem s).val = 0 ∧ (m2.sem s).linked = false ∧
      (cosem_fini m2 s).1 = 0) ∧
    (∃ m1 m2, cosem_down (cosem_init mgr (some l) s).2 s = .suspended m1 ∧
      (m1.sem s).val = 1 ∧ (m1.sem s).linked = true ∧
      (m1.worker (mgr.lwt_worker l)).sem_head = (mgr.worker (mgr.lwt_worker l)).sem_head ++ [s] ∧
      (m1.worker (mgr.lwt_worker l)).lwt_head = (mgr.worker (mgr.lwt_worker l)).lwt_head ∧
      cosem_up m1 s = (0, m2, some (mgr.lwt_worker l)) ∧
      (m2.sem s).val = 0 ∧ (m2.sem s).linked = false ∧
      (m2.worker (mgr.lwt_worker l)).sem_head = (mgr.worker (mgr.lwt_worker l)).sem_head ∧
      (m2.worker (mgr.lwt_worker l)).sem_count = (mgr.worker (mgr.lwt_worker l)).sem_count ∧
      (m2.worker (mgr.lwt_worker l)).lwt_head = l :: (mgr.worker (mgr.lwt_worker l)).lwt_head ∧
      (∀ k, k ≠ mgr.lwt_worker l → m2.worker k = mgr.worker k) ∧
      cosem_down_resume m2 s = 0 ∧ (cosem_fini m2 s).1 = 0) := by
  have h0 : (cosem_init mgr (some l) s).2.sem s = ⟨some l, 0, 0, false⟩ := by
    show Function.update mgr.sem s _ s = _
    rw [Function.update_same]
  have hw0 : (cosem_init mgr (some l) s).2.worker = mgr.worker := rfl
  have hl0 : (cosem_init mgr (some l) s).2.lwt_worker = mgr.lwt_worker := rfl
  refine ⟨rfl, h0, hw0, ?_, ?_⟩
  · obtain ⟨m1, e1, s1, w1, l1⟩ := cosem_up_pending_sem _ s l 0 0 false h0 (by decide)
    have s1' : m1.sem s = ⟨some l, -1, 0, false⟩ := s1
    obtain ⟨m2, e2, s2, w2, l2⟩ := cosem_down_pass_sem m1 s l (-1) 0 false s1' (by decide)
    have s2' : m2.sem s = ⟨some l, 0, 0, false⟩ := s2
    refine ⟨m1, m2, e1, w1.trans hw0, by rw [s1'], e2, (w2.trans w1).trans hw0, by rw [s2'],
      by rw [s2'], cosem_fini_idle m2 s _ _ s2'⟩
  · obtain ⟨m1, e1, s1, w1, l1⟩ := cosem_down_block_sem _ s l 0 0 false h0 (by decide)
    have s1' : m1.sem s = ⟨some l, 1, 0, true⟩ := s1
    obtain ⟨m2, e2, s2, w2, l2⟩ := cosem_up_wake_sem m1 s l 1 0 true s1' (by decide)
    rw [hw0, hl0] at w1
    rw [l1, hl0] at w2 e2
    have hm1 : m1.worker (mgr.lwt_worker l) =
        ⟨(mgr.worker (mgr.lwt_worker l)).lwt_count, (mgr.worker (mgr.lwt_worker l)).lwt_wait,
          (mgr.worker (mgr.lwt_worker l)).lwt_head,
          wrap_int ((mgr.worker (mgr.lwt_worker l)).sem_count + 1),
          (mgr.worker (mgr.lwt_worker l)).sem_head ++ [s], true⟩ := by
      rw [w1, Function.update_same]
    have herase : ((mgr.worker (mgr.lwt_worker l)).sem_head ++ [s]).erase s =
        (mgr.worker (mgr.lwt_worker l)).sem_head := by
      rw [List.erase_append_right _ hq]
      simp
    have hcount : wrap_int (wrap_int ((mgr.worker (mgr.lwt_worker l)).sem_count + 1) - 1) =
        (mgr.worker (mgr.lwt_worker l)).sem_count := by
      rw [wrap_int_id ((mgr.worker (mgr.lwt_worker l)).sem_count + 1) (by omega) (by omega),
        wrap_int_id _ (by omega) (by omega)]
      omega
    have hm2 : m2.worker (mgr.lwt_worker l) =
        ⟨(mgr.worker (mgr.lwt_worker l)).lwt_count,
          wrap_int ((mgr.worker (mgr.lwt_worker l)).lwt_wait + 1),
          l :: (mgr.worker (mgr.lwt_worker l)).lwt_head,
          (mgr.worker (mgr.lwt_worker l)).sem_count,
          (mgr.worker (mgr.lwt_worker l)).sem_head, true⟩ := by
      rw [w2, Function.update_same, hm1]
      dsimp only
      rw [herase, hcount]
    refine ⟨m1, m2, e1, by rw [s1'], by rw [s1'], by rw [hm1], by rw [hm1], e2, by rw [s2],
      by rw [s2], by rw [hm2], by rw [hm2], by rw [hm2], fun k hk => ?_, ?_,
      cosem_fini_idle m2 s _ _ s2⟩
    · rw [w2, Function.update_noteq hk, w1, Function.update_noteq hk]
    · unfold cosem_down_resume
      rw [s2]

theorem cosem_rendezvous_witness :
    ∃ m1 m2, cosem_down (cosem_init comgr_sample (some 2) 7).2 7 = .suspended m1 ∧
      cosem_up m1 7 = (0, m2, some 0) ∧ (m2.sem 7).val = 0 ∧
      (m2.worker 0).lwt_head = [2] ∧ cosem_down_resume m2 7 = 0 ∧ (cosem_fini m2 7).1 = 0 :=
  have h := (cosem_rendezvous comgr_sample 2 7 (by decide) (by decide) (by decide)).2.2.2.2
  h.elim fun m1 h1 => h1.elim fun m2 h2 =>
    ⟨m1, m2, h2.1, h2.2.2.2.2.2.1, h2.2.2.2.2.2.2.1, h2.2.2.2.2.2.2.2.2.2.2.1,
      h2.2.2.2.2.2.2.2.2.2.2.2.2.1, h2.2.2.2.2.2.2.2.2.2.2.2.2.2⟩

theorem tset_released_append (a b : List tset_call) :
    tset_released (a ++ b) = tset_released a ++ tset_released b := by
  induction a with
  | nil => rfl
  | cons e rest ih =>
    cases e <;> simp [tset_released, ih]

theorem tset_done_count_append (a b : List tset_call) :
    tset_done_count (a ++ b) = tset_done_count a + tset_done_count b := by
  induction a with
  | nil => simp [tset_done_count]
  | cons e rest ih =>
    cases e <;> simp [tset_done_count, ih] <;> omega

theorem FetchBeforeFail.append_other {u : tset_user} {calls : List tset_call}
    (h : FetchBeforeFail u calls) (e : tset_call) (he : e ≠ tset_call.job_fetch) :
    FetchBeforeFail u (calls ++ [e]) := by
  intro pre post hsplit j hj
  rcases List.eq_nil_or_concat post with hp | ⟨post1, x, hp⟩
  · rw [hp] at hsplit
    have := List.append_inj' hsplit rfl
    exact absurd (List.head_eq_of_cons_eq this.2) he
  · rw [hp, List.concat_eq_append, ← List.cons_append, ← List.append_assoc] at hsplit
    have := List.append_inj' hsplit rfl
    exact h pre post1 this.1 j hj

theorem FetchBeforeFail.append_fetch {u : tset_user} {calls : List tset_call}
    (h : FetchBeforeFail u calls) (hok : ∀ j ∈ tset_released calls, u.ret j = 0) :
    FetchBeforeFail u (calls ++ [tset_call.job_fetch]) := by
  intro pre post hsplit j hj
  rcases List.eq_nil_or_concat post with hp | ⟨post1, x, hp⟩
  · rw [hp] at hsplit
    have := List.append_inj' hsplit rfl
    rw [← this.1] at hj
    exact hok j hj
  · rw [hp, List.concat_eq_append, ← List.cons_append, ← List.append_assoc] at hsplit
    have := List.append_inj' hsplit rfl
    exact h pre post1 this.1 j hj

/-- `_fetch_job` in a live set with a free slot. -/
theorem _fetch_job_spec {u : tset_user} {D : Nat} {supply0 : List Nat} {w : tset_world}
    (h : TsetBase u D supply0 w) (hlt : w.set.cur_depth < D) :
    ∃ w1, _fetch_job w = some w1 ∧ TsetBase u D supply0 w1 ∧
      (w1.set.no_jobs = true ∨ w1.set.cur_depth = w.set.cur_depth + 1) ∧
      (w.set.no_jobs = true → w1.set.no_jobs = true) ∧
      (w.set.retcode ≠ 0 → w1.supply = w.supply) ∧
      tset_measure w1 ≤ tset_measure w ∧
      w1.set.ref = w.set.ref ∧ w1.set.run = w.set.run ∧ w1.waiting = w.waiting ∧
      w1.set.retcode = w.set.retcode ∧
      (∃ extra, w1.calls = w.calls ++ extra) ∧
      (∀ job, job ∈ w1.set.job_list → job ∈ w.set.job_list ∨ job.state = JOB_INIT) := by
  unfold _fetch_job
  by_cases hr : w.set.retcode ≠ 0
  · rw [if_pos hr]
    refine ⟨_, rfl, ⟨h.alive, h.dmax, h.dhi, h.depth, h.mem, h.peak, h.jobs, h.fetched,
      h.failed, fun _ => rfl, fun _ => Or.inl hr, h.undone, h.nodone, h.order, h.release⟩, Or.inl rfl,
      fun _ => rfl, fun _ => rfl, Nat.le_refl _, rfl, rfl, rfl, rfl, ⟨[], by simp⟩,
      fun job hj => Or.inl hj⟩
  · rw [if_neg hr]
    have hr0 : w.set.retcode = 0 := not_not.mp hr
    have hok : ∀ j ∈ tset_released w.calls, u.ret j = 0 := by
      intro j hj
      by_contra hne
      exact hr (h.failed.mpr ⟨j, hj, hne⟩)
    have hrel : tset_released (w.calls ++ [tset_call.job_fetch]) = tset_released w.calls := by
      rw [tset_released_append]
      simp [tset_released]
    have hdc : tset_done_count (w.calls ++ [tset_call.job_fetch]) = 0 := by
      rw [tset_done_count_append, h.nodone]
      rfl
    unfold user_job_fetch
    cases hs : w.supply with
    | nil =>
      dsimp only
      refine ⟨_, rfl, ⟨h.alive, h.dmax, h.dhi, h.depth, h.mem, h.peak, h.jobs, ?_, ?_,
        fun _ => rfl, fun _ => Or.inr rfl, h.undone, hdc, h.order.append_fetch hok, h.release⟩, Or.inl rfl,
        fun _ => rfl, fun _ => rfl, ?_, rfl, rfl, rfl, rfl, ⟨_, rfl⟩, fun job hj => Or.inl hj⟩
      · obtain ⟨f, f1, f2⟩ := h.fetched
        refine ⟨f, by rw [f1, hs], ?_⟩
        show f.Perm (tset_released (w.calls ++ [tset_call.job_fetch]) ++ _ ++ _)
        rw [hrel]
        exact f2
      · show w.set.retcode ≠ 0 ↔ ∃ j ∈ tset_released (w.calls ++ [tset_call.job_fetch]), _
        rw [hrel]
        exact h.failed
      · unfold tset_measure
        rw [hs]
    | cons job rest =>
      dsimp only
      have hfree : w.set.free_list ≠ 0 := by
        have := h.mem
        omega
      rw [if_neg hfree]
      dsimp only
      have hinc : u32_inc w.set.cur_depth = w.set.cur_depth + 1 := by
        unfold u32_inc
        have := h.dhi
        omega
      refine ⟨_, rfl, ⟨h.alive, h.dmax, h.dhi, ?_, ?_, ?_, ?_, ?_, ?_, fun hc => absurd hc hr,
        fun hn => ?_, h.undone, hdc, h.order.append_fetch hok, h.release⟩, Or.inr hinc,
        fun hn => hn, fun hc => absurd hc hr, ?_, rfl, rfl, rfl, rfl, ⟨_, rfl⟩,
        fun jb hj => ?_⟩
      · show u32_inc w.set.cur_depth = w.waiting.length + (w.set.job_list ++ [_]).length
        rw [hinc, h.depth, List.length_append]
        rfl
      · show w.set.free_list - 1 + u32_inc w.set.cur_depth = D
        rw [hinc]
        have := h.mem
        omega
      · show max w.peak (u32_inc w.set.cur_depth) ≤ D
        rw [hinc]
        have := h.peak
        exact Nat.max_le.mpr ⟨this, by omega⟩
      · intro jb hj
        rcases List.mem_append.mp hj with e | e
        · exact h.jobs jb e
        · rw [List.mem_singleton.mp e]
          exact Or.inl rfl
      · obtain ⟨f, f1, f2⟩ := h.fetched
        refine ⟨f ++ [job], by rw [f1, hs]; simp, ?_⟩
        show (f ++ [job]).Perm (tset_released (w.calls ++ [tset_call.job_fetch]) ++ w.waiting ++
          (w.set.job_list ++ [_]).map taskjob.job)
        rw [hrel, List.map_append, ← List.append_assoc]
        exact List.Perm.append_right _ f2
      · show w.set.retcode ≠ 0 ↔ ∃ j ∈ tset_released (w.calls ++ [tset_call.job_fetch]), _
        rw [hrel]
        exact h.failed
      · have h1 : w.set.no_jobs = true := hn
        rcases h.empty h1 with e | e
        · exact absurd e hr
        · rw [hs] at e
          cases e
      · unfold tset_measure
        show 2 * rest.length + ((w.set.job_list ++ [_]).map job_cost).sum ≤
          2 * w.supply.length + (w.set.job_list.map job_cost).sum
        rw [hs, List.map_append, List.sum_append, List.length_cons]
        show 2 * rest.length + ((w.set.job_list.map job_cost).sum + (2 + 0)) ≤ _
        omega
      · rcases List.mem_append.mp hj with e | e
        · exact Or.inl e
        · rw [List.mem_singleton.mp e]
          exact Or.inr rfl

theorem tset_released_handle (calls : List tset_call) (j : Nat) :
    tset_released (calls ++ [tset_call.job_handle j]) = tset_released calls := by
  rw [tset_released_append]
  simp [tset_released]

theorem tset_released_release (calls : List tset_call) (j : Nat) :
    tset_released (calls ++ [tset_call.job_release j]) = tset_released calls ++ [j] := by
  rw [tset_released_append]
  rfl

theorem tset_done_count_handle (calls : List tset_call) (j : Nat) :
    tset_done_count (calls ++ [tset_call.job_handle j]) = tset_done_count calls := by
  rw [tset_done_count_append]
  rfl

theorem tset_done_count_release (calls : List tset_call) (j : Nat) :
    tset_done_count (calls ++ [tset_call.job_release j]) = tset_done_count calls := by
  rw [tset_done_count_append]
  rfl

theorem user_job_handle_sync {u : tset_user} {w : tset_world} {job : taskjob}
    (hs : u.sync job.job = true) (hf : w.freed = false) (hrun : w.set.run = true)
    (href : w.set.ref = 2) :
    user_job_handle u w job = some { w with
      set := { w.set with job_list := w.set.job_list ++ [job_finished job.job (u.ret job.job)] },
      calls := w.calls ++ [tset_call.job_handle job.job] } := by
  unfold user_job_handle taskjob_fini_with _taskset_process_running _taskset_dec
  simp only [hs, hf, hrun, href, if_true, Bool.false_eq_true, if_false, Option.bind]
  have e1 : wrap_int (2 + 1) = 3 := by decide
  have e2 : wrap_int (3 - 1) = 2 := by decide
  simp only [e1, e2]
  have e3 : ¬ ((0 : Int) > 2) := by decide
  have e4 : ¬ ((2 : Int) = 0) := by decide
  rw [if_neg e3, if_neg e4, ← href]
  rfl

theorem user_job_handle_async {u : tset_user} {w : tset_world} {job : taskjob}
    (hs : u.sync job.job = false) :
    user_job_handle u w job = some { w with
      calls := w.calls ++ [tset_call.job_handle job.job],
      waiting := w.waiting ++ [job.job] } := by
  unfold user_job_handle
  rw [hs]
  rfl

theorem job_finished_ok (u : tset_user) (job : Nat) :
    (job_finished job (u.ret job)).state = JOB_INIT ∨
    ((job_finished job (u.ret job)).state = JOB_DONE ∧ u.ret (job_finished job (u.ret job)).job = 0) ∨
    ((job_finished job (u.ret job)).state = JOB_FAIL ∧
      (job_finished job (u.ret job)).retcode = u.ret (job_finished job (u.ret job)).job ∧
      u.ret (job_finished job (u.ret job)).job ≠ 0) := by
  unfold job_finished
  by_cases h : u.ret job = 0
  · exact Or.inr (Or.inl ⟨by rw [if_pos h], h⟩)
  · exact Or.inr (Or.inr ⟨by rw [if_neg h], rfl, h⟩)

theorem job_finished_cost (job : Nat) (ret : Int) : job_cost (job_finished job ret) = 1 := by
  unfold job_cost job_finished
  by_cases h : ret = 0
  · simp [h]
  · simp [h]

theorem job_cost_init {job : taskjob} (h : job.state = JOB_INIT) : job_cost job = 2 := by
  unfold job_cost
  rw [if_pos h]

theorem job_cost_other {job : taskjob} (h : job.state ≠ JOB_INIT) : job_cost job = 1 := by
  unfold job_cost
  rw [if_neg h]

/-- A job in state `JOB_INIT` whose `job_handle` finishes it at once. -/
theorem TsetRunning.handle_sync {u : tset_user} {D : Nat} {supply0 : List Nat} {w : tset_world}
    {job : taskjob} {rest : List taskjob} (h : TsetRunning u D supply0 w)
    (hl : w.set.job_list = job :: rest) (hst : job.state = JOB_INIT) :
    TsetRunning u D supply0 { w with
      set := { w.set with job_list := rest ++ [job_finished job.job (u.ret job.job)] },
      calls := w.calls ++ [tset_call.job_handle job.job] } ∧
    tset_measure { w with
      set := { w.set with job_list := rest ++ [job_finished job.job (u.ret job.job)] },
      calls := w.calls ++ [tset_call.job_handle job.job] } + 1 = tset_measure w := by
  have hb := h.base
  refine ⟨⟨⟨hb.alive, hb.dmax, hb.dhi, ?_, hb.mem, hb.peak, ?_, ?_, ?_, hb.latch, hb.empty,
    hb.undone, ?_, hb.order.append_other _ (by simp), hb.release⟩, h.full, h.run, h.ref, h.dlo⟩, ?_⟩
  · show w.set.cur_depth = w.waiting.length + (rest ++ [_]).length
    rw [hb.depth, hl]
    simp
  · intro jb hj
    rcases List.mem_append.mp hj with e | e
    · exact hb.jobs jb (by rw [hl]; exact List.mem_cons_of_mem _ e)
    · rw [List.mem_singleton.mp e]
      exact job_finished_ok u job.job
  · obtain ⟨f, f1, f2⟩ := hb.fetched
    refine ⟨f, f1, ?_⟩
    show f.Perm (tset_released (w.calls ++ [_]) ++ w.waiting ++ (rest ++ [_]).map taskjob.job)
    rw [tset_released_handle]
    refine f2.trans (List.Perm.append_left _ ?_)
    rw [hl, List.map_append, List.map_cons]
    exact (List.perm_append_singleton _ _).symm
  · show w.set.retcode ≠ 0 ↔ ∃ j ∈ tset_released (w.calls ++ [_]), _
    rw [tset_released_handle]
    exact hb.failed
  · show tset_done_count (w.calls ++ [_]) = 0
    rw [tset_done_count_handle]
    exact hb.nodone
  · unfold tset_measure
    show 2 * w.supply.length + ((rest ++ [_]).map job_cost).sum + 1 = _
    rw [hl, List.map_append, List.sum_append, List.map_cons, List.map_cons, List.sum_cons,
      List.sum_cons, job_cost_init hst, job_finished_cost]
    simp
    omega

/-- A job in state `JOB_INIT` whose `job_handle` leaves it to a later `taskjob_fini`. -/
theorem TsetRunning.handle_async {u : tset_user} {D : Nat} {supply0 : List Nat} {w : tset_world}
    {job : taskjob} {rest : List taskjob} (h : TsetRunning u D supply0 w)
    (hl : w.set.job_list = job :: rest) (hst : job.state = JOB_INIT) :
    TsetRunning u D supply0 { w with
      set := { w.set with job_list := rest },
      calls := w.calls ++ [tset_call.job_handle job.job],
      waiting := w.waiting ++ [job.job] } ∧
    tset_measure { w with
      set := { w.set with job_list := rest },
      calls := w.calls ++ [tset_call.job_handle job.job],
      waiting := w.waiting ++ [job.job] } + 2 = tset_measure w := by
  have hb := h.base
  refine ⟨⟨⟨hb.alive, hb.dmax, hb.dhi, ?_, hb.mem, hb.peak, ?_, ?_, ?_, hb.latch, hb.empty,
    hb.undone, ?_, hb.order.append_other _ (by simp), hb.release⟩, h.full, h.run, h.ref, h.dlo⟩, ?_⟩
  · show w.set.cur_depth = (w.waiting ++ [_]).length + rest.length
    rw [hb.depth, hl]
    simp
    omega
  · intro jb hj
    exact hb.jobs jb (by rw [hl]; exact List.mem_cons_of_mem _ hj)
  · obtain ⟨f, f1, f2⟩ := hb.fetched
    refine ⟨f, f1, ?_⟩
    show f.Perm (tset_released (w.calls ++ [_]) ++ (w.waiting ++ [_]) ++ rest.map taskjob.job)
    rw [tset_released_handle]
    refine f2.trans ?_
    rw [hl, List.map_cons]
    simp
  · show w.set.retcode ≠ 0 ↔ ∃ j ∈ tset_released (w.calls ++ [_]), _
    rw [tset_released_handle]
    exact hb.failed
  · show tset_done_count (w.calls ++ [_]) = 0
    rw [tset_done_count_handle]
    exact hb.nodone
  · unfold tset_measure
    show 2 * w.supply.length + (rest.map job_cost).sum + 2 = _
    rw [hl, List.map_cons, List.sum_cons, job_cost_init hst]
    omega

theorem u32_dec_small {c : Nat} (h0 : 1 ≤ c) (h1 : c ≤ 128) : u32_dec c = c - 1 := by
  unfold u32_dec
  omega

/-- A job in state `JOB_DONE` is released; the set is then ready for `_fetch_job`. -/
theorem TsetRunning.release_done {u : tset_user} {D : Nat} {supply0 : List Nat} {w : tset_world}
    {job : taskjob} {rest : List taskjob} (h : TsetRunning u D supply0 w)
    (hl : w.set.job_list = job :: rest) (hst : job.state = JOB_DONE) :
    TsetBase u D supply0 { w with
      set := { w.set with job_list := rest, free_list := w.set.free_list + 1,
                          cur_depth := u32_dec w.set.cur_depth },
      calls := w.calls ++ [tset_call.job_release job.job] } ∧
    u32_dec w.set.cur_depth + 1 = w.set.cur_depth ∧ w.set.cur_depth ≤ D ∧
    tset_measure { w with
      set := { w.set with job_list := rest, free_list := w.set.free_list + 1,
                          cur_depth := u32_dec w.set.cur_depth },
      calls := w.calls ++ [tset_call.job_release job.job] } + 1 = tset_measure w := by
  have hb := h.base
  have hc1 : 1 ≤ w.set.cur_depth := by
    rw [hb.depth, hl, List.length_cons]
    omega
  have hc2 : w.set.cur_depth ≤ D := by
    have := hb.mem
    omega
  have hdec : u32_dec w.set.cur_depth = w.set.cur_depth - 1 :=
    u32_dec_small hc1 (Nat.le_trans hc2 hb.dhi)
  have hret : u.ret job.job = 0 := by
    rcases hb.jobs job (by rw [hl]; exact List.mem_cons_self _ _) with e | e | e
    · rw [hst] at e
      exact absurd e (by decide)
    · exact e.2
    · rw [hst] at e
      exact absurd e.1 (by decide)
  refine ⟨⟨hb.alive, hb.dmax, hb.dhi, ?_, ?_, hb.peak, ?_, ?_, ?_, hb.latch, hb.empty,
    hb.undone, ?_, hb.order.append_other _ (by simp), hb.release⟩, by omega, hc2, ?_⟩
  · show u32_dec w.set.cur_depth = w.waiting.length + rest.length
    rw [hdec, hb.depth, hl, List.length_cons]
    omega
  · show w.set.free_list + 1 + u32_dec w.set.cur_depth = D
    rw [hdec]
    have := hb.mem
    omega
  · intro jb hj
    exact hb.jobs jb (by rw [hl]; exact List.mem_cons_of_mem _ hj)
  · obtain ⟨f, f1, f2⟩ := hb.fetched
    refine ⟨f, f1, ?_⟩
    show f.Perm (tset_released (w.calls ++ [_]) ++ w.waiting ++ rest.map taskjob.job)
    rw [tset_released_release]
    refine f2.trans ?_
    rw [hl, List.map_cons, List.perm_iff_count]
    intro a
    simp only [List.count_append, List.count_cons, List.count_nil]
    omega
  · show w.set.retcode ≠ 0 ↔ ∃ j ∈ tset_released (w.calls ++ [_]), _
    rw [tset_released_release]
    constructor
    · intro hr
      obtain ⟨j, hj, hne⟩ := hb.failed.mp hr
      exact ⟨j, List.mem_append_left _ hj, hne⟩
    · rintro ⟨j, hj, hne⟩
      rcases List.mem_append.mp hj with e | e
      · exact hb.failed.mpr ⟨j, e, hne⟩
      · rw [List.mem_singleton.mp e] at hne
        exact absurd hret hne
  · show tset_done_count (w.calls ++ [_]) = 0
    rw [tset_done_count_release]
    exact hb.nodone
  · unfold tset_measure
    show 2 * w.supply.length + (rest.map job_cost).sum + 1 = _
    rw [hl, List.map_cons, List.sum_cons, job_cost_other (by rw [hst]; decide)]
    omega

/-- A job in state `JOB_FAIL` is released and fails the set. -/
theorem TsetRunning.release_fail {u : tset_user} {D : Nat} {supply0 : List Nat} {w : tset_world}
    {job : taskjob} {rest : List taskjob} (h : TsetRunning u D supply0 w)
    (hl : w.set.job_list = job :: rest) (hst : job.state = JOB_FAIL) :
    TsetRunning u D supply0 { w with
      set := { w.set with job_list := rest, retcode := job.retcode, no_jobs := true,
                          free_list := w.set.free_list + 1,
                          cur_depth := u32_dec w.set.cur_depth },
      calls := w.calls ++ [tset_call.job_release job.job] } ∧
    job.retcode ≠ 0 ∧
    tset_measure { w with
      set := { w.set with job_list := rest, retcode := job.retcode, no_jobs := true,
                          free_list := w.set.free_list + 1,
                          cur_depth := u32_dec w.set.cur_depth },
      calls := w.calls ++ [tset_call.job_release job.job] } + 1 = tset_measure w := by
  have hb := h.base
  have hc1 : 1 ≤ w.set.cur_depth := by
    rw [hb.depth, hl, List.length_cons]
    omega
  have hc2 : w.set.cur_depth ≤ D := by
    have := hb.mem
    omega
  have hdec : u32_dec w.set.cur_depth = w.set.cur_depth - 1 :=
    u32_dec_small hc1 (Nat.le_trans hc2 hb.dhi)
  have hret : job.retcode = u.ret job.job ∧ u.ret job.job ≠ 0 := by
    rcases hb.jobs job (by rw [hl]; exact List.mem_cons_self _ _) with e | e | e
    · rw [hst] at e
      exact absurd e (by decide)
    · rw [hst] at e
      exact absurd e.1 (by decide)
    · exact e.2
  have hne : job.retcode ≠ 0 := by
    rw [hret.1]
    exact hret.2
  refine ⟨⟨⟨hb.alive, hb.dmax, hb.dhi, ?_, ?_, hb.peak, ?_, ?_, ?_, fun _ => rfl,
    fun _ => Or.inl hne, hb.undone, ?_, hb.order.append_other _ (by simp), hb.release⟩, Or.inl rfl, h.run,
    h.ref, h.dlo⟩, hne, ?_⟩
  · show u32_dec w.set.cur_depth = w.waiting.length + rest.length
    rw [hdec, hb.depth, hl, List.length_cons]
    omega
  · show w.set.free_list + 1 + u32_dec w.set.cur_depth = D
    rw [hdec]
    have := hb.mem
    omega
  · intro jb hj
    exact hb.jobs jb (by rw [hl]; exact List.mem_cons_of_mem _ hj)
  · obtain ⟨f, f1, f2⟩ := hb.fetched
    refine ⟨f, f1, ?_⟩
    show f.Perm (tset_released (w.calls ++ [_]) ++ w.waiting ++ rest.map taskjob.job)
    rw [tset_released_release]
    refine f2.trans ?_
    rw [hl, List.map_cons, List.perm_iff_count]
    intro a
    simp only [List.count_append, List.count_cons, List.count_nil]
    omega
  · show job.retcode ≠ 0 ↔ ∃ j ∈ tset_released (w.calls ++ [_]), _
    rw [tset_released_release]
    exact ⟨fun _ => ⟨job.job, List.mem_append_right _ (List.mem_singleton.mpr rfl), hret.2⟩,
      fun _ => hne⟩
  · show tset_done_count (w.calls ++ [_]) = 0
    rw [tset_done_count_release]
    exact hb.nodone
  · unfold tset_measure
    show 2 * w.supply.length + (rest.map job_cost).sum + 1 = _
    rw [hl, List.map_cons, List.sum_cons, job_cost_other (by rw [hst]; decide)]
    omega

theorem _taskset_process_loop_init (u : tset_user) (fuel : Nat) {w : tset_world} {job : taskjob}
    {rest : List taskjob} (hf : w.freed = false) (hl : w.set.job_list = job :: rest)
    (hst : job.state = JOB_INIT) :
    _taskset_process_loop u (fuel + 1) w =
      (user_job_handle u { w with set := { w.set with job_list := rest } } job).bind
        (_taskset_process_loop u fuel) := by
  rw [_taskset_process_loop]
  simp only [hf, hl, hst, if_true, Bool.false_eq_true, if_false]

theorem _taskset_process_loop_done (u : tset_user) (fuel : Nat) {w : tset_world} {job : taskjob}
    {rest : List taskjob} (hf : w.freed = false) (hl : w.set.job_list = job :: rest)
    (hst : job.state = JOB_DONE) (hrel : w.set.release_ok = true) :
    _taskset_process_loop u (fuel + 1) w =
      (_fetch_job { w with
          set := { w.set with job_list := rest, free_list := w.set.free_list + 1,
                              cur_depth := u32_dec w.set.cur_depth },
          calls := w.calls ++ [tset_call.job_release job.job] }).bind
        (_taskset_process_loop u fuel) := by
  rw [_taskset_process_loop]
  have e1 : ¬ (JOB_DONE = JOB_INIT) := by decide
  simp only [hf, hl, hst, hrel, if_true, Bool.false_eq_true, Bool.true_eq_false, if_false, e1]

theorem _taskset_process_loop_fail (u : tset_user) (fuel : Nat) {w : tset_world} {job : taskjob}
    {rest : List taskjob} (hf : w.freed = false) (hl : w.set.job_list = job :: rest)
    (hst : job.state = JOB_FAIL) (hrel : w.set.release_ok = true) :
    _taskset_process_loop u (fuel + 1) w =
      _taskset_process_loop u fuel { w with
        set := { w.set with job_list := rest, retcode := job.retcode, no_jobs := true,
                            free_list := w.set.free_list + 1,
                            cur_depth := u32_dec w.set.cur_depth },
        calls := w.calls ++ [tset_call.job_release job.job] } := by
  rw [_taskset_process_loop]
  have e1 : ¬ (JOB_FAIL = JOB_INIT) := by decide
  have e2 : ¬ (JOB_FAIL = JOB_DONE) := by decide
  simp only [hf, hl, hst, hrel, if_true, Bool.false_eq_true, Bool.true_eq_false, if_false, e1, e2]

theorem _taskset_process_loop_nil (u : tset_user) (fuel : Nat) {w : tset_world}
    (hl : w.set.job_list = []) (hf : w.freed = false) :
    _taskset_process_loop u fuel w = some w := by
  cases fuel with
  | zero =>
    rw [_taskset_process_loop, if_pos hl]
  | succ n =>
    rw [_taskset_process_loop]
    simp only [hf, hl, Bool.false_eq_true, if_false]

theorem job_cost_pos (job : taskjob) : 1 ≤ job_cost job := by
  unfold job_cost
  split <;> omega

/-- The loop of `_taskset_process` runs until the job list is empty: it
returns whenever its bound is not below the measure of the state. -/
theorem _taskset_process_loop_spec {u : tset_user} {D : Nat} {supply0 : List Nat} :
    ∀ (fuel : Nat) (w : tset_world), TsetRunning u D supply0 w → tset_measure w ≤ fuel →
    ∃ w1, _taskset_process_loop u fuel w = some w1 ∧ TsetRunning u D supply0 w1 ∧
      w1.set.job_list = [] ∧
      (∃ extra, w1.calls = w.calls ++ extra) ∧
      (∀ job rest, w.set.job_list = job :: rest → job.state ≠ JOB_INIT →
         ∃ extra, w1.calls = w.calls ++ tset_call.job_release job.job :: extra) ∧
      (w.set.retcode ≠ 0 → w1.supply = w.supply) := by
  intro fuel
  induction fuel with
  | zero =>
    intro w h hm
    have hl : w.set.job_list = [] := by
      cases hl : w.set.job_list with
      | nil => rfl
      | cons job rest =>
        exfalso
        unfold tset_measure at hm
        rw [hl, List.map_cons, List.sum_cons] at hm
        have := job_cost_pos job
        omega
    refine ⟨w, _taskset_process_loop_nil u 0 hl h.base.alive, h, hl, ⟨[], by simp⟩, ?_,
      fun _ => rfl⟩
    intro job rest hc
    rw [hl] at hc
    cases hc
  | succ n ih =>
    intro w h hm
    have hb := h.base
    cases hl : w.set.job_list with
    | nil =>
      refine ⟨w, _taskset_process_loop_nil u _ hl hb.alive, h, hl, ⟨[], by simp⟩, ?_,
        fun _ => rfl⟩
      intro job rest hc
      cases hc
    | cons job rest =>
      rcases hb.jobs job (by rw [hl]; exact List.mem_cons_self _ _) with hst | hst | hst
      · rw [_taskset_process_loop_init u n hb.alive hl hst]
        by_cases hs : u.sync job.job = true
        · rw [@user_job_handle_sync u { w with set := { w.set with job_list := rest } } job hs
            hb.alive h.run h.ref, Option.bind]
          obtain ⟨g1, g2⟩ := h.handle_sync hl hst
          obtain ⟨w1, r1, r2, r3, ⟨extra, r4⟩, -, r6⟩ := ih _ g1 (by omega)
          refine ⟨w1, r1, r2, r3, ⟨tset_call.job_handle job.job :: extra, ?_⟩, ?_, r6⟩
          · rw [r4]
            simp
          · intro job1 rest1 hc hne
            injection hc with c1 c2
            rw [← c1] at hne
            exact absurd hst hne
        · have hs1 : u.sync job.job = false := by
            cases e : u.sync job.job
            · rfl
            · exact absurd e hs
          rw [@user_job_handle_async u { w with set := { w.set with job_list := rest } } job hs1,
            Option.bind]
          obtain ⟨g1, g2⟩ := h.handle_async hl hst
          obtain ⟨w1, r1, r2, r3, ⟨extra, r4⟩, -, r6⟩ := ih _ g1 (by omega)
          refine ⟨w1, r1, r2, r3, ⟨tset_call.job_handle job.job :: extra, ?_⟩, ?_, r6⟩
          · rw [r4]
            simp
          · intro job1 rest1 hc hne
            injection hc with c1 c2
            rw [← c1] at hne
            exact absurd hst hne
      · rw [_taskset_process_loop_done u n hb.alive hl hst.1 hb.release]
        obtain ⟨g1, g2, g3, g4⟩ := h.release_done hl hst.1
        obtain ⟨w2, f1, f2, f3, f4, f5, f6, f7, f8, f9, f10, ⟨extra1, f11⟩, -⟩ :=
          _fetch_job_spec g1 (show u32_dec w.set.cur_depth < D by omega)
        rw [f1]
        have hrun : TsetRunning u D supply0 w2 := by
          refine ⟨f2, ?_, f8.trans h.run, f7.trans h.ref, h.dlo⟩
          rcases h.full with e | e
          · exact Or.inl (f4 e)
          · rcases f3 with e1 | e1
            · exact Or.inl e1
            · refine Or.inr ?_
              rw [e1]
              show u32_dec w.set.cur_depth + 1 = D
              omega
        obtain ⟨w1, r1, r2, r3, ⟨extra, r4⟩, -, r6⟩ := ih _ hrun (by omega)
        refine ⟨w1, r1, r2, r3, ⟨tset_call.job_release job.job :: (extra1 ++ extra), ?_⟩,
          ?_, ?_⟩
        · rw [r4, f11]
          simp
        · intro job1 rest1 hc hne
          injection hc with c1 c2
          refine ⟨extra1 ++ extra, ?_⟩
          rw [r4, f11, ← c1]
          simp
        · intro hr
          rw [r6 (by rw [f10]; exact hr)]
          exact f5 hr
      · rw [_taskset_process_loop_fail u n hb.alive hl hst.1 hb.release]
        obtain ⟨g1, g2, g3⟩ := h.release_fail hl hst.1
        obtain ⟨w1, r1, r2, r3, ⟨extra, r4⟩, -, r6⟩ := ih _ g1 (by omega)
        refine ⟨w1, r1, r2, r3, ⟨tset_call.job_release job.job :: extra, ?_⟩, ?_, ?_⟩
        · rw [r4]
          simp
        · intro job1 rest1 hc hne
          injection hc with c1 c2
          refine ⟨extra, ?_⟩
          rw [r4, ← c1]
          simp
        · intro _
          exact r6 g2

theorem tset_released_done (calls : List tset_call) (r : Int) :
    tset_released (calls ++ [tset_call.task_done r]) = tset_released calls := by
  rw [tset_released_append]
  simp [tset_released]

theorem tset_done_count_done (calls : List tset_call) (r : Int) :
    tset_done_count (calls ++ [tset_call.task_done r]) = tset_done_count calls + 1 := by
  rw [tset_done_count_append]
  rfl

theorem _taskset_dec_last {w : tset_world} (hf : w.freed = false) (href : w.set.ref = 1) :
    _taskset_dec w = some { w with
      set := { w.set with ref := 0 }, freed := true,
      calls := w.calls ++ [tset_call.task_done w.set.retcode] } := by
  unfold _taskset_dec
  have e1 : wrap_int (1 - 1) = 0 := by decide
  simp only [hf, href, e1, Bool.false_eq_true, if_false, gt_iff_lt, lt_self_iff_false, if_true]

theorem _taskset_dec_more {w : tset_world} (hf : w.freed = false) (href : w.set.ref = 2) :
    _taskset_dec w = some { w with set := { w.set with ref := 1 } } := by
  unfold _taskset_dec
  have e1 : wrap_int (2 - 1) = 1 := by decide
  have e2 : ¬ ((0 : Int) > 1) := by decide
  have e3 : ¬ ((1 : Int) = 0) := by decide
  simp only [hf, href, e1, e2, e3, Bool.false_eq_true, if_false]

theorem _taskset_process_end_done {w : tset_world} (h1 : w.set.no_jobs = true)
    (h2 : w.set.cur_depth = 0) (h3 : w.set.done = false) (href : w.set.ref = 2) :
    _taskset_process_end w =
      { w with set := { w.set with done := true, ref := 1, run := false } } := by
  unfold _taskset_process_end
  have e1 : wrap_int (2 - 1) = 1 := by decide
  rw [if_pos ⟨h1, h2, h3⟩, href, e1]

theorem _taskset_process_end_more {w : tset_world}
    (h : ¬ (w.set.no_jobs = true ∧ w.set.cur_depth = 0 ∧ w.set.done = false)) :
    _taskset_process_end w = { w with set := { w.set with run := false } } := by
  unfold _taskset_process_end
  rw [if_neg h]

theorem job_cost_sum_le (l : List taskjob) : (l.map job_cost).sum ≤ 2 * l.length := by
  induction l with
  | nil => simp
  | cons job rest ih =>
    rw [List.map_cons, List.sum_cons, List.length_cons]
    have : job_cost job ≤ 2 := by
      unfold job_cost
      split <;> omega
    omega

/-- The bound `_taskset_process` gives its loop is enough. -/
theorem tset_measure_le (w : tset_world) :
    tset_measure w ≤ 2 * (w.supply.length + w.set.job_list.length) + 1 := by
  unfold tset_measure
  have := job_cost_sum_le w.set.job_list
  omega

/-- What `_taskset_process` followed by `_taskset_dec` does to a set at rest
that holds two references: it returns, and the set is then either waiting
for a job in flight or completed. -/
theorem _taskset_process_dec {u : tset_user} {D : Nat} {supply0 : List Nat} {w : tset_world}
    (hb : TsetBase u D supply0 w) (hfull : w.set.no_jobs = true ∨ w.set.cur_depth = D)
    (hrun : w.set.run = false) (href : w.set.ref = 2) (hlo : 4 ≤ D) :
    ∃ w1, (_taskset_process u w).bind _taskset_dec = some w1 ∧
      (TsetWaiting u D supply0 w1 ∨ TsetFinal u D supply0 w1) ∧
      (∃ extra, w1.calls = w.calls ++ extra) ∧
      (∀ job rest, w.set.job_list = job :: rest → job.state ≠ JOB_INIT →
         ∃ extra, w1.calls = w.calls ++ tset_call.job_release job.job :: extra) ∧
      (w.set.retcode ≠ 0 → w1.supply = w.supply) := by
  have hr : TsetRunning u D supply0 { w with set := { w.set with run := true } } :=
    ⟨⟨hb.alive, hb.dmax, hb.dhi, hb.depth, hb.mem, hb.peak, hb.jobs, hb.fetched, hb.failed,
      hb.latch, hb.empty, hb.undone, hb.nodone, hb.order, hb.release⟩, hfull, rfl, href, hlo⟩
  obtain ⟨w2, r1, r2, r3, ⟨extra, r4⟩, r5, r6⟩ :=
    _taskset_process_loop_spec (2 * (w.supply.length + w.set.job_list.length) + 1) _ hr
      (tset_measure_le w)
  have hb2 := r2.base
  unfold _taskset_process
  rw [if_neg (by rw [hb.alive]; decide), if_neg (by rw [hrun]; decide), r1]
  show ∃ w1, _taskset_dec (_taskset_process_end w2) = some w1 ∧ _
  have r4 : w2.calls = w.calls ++ extra := r4
  by_cases hc : w2.set.no_jobs = true ∧ w2.set.cur_depth = 0 ∧ w2.set.done = false
  · rw [_taskset_process_end_done hc.1 hc.2.1 hc.2.2 r2.ref,
      @_taskset_dec_last { w2 with set := { w2.set with done := true, ref := 1, run := false } }
        hb2.alive rfl]
    have hwl : w2.waiting = [] := by
      have := hb2.depth
      rw [hc.2.1] at this
      exact List.length_eq_zero.mp (by omega)
    refine ⟨_, rfl, Or.inr ⟨rfl, hb2.dmax, hb2.peak, hc.2.1, hwl, hc.1, ?_, ?_, ?_, ?_⟩,
      ⟨extra ++ [tset_call.task_done w2.set.retcode], ?_⟩, ?_, r6⟩
    · show w2.set.retcode ≠ 0 ↔ ∃ j ∈ tset_released (w2.calls ++ [_]), _
      rw [tset_released_done]
      exact hb2.failed
    · rcases hb2.empty hc.1 with e | e
      · exact Or.inl e
      · exact Or.inr e
    · exact hb2.order.append_other _ (by simp)
    · obtain ⟨f, f1, f2⟩ := hb2.fetched
      refine ⟨w2.calls, f, rfl, hb2.nodone, f1, ?_⟩
      rw [hwl, r3] at f2
      simpa using f2
    · show w2.calls ++ [_] = w.calls ++ (extra ++ [_])
      rw [r4]
      simp
    · intro job rest hl hne
      obtain ⟨ex, he⟩ := r5 job rest hl hne
      refine ⟨ex ++ [tset_call.task_done w2.set.retcode], ?_⟩
      show w2.calls ++ [_] = _
      rw [he]
      simp
  · rw [_taskset_process_end_more hc,
      @_taskset_dec_more { w2 with set := { w2.set with run := false } } hb2.alive r2.ref]
    refine ⟨_, rfl, Or.inl ⟨⟨hb2.alive, hb2.dmax, hb2.dhi, hb2.depth, hb2.mem, hb2.peak, hb2.jobs,
      hb2.fetched, hb2.failed, hb2.latch, hb2.empty, hb2.undone, hb2.nodone, hb2.order, hb2.release⟩,
      r2.full, rfl, rfl, hlo, r3, ?_⟩, ⟨extra, r4⟩, r5, r6⟩
    intro hwl
    have hd := hb2.depth
    rw [hwl, r3] at hd
    have hd0 : w2.set.cur_depth = 0 := hd
    rcases r2.full with e | e
    · exact hc ⟨e, hd0, hb2.undone⟩
    · omega

theorem tset_depth_bounds (depth : Nat) : 4 ≤ tset_depth depth ∧ tset_depth depth ≤ 128 := by
  unfold tset_depth _MIN_DEPTH _MAX_DEPTH
  split <;> split <;> omega

theorem tset_depth_cases (depth : Nat) :
    (depth < 4 → tset_depth depth = 4) ∧ (128 < depth → tset_depth depth = 128) ∧
    (4 ≤ depth → depth ≤ 128 → tset_depth depth = depth) := by
  unfold tset_depth _MIN_DEPTH _MAX_DEPTH
  refine ⟨fun h => ?_, fun h => ?_, fun h1 h2 => ?_⟩ <;> split_ifs <;> omega

/-- The loop of `taskset_process` that fetches the first jobs. -/
theorem _taskset_fetch_first_spec {u : tset_user} {D : Nat} {supply0 : List Nat} :
    ∀ (n : Nat) (w : tset_world), TsetBase u D supply0 w → w.set.cur_depth + n ≤ D →
    ∃ w1, _taskset_fetch_first n w = some w1 ∧ TsetBase u D supply0 w1 ∧
      (w1.set.no_jobs = true ∨ w1.set.cur_depth = w.set.cur_depth + n) ∧
      w1.set.ref = w.set.ref ∧ w1.set.run = w.set.run := by
  intro n
  induction n with
  | zero =>
    intro w h _
    exact ⟨w, rfl, h, Or.inr rfl, rfl, rfl⟩
  | succ n ih =>
    intro w h hd
    obtain ⟨w2, f1, f2, f3, -, -, -, f7, f8, -⟩ := _fetch_job_spec h (by omega)
    rw [_taskset_fetch_first, f1]
    show ∃ w1, (if w2.set.no_jobs = true then some w2 else _taskset_fetch_first n w2) = some w1 ∧ _
    by_cases hn : w2.set.no_jobs = true
    · rw [if_pos hn]
      exact ⟨w2, rfl, f2, Or.inl hn, f7, f8⟩
    · rw [if_neg hn]
      have hc : w2.set.cur_depth = w.set.cur_depth + 1 := by
        rcases f3 with e | e
        · exact absurd e hn
        · exact e
      obtain ⟨w1, r1, r2, r3, r4, r5⟩ := ih w2 f2 (by omega)
      refine ⟨w1, r1, r2, ?_, r4.trans f7, r5.trans f8⟩
      rcases r3 with e | e
      · exact Or.inl e
      · exact Or.inr (by rw [e, hc]; omega)

/-- The task set `_taskset_create` returns. -/
theorem _taskset_create_base (u : tset_user) (D : Nat) (supply0 : List Nat) (hD : D ≤ 128) :
    TsetBase u D supply0
      ⟨⟨0, 1, false, false, false, D, 0, [], D, true⟩, false, 0, supply0, [], []⟩ := by
  refine ⟨rfl, rfl, hD, rfl, rfl, Nat.zero_le _, ?_, ⟨[], rfl, List.Perm.refl _⟩, ?_, ?_, ?_, rfl,
    rfl, ?_, rfl⟩
  · intro job hj
    cases hj
  · constructor
    · intro h
      exact absurd rfl h
    · rintro ⟨j, hj, -⟩
      cases hj
  · intro h
    exact absurd rfl h
  · intro h
    cases h
  · intro pre post hsplit
    cases pre <;> cases hsplit

theorem job_finished_state (job : Nat) (ret : Int) : (job_finished job ret).state ≠ JOB_INIT := by
  show (if ret = 0 then JOB_DONE else JOB_FAIL) ≠ JOB_INIT
  split <;> decide

theorem wrap_int_two : wrap_int (1 + 1) = 2 := by decide

/-- With `job_fetch` and `job_handle` given, `taskset_process` returns, and the
set is then waiting for a job in flight or completed. -/
theorem taskset_process_spec (u : tset_user) (depth : Nat) (supply0 : List Nat) :
    ∃ w, taskset_process u depth true true true true supply0 = some w ∧
      (TsetWaiting u (tset_depth depth) supply0 w ∨ TsetFinal u (tset_depth depth) supply0 w) := by
  obtain ⟨hlo, hhi⟩ := tset_depth_bounds depth
  obtain ⟨w1, r1, r2, r3, r4, r5⟩ :=
    _taskset_fetch_first_spec (tset_depth depth) _
      (_taskset_create_base u (tset_depth depth) supply0 hhi) (Nat.le_of_eq (Nat.zero_add _))
  have hb : TsetBase u (tset_depth depth) supply0
      { w1 with set := { w1.set with ref := wrap_int (w1.set.ref + 1) } } :=
    ⟨r2.alive, r2.dmax, r2.dhi, r2.depth, r2.mem, r2.peak, r2.jobs, r2.fetched, r2.failed,
      r2.latch, r2.empty, r2.undone, r2.nodone, r2.order, r2.release⟩
  have hfull : w1.set.no_jobs = true ∨ w1.set.cur_depth = tset_depth depth := by
    rcases r3 with e | e
    · exact Or.inl e
    · exact Or.inr (by rw [e]; exact Nat.zero_add _)
  have href : wrap_int (w1.set.ref + 1) = 2 := by
    rw [r4]
    exact wrap_int_two
  obtain ⟨w2, p1, p2, -⟩ := _taskset_process_dec hb hfull r5 href hlo
  refine ⟨w2, ?_, p2⟩
  have e : taskset_process u depth true true true true supply0 =
      (_taskset_fetch_first (tset_depth depth)
        ⟨⟨0, 1, false, false, false, tset_depth depth, 0, [], tset_depth depth, true⟩, false, 0,
          supply0, [], []⟩).bind fun w1 =>
        (_taskset_process u { w1 with set := { w1.set with ref := wrap_int (w1.set.ref + 1) } }).bind
          _taskset_dec := by
    unfold taskset_process
    rw [if_neg (by decide)]
    rfl
  rw [e, r1]
  exact p1

/-- A job in flight can be finished: `taskjob_fini` returns, the job is the
next one released, and the set is then waiting for another job in flight or
completed. -/
theorem taskjob_fini_spec {u : tset_user} {D : Nat} {supply0 : List Nat} {w : tset_world}
    (h : TsetWaiting u D supply0 w) {job : Nat} (hj : job ∈ w.waiting) :
    ∃ w1, taskjob_fini u w job = some w1 ∧
      (TsetWaiting u D supply0 w1 ∨ TsetFinal u D supply0 w1) ∧
      (∃ extra, w1.calls = w.calls ++ tset_call.job_release job :: extra) ∧
      (w.set.retcode ≠ 0 → w1.supply = w.supply) := by
  have hb := h.base
  have hlen : (w.waiting.erase job).length + 1 = w.waiting.length := by
    rw [List.length_erase_of_mem hj]
    have : 0 < w.waiting.length := List.length_pos_of_mem hj
    omega
  have hb1 : TsetBase u D supply0 { w with
      set := { w.set with ref := wrap_int (w.set.ref + 1),
                          job_list := w.set.job_list ++ [job_finished job (u.ret job)] },
      waiting := w.waiting.erase job } := by
    refine ⟨hb.alive, hb.dmax, hb.dhi, ?_, hb.mem, hb.peak, ?_, ?_, hb.failed, hb.latch,
      hb.empty, hb.undone, hb.nodone, hb.order, hb.release⟩
    · show w.set.cur_depth = (w.waiting.erase job).length + (w.set.job_list ++ [_]).length
      rw [hb.depth, h.list]
      simp
      omega
    · intro jb hjb
      rw [h.list] at hjb
      rw [List.mem_singleton.mp hjb]
      exact job_finished_ok u job
    · obtain ⟨f, f1, f2⟩ := hb.fetched
      refine ⟨f, f1, ?_⟩
      show f.Perm (tset_released w.calls ++ w.waiting.erase job ++
        (w.set.job_list ++ [_]).map taskjob.job)
      refine f2.trans ?_
      rw [h.list, List.append_assoc, List.append_assoc]
      refine List.Perm.append_left _ ?_
      simp only [List.map_nil, List.append_nil, List.nil_append, List.map_cons]
      exact (List.perm_cons_erase hj).trans (List.perm_append_singleton _ _).symm
  have href : wrap_int (w.set.ref + 1) = 2 := by
    rw [h.ref]
    exact wrap_int_two
  obtain ⟨w2, p1, p2, -, p4, p5⟩ := _taskset_process_dec hb1 h.full h.run href h.dlo
  refine ⟨w2, ?_, p2, ?_, p5⟩
  · unfold taskjob_fini taskjob_fini_with
    rw [if_neg (by rw [show ({ w with waiting := w.waiting.erase job } : tset_world).freed =
      w.freed from rfl, hb.alive]; decide)]
    exact p1
  · refine p4 (job_finished job (u.ret job)) [] (by show w.set.job_list ++ [_] = _; rw [h.list]; rfl)
      (job_finished_state job (u.ret job))

theorem TsetReachable.rest {u : tset_user} {depth : Nat} {supply0 : List Nat} {w : tset_world}
    (h : TsetReachable u depth supply0 w) : TsetRest u (tset_depth depth) supply0 w := by
  induction h with
  | start hs =>
    obtain ⟨w1, r1, r2⟩ := taskset_process_spec u depth supply0
    rw [r1] at hs
    injection hs with hs
    rw [← hs]
    exact r2
  | finish _ hj hf ih =>
    rcases ih with hw | hw
    · obtain ⟨w2, r1, r2, -⟩ := taskjob_fini_spec hw hj
      rw [r1] at hf
      injection hf with hf
      rw [← hf]
      exact r2
    · rw [hw.waiting] at hj
      cases hj

theorem TsetReachable.later {u : tset_user} {depth : Nat} {supply0 : List Nat} {w w1 : tset_world}
    (h : TsetReachable u depth supply0 w) (hl : TsetLater u w w1) :
    TsetReachable u depth supply0 w1 := by
  induction hl with
  | now => exact h
  | finish _ hj hf ih => exact TsetReachable.finish ih hj hf

theorem TsetRest.failed {u : tset_user} {D : Nat} {supply0 : List Nat} {w : tset_world}
    (h : TsetRest u D supply0 w) :
    w.set.retcode ≠ 0 ↔ ∃ j ∈ tset_released w.calls, u.ret j ≠ 0 := by
  rcases h with hw | hw
  · exact hw.base.failed
  · exact hw.failed

theorem TsetRest.latch {u : tset_user} {D : Nat} {supply0 : List Nat} {w : tset_world}
    (h : TsetRest u D supply0 w) (hr : w.set.retcode ≠ 0) : w.set.no_jobs = true := by
  rcases h with hw | hw
  · exact hw.base.latch hr
  · exact hw.no_jobs

theorem TsetRest.order {u : tset_user} {D : Nat} {supply0 : List Nat} {w : tset_world}
    (h : TsetRest u D supply0 w) : FetchBeforeFail u w.calls := by
  rcases h with hw | hw
  · exact hw.base.order
  · exact hw.order

theorem TsetRest.cap {u : tset_user} {D : Nat} {supply0 : List Nat} {w : tset_world}
    (h : TsetRest u D supply0 w) :
    w.set.max_depth = D ∧ w.set.cur_depth ≤ D ∧ w.peak ≤ D := by
  rcases h with hw | hw
  · refine ⟨hw.base.dmax, ?_, hw.base.peak⟩
    have := hw.base.mem
    omega
  · refine ⟨hw.dmax, ?_, hw.peak⟩
    rw [hw.depth]
    exact Nat.zero_le _

/-- The jobs handed out by `job_fetch` are the jobs released and the jobs in flight. -/
theorem TsetRest.count {u : tset_user} {D : Nat} {supply0 : List Nat} {w : tset_world}
    (h : TsetRest u D supply0 w) :
    (tset_released w.calls).length + w.waiting.length + w.supply.length = supply0.length := by
  rcases h with hw | hw
  · obtain ⟨f, f1, f2⟩ := hw.base.fetched
    have := f2.length_eq
    rw [hw.list] at this
    simp only [List.map_nil, List.append_nil, List.length_append] at this
    rw [f1, List.length_append]
    omega
  · obtain ⟨pre, f, c1, -, c3, c4⟩ := hw.calls
    have := c4.length_eq
    rw [c1, tset_released_done, hw.waiting, c3, List.length_append, List.length_nil]
    omega

theorem TsetRest.done_count {u : tset_user} {D : Nat} {supply0 : List Nat} {w : tset_world}
    (h : TsetRest u D supply0 w) :
    (w.waiting ≠ [] → tset_done_count w.calls = 0) ∧ (w.waiting = [] → tset_done_count w.calls = 1) := by
  rcases h with hw | hw
  · exact ⟨fun _ => hw.base.nodone, fun e => absurd e hw.more⟩
  · refine ⟨fun e => absurd hw.waiting e, fun _ => ?_⟩
    obtain ⟨pre, f, c1, c2, -⟩ := hw.calls
    rw [c1, tset_done_count_done, c2]

/-- The end of a task set: `task_done` is the last call, it comes after the
release of every job fetched, and its code is `0` exactly if all of them were
finished with `0`. -/
theorem TsetRest.final {u : tset_user} {D : Nat} {supply0 : List Nat} {w : tset_world}
    (h : TsetRest u D supply0 w) (he : w.waiting = []) :
    ∃ pre fetched, w.calls = pre ++ [tset_call.task_done w.set.retcode] ∧
      tset_done_count pre = 0 ∧ supply0 = fetched ++ w.supply ∧
      fetched.Perm (tset_released pre) ∧
      (w.set.retcode = 0 ↔ ∀ j ∈ fetched, u.ret j = 0) := by
  rcases h with hw | hw
  · exact absurd he hw.more
  · obtain ⟨pre, f, c1, c2, c3, c4⟩ := hw.calls
    refine ⟨pre, f, c1, c2, c3, c4, ?_⟩
    have hrel : tset_released w.calls = tset_released pre := by
      rw [c1, tset_released_done]
    constructor
    · intro hz j hj
      by_contra hne
      exact hw.failed.mpr ⟨j, by rw [hrel]; exact c4.subset hj, hne⟩ hz
    · intro hall
      by_contra hne
      obtain ⟨j, hj, hjn⟩ := hw.failed.mp hne
      rw [hrel] at hj
      exact hjn (hall j (c4.symm.subset hj))

theorem tset_finish_all_later {u : tset_user} : ∀ (jobs : List Nat) {w w1 w2 : tset_world},
    TsetLater u w w1 → tset_finish_all u jobs w1 = some w2 → TsetLater u w w2 := by
  intro jobs
  induction jobs with
  | nil =>
    intro w w1 w2 hl h
    injection h with h
    rw [← h]
    exact hl
  | cons job rest ih =>
    intro w w1 w2 hl h
    rw [tset_finish_all] at h
    by_cases hj : job ∈ w1.waiting
    · rw [if_pos hj] at h
      cases hf : taskjob_fini u w1 job with
      | none =>
        rw [hf] at h
        cases h
      | some w3 =>
        rw [hf] at h
        exact ih (TsetLater.finish hl hj hf) h
    · rw [if_neg hj] at h
      cases h

theorem tset_run_end_reachable {u : tset_user} {depth : Nat} {supply0 jobs : List Nat}
    (h : (tset_run u depth supply0 jobs).isSome = true) :
    TsetReachable u depth supply0 (tset_run_end u depth supply0 jobs) := by
  obtain ⟨w, hw⟩ := Option.isSome_iff_exists.mp h
  unfold tset_run_end
  rw [hw]
  unfold tset_run at hw
  cases hs : taskset_process u depth true true true true supply0 with
  | none =>
    rw [hs] at hw
    cases hw
  | some w0 =>
    rw [hs] at hw
    exact (TsetReachable.start hs).later (tset_finish_all_later jobs TsetLater.now hw)

/-- C18 (counterexample): with all callbacks given, a call whose set cannot be
allocated invokes `task_done` with `ENOMEM = 12` although no job was fetched
(so none was finished with a code other than `0`); and with `job_release`
`NULL` (task and `task_done` not `NULL`) the call aborts at the first release
and `task_done` is never invoked. -/
theorem taskset_process_enomem_retcode :
    (taskset_process tset_user_sync 8 true true true false [1, 2, 3]).map
        (fun w => (w.calls, w.supply)) = some ([tset_call.task_done 12], [1, 2, 3]) ∧
    taskset_process tset_user_sync 8 true true false true [1, 2, 3] = none := by
  decide

/-- C18 (amended): `task_done` is invoked exactly once for every
`taskset_process` call with `task`, `task_done` and `job_release` not `NULL`:
with `EINVAL` when `job_fetch` or `job_handle` is `NULL`; with `ENOMEM` when the
set cannot be allocated; otherwise the call returns, and in every state reached
by finishing jobs in flight, `task_done` has not been invoked while a job is in
flight, every job in flight can be finished (which brings the end nearer), and
once no job is in flight `task_done` has been invoked once, as the last call,
after the release of every fetched job, with code `0` exactly if every fetched
job was finished with `0`. -/
theorem taskset_task_done_once (u : tset_user) (depth : Nat) (supply0 : List Nat) :
    (∀ fetch_ok handle_ok release_ok calloc_ok, fetch_ok = false ∨ handle_ok = false →
      ∃ w, taskset_process u depth fetch_ok handle_ok release_ok calloc_ok supply0 = some w ∧
        w.calls = [tset_call.task_done EINVAL]) ∧
    (∀ release_ok, ∃ w, taskset_process u depth true true release_ok false supply0 = some w ∧
        w.calls = [tset_call.task_done ENOMEM]) ∧
    (∃ w, taskset_process u depth true true true true supply0 = some w) ∧
    (∀ w, TsetReachable u depth supply0 w →
      (w.waiting ≠ [] → tset_done_count w.calls = 0) ∧
      (∀ job ∈ w.waiting, ∃ w1, taskjob_fini u w job = some w1 ∧
        w1.supply.length + w1.waiting.length < w.supply.length + w.waiting.length) ∧
      (w.waiting = [] → tset_done_count w.calls = 1 ∧
        ∃ pre fetched, w.calls = pre ++ [tset_call.task_done w.set.retcode] ∧
          tset_done_count pre = 0 ∧ supply0 = fetched ++ w.supply ∧
          fetched.Perm (tset_released pre) ∧
          (w.set.retcode = 0 ↔ ∀ j ∈ fetched, u.ret j = 0))) := by
  refine ⟨?_, ?_, ?_, ?_⟩
  · intro fetch_ok handle_ok release_ok calloc_ok h
    unfold taskset_process
    rw [if_pos h]
    exact ⟨_, rfl, rfl⟩
  · intro release_ok
    unfold taskset_process
    rw [if_neg (by decide)]
    exact ⟨_, rfl, rfl⟩
  · obtain ⟨w, hw, -⟩ := taskset_process_spec u depth supply0
    exact ⟨w, hw⟩
  · intro w h
    have hr := h.rest
    refine ⟨hr.done_count.1, ?_, fun he => ⟨hr.done_count.2 he, hr.final he⟩⟩
    intro job hj
    rcases hr with hw | hw
    · obtain ⟨w1, r1, r2, ⟨extra, r3⟩, -⟩ := taskjob_fini_spec hw hj
      refine ⟨w1, r1, ?_⟩
      have c0 := TsetRest.count (Or.inl hw)
      have c1 := TsetRest.count r2
      rw [r3, tset_released_append, List.length_append] at c1
      have : 1 ≤ (tset_released (tset_call.job_release job :: extra)).length := by
        show 1 ≤ (job :: tset_released extra).length
        rw [List.length_cons]
        omega
      omega
    · rw [hw.waiting] at hj
      cases hj

/-- C18 (witness): depth `2` (clamped to `4`), jobs `1 … 8`, the even ones
finished inside `job_handle`, the odd ones later in the order `1, 3, 5, 7`, job
`3` with code `5`: `task_done 5` is the last call. -/
theorem taskset_task_done_once_witness :
    (tset_run_end tset_user_mixed 2 [1, 2, 3, 4, 5, 6, 7, 8] [1, 3, 5, 7]).waiting = [] ∧
    (tset_run_end tset_user_mixed 2 [1, 2, 3, 4, 5, 6, 7, 8] [1, 3, 5, 7]).calls.getLast? =
      some (tset_call.task_done 5) ∧
    (tset_done_count (tset_run_end tset_user_mixed 2 [1, 2, 3, 4, 5, 6, 7, 8] [1, 3, 5, 7]).calls = 1 ∧
      ∃ pre fetched,
        (tset_run_end tset_user_mixed 2 [1, 2, 3, 4, 5, 6, 7, 8] [1, 3, 5, 7]).calls =
          pre ++ [tset_call.task_done
            (tset_run_end tset_user_mixed 2 [1, 2, 3, 4, 5, 6, 7, 8] [1, 3, 5, 7]).set.retcode] ∧
        tset_done_count pre = 0 ∧
        [1, 2, 3, 4, 5, 6, 7, 8] =
          fetched ++ (tset_run_end tset_user_mixed 2 [1, 2, 3, 4, 5, 6, 7, 8] [1, 3, 5, 7]).supply ∧
        fetched.Perm (tset_released pre) ∧
        ((tset_run_end tset_user_mixed 2 [1, 2, 3, 4, 5, 6, 7, 8] [1, 3, 5, 7]).set.retcode = 0 ↔
          ∀ j ∈ fetched, tset_user_mixed.ret j = 0)) :=
  ⟨by decide, by decide,
    ((taskset_task_done_once tset_user_mixed 2 [1, 2, 3, 4, 5, 6, 7, 8]).2.2.2 _
      (tset_run_end_reachable (by decide))).2.2 (by decide)⟩

/-- C19: in every state of a task set, `max_depth` is the requested depth
clamped into `[4, 128]` (`4` for a depth below `4`, `128` for a depth above
`128`), and neither `cur_depth` nor the largest value `cur_depth` has had so far
(`peak`) exceeds `max_depth`. -/
theorem taskset_depth_cap (u : tset_user) (depth : Nat) (supply0 : List Nat) (w : tset_world)
    (h : TsetReachable u depth supply0 w) :
    4 ≤ w.set.max_depth ∧ w.set.max_depth ≤ 128 ∧
    (depth < 4 → w.set.max_depth = 4) ∧ (128 < depth → w.set.max_depth = 128) ∧
    (4 ≤ depth → depth ≤ 128 → w.set.max_depth = depth) ∧
    w.set.cur_depth ≤ w.set.max_depth ∧ w.peak ≤ w.set.max_depth := by
  obtain ⟨c1, c2, c3⟩ := h.rest.cap
  obtain ⟨b1, b2⟩ := tset_depth_bounds depth
  obtain ⟨d1, d2, d3⟩ := tset_depth_cases depth
  rw [c1]
  exact ⟨b1, b2, d1, d2, d3, c2, c3⟩

set_option maxRecDepth 100000 in
/-- C19 (witness): depth `8` and a fetch that hands out `100` jobs: never more
than `8` jobs are outstanding (and `8` are at some point). -/
theorem taskset_depth_cap_witness :
    (tset_run_end tset_user_sync 8 (List.range 100) []).peak = 8 ∧
    (4 ≤ (tset_run_end tset_user_sync 8 (List.range 100) []).set.max_depth ∧
      (tset_run_end tset_user_sync 8 (List.range 100) []).set.max_depth ≤ 128 ∧
      (8 < 4 → (tset_run_end tset_user_sync 8 (List.range 100) []).set.max_depth = 4) ∧
      (128 < 8 → (tset_run_end tset_user_sync 8 (List.range 100) []).set.max_depth = 128) ∧
      (4 ≤ 8 → 8 ≤ 128 → (tset_run_end tset_user_sync 8 (List.range 100) []).set.max_depth = 8) ∧
      (tset_run_end tset_user_sync 8 (List.range 100) []).set.cur_depth ≤
        (tset_run_end tset_user_sync 8 (List.range 100) []).set.max_depth ∧
      (tset_run_end tset_user_sync 8 (List.range 100) []).peak ≤
        (tset_run_end tset_user_sync 8 (List.range 100) []).set.max_depth) :=
  ⟨by decide,
    taskset_depth_cap tset_user_sync 8 (List.range 100) _ (tset_run_end_reachable (by decide))⟩

/-- The descent of `bitmap_allocbit`, cut off after any number of rounds: round
by round the slice search succeeds, and the bit it finds is the first clear
bit of its layer. -/
theorem _bitmap_alloc_loop_descent (b : bitmap) (hs : Shape b) (hh : Hier b) :
    ∀ (fuel i start pos : Nat), 1 ≤ i → i + fuel ≤ b.level → FirstZero b (i - 1) (start + pos) →
    ∃ start1 pos1, _bitmap_alloc_loop b fuel i start pos = some (start1, pos1) ∧
      FirstZero b (i + fuel - 1) (start1 + pos1) ∧ (0 < fuel → pos1 < 256 ∧ start1 % 256 = 0) := by
  intro fuel
  induction fuel with
  | zero =>
    intro i start pos _ _ hfz
    exact ⟨start, pos, rfl, hfz, fun h => absurd h (Nat.lt_irrefl 0)⟩
  | succ fuel ih =>
    intro i start pos hi hfuel hfz
    obtain ⟨i1, rfl⟩ : ∃ i1, i = i1 + 1 := ⟨i - 1, by omega⟩
    rw [Nat.add_sub_cancel] at hfz
    obtain ⟨f1, f2, f3⟩ := hfz
    have hil : i1 + 1 < b.level := by omega
    have hcp := hs.cnt_parent i1 hil
    have hcnt := hs.cnt_eq (i1 + 1) hil
    have hs256 : 256 * (start + pos) < b.cnt (i1 + 1) := by omega
    have hcount := _get_slice_bit_count_eq (b.at (i1 + 1)) ((start + pos) * 256) (start + pos)
      (by omega)
    have e64 : (start + pos) * 256 / 64 = 4 * (start + pos) := by omega
    have hpar := hh i1 hil (start + pos) f1
    rw [_bitmap_alloc_loop_succ, e64]
    cases hf : _find_first_zero_bit
      ⟨_get_slice_bit_count (b.at (i1 + 1)) ((start + pos) * 256),
        (b.at (i1 + 1)).area.drop (4 * (start + pos))⟩ with
    | none =>
      exfalso
      have hfull := (slice_none (b.at (i1 + 1)) _ (start + pos) hcnt hs256 _ hcount).mp hf
      have := hpar.mpr hfull
      rw [f2] at this
      cases this
    | some p =>
      obtain ⟨p1, p2, p3, p4⟩ :=
        (slice_some (b.at (i1 + 1)) _ (start + pos) hcnt hs256 _ hcount p).mp hf
      dsimp only
      have hnext : FirstZero b (i1 + 1 + 1 - 1) ((start + pos) * 256 + p) := by
        rw [Nat.add_sub_cancel]
        have e2 : (start + pos) * 256 + p = 256 * (start + pos) + p := by omega
        rw [e2]
        refine ⟨p2, p3, fun j hj => ?_⟩
        by_cases hge : 256 * (start + pos) ≤ j
        · have := p4 (j - 256 * (start + pos)) (by omega)
          have e3 : 256 * (start + pos) + (j - 256 * (start + pos)) = j := by omega
          rw [e3] at this
          exact this
        · have hq : j / 256 < start + pos := by omega
          have hq2 : j / 256 < b.cnt i1 := by omega
          exact (hh i1 hil (j / 256) hq2).mp (f3 _ hq) j (by omega) (by omega) (by omega)
      obtain ⟨s1, q1, r1, r2, r3⟩ := ih (i1 + 1 + 1) ((start + pos) * 256) p (by omega) (by omega) hnext
      refine ⟨s1, q1, r1, ?_, fun _ => ?_⟩
      · have e : i1 + 1 + (fuel + 1) - 1 = i1 + 1 + 1 + fuel - 1 := by omega
        rw [e]
        exact r2
      · cases fuel with
        | zero =>
          have r1c : (some ((start + pos) * 256, p) : Option (Nat × Nat)) = some (s1, q1) := r1
          injection r1c with r1c
          injection r1c with r1a r1b
          rw [← r1a, ← r1b]
          exact ⟨p1, Nat.mul_mod_left _ _⟩
        | succ f => exact r3 (Nat.succ_pos f)

/-- C30: in every state reachable from `bitmap_create n` (with `n` in the range
in which the `int` arithmetic of `bitmap_create` does not overflow), when the
search of the top layer finds a clear bit, the slice search of every round of
the descent finds a clear bit inside its slice and below the bit count of its
layer, so the first `assert` holds in every round, and `_bitmap_set_bit` on the
index reached returns `BIT_OK`, so the second `assert` holds: the call returns
`BIT_OK`. -/
theorem bitmap_allocbit_asserts (n : Int) (hn : n ≤ 2147483392) (s : bitmap)
    (hr : Reachable n s) (pos : Nat) (h0 : _find_first_zero_bit (s.at 0) = some pos) :
    (∀ f, f < s.level → ∃ start p, _bitmap_alloc_loop s f 1 0 pos = some (start, p) ∧
      start + p < s.cnt f ∧ s.bit f (start + p) = false ∧
      (0 < f → p < 256 ∧ start % 256 = 0)) ∧
    (∃ start p, _bitmap_alloc_loop s (s.level - 1) 1 0 pos = some (start, p) ∧
      (_bitmap_set_bit s (start + p)).1 = BIT_OK ∧
      bitmap_allocbit s = .ok (start + p) (_bitmap_set_bit s (start + p)).2) := by
  have hi := hr.inv hn
  have hs := hi.shape
  have hh := hi.hier
  have hlv := hs.level_pos
  have hcnt := hs.cnt_eq 0 (by omega)
  have hle := hs.count_le 0 (by omega)
  obtain ⟨p1, p2, p3⟩ := (_find_first_zero_bit_some (s.at 0) (by omega) (by omega) pos).mp h0
  have hfz0 : FirstZero s (1 - 1) (0 + pos) := by
    show FirstZero s 0 (0 + pos)
    rw [Nat.zero_add]
    exact ⟨by omega, p2, p3⟩
  constructor
  · intro f hf
    obtain ⟨start, p, g1, g2, g3⟩ :=
      _bitmap_alloc_loop_descent s hs hh f 1 0 pos (le_refl 1) (by omega) hfz0
    have e : 1 + f - 1 = f := by omega
    rw [e] at g2
    exact ⟨start, p, g1, g2.1, g2.2.1, g3⟩
  · obtain ⟨start, p, g1, g2, _⟩ :=
      _bitmap_alloc_loop_descent s hs hh (s.level - 1) 1 0 pos (le_refl 1) (by omega) hfz0
    have e : 1 + (s.level - 1) - 1 = s.level - 1 := by omega
    rw [e] at g2
    obtain ⟨k1, k2⟩ := bitmap_allocbit_ok s hs hh (start + p) g2
    exact ⟨start, p, g1, k1, k2⟩

/-- C30 (witness): a fresh bitmap of 300 bits (two layers): the top layer has a
clear bit at 0, the descent reaches bit 0 and the call returns it. -/
theorem bitmap_allocbit_asserts_witness :
    _find_first_zero_bit ((⟨300, 2, [⟨2, [0]⟩, ⟨300, [0, 0, 0, 0, 0]⟩]⟩ : bitmap).at 0) = some 0 ∧
    bitmap_allocbit ⟨300, 2, [⟨2, [0]⟩, ⟨300, [0, 0, 0, 0, 0]⟩]⟩ =
      .ok 0 ⟨300, 2, [⟨2, [0]⟩, ⟨300, [1, 0, 0, 0, 0]⟩]⟩ ∧
    ((∀ f, f < (⟨300, 2, [⟨2, [0]⟩, ⟨300, [0, 0, 0, 0, 0]⟩]⟩ : bitmap).level →
      ∃ start p, _bitmap_alloc_loop ⟨300, 2, [⟨2, [0]⟩, ⟨300, [0, 0, 0, 0, 0]⟩]⟩ f 1 0 0 =
          some (start, p) ∧
        start + p < (⟨300, 2, [⟨2, [0]⟩, ⟨300, [0, 0, 0, 0, 0]⟩]⟩ : bitmap).cnt f ∧
        (⟨300, 2, [⟨2, [0]⟩, ⟨300, [0, 0, 0, 0, 0]⟩]⟩ : bitmap).bit f (start + p) = false ∧
        (0 < f → p < 256 ∧ start % 256 = 0)) ∧
    (∃ start p, _bitmap_alloc_loop ⟨300, 2, [⟨2, [0]⟩, ⟨300, [0, 0, 0, 0, 0]⟩]⟩
          ((⟨300, 2, [⟨2, [0]⟩, ⟨300, [0, 0, 0, 0, 0]⟩]⟩ : bitmap).level - 1) 1 0 0 =
          some (start, p) ∧
      (_bitmap_set_bit ⟨300, 2, [⟨2, [0]⟩, ⟨300, [0, 0, 0, 0, 0]⟩]⟩ (start + p)).1 = BIT_OK ∧
      bitmap_allocbit ⟨300, 2, [⟨2, [0]⟩, ⟨300, [0, 0, 0, 0, 0]⟩]⟩ =
        .ok (start + p) (_bitmap_set_bit ⟨300, 2, [⟨2, [0]⟩, ⟨300, [0, 0, 0, 0, 0]⟩]⟩
          (start + p)).2)) :=
  ⟨rfl, rfl, bitmap_allocbit_asserts 300 (by norm_num)
    ⟨300, 2, [⟨2, [0]⟩, ⟨300, [0, 0, 0, 0, 0]⟩]⟩ (Reachable.create rfl) 0 rfl⟩

/-- The ancestor of a bit of the finest layer, `d` layers up, is a bit of its layer. -/
theorem Shape.ancestor_lt {b : bitmap} (hs : Shape b) (p : Nat) (hp : p < b.cnt (b.level - 1)) :
    ∀ d, d < b.level → p / 256 ^ d < b.cnt (b.level - 1 - d) := by
  intro d
  induction d with
  | zero =>
    intro _
    simpa using hp
  | succ d ih =>
    intro hd
    have h1 := ih (by omega)
    have hcp := hs.cnt_parent (b.level - 1 - (d + 1)) (by omega)
    have e : b.level - 1 - (d + 1) + 1 = b.level - 1 - d := by omega
    rw [e] at hcp
    rw [pow_succ, ← Nat.div_div_eq_div_mul, hcp]
    omega

/-- Two bitmaps of the same layout that both satisfy the hierarchy invariant and
whose finest layers differ at most in bit `p` differ at most in the ancestors
of `p`. -/
theorem Hier.determined {b b1 : bitmap} (hsame : SameShape b b1) (hh : Hier b)
    (hh1 : Hier b1) (p : Nat)
    (hfin : ∀ j, j ≠ p → b1.bit (b.level - 1) j = b.bit (b.level - 1) j) :
    ∀ d, d < b.level → ∀ q, q < b.cnt (b.level - 1 - d) → q ≠ p / 256 ^ d →
      b1.bit (b.level - 1 - d) q = b.bit (b.level - 1 - d) q := by
  intro d
  induction d with
  | zero =>
    intro _ q _ hq
    exact hfin q (by simpa using hq)
  | succ d ih =>
    intro hd q hq hne
    have e : b.level - 1 - (d + 1) + 1 = b.level - 1 - d := by omega
    have hk : b.level - 1 - (d + 1) + 1 < b.level := by omega
    have h0 := hh (b.level - 1 - (d + 1)) hk q hq
    have h1 := hh1 (b.level - 1 - (d + 1)) (by rw [hsame.2.1]; exact hk) q
      (by rw [hsame.cnt]; exact hq)
    unfold Hprop at h0 h1
    rw [hsame.cnt, e] at h1
    rw [e] at h0
    have hiff : (∀ j, 256 * q ≤ j → j < 256 * q + 256 → j < b.cnt (b.level - 1 - d) →
        b1.bit (b.level - 1 - d) j = true) ↔
        (∀ j, 256 * q ≤ j → j < 256 * q + 256 → j < b.cnt (b.level - 1 - d) →
        b.bit (b.level - 1 - d) j = true) := by
      have hj : ∀ j, 256 * q ≤ j → j < 256 * q + 256 → j < b.cnt (b.level - 1 - d) →
          b1.bit (b.level - 1 - d) j = b.bit (b.level - 1 - d) j := by
        intro j j1 j2 j3
        apply ih (by omega) j j3
        intro hc
        apply hne
        rw [pow_succ, ← Nat.div_div_eq_div_mul, ← hc]
        omega
      constructor
      · intro h j j1 j2 j3
        rw [← hj j j1 j2 j3]
        exact h j j1 j2 j3
      · intro h j j1 j2 j3
        rw [hj j j1 j2 j3]
        exact h j j1 j2 j3
    have hb : (b1.bit (b.level - 1 - (d + 1)) q = true) ↔ (b.bit (b.level - 1 - (d + 1)) q = true) :=
      h1.trans (hiff.trans h0.symm)
    cases h3 : b1.bit (b.level - 1 - (d + 1)) q <;> cases h4 : b.bit (b.level - 1 - (d + 1)) q
    · rfl
    · rw [h3, h4] at hb
      exact absurd (hb.mpr rfl) (by decide)
    · rw [h3, h4] at hb
      exact absurd (hb.mp rfl) (by decide)
    · rfl

/-- In a bitmap that satisfies the hierarchy invariant every ancestor of a clear
bit of the finest layer is clear. -/
theorem Hier.ancestor_clear {b : bitmap} (hs : Shape b) (hh : Hier b) (p : Nat)
    (hp : p < b.cnt (b.level - 1)) (hclear : b.bit (b.level - 1) p = false) :
    ∀ d, d < b.level → b.bit (b.level - 1 - d) (p / 256 ^ d) = false := by
  intro d
  induction d with
  | zero =>
    intro _
    simpa using hclear
  | succ d ih =>
    intro hd
    have e : b.level - 1 - (d + 1) + 1 = b.level - 1 - d := by omega
    have hk : b.level - 1 - (d + 1) + 1 < b.level := by omega
    have h0 := hh (b.level - 1 - (d + 1)) hk _ (hs.ancestor_lt p hp (d + 1) hd)
    unfold Hprop at h0
    rw [e] at h0
    cases h3 : b.bit (b.level - 1 - (d + 1)) (p / 256 ^ (d + 1))
    · rfl
    · have := h0.mp h3 (p / 256 ^ d)
        (by rw [pow_succ, ← Nat.div_div_eq_div_mul]; omega)
        (by rw [pow_succ, ← Nat.div_div_eq_div_mul]; omega)
        (hs.ancestor_lt p hp d (by omega))
      rw [ih (by omega)] at this
      cases this

/-- C22: in every state reachable from `bitmap_create n` (with `n` in the range
in which the `int` arithmetic of `bitmap_create` does not overflow) a bit of a
layer above the finest one is set exactly if every bit of its slice of the next
layer is set.  A successful `bitmap_allocbit` changes, above the finest layer,
only ancestors of the bit handed out; they were clear, and such an ancestor is
set afterwards exactly if its slice is full afterwards.  A successful
`bitmap_freebit` changes only ancestors of the bit given back, all of which are
clear afterwards, so the bits it clears above the finest layer are the
ancestors that were set. -/
theorem bitmap_hierarchy (n : Int) (hn : n ≤ 2147483392) (s : bitmap) (hr : Reachable n s) :
    (∀ k, k + 1 < s.level → ∀ i, i < s.cnt k →
      (s.bit k i = true ↔
        ∀ j, 256 * i ≤ j → j < min (256 * i + 256) (s.cnt (k + 1)) → s.bit (k + 1) j = true)) ∧
    (∀ bit s1, bitmap_allocbit s = .ok bit s1 →
      s1.level = s.level ∧ (∀ k, s1.cnt k = s.cnt k) ∧
      ∀ d, d < s.level →
        (∀ q, q < s.cnt (s.level - 1 - d) → q ≠ bit / 256 ^ d →
          s1.bit (s.level - 1 - d) q = s.bit (s.level - 1 - d) q) ∧
        s.bit (s.level - 1 - d) (bit / 256 ^ d) = false ∧
        (d = 0 → s1.bit (s.level - 1) bit = true) ∧
        (0 < d → (s1.bit (s.level - 1 - d) (bit / 256 ^ d) = true ↔
          ∀ j, 256 * (bit / 256 ^ d) ≤ j →
            j < min (256 * (bit / 256 ^ d) + 256) (s.cnt (s.level - d)) →
            s1.bit (s.level - d) j = true))) ∧
    (∀ bit, (bitmap_freebit s bit).1 = BIT_OK →
      (bitmap_freebit s bit).2.level = s.level ∧
      (∀ k, (bitmap_freebit s bit).2.cnt k = s.cnt k) ∧
      s.bit (s.level - 1) bit = true ∧
      ∀ d, d < s.level →
        (∀ q, q < s.cnt (s.level - 1 - d) → q ≠ bit / 256 ^ d →
          (bitmap_freebit s bit).2.bit (s.level - 1 - d) q = s.bit (s.level - 1 - d) q) ∧
        (bitmap_freebit s bit).2.bit (s.level - 1 - d) (bit / 256 ^ d) = false) := by
  have hi := hr.inv hn
  have hs := hi.shape
  have hh := hi.hier
  have hlv := hs.level_pos
  have hc := hi.cnt_finest
  refine ⟨?_, ?_, ?_⟩
  · intro k hk i hi1
    have h0 := hh k hk i hi1
    unfold Hprop at h0
    rw [h0]
    constructor
    · intro h j j1 j2
      exact h j j1 (by omega) (by omega)
    · intro h j j1 j2 j3
      exact h j j1 (by omega)
  · intro bit s1 ha
    rcases hi.alloc with ⟨g1, _⟩ | ⟨bit1, s2, g1, g2, g3, g4, g5, g6⟩
    · rw [g1] at ha
      cases ha
    · rw [g1] at ha
      injection ha with e1 e2
      subst e1
      subst e2
      have hfz : FirstZero s (s.level - 1) bit1 := ⟨by omega, g4, g5⟩
      obtain ⟨_, k2⟩ := bitmap_allocbit_ok s hs hh bit1 hfz
      rw [g1] at k2
      injection k2 with _ k3
      obtain ⟨_, m2, m3, m4⟩ := _bitmap_set_bit_spec s bit1 hs hh hfz.1 hfz.2.1
      rw [← k3] at m2 m3 m4
      refine ⟨m2.2.1, fun k => m2.cnt k, fun d hd => ⟨?_, ?_, ?_, ?_⟩⟩
      · refine Hier.determined m2 hh m3 bit1 (fun j hj => ?_) d hd
        rw [m4 j]
        simp [hj]
      · exact Hier.ancestor_clear hs hh bit1 hfz.1 hfz.2.1 d hd
      · intro _
        rw [m4 bit1]
        simp
      · intro hd0
        have e : s.level - 1 - d + 1 = s.level - d := by omega
        have h1 := m3 (s.level - 1 - d) (by rw [m2.2.1]; omega) (bit1 / 256 ^ d)
          (by rw [m2.cnt]; exact hs.ancestor_lt bit1 hfz.1 d hd)
        unfold Hprop at h1
        rw [m2.cnt, e] at h1
        rw [h1]
        constructor
        · intro h j j1 j2
          exact h j j1 (by omega) (by omega)
        · intro h j j1 j2 j3
          exact h j j1 (by omega)
  · intro bit hok
    rcases hi.free bit with ⟨g1, _⟩ | ⟨_, _, g3, g4, _⟩
    · rw [g1] at hok
      exact absurd hok (by decide)
    · have hpos : bit < s.cnt (s.level - 1) := by omega
      have hfree : bitmap_freebit s bit = _bitmap_clear_bit s bit := by
        unfold bitmap_freebit
        rw [if_neg (by rw [hi.max_eq]; omega)]
      rw [hfree]
      obtain ⟨_, m2, m3, m4⟩ := _bitmap_clear_bit_ok s bit hs hh hpos g4
      have hclear : (_bitmap_clear_bit s bit).2.bit ((_bitmap_clear_bit s bit).2.level - 1) bit =
          false := by
        rw [m2.2.1, m4 bit]
        simp
      refine ⟨m2.2.1, fun k => m2.cnt k, g4, fun d hd => ⟨?_, ?_⟩⟩
      · refine Hier.determined m2 hh m3 bit (fun j hj => ?_) d hd
        rw [m4 j]
        simp [hj]
      · have := Hier.ancestor_clear (hs.of_same m2) m3 bit (by rw [m2.2.1, m2.cnt]; exact hpos)
          hclear d (by rw [m2.2.1]; exact hd)
        rw [m2.2.1] at this
        exact this

theorem alloc_many_reachable (n : Int) : ∀ (k : Nat) (s s1 : bitmap) (l : List Nat),
    Reachable n s → alloc_many k s = some (l, s1) → Reachable n s1 := by
  intro k
  induction k with
  | zero =>
    intro s s1 l hr h
    have h1 : (some ([], s) : Option (List Nat × bitmap)) = some (l, s1) := h
    injection h1 with h1
    injection h1 with _ h2
    rw [← h2]
    exact hr
  | succ k ih =>
    intro s s1 l hr h
    rw [alloc_many_succ] at h
    cases ha : bitmap_allocbit s with
    | ok bit s2 =>
      rw [ha] at h
      dsimp only at h
      cases hm : alloc_many k s2 with
      | none =>
        rw [hm] at h
        cases h
      | some r =>
        rw [hm] at h
        have h1 : (some (bit :: r.1, r.2) : Option (List Nat × bitmap)) = some (l, s1) := h
        injection h1 with h1
        injection h1 with _ h2
        rw [← h2]
        exact ih s2 r.2 r.1 (Reachable.alloc hr ha) hm
    | fail =>
      rw [ha] at h
      cases h
    | abort =>
      rw [ha] at h
      cases h

set_option maxRecDepth 100000 in
set_option maxHeartbeats 4000000 in
theorem bitmap_sample255_reachable : Reachable 300 bitmap_sample255 :=
  alloc_many_reachable 300 255 ⟨300, 2, [⟨2, [0]⟩, ⟨300, [0, 0, 0, 0, 0]⟩]⟩ bitmap_sample255
    (List.range 255) (Reachable.create rfl) rfl

/-- C22 (witness): in a bitmap of 300 bits with the bits 0 … 254 allocated the
next allocation hands out bit 255; that fills the first slice, and bit 0 of
the top layer, clear before, is set afterwards. -/
theorem bitmap_hierarchy_witness :
    bitmap_allocbit bitmap_sample255 = .ok 255 bitmap_sample256 ∧
    bitmap_sample255.bit 0 0 = false ∧ bitmap_sample256.bit 0 0 = true ∧
    (bitmap_sample256.level = bitmap_sample255.level ∧
      (∀ k, bitmap_sample256.cnt k = bitmap_sample255.cnt k) ∧
      ∀ d, d < bitmap_sample255.level →
        (∀ q, q < bitmap_sample255.cnt (bitmap_sample255.level - 1 - d) → q ≠ 255 / 256 ^ d →
          bitmap_sample256.bit (bitmap_sample255.level - 1 - d) q =
            bitmap_sample255.bit (bitmap_sample255.level - 1 - d) q) ∧
        bitmap_sample255.bit (bitmap_sample255.level - 1 - d) (255 / 256 ^ d) = false ∧
        (d = 0 → bitmap_sample256.bit (bitmap_sample255.level - 1) 255 = true) ∧
        (0 < d → (bitmap_sample256.bit (bitmap_sample255.level - 1 - d) (255 / 256 ^ d) = true ↔
          ∀ j, 256 * (255 / 256 ^ d) ≤ j →
            j < min (256 * (255 / 256 ^ d) + 256) (bitmap_sample255.cnt (bitmap_sample255.level - d)) →
            bitmap_sample256.bit (bitmap_sample255.level - d) j = true))) :=
  ⟨by decide, by decide, by decide,
    (bitmap_hierarchy 300 (by norm_num) bitmap_sample255 bitmap_sample255_reachable).2.1 255
      bitmap_sample256 (by decide)⟩

theorem sleeper_times_from_ge (s : List _sleeper_t) :
    ∀ acc t, t ∈ sleeper_times_from acc s → acc ≤ t := by
  induction s with
  | nil =>
    intro acc t h
    cases h
  | cons e rest ih =>
    intro acc t h
    rw [sleeper_times_from] at h
    rcases List.mem_cons.mp h with h1 | h1
    · omega
    · have := ih _ t h1
      omega

theorem sleeper_times_from_sorted (s : List _sleeper_t) :
    ∀ acc, (sleeper_times_from acc s).Pairwise (fun a b => a ≤ b) := by
  induction s with
  | nil =>
    intro acc
    exact List.Pairwise.nil
  | cons e rest ih =>
    intro acc
    rw [sleeper_times_from]
    exact List.pairwise_cons.mpr ⟨fun t ht => sleeper_times_from_ge rest _ t ht, ih _⟩

theorem sleeper_times_from_length (s : List _sleeper_t) :
    ∀ acc, (sleeper_times_from acc s).length = s.length := by
  induction s with
  | nil =>
    intro acc
    rfl
  | cons e rest ih =>
    intro acc
    rw [sleeper_times_from, List.length_cons, List.length_cons, ih]

/-- The insertion loop of `cosem_sleep`, for a list whose first delta counts
from `acc`: the entry goes to a position `k`, the wake times before it are the
old ones and not above its own, the wake times after it are the old ones and
above its own. -/
theorem _sleeper_insert_times (s : List _sleeper_t) :
    ∀ (acc l r : Nat), ∃ k, k ≤ s.length ∧
      sleeper_times_from acc (_sleeper_insert s ⟨l, r⟩) =
        (sleeper_times_from acc s).take k ++ (acc + r) :: (sleeper_times_from acc s).drop k ∧
      (_sleeper_insert s ⟨l, r⟩).map _sleeper_t.lwt =
        (s.map _sleeper_t.lwt).take k ++ l :: (s.map _sleeper_t.lwt).drop k ∧
      (∀ t ∈ (sleeper_times_from acc s).take k, t ≤ acc + r) ∧
      (∀ t ∈ (sleeper_times_from acc s).drop k, acc + r < t) := by
  induction s with
  | nil =>
    intro acc l r
    exact ⟨0, Nat.le_refl _, rfl, rfl, fun t h => (by cases h), fun t h => (by cases h)⟩
  | cons e rest ih =>
    intro acc l r
    rw [_sleeper_insert]
    by_cases hgt : e.timeout > r
    · rw [if_pos hgt]
      refine ⟨0, Nat.zero_le _, ?_, rfl, fun t h => (by cases h), fun t h => ?_⟩
      · show (acc + r) :: (acc + r + (e.timeout - r)) ::
          sleeper_times_from (acc + r + (e.timeout - r)) rest =
            (acc + r) :: (acc + e.timeout) :: sleeper_times_from (acc + e.timeout) rest
        have e1 : acc + r + (e.timeout - r) = acc + e.timeout := by omega
        rw [e1]
      · have h1 : t ∈ sleeper_times_from acc (e :: rest) := h
        rw [sleeper_times_from] at h1
        rcases List.mem_cons.mp h1 with h2 | h2
        · omega
        · have := sleeper_times_from_ge rest _ t h2
          omega
    · rw [if_neg hgt]
      obtain ⟨k, k1, k2, k3, k4, k5⟩ := ih (acc + e.timeout) l (r - e.timeout)
      have e1 : acc + e.timeout + (r - e.timeout) = acc + r := by omega
      rw [e1] at k2 k4 k5
      refine ⟨k + 1, by rw [List.length_cons]; omega, ?_, ?_, fun t h => ?_, fun t h => ?_⟩
      · show (acc + e.timeout) :: sleeper_times_from (acc + e.timeout)
            (_sleeper_insert rest ⟨l, r - e.timeout⟩) = _
        rw [k2]
        rfl
      · show e.lwt :: (_sleeper_insert rest ⟨l, r - e.timeout⟩).map _sleeper_t.lwt = _
        rw [k3]
        rfl
      · have h1 : t ∈ (acc + e.timeout) :: (sleeper_times_from (acc + e.timeout) rest).take k := h
        rcases List.mem_cons.mp h1 with h2 | h2
        · omega
        · exact k4 t h2
      · exact k5 t h

/-- C25: `cosem_sleep(ms)` called by the LWT `l` links one new entry into the
sleeper list, at a position `k`: the absolute wake time of every entry that was
on the list is what it was, that of the new entry is `ms`, the entries before
it are those due at `ms` or earlier and the entries after it those due later
than `ms`, and the list is sorted by absolute wake time. -/
theorem cosem_sleep_keeps_times (mgr : comgr) (l ms : Nat) :
    ∃ k, k ≤ mgr.sleeper.length ∧
      sleeper_times (cosem_sleep mgr (some l) ms).sleeper =
        (sleeper_times mgr.sleeper).take k ++ ms :: (sleeper_times mgr.sleeper).drop k ∧
      (cosem_sleep mgr (some l) ms).sleeper.map _sleeper_t.lwt =
        (mgr.sleeper.map _sleeper_t.lwt).take k ++ l :: (mgr.sleeper.map _sleeper_t.lwt).drop k ∧
      (∀ t ∈ (sleeper_times mgr.sleeper).take k, t ≤ ms) ∧
      (∀ t ∈ (sleeper_times mgr.sleeper).drop k, ms < t) ∧
      (sleeper_times (cosem_sleep mgr (some l) ms).sleeper).Pairwise (fun a b => a ≤ b) := by
  obtain ⟨k, k1, k2, k3, k4, k5⟩ := _sleeper_insert_times mgr.sleeper 0 l ms
  rw [Nat.zero_add] at k2 k4 k5
  exact ⟨k, k1, k2, k3, k4, k5, sleeper_times_from_sorted _ 0⟩

theorem _sweeper_main_trace_loop : ∀ (fuel depth : Nat) (st : List mc_call × mc),
    (_sweeper_main_trace fuel depth st).2.2 = _sweeper_main_loop fuel depth st := by
  intro fuel
  induction fuel with
  | zero =>
    intro depth st
    rfl
  | succ fuel ih =>
    intro depth st
    rw [_sweeper_main_trace, _sweeper_main_loop]
    split
    · exact ih _ _
    · rfl

/-- With a bound above `depth` the loop of `_sweeper_main` is left through its
condition, and the bound has no influence on what it does. -/
theorem _sweeper_main_trace_exit : ∀ (fuel depth : Nat) (st : List mc_call × mc), depth < fuel →
    ¬ (_evict_enable (_sweeper_main_trace fuel depth st).2.2.2
        (M_LIMIT (_sweeper_main_trace fuel depth st).2.2.2.scale) = true ∧
      (_sweeper_main_trace fuel depth st).2.1 > 0) ∧
    ∀ fuel1, depth < fuel1 →
      _sweeper_main_trace fuel1 depth st = _sweeper_main_trace fuel depth st := by
  intro fuel
  induction fuel with
  | zero =>
    intro depth st h
    omega
  | succ fuel ih =>
    intro depth st h
    by_cases hc : _evict_enable st.2 (M_LIMIT st.2.scale) = true ∧ depth > 0
    · have hd : (if depth > st.2.map.total_keys / st.2.map.b_count then
          st.2.map.total_keys / st.2.map.b_count else depth) / 2 < fuel := by
        split <;> omega
      obtain ⟨i1, i2⟩ := ih _ (st.1 ++ (st.2.evict ((if depth > st.2.map.total_keys / st.2.map.b_count
        then st.2.map.total_keys / st.2.map.b_count else depth) / 2)).1,
        (st.2.evict ((if depth > st.2.map.total_keys / st.2.map.b_count
        then st.2.map.total_keys / st.2.map.b_count else depth) / 2)).2) hd
      constructor
      · rw [_sweeper_main_trace, if_pos hc]
        exact i1
      · intro fuel1 h1
        cases fuel1 with
        | zero => omega
        | succ f1 =>
          rw [_sweeper_main_trace, if_pos hc, _sweeper_main_trace, if_pos hc]
          dsimp only
          rw [i2 f1 (by split <;> omega)]
    · constructor
      · rw [_sweeper_main_trace, if_neg hc]
        exact hc
      · intro fuel1 h1
        cases fuel1 with
        | zero => omega
        | succ f1 =>
          rw [_sweeper_main_trace, if_neg hc, _sweeper_main_trace, if_neg hc]

theorem log_two_half (d c : Nat) (hc : 1 ≤ c) (hd : c ≤ d / 2) : Nat.log 2 c + 1 ≤ Nat.log 2 d := by
  have h1 : Nat.log 2 c ≤ Nat.log 2 (d / 2) := Nat.log_mono_right hd
  have h2 : Nat.log 2 (d / 2) = Nat.log 2 d - 1 := Nat.log_div_base 2 d
  have h3 : 1 ≤ Nat.log 2 d := by
    apply Nat.log_pos (by decide)
    omega
  omega

/-- The depths passed to `hashmap_eviction` by the loop of `_sweeper_main`:
the first is at most half of `depth`, each later one at most half of the one
before, all but the last are positive, and there are at most
`floor(log2(depth)) + 1` of them. -/
theorem _sweeper_main_trace_depths : ∀ (fuel depth : Nat) (st : List mc_call × mc),
    (∀ d, (_sweeper_main_trace fuel depth st).1.head? = some d → d ≤ depth / 2) ∧
    (_sweeper_main_trace fuel depth st).1.Chain' (fun a b => 0 < a ∧ b ≤ a / 2) ∧
    (_sweeper_main_trace fuel depth st).1.length ≤ (if depth = 0 then 0 else Nat.log 2 depth + 1) := by
  intro fuel
  induction fuel with
  | zero =>
    intro depth st
    refine ⟨fun d h => (by cases h), List.chain'_nil, Nat.zero_le _⟩
  | succ fuel ih =>
    intro depth st
    by_cases hc : _evict_enable st.2 (M_LIMIT st.2.scale) = true ∧ depth > 0
    · rw [_sweeper_main_trace, if_pos hc]
      dsimp only
      have hd : (if depth > st.2.map.total_keys / st.2.map.b_count then
          st.2.map.total_keys / st.2.map.b_count else depth) / 2 ≤ depth / 2 := by
        apply Nat.div_le_div_right
        split <;> omega
      generalize (if depth > st.2.map.total_keys / st.2.map.b_count then
          st.2.map.total_keys / st.2.map.b_count else depth) / 2 = d1 at hd
      obtain ⟨i1, i2, i3⟩ := ih d1 (st.1 ++ (st.2.evict d1).1, (st.2.evict d1).2)
      refine ⟨fun d h => ?_, ?_, ?_⟩
      · injection h with h
        rw [← h]
        exact hd
      · rw [List.chain'_cons']
        refine ⟨fun y hy => ?_, i2⟩
        have hy1 := i1 y hy
        refine ⟨?_, hy1⟩
        by_contra h0
        have e0 : d1 = 0 := by omega
        subst e0
        rw [if_pos rfl] at i3
        have : (_sweeper_main_trace fuel 0 (st.1 ++ (st.2.evict 0).1, (st.2.evict 0).2)).1 = [] :=
          List.length_eq_zero.mp (by omega)
        rw [this] at hy
        cases hy
      · rw [List.length_cons, if_neg (by omega)]
        by_cases h0 : d1 = 0
        · rw [if_pos h0] at i3
          omega
        · rw [if_neg h0] at i3
          have := log_two_half depth d1 (by omega) hd
          omega
    · rw [_sweeper_main_trace, if_neg hc]
      refine ⟨fun d h => (by cases h), List.chain'_nil, Nat.zero_le _⟩

/-- C27: one pass of `_sweeper_main` terminates for every cache state: the loop
is left through its condition (`holds ≤ soft_limit`, or the depth is zero), it
does the same for every bound above `scale`, the depths passed to
`hashmap_eviction` start at no more than `scale / 2`, each later one is at most
half of the (positive) one before, and at most `floor(log2(scale)) + 1` calls
are made. -/
theorem _sweeper_main_terminates (m : mc) :
    (_sweeper_main_trace (m.scale + 1) m.scale (_sweeper_inuse m)).2.2 = _sweeper_main m ∧
    (∀ fuel, m.scale < fuel → _sweeper_main_trace fuel m.scale (_sweeper_inuse m) =
      _sweeper_main_trace (m.scale + 1) m.scale (_sweeper_inuse m)) ∧
    ((_sweeper_main m).2.holds ≤ M_LIMIT (_sweeper_main m).2.scale ∨
      (_sweeper_main_trace (m.scale + 1) m.scale (_sweeper_inuse m)).2.1 = 0) ∧
    (∀ d, (_sweeper_main_trace (m.scale + 1) m.scale (_sweeper_inuse m)).1.head? = some d →
      d ≤ m.scale / 2) ∧
    (_sweeper_main_trace (m.scale + 1) m.scale (_sweeper_inuse m)).1.Chain'
      (fun a b => 0 < a ∧ b ≤ a / 2) ∧
    (_sweeper_main_trace (m.scale + 1) m.scale (_sweeper_inuse m)).1.length ≤
      Nat.log 2 m.scale + 1 := by
  have h1 := _sweeper_main_trace_loop (m.scale + 1) m.scale (_sweeper_inuse m)
  obtain ⟨h2, h3⟩ := _sweeper_main_trace_exit (m.scale + 1) m.scale (_sweeper_inuse m)
    (Nat.lt_succ_self _)
  obtain ⟨h4, h5, h6⟩ := _sweeper_main_trace_depths (m.scale + 1) m.scale (_sweeper_inuse m)
  have h1a : (_sweeper_main_trace (m.scale + 1) m.scale (_sweeper_inuse m)).2.2 = _sweeper_main m := h1
  refine ⟨h1a, h3, ?_, h4, h5, ?_⟩
  · rw [← h1a]
    by_cases hz : (_sweeper_main_trace (m.scale + 1) m.scale (_sweeper_inuse m)).2.1 = 0
    · exact Or.inr hz
    · left
      by_contra hgt
      apply h2
      refine ⟨?_, by omega⟩
      unfold _evict_enable
      exact decide_eq_true (by omega)
  · refine Nat.le_trans h6 ?_
    split <;> omega

theorem strcasecmp_fold : ∀ (s1 s2 : List Char), s1.map tolower = s2.map tolower →
    strcasecmp s1 s2 = 0 := by
  intro s1
  induction s1 with
  | nil =>
    intro s2 h
    cases s2 with
    | nil => rfl
    | cons c2 r2 => cases h
  | cons c1 r1 ih =>
    intro s2 h
    cases s2 with
    | nil => cases h
    | cons c2 r2 =>
      rw [List.map_cons, List.map_cons] at h
      injection h with h1 h2
      rw [strcasecmp, if_pos h1]
      exact ih r2 h2

theorem find_key_none {cmdMap : List (List Char × Cmd)} {name : List Char}
    (h : cmdMap.find? (fun e => decide (e.1 = name)) = none) : name ∉ cmdMap.map Prod.fst := by
  intro hm
  obtain ⟨e, he, hn⟩ := List.mem_map.mp hm
  have := List.find?_eq_none.mp h e he
  simp [hn] at this

theorem find_key_some {cmdMap : List (List Char × Cmd)} {name : List Char}
    (h : ∃ e ∈ cmdMap, e.1 = name) :
    ∃ e, cmdMap.find? (fun e => decide (e.1 = name)) = some e := by
  cases hf : cmdMap.find? (fun e => decide (e.1 = name)) with
  | some e => exact ⟨e, rfl⟩
  | none =>
    exfalso
    obtain ⟨e, he, hn⟩ := h
    exact find_key_none hf (List.mem_map.mpr ⟨e, he, hn⟩)

theorem CmdSet.RegisterCmd_cases (cmdMap : List (List Char × Cmd)) (name : List Char)
    (ctx help func : Nat) (alloc_ok : Bool) :
    CmdSet.RegisterCmd cmdMap name ctx help func alloc_ok = cmdMap ∨
    (name ∉ cmdMap.map Prod.fst ∧
      CmdSet.RegisterCmd cmdMap name ctx help func alloc_ok =
        cmdMap ++ [(name, ⟨name, ctx, help, func⟩)]) := by
  unfold CmdSet.RegisterCmd
  cases hf : cmdMap.find? (fun e => decide (e.1 = name)) with
  | some e => exact Or.inl rfl
  | none =>
    dsimp only
    unfold new_Cmd
    split
    · rename_i cmd hc
      split at hc
      · cases hc
      · injection hc with hc
        rw [← hc]
        exact Or.inr ⟨find_key_none hf, rfl⟩
    · exact Or.inl rfl

theorem CmdReachable.cmd_inv {cmdMap : List (List Char × Cmd)} (h : CmdReachable cmdMap) :
    CmdInv cmdMap := by
  induction h with
  | init =>
    exact ⟨List.nodup_nil, fun e he => (by cases he), fun e he => (by cases he)⟩
  | @register cmdMap name ctx help func alloc_ok _ ih =>
    unfold cmd_register
    by_cases hh : strcasecmp name ['h', 'e', 'l', 'p'] = 0
    · rw [if_pos hh]
      exact ih
    · rw [if_neg hh]
      rcases CmdSet.RegisterCmd_cases cmdMap name ctx help func alloc_ok with e | ⟨e1, e2⟩
      · rw [e]
        exact ih
      · rw [e2]
        refine ⟨?_, fun e he => ?_, fun e he => ?_⟩
        · rw [List.map_append, List.map_singleton]
          exact List.Nodup.append ih.nodup (List.nodup_singleton _)
            (by
              intro a h1 h2
              rw [List.mem_singleton.mp h2] at h1
              exact e1 h1)
        · rcases List.mem_append.mp he with h1 | h1
          · exact ih.nohelp e h1
          · rw [List.mem_singleton.mp h1]
            exact hh
        · rcases List.mem_append.mp he with h1 | h1
          · exact ih.named e h1
          · rw [List.mem_singleton.mp h1]
  | @unregister cmdMap name _ ih =>
    have hsub : (cmd_unregister cmdMap name).Sublist cmdMap := List.eraseP_sublist _
    exact ⟨ih.nodup.sublist (hsub.map _), fun e he => ih.nohelp e (hsub.subset he),
      fun e he => ih.named e (hsub.subset he)⟩

/-- C21 (counterexample): `Foo` equals the registered name `foo` up to letter
case (`strcasecmp` is `0`), and yet `cmd_register` adds it: the registry
holds both commands. -/
theorem cmd_register_case_variant_added :
    strcasecmp ['F', 'o', 'o'] ['f', 'o', 'o'] = 0 ∧
    cmd_register (cmd_register [] ['f', 'o', 'o'] 0 1 2 true) ['F', 'o', 'o'] 0 3 4 true =
      [(['f', 'o', 'o'], ⟨['f', 'o', 'o'], 0, 1, 2⟩), (['F', 'o', 'o'], ⟨['F', 'o', 'o'], 0, 3, 4⟩)] := by
  decide

/-- C21 (amended): in every command map reachable by `cmd_register` and
`cmd_unregister` the names are pairwise different as strings (letter case
included) and none is a case variant of `help`; `cmd_register` with a name that
is registered leaves the map as it is, and so does `cmd_register` with a case
variant of `help`. -/
theorem cmd_register_unique (cmdMap : List (List Char × Cmd)) (h : CmdReachable cmdMap) :
    (cmdMap.map Prod.fst).Nodup ∧
    (∀ e ∈ cmdMap, e.2.name = e.1 ∧ strcasecmp e.1 ['h', 'e', 'l', 'p'] ≠ 0 ∧
      e.1.map tolower ≠ ['h', 'e', 'l', 'p']) ∧
    (∀ name ctx help func alloc_ok, (∃ e ∈ cmdMap, e.1 = name) →
      cmd_register cmdMap name ctx help func alloc_ok = cmdMap) ∧
    (∀ name ctx help func alloc_ok,
      (strcasecmp name ['h', 'e', 'l', 'p'] = 0 ∨ name.map tolower = ['h', 'e', 'l', 'p']) →
      cmd_register cmdMap name ctx help func alloc_ok = cmdMap) := by
  have hi := h.cmd_inv
  have hfold : ∀ name : List Char, name.map tolower = ['h', 'e', 'l', 'p'] →
      strcasecmp name ['h', 'e', 'l', 'p'] = 0 :=
    fun name hn => strcasecmp_fold name _ (by rw [hn]; decide)
  refine ⟨hi.nodup, fun e he => ⟨hi.named e he, hi.nohelp e he, fun hc => hi.nohelp e he (hfold _ hc)⟩,
    ?_, ?_⟩
  · intro name ctx help func alloc_ok hex
    unfold cmd_register
    split
    · rfl
    · unfold CmdSet.RegisterCmd
      obtain ⟨e, he⟩ := find_key_some hex
      rw [he]
  · intro name ctx help func alloc_ok hh
    have h0 : strcasecmp name ['h', 'e', 'l', 'p'] = 0 := by
      rcases hh with h1 | h1
      · exact h1
      · exact hfold name h1
    unfold cmd_register
    rw [if_pos h0]

/-- C21 (witness): after `foo` has been registered, registering `foo` again
and registering `HeLp` change nothing. -/
theorem cmd_register_unique_witness :
    cmd_register [(['f', 'o', 'o'], ⟨['f', 'o', 'o'], 0, 1, 2⟩)] ['f', 'o', 'o'] 0 3 4 true =
      [(['f', 'o', 'o'], ⟨['f', 'o', 'o'], 0, 1, 2⟩)] ∧
    cmd_register [(['f', 'o', 'o'], ⟨['f', 'o', 'o'], 0, 1, 2⟩)] ['H', 'e', 'L', 'p'] 0 3 4 true =
      [(['f', 'o', 'o'], ⟨['f', 'o', 'o'], 0, 1, 2⟩)] :=
  ⟨(cmd_register_unique _ (CmdReachable.register ['f', 'o', 'o'] 0 1 2 true CmdReachable.init)).2.2.1
      ['f', 'o', 'o'] 0 3 4 true ⟨_, List.mem_singleton.mpr rfl, rfl⟩,
    (cmd_register_unique _ (CmdReachable.register ['f', 'o', 'o'] 0 1 2 true CmdReachable.init)).2.2.2
      ['H', 'e', 'L', 'p'] 0 3 4 true (Or.inr (by decide))⟩

theorem u64_inc_mod (x : Nat) :
    u64_inc (x % 18446744073709551616) = (x + 1) % 18446744073709551616 := by
  unfold u64_inc
  omega

theorem u64_dec_mod (x : Nat) (h : 1 ≤ x) :
    u64_dec (x % 18446744073709551616) = (x - 1) % 18446744073709551616 := by
  unfold u64_dec
  omega

theorem sum_length_set (f : _bucket_t → Nat) :
    ∀ (bs : List _bucket_t) (i : Nat) (b : _bucket_t), i < bs.length →
      ((bs.set i b).map f).sum + f (bs.getD i ⟨[], 0⟩) = (bs.map f).sum + f b := by
  intro bs
  induction bs with
  | nil =>
    intro i b hi
    cases hi
  | cons b0 rest ih =>
    intro i b hi
    cases i with
    | zero =>
      show f b + (rest.map f).sum + f b0 = f b0 + (rest.map f).sum + f b
      omega
    | succ i =>
      have h1 := ih i b (by simpa using hi)
      show f b0 + ((rest.set i b).map f).sum + f (rest.getD i ⟨[], 0⟩) =
        f b0 + (rest.map f).sum + f b
      omega

theorem hashmap_bucket_set (map : hashmap) (i : Nat) (b : _bucket_t) (tk : Nat)
    (hi : i < map.buckets.length) (j : Nat) :
    ({ map with buckets := map.buckets.set i b, total_keys := tk } : hashmap).bucket j =
      if j = i then b else map.bucket j := by
  unfold hashmap.bucket
  dsimp only
  rw [bucket_set _ _ _ hi]

theorem MapCount.touch_count {B : Nat} {map : hashmap} (h : MapCount B map) (i : Nat) :
    MapCount B (map.touch i) := by
  obtain ⟨t1, t2, _, _, t5⟩ := hashmap_touch_fields map i
  refine ⟨by rw [t5, h.b_eq], by rw [t1, h.len], fun j => ?_, ?_⟩
  · rw [hashmap_touch_bucket]
    exact h.depth j
  · rw [t1, t2]
    exact h.total

theorem MapCount.link {B : Nat} {map : hashmap} (h : MapCount B map) (i x : Nat) (hi : i < B) :
    MapCount B (map.link i x) := by
  have hlen : i < map.buckets.length := by rw [h.len]; exact hi
  refine ⟨h.b_eq, by show (map.buckets.set _ _).length = B; rw [List.length_set, h.len],
    fun j => ?_, ?_⟩
  · unfold hashmap.link
    rw [hashmap_bucket_set _ _ _ _ hlen]
    by_cases hj : j = i
    · rw [if_pos hj]
      show u64_inc (map.bucket i).depth = ((map.bucket i).list.length + 1) % _
      rw [h.depth i, u64_inc_mod]
    · rw [if_neg hj]
      exact h.depth j
  · show u64_inc map.total_keys = ((map.buckets.set i _).map _).sum % _
    have hs := sum_length_set (fun b => b.list.length) map.buckets i
      ⟨x :: (map.bucket i).list, u64_inc (map.bucket i).depth⟩ hlen
    have e : (map.buckets.getD i ⟨[], 0⟩).list.length = (map.bucket i).list.length := rfl
    dsimp only at hs
    rw [e, List.length_cons] at hs
    rw [h.total, u64_inc_mod]
    congr 1
    omega

theorem MapCount.unlink {B : Nat} {map : hashmap} (h : MapCount B map) (i e : Nat) (hi : i < B)
    (he : e ∈ (map.bucket i).list) : MapCount B (map.unlink i e) := by
  have hlen : i < map.buckets.length := by rw [h.len]; exact hi
  have hpos : 1 ≤ (map.bucket i).list.length := List.length_pos_of_mem he
  have hs := sum_length_set (fun b => b.list.length) map.buckets i
    ⟨(map.bucket i).list.erase e, u64_dec (map.bucket i).depth⟩ hlen
  have e1 : (map.buckets.getD i ⟨[], 0⟩).list.length = (map.bucket i).list.length := rfl
  dsimp only at hs
  rw [e1, List.length_erase_of_mem he] at hs
  refine ⟨h.b_eq, by show (map.buckets.set _ _).length = B; rw [List.length_set, h.len],
    fun j => ?_, ?_⟩
  · unfold hashmap.unlink
    rw [hashmap_bucket_set _ _ _ _ hlen]
    by_cases hj : j = i
    · rw [if_pos hj]
      show u64_dec (map.bucket i).depth = ((map.bucket i).list.erase e).length % _
      rw [h.depth i, u64_dec_mod _ hpos, List.length_erase_of_mem he]
    · rw [if_neg hj]
      exact h.depth j
  · show u64_dec map.total_keys = ((map.buckets.set i _).map _).sum % _
    rw [h.total, u64_dec_mod _ (by omega)]
    congr 1
    omega

/-- The counters kept by `_eviction_scan`: `c` entries of the bucket come
before the part `l` still to be scanned, `T` is the number of entries of the
whole table. -/
theorem _eviction_scan_count {σ : Type} (func : σ → Nat → Int × σ) :
    ∀ (l : List Nat) (skip c T depth tk : Nat) (st : σ),
      depth = (c + l.length) % 18446744073709551616 → tk = T % 18446744073709551616 →
      l.length ≤ T →
      (_eviction_scan func l skip depth tk st).2.1 =
        (c + (_eviction_scan func l skip depth tk st).1.length) % 18446744073709551616 ∧
      (_eviction_scan func l skip depth tk st).2.2.1 =
        (T - (l.length - (_eviction_scan func l skip depth tk st).1.length)) %
          18446744073709551616 ∧
      (_eviction_scan func l skip depth tk st).1.length ≤ l.length := by
  intro l
  induction l with
  | nil =>
    intro skip c T depth tk st hd ht _
    rw [_eviction_scan]
    exact ⟨hd, by rw [ht]; rfl, Nat.le_refl _⟩
  | cons curr rest ih =>
    intro skip c T depth tk st hd ht hle
    rw [List.length_cons] at hd hle
    have keep : ∀ (sk : Nat) (s1 : σ),
        (curr :: (_eviction_scan func rest sk depth tk s1).1,
          (_eviction_scan func rest sk depth tk s1).2).2.1 =
          (c + (curr :: (_eviction_scan func rest sk depth tk s1).1).length) %
            18446744073709551616 ∧
        (curr :: (_eviction_scan func rest sk depth tk s1).1,
          (_eviction_scan func rest sk depth tk s1).2).2.2.1 =
          (T - ((curr :: rest).length -
            (curr :: (_eviction_scan func rest sk depth tk s1).1).length)) %
            18446744073709551616 ∧
        (curr :: (_eviction_scan func rest sk depth tk s1).1).length ≤ (curr :: rest).length := by
      intro sk s1
      obtain ⟨i1, i2, i3⟩ := ih sk (c + 1) T depth tk s1 (by rw [hd]; congr 1; omega) ht (by omega)
      refine ⟨?_, ?_, ?_⟩
      · show (_eviction_scan func rest sk depth tk s1).2.1 = _
        rw [i1, List.length_cons]
        congr 1
        omega
      · show (_eviction_scan func rest sk depth tk s1).2.2.1 = _
        rw [i2, List.length_cons, List.length_cons]
        congr 1
        omega
      · rw [List.length_cons, List.length_cons]
        omega
    rw [_eviction_scan]
    split
    · exact keep _ _
    · dsimp only
      split
      · obtain ⟨i1, i2, i3⟩ := ih 0 c (T - 1) (u64_dec depth) (u64_dec tk) (func st curr).2
          (by rw [hd, u64_dec_mod _ (by omega)]; congr 1)
          (by rw [ht, u64_dec_mod _ (by omega)]) (by omega)
        refine ⟨i1, ?_, by rw [List.length_cons]; omega⟩
        rw [i2, List.length_cons]
        congr 1
        omega
      · exact keep _ _

/-- The counters kept by `_eviction_buckets`. -/
theorem _eviction_buckets_count {σ : Type} (func : σ → Nat → Int × σ) (avg : Nat) :
    ∀ (bs : List _bucket_t) (T tk : Nat) (st : σ),
      (∀ b ∈ bs, b.depth = b.list.length % 18446744073709551616) →
      tk = T % 18446744073709551616 → (bs.map fun b => b.list.length).sum ≤ T →
      (∀ b ∈ (_eviction_buckets func avg bs tk st).1,
        b.depth = b.list.length % 18446744073709551616) ∧
      (_eviction_buckets func avg bs tk st).2.1 =
        (T - ((bs.map fun b => b.list.length).sum -
          ((_eviction_buckets func avg bs tk st).1.map fun b => b.list.length).sum)) %
          18446744073709551616 ∧
      ((_eviction_buckets func avg bs tk st).1.map fun b => b.list.length).sum ≤
        (bs.map fun b => b.list.length).sum := by
  intro bs
  induction bs with
  | nil =>
    intro T tk st _ ht _
    rw [_eviction_buckets]
    exact ⟨fun b hb => (by cases hb), by rw [ht]; rfl, Nat.le_refl _⟩
  | cons b0 rest ih =>
    intro T tk st hd ht hle
    rw [List.map_cons, List.sum_cons] at hle
    have hd0 := hd b0 (List.mem_cons_self _ _)
    have hdr : ∀ b ∈ rest, b.depth = b.list.length % 18446744073709551616 :=
      fun b hb => hd b (List.mem_cons_of_mem _ hb)
    rw [_eviction_buckets]
    split
    · obtain ⟨i1, i2, i3⟩ := ih T tk st hdr ht (by omega)
      refine ⟨fun b hb => ?_, ?_, ?_⟩
      · rcases List.mem_cons.mp hb with e | e
        · rw [e]
          exact hd0
        · exact i1 b e
      · show (_eviction_buckets func avg rest tk st).2.1 = _
        rw [i2]
        simp only [List.map_cons, List.sum_cons]
        congr 1
        omega
      · simp only [List.map_cons, List.sum_cons]
        omega
    · dsimp only
      obtain ⟨s1, s2, s3⟩ := _eviction_scan_count func b0.list avg 0 T b0.depth tk st
        (by rw [hd0, Nat.zero_add]) ht (by omega)
      rw [Nat.zero_add] at s1
      obtain ⟨i1, i2, i3⟩ := ih
        (T - (b0.list.length - (_eviction_scan func b0.list avg b0.depth tk st).1.length))
        (_eviction_scan func b0.list avg b0.depth tk st).2.2.1
        (_eviction_scan func b0.list avg b0.depth tk st).2.2.2 hdr s2 (by omega)
      refine ⟨fun b hb => ?_, ?_, ?_⟩
      · rcases List.mem_cons.mp hb with e | e
        · rw [e]
          exact s1
        · exact i1 b e
      · show (_eviction_buckets func avg rest _ _).2.1 = _
        rw [i2]
        simp only [List.map_cons, List.sum_cons]
        congr 1
        omega
      · simp only [List.map_cons, List.sum_cons]
        omega

theorem bucket_depth_of_mem {bs : List _bucket_t}
    (h : ∀ b ∈ bs, b.depth = b.list.length % 18446744073709551616) (i : Nat) :
    (bs.getD i ⟨[], 0⟩).depth = (bs.getD i ⟨[], 0⟩).list.length % 18446744073709551616 := by
  rw [List.getD_eq_getElem?_getD]
  cases hg : bs[i]? with
  | none => rfl
  | some b => exact h b (List.getElem?_mem hg)

theorem MapCount.mem_depth {B : Nat} {map : hashmap} (h : MapCount B map) :
    ∀ b ∈ map.buckets, b.depth = b.list.length % 18446744073709551616 := by
  intro b hb
  obtain ⟨i, hi, e⟩ := List.getElem_of_mem hb
  have := h.depth i
  unfold hashmap.bucket at this
  rw [List.getD_eq_getElem?_getD, List.getElem?_eq_getElem hi] at this
  rw [← e]
  exact this

theorem MapCount.evict_count {B : Nat} {map : hashmap} (h : MapCount B map) {σ : Type} (depth : Nat)
    (func : σ → Nat → Int × σ) (st : σ) : MapCount B (hashmap_eviction map depth func st).1 := by
  obtain ⟨g1, _⟩ := _eviction_buckets_spec func
    (if map.total_keys / map.b_count > depth then depth else map.total_keys / map.b_count)
    map.buckets map.total_keys st
  obtain ⟨c1, c2, c3⟩ := _eviction_buckets_count func
    (if map.total_keys / map.b_count > depth then depth else map.total_keys / map.b_count)
    map.buckets (map.buckets.map fun b => b.list.length).sum map.total_keys st h.mem_depth h.total
    (Nat.le_refl _)
  refine ⟨h.b_eq, by rw [← h.len]; exact g1, fun i => bucket_depth_of_mem c1 i, ?_⟩
  show (_eviction_buckets func _ map.buckets map.total_keys st).2.1 =
    ((_eviction_buckets func _ map.buckets map.total_keys st).1.map fun b => b.list.length).sum % _
  rw [c2]
  congr 1
  omega

theorem _cleanup_scan_count : ∀ (l : List Nat) (T tk : Nat), tk = T % 18446744073709551616 →
    l.length ≤ T → _cleanup_scan l tk = (T - l.length) % 18446744073709551616 := by
  intro l
  induction l with
  | nil =>
    intro T tk ht _
    rw [_cleanup_scan, ht]
    rfl
  | cons x rest ih =>
    intro T tk ht hle
    rw [List.length_cons] at hle
    rw [_cleanup_scan, ih (T - 1) (u64_dec tk) (by rw [ht, u64_dec_mod _ (by omega)]) (by omega),
      List.length_cons]
    congr 1
    omega

theorem _cleanup_buckets_count : ∀ (bs : List _bucket_t) (T tk : Nat),
    tk = T % 18446744073709551616 → (bs.map fun b => b.list.length).sum ≤ T →
    (_cleanup_buckets bs tk).1 = List.replicate bs.length ⟨[], 0⟩ ∧
    (_cleanup_buckets bs tk).2.1 =
      (T - (bs.map fun b => b.list.length).sum) % 18446744073709551616 ∧
    (_cleanup_buckets bs tk).2.2 = (bs.map _bucket_t.list).flatten := by
  intro bs
  induction bs with
  | nil =>
    intro T tk ht _
    rw [_cleanup_buckets]
    exact ⟨rfl, by rw [ht]; rfl, rfl⟩
  | cons b0 rest ih =>
    intro T tk ht hle
    rw [List.map_cons, List.sum_cons] at hle
    rw [_cleanup_buckets]
    dsimp only
    obtain ⟨i1, i2, i3⟩ := ih (T - b0.list.length) (_cleanup_scan b0.list tk)
      (_cleanup_scan_count b0.list T tk ht (by omega)) (by omega)
    refine ⟨by rw [i1]; rfl, ?_, by rw [i3]; rfl⟩
    rw [i2]
    simp only [List.map_cons, List.sum_cons]
    congr 1
    omega

theorem MapCount.cleanup {B : Nat} {map : hashmap} (h : MapCount B map) (func : Bool) :
    MapCount B (hashmap_cleanup map func).2 ∧
    ∀ i, ((hashmap_cleanup map func).2.bucket i).list = [] := by
  obtain ⟨c1, c2, _⟩ := _cleanup_buckets_count map.buckets
    (map.buckets.map fun b => b.list.length).sum map.total_keys h.total (Nat.le_refl _)
  have hb : ∀ i, (hashmap_cleanup map func).2.bucket i = ⟨[], 0⟩ := by
    intro i
    show (_cleanup_buckets map.buckets map.total_keys).1.getD i ⟨[], 0⟩ = _
    rw [c1, List.getD_eq_getElem?_getD, List.getElem?_replicate]
    split <;> rfl
  refine ⟨⟨h.b_eq, ?_, fun i => (by rw [hb i]; rfl), ?_⟩, fun i => (by rw [hb i])⟩
  · show (_cleanup_buckets map.buckets map.total_keys).1.length = B
    rw [c1, List.length_replicate, h.len]
  · show (_cleanup_buckets map.buckets map.total_keys).2.1 =
      ((_cleanup_buckets map.buckets map.total_keys).1.map fun b => b.list.length).sum % _
    rw [c2, c1, Nat.sub_self]
    simp

/-- The table `hashmap_insert` leaves behind. -/
theorem hashmap_insert_map (map : hashmap) (key_of : Nat → Nat) (new_data : Nat) (func : Bool) :
    (hashmap_insert map key_of new_data func).map = map.touch (map.index (key_of new_data)) ∨
    ((map.bucket (map.index (key_of new_data))).list.find?
        (fun x => decide (map.cmp (key_of new_data) (key_of x) = 0)) = none ∧
      (hashmap_insert map key_of new_data func).map =
        (map.touch (map.index (key_of new_data))).link (map.index (key_of new_data)) new_data) := by
  unfold hashmap_insert
  dsimp only
  cases hf : ((map.touch (map.index (key_of new_data))).bucket
      (map.index (key_of new_data))).list.find?
      (fun x => decide (map.cmp (key_of new_data) (key_of x) = 0)) with
  | some e => exact Or.inl rfl
  | none =>
    rw [hashmap_touch_bucket] at hf
    exact Or.inr ⟨hf, rfl⟩

/-- The table `hashmap_replace` leaves behind. -/
theorem hashmap_replace_map (map : hashmap) (key_of : Nat → Nat) (new_data : Nat)
    (func : Option (Nat → Int)) :
    (hashmap_replace map key_of new_data func).map = map.touch (map.index (key_of new_data)) ∨
    ((map.bucket (map.index (key_of new_data))).list.find?
        (fun x => decide (map.cmp (key_of new_data) (key_of x) = 0)) = none ∧
      (hashmap_replace map key_of new_data func).map =
        (map.touch (map.index (key_of new_data))).link (map.index (key_of new_data)) new_data) ∨
    (∃ e, (map.bucket (map.index (key_of new_data))).list.find?
        (fun x => decide (map.cmp (key_of new_data) (key_of x) = 0)) = some e ∧
      (hashmap_replace map key_of new_data func).map =
        ((map.touch (map.index (key_of new_data))).unlink (map.index (key_of new_data)) e).link
          (map.index (key_of new_data)) new_data) := by
  unfold hashmap_replace
  dsimp only
  cases hf : ((map.touch (map.index (key_of new_data))).bucket
      (map.index (key_of new_data))).list.find?
      (fun x => decide (map.cmp (key_of new_data) (key_of x) = 0)) with
  | none =>
    rw [hashmap_touch_bucket] at hf
    exact Or.inr (Or.inl ⟨hf, rfl⟩)
  | some e =>
    rw [hashmap_touch_bucket] at hf
    cases func with
    | none => exact Or.inr (Or.inr ⟨e, hf, rfl⟩)
    | some f =>
      dsimp only
      split
      · exact Or.inl rfl
      · exact Or.inr (Or.inr ⟨e, hf, rfl⟩)

/-- The table `hashmap_delete` leaves behind. -/
theorem hashmap_delete_map (map : hashmap) (key_of : Nat → Nat) (key : Nat)
    (func : Option (Nat → Int)) :
    (hashmap_delete map key_of key func).map = map.touch (map.index key) ∨
    (∃ e, (map.bucket (map.index key)).list.find?
        (fun x => decide (map.cmp key (key_of x) = 0)) = some e ∧
      (hashmap_delete map key_of key func).map =
        (map.touch (map.index key)).unlink (map.index key) e) := by
  rcases hashmap_delete_cases map key_of key func with
    ⟨_, hr⟩ | ⟨e, he, ⟨f, _, _, hr⟩ | ⟨_, hr⟩⟩
  · rw [hr]
    exact Or.inl rfl
  · rw [hr]
    exact Or.inl rfl
  · rw [hr]
    exact Or.inr ⟨e, he, rfl⟩

theorem hashmap_search_map (map : hashmap) (key_of : Nat → Nat) (key : Nat) (func : Bool) :
    (hashmap_search map key_of key func).map = map.touch (map.index key) := by
  rcases hashmap_search_cases map key_of key func with ⟨e, _, hr⟩ | ⟨_, hr⟩
  · rw [hr]
  · rw [hr]

theorem hashmap_init_count (B : Nat) (cmp : Nat → Nat → Int) (hash : Nat → Nat) :
    MapCount B (hashmap_init B cmp hash) := by
  have hb : ∀ i, (hashmap_init B cmp hash).bucket i = ⟨[], 0⟩ := by
    intro i
    unfold hashmap.bucket hashmap_init
    dsimp only
    rw [List.getD_eq_getElem?_getD, List.getElem?_replicate]
    split <;> rfl
  refine ⟨rfl, List.length_replicate _ _, fun i => (by rw [hb i]; rfl), ?_⟩
  show 0 = ((List.replicate B (⟨[], 0⟩ : _bucket_t)).map fun b => b.list.length).sum % _
  rw [List.map_replicate, List.sum_replicate]
  simp

theorem HmReachable.map_count {cmp : Nat → Nat → Int} {hash : Nat → Nat} {B : Nat}
    (hB1 : 1 ≤ B) (hB2 : B < 4294967296) {map : hashmap} {key_of : Nat → Nat}
    (hr : HmReachable cmp hash B map key_of) : MapCount B map := by
  induction hr with
  | init key_of => exact hashmap_init_count B cmp hash
  | @insert map key_of new_data func _ ih =>
    have hidx := hashmap_index_lt map (key_of new_data) (by rw [ih.b_eq]; exact hB1)
      (by rw [ih.b_eq]; exact hB2)
    rw [ih.b_eq] at hidx
    rcases hashmap_insert_map map key_of new_data func with e | ⟨_, e⟩
    · rw [e]
      exact ih.touch_count _
    · rw [e]
      exact (ih.touch_count _).link _ _ hidx
  | @replace map key_of new_data func _ ih =>
    have hidx := hashmap_index_lt map (key_of new_data) (by rw [ih.b_eq]; exact hB1)
      (by rw [ih.b_eq]; exact hB2)
    rw [ih.b_eq] at hidx
    rcases hashmap_replace_map map key_of new_data func with e | ⟨_, e⟩ | ⟨x, hx, e⟩
    · rw [e]
      exact ih.touch_count _
    · rw [e]
      exact (ih.touch_count _).link _ _ hidx
    · rw [e]
      refine ((ih.touch_count _).unlink _ x hidx ?_).link _ _ hidx
      rw [hashmap_touch_bucket]
      exact (find_some_mem hx).1
  | @search map key_of key func _ ih =>
    rw [hashmap_search_map]
    exact ih.touch_count _
  | @delete map key_of key func _ ih =>
    have hidx := hashmap_index_lt map key (by rw [ih.b_eq]; exact hB1)
      (by rw [ih.b_eq]; exact hB2)
    rw [ih.b_eq] at hidx
    rcases hashmap_delete_map map key_of key func with e | ⟨x, hx, e⟩
    · rw [e]
      exact ih.touch_count _
    · rw [e]
      refine (ih.touch_count _).unlink _ x hidx ?_
      rw [hashmap_touch_bucket]
      exact (find_some_mem hx).1
  | @evict map key_of σ depth func st _ ih => exact ih.evict_count depth func st
  | @cleanup map key_of func _ ih => exact (ih.cleanup func).1
  | @setkey map key_of x key _ _ ih => exact ih

theorem length_le_sum (f : _bucket_t → Nat) : ∀ (bs : List _bucket_t) (b : _bucket_t), b ∈ bs →
    f b ≤ (bs.map f).sum := by
  intro bs
  induction bs with
  | nil =>
    intro b hb
    cases hb
  | cons b0 rest ih =>
    intro b hb
    rw [List.map_cons, List.sum_cons]
    rcases List.mem_cons.mp hb with e | e
    · rw [e]
      omega
    · have := ih b e
      omega

/-- C23: in every table reachable, one call after the other, from
`hashmap_create` by `hashmap_insert`, `hashmap_replace`, `hashmap_search`,
`hashmap_delete`, `hashmap_eviction` and `hashmap_cleanup`, every bucket's
`depth` is the number of entries linked in its list and `total_keys` is the
number of entries of all buckets, as `uint64_t` values; so, with fewer than
`2^64` entries in the table, `depth` equals the length of the list and
`total_keys` equals the sum of the bucket depths. -/
theorem hashmap_total_keys_sum (cmp : Nat → Nat → Int) (hash : Nat → Nat) (B : Nat)
    (hB1 : 1 ≤ B) (hB2 : B < 4294967296) (map : hashmap) (key_of : Nat → Nat)
    (hr : HmReachable cmp hash B map key_of) :
    map.buckets.length = B ∧
    (∀ i, (map.bucket i).depth = (map.bucket i).list.length % 18446744073709551616) ∧
    map.total_keys = (map.buckets.map fun b => b.list.length).sum % 18446744073709551616 ∧
    ((map.buckets.map fun b => b.list.length).sum < 18446744073709551616 →
      (∀ i, (map.bucket i).depth = (map.bucket i).list.length) ∧
      map.total_keys = (map.buckets.map _bucket_t.depth).sum) := by
  have hc := hr.map_count hB1 hB2
  refine ⟨hc.len, hc.depth, hc.total, fun hlt => ?_⟩
  have hd : ∀ b ∈ map.buckets, b.depth = b.list.length := by
    intro b hb
    have h1 := hc.mem_depth b hb
    have h2 := length_le_sum (fun b => b.list.length) map.buckets b hb
    dsimp only at h2
    omega
  refine ⟨fun i => ?_, ?_⟩
  · unfold hashmap.bucket
    rw [List.getD_eq_getElem?_getD]
    cases hg : map.buckets[i]? with
    | none => rfl
    | some b => exact hd b (List.getElem?_mem hg)
  · rw [hc.total, List.map_congr_left hd]
    omega

theorem hashmap_sample_run_reachable : HmReachable u64_cmp u64_hash 2 hashmap_sample_run id :=
  HmReachable.evict 0 _ () (HmReachable.delete 6 none (HmReachable.replace 5 none
    (HmReachable.insert 6 false (HmReachable.insert 5 false (HmReachable.init id)))))

/-- C23 (witness): the table `hashmap_sample_run` holds one entry, and its
counters say so. -/
theorem hashmap_total_keys_sum_witness :
    hashmap_sample_run.total_keys = 1 ∧
    (hashmap_sample_run.buckets.map fun b => b.list.length).sum < 18446744073709551616 ∧
    ((∀ i, (hashmap_sample_run.bucket i).depth = (hashmap_sample_run.bucket i).list.length) ∧
      hashmap_sample_run.total_keys = (hashmap_sample_run.buckets.map _bucket_t.depth).sum) :=
  ⟨by decide, by decide,
    (hashmap_total_keys_sum u64_cmp u64_hash 2 (by decide) (by decide) hashmap_sample_run id
      hashmap_sample_run_reachable).2.2.2 (by decide)⟩

theorem hashmap_link_fields (map : hashmap) (i x : Nat) (hi : i < map.buckets.length) :
    (map.link i x).cmp = map.cmp ∧ (map.link i x).hash = map.hash ∧
    (map.link i x).b_count = map.b_count ∧
    (map.link i x).buckets.length = map.buckets.length ∧
    ∀ j, (map.link i x).bucket j =
      if j = i then ⟨x :: (map.bucket i).list, u64_inc (map.bucket i).depth⟩ else map.bucket j := by
  unfold hashmap.link
  refine ⟨rfl, rfl, rfl, List.length_set _ _ _, fun j => ?_⟩
  unfold hashmap.bucket
  dsimp only
  rw [bucket_set _ _ _ hi]

/-- An entry whose key equals no key of its bucket may be linked into it. -/
theorem MapWF.link_step {cmp : Nat → Nat → Int} {hash : Nat → Nat} {B : Nat} {map : hashmap}
    {key_of : Nat → Nat} (h : MapWF cmp hash B map key_of) (i x : Nat) (hi : i < B)
    (hix : map.index (key_of x) = i)
    (hnew : ∀ a ∈ (map.bucket i).list, cmp (key_of x) (key_of a) ≠ 0) :
    MapWF cmp hash B (map.link i x) key_of := by
  obtain ⟨k5, k6, k7, k8, k9⟩ := hashmap_link_fields map i x (by rw [h.len]; exact hi)
  have hidx : ∀ k, (map.link i x).index k = map.index k := fun k => rfl
  refine ⟨by rw [k5, h.cmp_eq], by rw [k6, h.hash_eq], by rw [k7, h.b_eq], by rw [k8, h.len],
    fun j e he => ?_, fun j => ?_⟩
  · rw [k9 j] at he
    rw [hidx]
    by_cases hi1 : j = i
    · rw [if_pos hi1] at he
      rcases List.mem_cons.mp he with h1 | h1
      · rw [h1, hi1]
        exact hix
      · rw [hi1]
        exact h.home _ e h1
    · rw [if_neg hi1] at he
      exact h.home j e he
  · rw [k9 j]
    by_cases hi1 : j = i
    · rw [if_pos hi1]
      exact List.pairwise_cons.mpr ⟨hnew, h.uniq _⟩
    · rw [if_neg hi1]
      exact h.uniq j

theorem _cleanup_buckets_fst : ∀ (bs : List _bucket_t) (tk : Nat),
    (_cleanup_buckets bs tk).1 = List.replicate bs.length ⟨[], 0⟩ := by
  intro bs
  induction bs with
  | nil =>
    intro tk
    rfl
  | cons b0 rest ih =>
    intro tk
    rw [_cleanup_buckets]
    dsimp only
    rw [ih]
    rfl

theorem MapWF.unlink_step {cmp : Nat → Nat → Int} {hash : Nat → Nat} {B : Nat} {map : hashmap}
    {key_of : Nat → Nat} (h : MapWF cmp hash B map key_of) (i e : Nat) (hi : i < B) :
    MapWF cmp hash B (map.unlink i e) key_of := by
  obtain ⟨_, u2, u3, u4, u5, u6⟩ := hashmap_unlink_fields map i e (by rw [h.len]; exact hi)
  refine h.of_buckets u2 u3 u4 u5 (fun j => ?_)
  rw [u6 j]
  by_cases hj : j = i
  · rw [if_pos hj, hj]
    exact List.erase_sublist _ _
  · rw [if_neg hj]

theorem hashmap_touch_index (map : hashmap) (i k : Nat) : (map.touch i).index k = map.index k := by
  obtain ⟨_, _, _, t4, t5⟩ := hashmap_touch_fields map i
  unfold hashmap.index
  rw [t4, t5]

theorem hashmap_unlink_index (map : hashmap) (i e k : Nat) :
    (map.unlink i e).index k = map.index k := rfl

theorem HmReachable.map_wf {cmp : Nat → Nat → Int} {hash : Nat → Nat} {B : Nat}
    (hk : KeyLaws cmp hash) (hB1 : 1 ≤ B) (hB2 : B < 4294967296) {map : hashmap}
    {key_of : Nat → Nat} (hr : HmReachable cmp hash B map key_of) :
    MapWF cmp hash B map key_of := by
  induction hr with
  | init key_of =>
    have hb : ∀ i, ((hashmap_init B cmp hash).bucket i).list = [] := by
      intro i
      unfold hashmap.bucket hashmap_init
      dsimp only
      rw [List.getD_eq_getElem?_getD, List.getElem?_replicate]
      split <;> rfl
    exact ⟨rfl, rfl, rfl, List.length_replicate _ _,
      fun i e he => (by rw [hb] at he; cases he), fun i => (by rw [hb]; exact List.Pairwise.nil)⟩
  | @insert map key_of new_data func _ ih =>
    have hidx := hashmap_index_lt map (key_of new_data) (by rw [ih.b_eq]; exact hB1)
      (by rw [ih.b_eq]; exact hB2)
    rw [ih.b_eq] at hidx
    rcases hashmap_insert_map map key_of new_data func with e | ⟨hf, e⟩
    · rw [e]
      exact ih.touch _
    · rw [e]
      refine (ih.touch _).link_step _ new_data hidx (hashmap_touch_index _ _ _) ?_
      intro a ha
      rw [hashmap_touch_bucket] at ha
      have := find_none_all hf a ha
      rw [ih.cmp_eq] at this
      simpa using this
  | @replace map key_of new_data func _ ih =>
    have hidx := hashmap_index_lt map (key_of new_data) (by rw [ih.b_eq]; exact hB1)
      (by rw [ih.b_eq]; exact hB2)
    rw [ih.b_eq] at hidx
    rcases hashmap_replace_map map key_of new_data func with e | ⟨hf, e⟩ | ⟨x, hx, e⟩
    · rw [e]
      exact ih.touch _
    · rw [e]
      refine (ih.touch _).link_step _ new_data hidx (hashmap_touch_index _ _ _) ?_
      intro a ha
      rw [hashmap_touch_bucket] at ha
      have := find_none_all hf a ha
      rw [ih.cmp_eq] at this
      simpa using this
    · have hw := (ih.touch (map.index (key_of new_data))).unlink_step
        (map.index (key_of new_data)) x hidx
      have hix : ((map.touch (map.index (key_of new_data))).unlink (map.index (key_of new_data))
          x).index (key_of new_data) = map.index (key_of new_data) := by
        rw [hashmap_unlink_index, hashmap_touch_index]
      rw [e]
      refine hw.link_step _ new_data hidx hix ?_
      intro a ha
      obtain ⟨_, _, _, _, _, u6⟩ := hashmap_unlink_fields (map.touch (map.index (key_of new_data)))
        (map.index (key_of new_data)) x
        (by rw [(hashmap_touch_fields map _).1, ih.len]; exact hidx)
      rw [u6, if_pos rfl, hashmap_touch_bucket] at ha
      dsimp only at ha
      obtain ⟨m1, m2⟩ := find_some_mem hx
      have m3 : cmp (key_of new_data) (key_of x) = 0 := by
        rw [ih.cmp_eq] at m2
        simpa using m2
      have hnd := ih.nodup hk (map.index (key_of new_data))
      have ha1 : a ∈ (map.bucket (map.index (key_of new_data))).list := List.mem_of_mem_erase ha
      have hne : a ≠ x := by
        intro heq
        rw [heq] at ha
        exact (List.Nodup.not_mem_erase hnd) ha
      intro hc
      have hsym : Symmetric (fun a b => cmp (key_of a) (key_of b) ≠ 0) :=
        fun a b hab hba => hab (hk.symm _ _ hba)
      exact (ih.uniq _).forall hsym ha1 m1 hne
        (hk.trans _ _ _ (hk.symm _ _ hc) m3)
  | @search map key_of key func _ ih =>
    rw [hashmap_search_map]
    exact ih.touch _
  | @delete map key_of key func _ ih =>
    have hidx := hashmap_index_lt map key (by rw [ih.b_eq]; exact hB1)
      (by rw [ih.b_eq]; exact hB2)
    rw [ih.b_eq] at hidx
    rcases hashmap_delete_map map key_of key func with e | ⟨x, _, e⟩
    · rw [e]
      exact ih.touch _
    · rw [e]
      exact (ih.touch _).unlink_step _ x hidx
  | @evict map key_of σ depth func st _ ih =>
    obtain ⟨g1, g2⟩ := _eviction_buckets_spec func
      (if map.total_keys / map.b_count > depth then depth else map.total_keys / map.b_count)
      map.buckets map.total_keys st
    exact ih.of_buckets rfl rfl rfl g1 g2
  | @cleanup map key_of func _ ih =>
    have hb : ∀ i, ((hashmap_cleanup map func).2.bucket i).list = [] := by
      intro i
      show ((_cleanup_buckets map.buckets map.total_keys).1.getD i ⟨[], 0⟩).list = []
      rw [_cleanup_buckets_fst, List.getD_eq_getElem?_getD, List.getElem?_replicate]
      split <;> rfl
    refine ⟨ih.cmp_eq, ih.hash_eq, ih.b_eq, ?_, fun i e he => (by rw [hb] at he; cases he),
      fun i => (by rw [hb]; exact List.Pairwise.nil)⟩
    show (_cleanup_buckets map.buckets map.total_keys).1.length = B
    rw [_cleanup_buckets_fst, List.length_replicate, ih.len]
  | @setkey map key_of x key _ hx ih =>
    have hk1 : ∀ i e, e ∈ (map.bucket i).list → Function.update key_of x key e = key_of e := by
      intro i e he
      apply Function.update_noteq
      intro heq
      rw [heq] at he
      exact hx i he
    refine ⟨ih.cmp_eq, ih.hash_eq, ih.b_eq, ih.len, fun i e he => ?_, fun i => ?_⟩
    · rw [hk1 i e he]
      exact ih.home i e he
    · apply (ih.uniq i).imp_of_mem
      intro a b ha hb hab
      rw [hk1 i a ha, hk1 i b hb]
      exact hab

theorem hashmap_protect_hit (map : hashmap) (key_of : Nat → Nat) (key e : Nat)
    (work : Nat → Int)
    (hf : (map.bucket (map.index key)).list.find?
      (fun x => decide (map.cmp key (key_of x) = 0)) = some e) :
    hashmap_protect map key_of key (some work) =
      ⟨work e, none, [e], map.touch (map.index key)⟩ := by
  unfold hashmap_protect
  dsimp only
  rw [hashmap_touch_bucket, hf]

/-- C29: with a `cmp` that is an equivalence on keys and a `hash` that maps
equal keys to the same value, in every table reachable by `hashmap_insert`,
`hashmap_replace`, `hashmap_search`, `hashmap_delete`, `hashmap_eviction` and
`hashmap_cleanup` (the key of an entry does not change while it is linked) no
entry is linked twice and no two entries have keys that compare equal, in
whatever buckets they are; so a search, a delete and a protect for a key that
compares equal to the key of a linked entry hit that entry. -/
theorem hashmap_keys_unique (cmp : Nat → Nat → Int) (hash : Nat → Nat) (B : Nat)
    (hk : KeyLaws cmp hash) (hB1 : 1 ≤ B) (hB2 : B < 4294967296) (map : hashmap)
    (key_of : Nat → Nat) (hr : HmReachable cmp hash B map key_of) :
    (∀ i, (map.bucket i).list.Nodup) ∧
    (∀ i j a b, a ∈ (map.bucket i).list → b ∈ (map.bucket j).list →
      cmp (key_of a) (key_of b) = 0 → i = j ∧ a = b) ∧
    (∀ i a q, a ∈ (map.bucket i).list → cmp q (key_of a) = 0 →
      ∀ func, (hashmap_search map key_of q func).out = some a ∧
        (hashmap_delete map key_of q none).out = some a ∧
        ∀ work, (hashmap_protect map key_of q (some work)).calls = [a]) := by
  have hw := hr.map_wf hk hB1 hB2
  refine ⟨fun i => hw.nodup hk i, fun i j a b ha hb hc => ?_, fun i a q ha hq func => ?_⟩
  · have hij : i = j := by
      rw [← hw.home i a ha, ← hw.home j b hb]
      unfold hashmap.index
      rw [hw.hash_eq, hk.hash_eq _ _ hc]
    refine ⟨hij, ?_⟩
    by_contra hne
    have hsym : Symmetric (fun a b => cmp (key_of a) (key_of b) ≠ 0) :=
      fun a b hab hba => hab (hk.symm _ _ hba)
    rw [← hij] at hb
    exact (hw.uniq i).forall hsym ha hb hne hc
  · have hf := hw.find_resident hk a q i ha hq
    constructor
    · rcases hashmap_search_cases map key_of q func with ⟨e, he, hr1⟩ | ⟨he, _⟩
      · rw [hr1]
        rw [hf] at he
        exact he.symm
      · rw [hf] at he
        cases he
    · rcases hashmap_delete_cases map key_of q none with
        ⟨he, _⟩ | ⟨e, he, ⟨f, hf1, _⟩ | ⟨_, hr1⟩⟩
      · rw [hf] at he
        cases he
      · cases hf1
      · refine ⟨?_, fun work => ?_⟩
        · rw [hr1]
          rw [hf] at he
          exact he.symm
        · rw [hashmap_protect_hit map key_of q a work hf]

/-- C29 (witness): the table `hashmap_sample_run`, which holds the entry 5 in
bucket 1. -/
theorem hashmap_keys_unique_witness :
    5 ∈ (hashmap_sample_run.bucket 1).list ∧
    ((∀ i, (hashmap_sample_run.bucket i).list.Nodup) ∧
      (∀ i j a b, a ∈ (hashmap_sample_run.bucket i).list → b ∈ (hashmap_sample_run.bucket j).list →
        u64_cmp (id a) (id b) = 0 → i = j ∧ a = b) ∧
      (∀ i a q, a ∈ (hashmap_sample_run.bucket i).list → u64_cmp q (id a) = 0 →
        ∀ func, (hashmap_search hashmap_sample_run id q func).out = some a ∧
          (hashmap_delete hashmap_sample_run id q none).out = some a ∧
          ∀ work, (hashmap_protect hashmap_sample_run id q (some work)).calls = [a])) :=
  ⟨by decide, hashmap_keys_unique u64_cmp u64_hash 2 u64_key_laws (by decide) (by decide)
    hashmap_sample_run id hashmap_sample_run_reachable⟩

theorem _eviction_scan_keep {σ : Type} (func : σ → Nat → Int × σ) :
    ∀ (l : List Nat) (skip depth tk : Nat) (st : σ),
      (_eviction_scan func l skip depth tk st).1 =
        l.take skip ++ (evict_keep func (l.drop skip) st).1 ∧
      (_eviction_scan func l skip depth tk st).2.2.2 = (evict_keep func (l.drop skip) st).2 := by
  intro l
  induction l with
  | nil =>
    intro skip depth tk st
    rw [_eviction_scan]
    simp [evict_keep]
  | cons curr rest ih =>
    intro skip depth tk st
    rw [_eviction_scan]
    split
    · rename_i hs
      obtain ⟨k, rfl⟩ : ∃ k, skip = k + 1 := ⟨skip - 1, by omega⟩
      obtain ⟨i1, i2⟩ := ih k depth tk st
      rw [Nat.add_sub_cancel]
      exact ⟨by rw [List.take_succ_cons, List.drop_succ_cons, List.cons_append, ← i1],
        by rw [List.drop_succ_cons, ← i2]⟩
    · rename_i hs
      have h0 : skip = 0 := not_not.mp hs
      subst h0
      dsimp only
      rw [List.take_zero, List.drop_zero, List.nil_append, evict_keep]
      dsimp only
      split
      · rename_i hz
        obtain ⟨i1, i2⟩ := ih 0 (u64_dec depth) (u64_dec tk) (func st curr).2
        rw [List.take_zero, List.drop_zero, List.nil_append] at i1
        rw [List.drop_zero] at i2
        exact ⟨i1, i2⟩
      · rename_i hz
        obtain ⟨i1, i2⟩ := ih 0 depth tk (func st curr).2
        rw [List.take_zero, List.drop_zero, List.nil_append] at i1
        rw [List.drop_zero] at i2
        exact ⟨by rw [← i1], i2⟩

theorem _eviction_buckets_keep {σ : Type} (func : σ → Nat → Int × σ) (avg : Nat) :
    ∀ (bs : List _bucket_t) (tk : Nat) (st : σ), (∀ b ∈ bs, b.depth = b.list.length) →
      ((_eviction_buckets func avg bs tk st).1.map _bucket_t.list,
        (_eviction_buckets func avg bs tk st).2.2) = evict_spec func avg bs st := by
  intro bs
  induction bs with
  | nil =>
    intro tk st _
    rfl
  | cons b0 rest ih =>
    intro tk st hd
    have hd0 := hd b0 (List.mem_cons_self _ _)
    have hdr : ∀ b ∈ rest, b.depth = b.list.length := fun b hb => hd b (List.mem_cons_of_mem _ hb)
    rw [_eviction_buckets, evict_spec, hd0]
    by_cases hle : b0.list.length ≤ avg
    · rw [if_pos hle, if_pos hle]
      have := ih tk st hdr
      dsimp only
      rw [← this]
      rfl
    · rw [if_neg hle, if_neg hle]
      dsimp only
      obtain ⟨s1, s2⟩ := _eviction_scan_keep func b0.list avg b0.list.length tk st
      have := ih (_eviction_scan func b0.list avg b0.list.length tk st).2.2.1
        (_eviction_scan func b0.list avg b0.list.length tk st).2.2.2 hdr
      rw [s2] at this
      rw [← this, List.map_cons, s1, s2]

theorem evict_keep_logged {σ : Type} (func : σ → Nat → Int × σ) :
    ∀ (l : List Nat) (st : σ) (log : List Nat),
      (evict_keep (evict_logged func) l (st, log)).2.2 = log ++ l := by
  intro l
  induction l with
  | nil =>
    intro st log
    simp [evict_keep]
  | cons e rest ih =>
    intro st log
    rw [evict_keep]
    dsimp only
    show (evict_keep (evict_logged func) rest ((func st e).2, log ++ [e])).2.2 = _
    rw [ih]
    simp

theorem evict_spec_logged {σ : Type} (func : σ → Nat → Int × σ) (k : Nat) :
    ∀ (bs : List _bucket_t) (st : σ) (log : List Nat),
      (evict_spec (evict_logged func) k bs (st, log)).2.2 = log ++ evict_offered k bs := by
  intro bs
  induction bs with
  | nil =>
    intro st log
    simp [evict_spec, evict_offered]
  | cons b0 rest ih =>
    intro st log
    rw [evict_spec]
    unfold evict_offered at ih ⊢
    rw [List.map_cons, List.flatten_cons]
    by_cases hle : b0.list.length ≤ k
    · rw [if_pos hle, if_pos hle]
      dsimp only
      rw [ih]
      simp
    · rw [if_neg hle, if_neg hle]
      dsimp only
      have e1 := evict_keep_logged func (b0.list.drop k) st log
      have e2 : evict_keep (evict_logged func) (b0.list.drop k) (st, log) =
          ((evict_keep (evict_logged func) (b0.list.drop k) (st, log)).1,
            ((evict_keep (evict_logged func) (b0.list.drop k) (st, log)).2.1, log ++ b0.list.drop k)) := by
        rw [← e1]
      rw [e2]
      dsimp only
      rw [ih, List.append_assoc]

theorem evict_offered_zero (bs : List _bucket_t) :
    evict_offered 0 bs = (bs.map _bucket_t.list).flatten := by
  unfold evict_offered
  induction bs with
  | nil => rfl
  | cons b0 rest ih =>
    rw [List.map_cons, List.flatten_cons, List.map_cons, List.flatten_cons, ih]
    congr 1
    by_cases h : b0.list.length ≤ 0
    · rw [if_pos h]
      exact (List.length_eq_zero.mp (Nat.le_zero.mp h)).symm
    · rw [if_neg h, List.drop_zero]

/-- C24: for a table in which every bucket's `depth` is the number of its
entries, `hashmap_eviction(depth)` with keep count
`k = min(total_keys / b_count, depth)` leaves the lists of the buckets and the
state of the predicate as the specification says (`evict_spec`); the entries
it offers to the predicate, once each and in order, are the entries beyond the
first `k` of every bucket holding more than `k`; and with `depth = 0` these are
all entries of the table. -/
theorem hashmap_eviction_policy {σ : Type} (map : hashmap) (depth : Nat)
    (func : σ → Nat → Int × σ) (st : σ) (hd : ∀ b ∈ map.buckets, b.depth = b.list.length) :
    ((hashmap_eviction map depth func st).1.buckets.map _bucket_t.list,
      (hashmap_eviction map depth func st).2) =
      evict_spec func (min (map.total_keys / map.b_count) depth) map.buckets st ∧
    (hashmap_eviction map depth (evict_logged func) (st, [])).2.2 =
      evict_offered (min (map.total_keys / map.b_count) depth) map.buckets ∧
    (hashmap_eviction map 0 (evict_logged func) (st, [])).2.2 =
      (map.buckets.map _bucket_t.list).flatten := by
  have hmin : ∀ d, (if map.total_keys / map.b_count > d then d else map.total_keys / map.b_count) =
      min (map.total_keys / map.b_count) d := by
    intro d
    split <;> omega
  have key : ∀ (τ : Type) (f : τ → Nat → Int × τ) (s : τ) (d : Nat),
      ((hashmap_eviction map d f s).1.buckets.map _bucket_t.list,
        (hashmap_eviction map d f s).2) =
        evict_spec f (min (map.total_keys / map.b_count) d) map.buckets s := by
    intro τ f s d
    rw [← hmin d]
    exact _eviction_buckets_keep f _ map.buckets map.total_keys s hd
  have logged : ∀ d, (hashmap_eviction map d (evict_logged func) (st, [])).2.2 =
      evict_offered (min (map.total_keys / map.b_count) d) map.buckets := by
    intro d
    have h1 := congrArg (fun p => p.2.2) (key (σ × List Nat) (evict_logged func) (st, []) d)
    dsimp only at h1
    rw [h1, evict_spec_logged, List.nil_append]
  refine ⟨key σ func st depth, logged depth, ?_⟩
  rw [logged 0, Nat.min_zero, evict_offered_zero]

/-- C24 (witness): in `hashmap_sample_evict` the keep count of an eviction
with `depth = 3` is `min (5 / 2) 3 = 2`; a predicate that returns 0 on the
entry 6 only is offered 6 and 8, and the buckets end up as `2, 4, 8` and `1`. -/
theorem hashmap_eviction_policy_witness :
    (∀ b ∈ hashmap_sample_evict.buckets, b.depth = b.list.length) ∧
    evict_spec (fun (st : Unit) (e : Nat) => ((if e = 6 then 0 else 1 : Int), st)) 2
      hashmap_sample_evict.buckets () = ([[2, 4, 8], [1]], ()) ∧
    ((hashmap_eviction hashmap_sample_evict 3
        (fun (st : Unit) (e : Nat) => ((if e = 6 then 0 else 1 : Int), st)) ()).1.buckets.map
        _bucket_t.list,
      (hashmap_eviction hashmap_sample_evict 3
        (fun (st : Unit) (e : Nat) => ((if e = 6 then 0 else 1 : Int), st)) ()).2) =
      evict_spec (fun (st : Unit) (e : Nat) => ((if e = 6 then 0 else 1 : Int), st))
        (min (hashmap_sample_evict.total_keys / hashmap_sample_evict.b_count) 3)
        hashmap_sample_evict.buckets () ∧
    (hashmap_eviction hashmap_sample_evict 3
      (evict_logged fun (st : Unit) (e : Nat) => ((if e = 6 then 0 else 1 : Int), st))
      ((), [])).2.2 = [6, 8] :=
  have h := hashmap_eviction_policy hashmap_sample_evict 3
    (fun (st : Unit) (e : Nat) => ((if e = 6 then 0 else 1 : Int), st)) () (by decide)
  ⟨by decide, by decide, h.1, h.2.1.trans (by decide)⟩

theorem _adjust_size_small (exp : ℚ) (h1 : -1 < exp) (h2 : exp < 1) :
    _adjust_size exp = some 2 := by
  have hf : ⌊exp⌋₊ = 0 := Nat.floor_eq_zero.mpr h2
  unfold _adjust_size
  rw [if_neg (by
    intro h
    rcases h with h | h
    · linarith
    · linarith)]
  simp only [hf]
  rw [if_pos (Or.inr trivial)]
  rfl

theorem DOUBLE_ZERO_bounds : (0 : ℚ) < DOUBLE_ZERO ∧ DOUBLE_ZERO < 1 := by
  unfold DOUBLE_ZERO
  constructor <;> norm_num

theorem _adjust_size_pow (m : Nat) (hm1 : 1 ≤ m) (hm : m ≤ 30) (exp : ℚ)
    (h1 : (m : ℚ) - 1 + DOUBLE_ZERO < exp) (h2 : exp ≤ (m : ℚ) + DOUBLE_ZERO) :
    _adjust_size exp = some (2 ^ m) := by
  obtain ⟨z0, z1⟩ := DOUBLE_ZERO_bounds
  have hmq1 : (1 : ℚ) ≤ (m : ℚ) := by exact_mod_cast hm1
  have hmq : (m : ℚ) ≤ 30 := by exact_mod_cast hm
  have hpos : 0 ≤ exp := by linarith
  unfold _adjust_size
  rw [if_neg (by
    intro h
    rcases h with h | h
    · linarith
    · linarith)]
  by_cases hlt : exp < (m : ℚ)
  · have hf : ⌊exp⌋₊ = m - 1 := by
      rw [Nat.floor_eq_iff hpos]
      have e : ((m - 1 : Nat) : ℚ) = (m : ℚ) - 1 := by
        rw [Nat.cast_sub hm1, Nat.cast_one]
      rw [e]
      constructor <;> linarith
    have e : ((m - 1 : Nat) : ℚ) = (m : ℚ) - 1 := by
      rw [Nat.cast_sub hm1, Nat.cast_one]
    simp only [hf]
    rw [if_pos (Or.inl (by rw [e]; linarith))]
    have e2 : u32_inc (m - 1) = m := by
      unfold u32_inc
      omega
    rw [e2, if_neg (by omega)]
  · have hge : (m : ℚ) ≤ exp := not_lt.mp hlt
    have hf : ⌊exp⌋₊ = m := by
      rw [Nat.floor_eq_iff hpos]
      constructor <;> linarith
    have hc : ¬(exp - ((m : Nat) : ℚ) > DOUBLE_ZERO ∨ m = 0) := by
      intro h
      rcases h with h | h
      · linarith
      · omega
    simp only [hf]
    rw [if_neg hc, if_neg (by omega)]

theorem log_two_bounds : (0.6931471803 : ℝ) < Real.log 2 ∧ Real.log 2 < 0.6931471808 :=
  ⟨Real.log_two_gt_d9, Real.log_two_lt_d9⟩

theorem logb_two_le (size m : Nat) (h0 : 1 ≤ size) (h : size ≤ 2 ^ m) :
    Real.logb 2 (size : ℝ) ≤ (m : ℝ) := by
  have hs : (0 : ℝ) < (size : ℝ) := by exact_mod_cast h0
  have hl : (0 : ℝ) < Real.log 2 := by linarith [log_two_bounds.1]
  have h1 : (size : ℝ) ≤ (2 : ℝ) ^ m := by exact_mod_cast h
  have h2 := Real.log_le_log hs h1
  rw [Real.log_pow] at h2
  unfold Real.logb
  rw [div_le_iff₀ hl]
  exact h2

theorem log_ratio_ge (size k : Nat) (h : 2 ^ k + 1 ≤ size) :
    (k : ℝ) * Real.log 2 + 1 / ((2 : ℝ) ^ k + 1) ≤ Real.log (size : ℝ) := by
  have hp : (0 : ℝ) < (2 : ℝ) ^ k := by positivity
  have hs1 : (2 : ℝ) ^ k + 1 ≤ (size : ℝ) := by exact_mod_cast h
  have hs : (0 : ℝ) < (size : ℝ) := by linarith
  have h1 := Real.one_sub_inv_le_log_of_pos (div_pos hs hp)
  rw [Real.log_div (ne_of_gt hs) (ne_of_gt hp), Real.log_pow, inv_div] at h1
  have h2 : (2 : ℝ) ^ k / (size : ℝ) ≤ (2 : ℝ) ^ k / ((2 : ℝ) ^ k + 1) :=
    div_le_div_of_nonneg_left (le_of_lt hp) (by linarith) hs1
  have h3 : 1 - (2 : ℝ) ^ k / ((2 : ℝ) ^ k + 1) = 1 / ((2 : ℝ) ^ k + 1) := by
    field_simp
  linarith

theorem log_ratio_le (k : Nat) :
    Real.log (((2 ^ k + 1 : Nat) : ℝ)) ≤ (k : ℝ) * Real.log 2 + 1 / (2 : ℝ) ^ k := by
  have hp : (0 : ℝ) < (2 : ℝ) ^ k := by positivity
  have hs : (0 : ℝ) < (((2 ^ k + 1 : Nat) : ℝ)) := by positivity
  have h1 := Real.log_le_sub_one_of_pos (div_pos hs hp)
  rw [Real.log_div (ne_of_gt hs) (ne_of_gt hp), Real.log_pow] at h1
  have h3 : (((2 ^ k + 1 : Nat) : ℝ)) / (2 : ℝ) ^ k - 1 = 1 / (2 : ℝ) ^ k := by
    push_cast
    field_simp
  linarith

theorem DOUBLE_ZERO_cast :
    ((DOUBLE_ZERO : ℚ) : ℝ) = 3022314549036573 / 302231454903657293676544 := by
  unfold DOUBLE_ZERO
  push_cast
  rfl

theorem logb_two_gt (size k : Nat) (hk : k ≤ 27) (h : 2 ^ k + 1 ≤ size) :
    (k : ℝ) + ((DOUBLE_ZERO : ℚ) : ℝ) + 1 / 10000000000 < Real.logb 2 (size : ℝ) := by
  have hl := log_two_bounds
  have hl0 : (0 : ℝ) < Real.log 2 := by linarith [hl.1]
  have h1 := log_ratio_ge size k h
  have hp : (2 : ℝ) ^ k ≤ (2 : ℝ) ^ 27 := pow_le_pow_right₀ (by norm_num) hk
  have hp0 : (0 : ℝ) < (2 : ℝ) ^ k := by positivity
  have h2 : 1 / ((2 : ℝ) ^ 27 + 1) ≤ 1 / ((2 : ℝ) ^ k + 1) :=
    div_le_div_of_nonneg_left (by norm_num) (by linarith) (by linarith)
  unfold Real.logb
  rw [lt_div_iff₀ hl0, DOUBLE_ZERO_cast]
  have h3 : ((3022314549036573 : ℝ) / 302231454903657293676544 + 1 / 10000000000) *
      Real.log 2 < 1 / ((2 : ℝ) ^ 27 + 1) := by
    have : ((3022314549036573 : ℝ) / 302231454903657293676544 + 1 / 10000000000) *
        Real.log 2 ≤ ((3022314549036573 : ℝ) / 302231454903657293676544 + 1 / 10000000000) *
        0.6931471808 := by
      apply mul_le_mul_of_nonneg_left (le_of_lt hl.2)
      norm_num
    refine lt_of_le_of_lt this ?_
    norm_num
  nlinarith

theorem hashmap_create_ok (scale : Nat) (exp : ℚ) (cmp : Nat → Nat → Int) (hash : Nat → Nat)
    (b : Nat) (h4 : 4 ≤ scale) (ha : _adjust_size exp = some b) :
    hashmap_create scale exp cmp hash true = some (0, some (hashmap_init b cmp hash)) := by
  unfold hashmap_create
  have h1 : ¬scale / AVG_DEPTH = 0 := by
    unfold AVG_DEPTH
    omega
  rw [if_neg (by omega), if_neg h1, ha]
  rfl

theorem hashmap_init_shape (b : Nat) (cmp : Nat → Nat → Int) (hash : Nat → Nat) :
    (hashmap_init b cmp hash).b_count = b ∧ (hashmap_init b cmp hash).buckets.length = b :=
  ⟨rfl, List.length_replicate _ _⟩

theorem _adjust_size_of_log (size : Nat) (exp : ℚ) (h2 : 2 ≤ size) (hs : size ≤ 2 ^ 28)
    (hexp : |(exp : ℝ) - Real.logb 2 (size : ℝ)| ≤ 1 / 10000000000) :
    1 ≤ Nat.clog 2 size ∧ Nat.clog 2 size ≤ 28 ∧
      _adjust_size exp = some (2 ^ Nat.clog 2 size) := by
  have hm1 : 1 ≤ Nat.clog 2 size := Nat.clog_pos (by norm_num) h2
  have hm28 : Nat.clog 2 size ≤ 28 := (Nat.le_pow_iff_clog_le (by norm_num)).mp hs
  have hup : size ≤ 2 ^ Nat.clog 2 size := Nat.le_pow_clog (by norm_num) size
  have hlo : 2 ^ (Nat.clog 2 size).pred < size := Nat.pow_pred_clog_lt_self (by norm_num) (by omega)
  obtain ⟨m, hm⟩ : ∃ m, Nat.clog 2 size = m + 1 := ⟨Nat.clog 2 size - 1, by omega⟩
  rw [hm] at hup hlo hm1 hm28 ⊢
  rw [Nat.pred_succ] at hlo
  refine ⟨hm1, hm28, ?_⟩
  obtain ⟨e1, e2⟩ := abs_le.mp hexp
  have u := logb_two_le size (m + 1) (by omega) hup
  have l := logb_two_gt size m (by omega) hlo
  obtain ⟨z0, z1⟩ := DOUBLE_ZERO_bounds
  have z0r : (0 : ℝ) < ((DOUBLE_ZERO : ℚ) : ℝ) := by exact_mod_cast z0
  have zc := DOUBLE_ZERO_cast
  apply _adjust_size_pow (m + 1) (by omega) (by omega)
  · have : (((m + 1 : Nat) : ℚ) : ℝ) - 1 + ((DOUBLE_ZERO : ℚ) : ℝ) < (exp : ℝ) := by
      push_cast
      linarith
    exact_mod_cast this
  · have : (exp : ℝ) ≤ (((m + 1 : Nat) : ℚ) : ℝ) + ((DOUBLE_ZERO : ℚ) : ℝ) := by
      push_cast
      push_cast at u
      have : (1 : ℝ) / 10000000000 ≤ ((DOUBLE_ZERO : ℚ) : ℝ) := by
        rw [zc]
        norm_num
      linarith
    exact_mod_cast this

theorem _adjust_size_of_log_one (exp : ℚ)
    (hexp : |(exp : ℝ) - Real.logb 2 ((1 : Nat) : ℝ)| ≤ 1 / 10000000000) :
    _adjust_size exp = some 2 := by
  rw [Nat.cast_one, Real.logb_one, sub_zero] at hexp
  obtain ⟨e1, e2⟩ := abs_le.mp hexp
  apply _adjust_size_small
  · have : ((-1 : ℚ) : ℝ) < (exp : ℝ) := by
      push_cast
      linarith
    exact_mod_cast this
  · have : (exp : ℝ) < ((1 : ℚ) : ℝ) := by
      push_cast
      linarith
    exact_mod_cast this

/-- With `scale = 2^30 + 4` the quotient `scale / 4` is `2^28 + 1`, whose
logarithm to base 2 exceeds 28 by less than `DOUBLE_ZERO`: for every `exp`
within `10^-10` of it the table gets `2^28` buckets, fewer than `scale / 4`. -/
theorem _adjust_size_beyond_range (exp : ℚ)
    (hexp : |(exp : ℝ) - Real.logb 2 ((1073741828 / 4 : Nat) : ℝ)| ≤ 1 / 10000000000) :
    1073741828 / 4 = 2 ^ 28 + 1 ∧ _adjust_size exp = some (2 ^ 28) := by
  refine ⟨by norm_num, ?_⟩
  have e : (1073741828 / 4 : Nat) = 2 ^ 28 + 1 := by norm_num
  rw [e] at hexp
  obtain ⟨e1, e2⟩ := abs_le.mp hexp
  have hl := log_two_bounds
  have hl0 : (0 : ℝ) < Real.log 2 := by linarith [hl.1]
  have lo := log_ratio_ge (2 ^ 28 + 1) 28 (le_refl _)
  have hi := log_ratio_le 28
  have zc := DOUBLE_ZERO_cast
  have b1 : (28 : ℝ) + 1 / 10000000000 ≤ Real.logb 2 (((2 ^ 28 + 1 : Nat)) : ℝ) := by
    unfold Real.logb
    rw [le_div_iff₀ hl0]
    have : (1 : ℝ) / 10000000000 * Real.log 2 ≤ 1 / ((2 : ℝ) ^ 28 + 1) := by
      have : (1 : ℝ) / 10000000000 * Real.log 2 ≤ 1 / 10000000000 * 0.6931471808 :=
        mul_le_mul_of_nonneg_left (le_of_lt hl.2) (by norm_num)
      refine le_trans this ?_
      norm_num
    push_cast at lo
    nlinarith
  have b2 : Real.logb 2 (((2 ^ 28 + 1 : Nat)) : ℝ) ≤
      (28 : ℝ) + ((DOUBLE_ZERO : ℚ) : ℝ) - 1 / 10000000000 := by
    unfold Real.logb
    rw [div_le_iff₀ hl0, zc]
    have : (1 : ℝ) / (2 : ℝ) ^ 28 ≤
        ((3022314549036573 : ℝ) / 302231454903657293676544 - 1 / 10000000000) * Real.log 2 := by
      have : ((3022314549036573 : ℝ) / 302231454903657293676544 - 1 / 10000000000) *
          0.6931471803 ≤
          ((3022314549036573 : ℝ) / 302231454903657293676544 - 1 / 10000000000) * Real.log 2 :=
        mul_le_mul_of_nonneg_left (le_of_lt hl.1) (by norm_num)
      refine le_trans ?_ this
      norm_num
    push_cast at hi
    nlinarith
  apply _adjust_size_pow 28 (by norm_num) (by norm_num)
  · have : (((28 : Nat) : ℚ) : ℝ) - 1 + ((DOUBLE_ZERO : ℚ) : ℝ) < (exp : ℝ) := by
      push_cast
      rw [zc]
      have : (3022314549036573 : ℝ) / 302231454903657293676544 < 1 := by norm_num
      linarith
    exact_mod_cast this
  · have : (exp : ℝ) ≤ (((28 : Nat) : ℚ) : ℝ) + ((DOUBLE_ZERO : ℚ) : ℝ) := by
      push_cast
      linarith
    exact_mod_cast this

/-- C28 (counterexample): for `scale = 4` the quotient `scale / 4` is 1 and
`log(1) / log(2)` is 0; `hashmap_create` builds a table of 2 buckets, although
`1 = 2^0` is a power of two that is at least `scale / 4`. -/
theorem hashmap_create_scale_four :
    |(((0 : ℚ) : ℝ)) - Real.logb 2 ((4 / 4 : Nat) : ℝ)| ≤ 1 / 10000000000 ∧
    hashmap_create 4 0 u64_cmp u64_hash true =
      some (0, some (hashmap_init 2 u64_cmp u64_hash)) ∧
    (hashmap_init 2 u64_cmp u64_hash).b_count = 2 ∧
    4 / 4 ≤ 2 ^ 0 ∧ 2 ^ 0 < (hashmap_init 2 u64_cmp u64_hash).b_count := by
  refine ⟨?_, ?_, rfl, by decide, by decide⟩
  · norm_num
  · exact hashmap_create_ok 4 0 u64_cmp u64_hash 2 (le_refl _)
      (_adjust_size_small 0 (by norm_num) (by norm_num))

/-- C28 (amended): for every `scale ≥ 4` with `scale / 4 ≤ 2^28` (integer
quotient), when the `double` computed for `log(scale / 4) / log(2)` is within
`10^-10` of the logarithm to base 2, `hashmap_create` builds a table whose
bucket count `B` is a power of two other than 1, is at least `scale / 4`, and
is the smallest such power of two; the table has `B` buckets and masking a
hash with `B - 1` yields a bucket index below `B`. -/
theorem hashmap_create_b_count (scale : Nat) (exp : ℚ) (cmp : Nat → Nat → Int)
    (hash : Nat → Nat) (h4 : 4 ≤ scale) (hs : scale / 4 ≤ 2 ^ 28)
    (hexp : |(exp : ℝ) - Real.logb 2 ((scale / 4 : Nat) : ℝ)| ≤ 1 / 10000000000) :
    ∃ map s, hashmap_create scale exp cmp hash true = some (0, some map) ∧
      1 ≤ s ∧ map.b_count = 2 ^ s ∧ scale / 4 ≤ map.b_count ∧
      (∀ t, 1 ≤ t → scale / 4 ≤ 2 ^ t → map.b_count ≤ 2 ^ t) ∧
      map.buckets.length = map.b_count ∧
      ∀ key, map.index key < map.b_count := by
  have key : ∃ s, 1 ≤ s ∧ s ≤ 28 ∧ _adjust_size exp = some (2 ^ s) ∧ scale / 4 ≤ 2 ^ s ∧
      ∀ t, 1 ≤ t → scale / 4 ≤ 2 ^ t → s ≤ t := by
    by_cases h1 : scale / 4 = 1
    · rw [h1] at hexp ⊢
      exact ⟨1, le_refl _, by norm_num, _adjust_size_of_log_one exp hexp, by norm_num,
        fun t ht _ => ht⟩
    · obtain ⟨a, b, c⟩ := _adjust_size_of_log (scale / 4) exp (by omega) hs hexp
      exact ⟨Nat.clog 2 (scale / 4), a, b, c, Nat.le_pow_clog (by norm_num) _,
        fun t _ ht => (Nat.le_pow_iff_clog_le (by norm_num)).mp ht⟩
  obtain ⟨s, s1, s28, ha, hge, hmin⟩ := key
  obtain ⟨i1, i2⟩ := hashmap_init_shape (2 ^ s) cmp hash
  have hlt : 2 ^ s < 4294967296 :=
    lt_of_le_of_lt (Nat.pow_le_pow_right (by norm_num) s28) (by norm_num)
  refine ⟨hashmap_init (2 ^ s) cmp hash, s, hashmap_create_ok scale exp cmp hash _ h4 ha, s1,
    i1, by rw [i1]; exact hge, ?_, by rw [i1, i2], ?_⟩
  · intro t t1 ht
    rw [i1]
    exact Nat.pow_le_pow_right (by norm_num) (hmin t t1 ht)
  · intro k
    apply hashmap_index_lt
    · rw [i1]
      exact Nat.one_le_two_pow
    · rw [i1]
      exact hlt

/-- C28 (witness): `hashmap_create(64)` with `log(16) / log(2) = 4`. -/
theorem hashmap_create_b_count_witness :
    (4 ≤ 64 ∧ 64 / 4 ≤ 2 ^ 28 ∧
      |(((4 : ℚ)) : ℝ) - Real.logb 2 ((64 / 4 : Nat) : ℝ)| ≤ 1 / 10000000000) ∧
    ∃ map s, hashmap_create 64 4 u64_cmp u64_hash true = some (0, some map) ∧
      1 ≤ s ∧ map.b_count = 2 ^ s ∧ 64 / 4 ≤ map.b_count ∧
      (∀ t, 1 ≤ t → 64 / 4 ≤ 2 ^ t → map.b_count ≤ 2 ^ t) ∧
      map.buckets.length = map.b_count ∧
      ∀ key, map.index key < map.b_count :=
  have h : |(((4 : ℚ)) : ℝ) - Real.logb 2 ((64 / 4 : Nat) : ℝ)| ≤ 1 / 10000000000 := by
    have e : ((64 / 4 : Nat) : ℝ) = (2 : ℝ) ^ (4 : ℕ) := by norm_num
    have hl : Real.log 2 ≠ 0 := ne_of_gt (by linarith [log_two_bounds.1])
    rw [e]
    unfold Real.logb
    rw [Real.log_pow]
    field_simp
    norm_num
  ⟨⟨by decide, by decide, h⟩, hashmap_create_b_count 64 4 u64_cmp u64_hash (by decide) (by decide) h⟩

theorem costate_create_places (max_worker : Nat) :
    CoPlaces (costate_create max_worker) (fun _ => none) := by
  constructor <;> simp [costate_create, comgr_create]

theorem coroutine_run_fields (mgr : comgr) (lwt : Nat) :
    ((coroutine_run mgr (some lwt)).2.1.sleeper = mgr.sleeper ∧
      (coroutine_run mgr (some lwt)).2.1.sem = mgr.sem ∧
      (coroutine_run mgr (some lwt)).2.1.lwt_worker = Function.update mgr.lwt_worker lwt
        ((mgr.worker_idx + 1) % 4294967296 % mgr.worker_count)) ∧
    (∀ w, ((coroutine_run mgr (some lwt)).2.1.worker w).lwt_head =
      if w = (mgr.worker_idx + 1) % 4294967296 % mgr.worker_count then
        (mgr.worker w).lwt_head ++ [lwt] else (mgr.worker w).lwt_head) ∧
    (∀ w, ((coroutine_run mgr (some lwt)).2.1.worker w).sem_head = (mgr.worker w).sem_head) ∧
    (∀ w, ((coroutine_run mgr (some lwt)).2.1.worker w).swapped = (mgr.worker w).swapped) := by
  refine ⟨⟨rfl, rfl, rfl⟩, ?_, ?_, ?_⟩
  all_goals
    intro w
    by_cases h : w = (mgr.worker_idx + 1) % 4294967296 % mgr.worker_count
    · subst h
      simp [coroutine_run, _worker_t.add_tail]
    · simp [coroutine_run, _worker_t.add_tail, h]

theorem CoPlaces.spawn {st : costate} {place : Nat → Option lwt_place} (h : CoPlaces st place)
    (lwt : Nat) (hu : ¬st.used lwt = true) :
    CoPlaces { st with
      mgr := (coroutine_run st.mgr (some lwt)).2.1,
      used := Function.update st.used lwt true }
      (Function.update place lwt (some .ready)) := by
  obtain ⟨⟨f1, f2, f3⟩, f4, f5, f6⟩ := coroutine_run_fields st.mgr lwt
  have hp : place lwt = none := by
    by_contra hne
    exact hu ((h.used_iff lwt).mpr hne)
  constructor
  · intro l
    by_cases e : l = lwt
    · subst e
      simp
    · simp [Function.update_apply, e, h.used_iff l]
  · intro w l
    show st.lwt_curr w = some l ↔ _
    rw [f3]
    by_cases e : l = lwt
    · subst e
      simp only [Function.update_same]
      constructor
      · intro hc
        have := ((h.curr_iff w l).mp hc).1
        rw [hp] at this
        cases this
      · intro hc
        cases hc.1
    · simp only [Function.update_apply, if_neg e]
      exact h.curr_iff w l
  · intro w l hc
    show ((coroutine_run st.mgr (some lwt)).2.1.worker w).swapped = false
    rw [f6]
    exact h.curr_sw w l hc
  · intro w l
    show l ∈ ((coroutine_run st.mgr (some lwt)).2.1.worker w).lwt_head ↔
      _ ∧ (coroutine_run st.mgr (some lwt)).2.1.lwt_worker l = w
    rw [f4, f3]
    by_cases e : l = lwt
    · subst e
      have hn : ∀ w1, l ∉ (st.mgr.worker w1).lwt_head := by
        intro w1 hm
        have := ((h.ready_iff w1 l).mp hm).1
        rw [hp] at this
        cases this
      simp only [Function.update_same]
      split
      · rename_i hw
        simp [hw]
      · rename_i hw
        simp only [true_and]
        constructor
        · intro hm
          exact absurd hm (hn w)
        · intro hm
          exact absurd hm.symm hw
    · simp only [Function.update_apply, if_neg e]
      split
      · rw [List.mem_append, List.mem_singleton]
        constructor
        · intro hm
          rcases hm with hm | hm
          · exact (h.ready_iff w l).mp hm
          · exact absurd hm e
        · intro hm
          exact Or.inl ((h.ready_iff w l).mpr hm)
      · exact h.ready_iff w l
  · intro w
    show (((coroutine_run st.mgr (some lwt)).2.1.worker w).lwt_head).Nodup
    rw [f4]
    split
    · have hn : lwt ∉ (st.mgr.worker w).lwt_head := by
        intro hm
        have := ((h.ready_iff w lwt).mp hm).1
        rw [hp] at this
        cases this
      exact List.Nodup.append (h.ready_nd w) (List.nodup_singleton _)
        (by
          intro a ha hb
          rw [List.mem_singleton] at hb
          subst hb
          exact hn ha)
    · exact h.ready_nd w
  · intro w l
    show l ∈ st.lwt_head w ↔ _ ∧ (coroutine_run st.mgr (some lwt)).2.1.lwt_worker l = w
    rw [f3]
    by_cases e : l = lwt
    · subst e
      simp only [Function.update_same]
      constructor
      · intro hc
        have := ((h.head_iff w l).mp hc).1
        rw [hp] at this
        cases this
      · intro hc
        cases hc.1
    · simp only [Function.update_apply, if_neg e]
      exact h.head_iff w l
  · exact h.head_nd
  · intro w s
    show s ∈ ((coroutine_run st.mgr (some lwt)).2.1.worker w).sem_head ↔
      ∃ l, _ ∧ (coroutine_run st.mgr (some lwt)).2.1.lwt_worker l = w
    rw [f5, f3, h.sem_iff w s]
    constructor
    · rintro ⟨l, h1, h2⟩
      have e : l ≠ lwt := by
        intro e
        rw [e, hp] at h1
        cases h1
      exact ⟨l, by simp only [Function.update_apply, if_neg e]; exact h1,
        by simp only [Function.update_apply, if_neg e]; exact h2⟩
    · rintro ⟨l, h1, h2⟩
      have e : l ≠ lwt := by
        intro e
        rw [e, Function.update_same] at h1
        cases h1
      simp only [Function.update_apply, if_neg e] at h1 h2
      exact ⟨l, h1, h2⟩
  · intro w
    show (((coroutine_run st.mgr (some lwt)).2.1.worker w).sem_head).Nodup
    rw [f5]
    exact h.sem_nd w
  · intro l s h1
    show ((coroutine_run st.mgr (some lwt)).2.1.sem s).lwt = some l ∧ _
    rw [f2]
    have e : l ≠ lwt := by
      intro e
      rw [e, Function.update_same] at h1
      cases h1
    simp only [Function.update_apply, if_neg e] at h1
    exact h.wait_own l s h1
  · intro s h1
    have h1 : (st.mgr.sem s).val = 1 := by
      rw [← f2]
      exact h1
    obtain ⟨l, hl⟩ := h.val_one s h1
    have e : l ≠ lwt := by
      intro e
      rw [e, hp] at hl
      cases hl
    exact ⟨l, by simp only [Function.update_apply, if_neg e]; exact hl⟩
  · intro s
    show _ ≤ ((coroutine_run st.mgr (some lwt)).2.1.sem s).val ∧ _
    rw [f2]
    exact h.val_range s
  · intro l
    show l ∈ (coroutine_run st.mgr (some lwt)).2.1.sleeper.map _sleeper_t.lwt ↔ _
    rw [f1, h.sleep_iff l]
    by_cases e : l = lwt
    · subst e
      simp [hp]
    · simp only [Function.update_apply, if_neg e]
  · show ((coroutine_run st.mgr (some lwt)).2.1.sleeper.map _sleeper_t.lwt).Nodup
    rw [f1]
    exact h.sleep_nd

theorem place_update_ne {place : Nat → Option lwt_place} {l0 : Nat} {p q : lwt_place}
    (h0 : place l0 ≠ some q) (hq : p ≠ q) (l : Nat) :
    Function.update place l0 (some p) l = some q ↔ place l = some q := by
  by_cases e : l = l0
  · subst e
    rw [Function.update_same]
    constructor
    · intro h
      exact absurd (Option.some.inj h) hq
    · intro h
      exact absurd h h0
  · rw [Function.update_noteq e]

theorem place_update_eq {place : Nat → Option lwt_place} {l0 : Nat} {p : lwt_place} (l : Nat) :
    Function.update place l0 (some p) l = some p ↔ l = l0 ∨ place l = some p := by
  by_cases e : l = l0
  · subst e
    rw [Function.update_same]
    exact ⟨fun _ => Or.inl rfl, fun _ => rfl⟩
  · rw [Function.update_noteq e]
    exact ⟨fun h => Or.inr h, fun h => h.resolve_left e⟩

theorem place_update_src {place : Nat → Option lwt_place} {l0 : Nat} {p q : lwt_place}
    (h0 : place l0 = some q) (hq : p ≠ q) (l : Nat) :
    Function.update place l0 (some p) l = some q ↔ l ≠ l0 ∧ place l = some q := by
  by_cases e : l = l0
  · subst e
    rw [Function.update_same]
    constructor
    · intro h
      exact absurd (Option.some.inj h) hq
    · intro h
      exact absurd rfl h.1
  · rw [Function.update_noteq e]
    exact ⟨fun h => ⟨e, h⟩, fun h => h.2⟩

theorem place_erase_ne {place : Nat → Option lwt_place} {l0 : Nat} {q : lwt_place}
    (h0 : place l0 ≠ some q) (l : Nat) :
    Function.update place l0 none l = some q ↔ place l = some q := by
  by_cases e : l = l0
  · subst e
    rw [Function.update_same]
    constructor
    · intro h
      cases h
    · intro h
      exact absurd h h0
  · rw [Function.update_noteq e]

theorem place_erase_src {place : Nat → Option lwt_place} {l0 : Nat} {q : lwt_place}
    (l : Nat) :
    Function.update place l0 none l = some q ↔ l ≠ l0 ∧ place l = some q := by
  by_cases e : l = l0
  · subst e
    rw [Function.update_same]
    constructor
    · intro h
      cases h
    · intro h
      exact absurd rfl h.1
  · rw [Function.update_noteq e]
    exact ⟨fun h => ⟨e, h⟩, fun h => h.2⟩

theorem place_update_used {place : Nat → Option lwt_place} {l0 : Nat} {p : lwt_place}
    (h0 : place l0 ≠ none) (l : Nat) :
    Function.update place l0 (some p) l ≠ none ↔ place l ≠ none := by
  by_cases e : l = l0
  · subst e
    rw [Function.update_same]
    exact ⟨fun _ => h0, fun _ => by simp⟩
  · rw [Function.update_noteq e]

theorem _worker_svc_splice_fields (mgr : comgr) (w : Nat) :
    ((_worker_svc_splice mgr w).2.sleeper = mgr.sleeper ∧
      (_worker_svc_splice mgr w).2.sem = mgr.sem ∧
      (_worker_svc_splice mgr w).2.lwt_worker = mgr.lwt_worker) ∧
    (∀ w1, ((_worker_svc_splice mgr w).2.worker w1).lwt_head =
      if w1 = w then [] else (mgr.worker w1).lwt_head) ∧
    (∀ w1, ((_worker_svc_splice mgr w).2.worker w1).sem_head = (mgr.worker w1).sem_head) ∧
    (∀ w1, ((_worker_svc_splice mgr w).2.worker w1).swapped = (mgr.worker w1).swapped) := by
  refine ⟨⟨rfl, rfl, rfl⟩, ?_, ?_, ?_⟩
  all_goals
    intro w1
    by_cases h : w1 = w
    · subst h
      simp [_worker_svc_splice]
    · simp [_worker_svc_splice, h]

theorem CoPlaces.dispatch {st : costate} {place : Nat → Option lwt_place} (h : CoPlaces st place)
    (w : Nat) (hc : st.lwt_curr w = none) (hh : st.lwt_head w = []) :
    CoPlaces { st with
      mgr := (_worker_svc_splice st.mgr w).2,
      lwt_head := Function.update st.lwt_head w (_worker_svc_splice st.mgr w).1 }
      (fun l => if l ∈ (st.mgr.worker w).lwt_head then some .head else place l) := by
  obtain ⟨⟨f1, f2, f3⟩, f4, f5, f6⟩ := _worker_svc_splice_fields st.mgr w
  have other : ∀ (q : lwt_place), q ≠ .ready → q ≠ .head → ∀ l,
      (if l ∈ (st.mgr.worker w).lwt_head then some lwt_place.head else place l) = some q ↔
        place l = some q := by
    intro q q1 q2 l
    split
    · rename_i hm
      have := ((h.ready_iff w l).mp hm).1
      rw [this]
      constructor
      · intro e
        exact absurd (Option.some.inj e).symm q2
      · intro e
        exact absurd (Option.some.inj e).symm q1
    · rfl
  constructor
  · intro l
    show st.used l = true ↔ _
    rw [h.used_iff l]
    split
    · rename_i hm
      have := ((h.ready_iff w l).mp hm).1
      rw [this]
      simp
    · rfl
  · intro w1 l
    show st.lwt_curr w1 = some l ↔ _ ∧ (_worker_svc_splice st.mgr w).2.lwt_worker l = w1
    rw [f3, other .run (by simp) (by simp)]
    exact h.curr_iff w1 l
  · intro w1 l hc1
    show ((_worker_svc_splice st.mgr w).2.worker w1).swapped = false
    rw [f6]
    exact h.curr_sw w1 l hc1
  · intro w1 l
    show l ∈ ((_worker_svc_splice st.mgr w).2.worker w1).lwt_head ↔
      _ ∧ (_worker_svc_splice st.mgr w).2.lwt_worker l = w1
    rw [f4, f3]
    by_cases e : w1 = w
    · subst e
      rw [if_pos rfl]
      constructor
      · intro hm
        cases hm
      · rintro ⟨h1, h2⟩
        split at h1
        · cases h1
        · rename_i hm
          exact absurd ((h.ready_iff w1 l).mpr ⟨h1, h2⟩) hm
    · rw [if_neg e, h.ready_iff w1 l]
      constructor
      · rintro ⟨h1, h2⟩
        refine ⟨?_, h2⟩
        rw [if_neg]
        · exact h1
        · intro hm
          have := ((h.ready_iff w l).mp hm).2
          exact e (h2.symm.trans this)
      · rintro ⟨h1, h2⟩
        split at h1
        · cases h1
        · exact ⟨h1, h2⟩
  · intro w1
    show (((_worker_svc_splice st.mgr w).2.worker w1).lwt_head).Nodup
    rw [f4]
    split
    · exact List.nodup_nil
    · exact h.ready_nd w1
  · intro w1 l
    show l ∈ Function.update st.lwt_head w (st.mgr.worker w).lwt_head w1 ↔
      _ ∧ (_worker_svc_splice st.mgr w).2.lwt_worker l = w1
    rw [f3]
    by_cases e : w1 = w
    · subst e
      rw [Function.update_same]
      constructor
      · intro hm
        exact ⟨by rw [if_pos hm], ((h.ready_iff w1 l).mp hm).2⟩
      · rintro ⟨h1, h2⟩
        by_contra hm
        rw [if_neg hm] at h1
        have := (h.head_iff w1 l).mpr ⟨h1, h2⟩
        rw [hh] at this
        cases this
    · rw [Function.update_noteq e, h.head_iff w1 l]
      constructor
      · rintro ⟨h1, h2⟩
        refine ⟨?_, h2⟩
        rw [if_neg]
        · exact h1
        · intro hm
          have := ((h.ready_iff w l).mp hm).2
          exact e (h2.symm.trans this)
      · rintro ⟨h1, h2⟩
        split at h1
        · rename_i hm
          have := ((h.ready_iff w l).mp hm).2
          exact absurd (h2.symm.trans this) e
        · exact ⟨h1, h2⟩
  · intro w1
    show (Function.update st.lwt_head w (st.mgr.worker w).lwt_head w1).Nodup
    by_cases e : w1 = w
    · subst e
      rw [Function.update_same]
      exact h.ready_nd w1
    · rw [Function.update_noteq e]
      exact h.head_nd w1
  · intro w1 s
    show s ∈ ((_worker_svc_splice st.mgr w).2.worker w1).sem_head ↔
      ∃ l, _ ∧ (_worker_svc_splice st.mgr w).2.lwt_worker l = w1
    rw [f5, f3, h.sem_iff w1 s]
    constructor
    · rintro ⟨l, h1, h2⟩
      exact ⟨l, (other (.wait s) (by simp) (by simp) l).mpr h1, h2⟩
    · rintro ⟨l, h1, h2⟩
      exact ⟨l, (other (.wait s) (by simp) (by simp) l).mp h1, h2⟩
  · intro w1
    show (((_worker_svc_splice st.mgr w).2.worker w1).sem_head).Nodup
    rw [f5]
    exact h.sem_nd w1
  · intro l s h1
    show ((_worker_svc_splice st.mgr w).2.sem s).lwt = some l ∧ _
    rw [f2]
    exact h.wait_own l s ((other (.wait s) (by simp) (by simp) l).mp h1)
  · intro s h1
    have h1 : (st.mgr.sem s).val = 1 := by
      rw [← f2]
      exact h1
    obtain ⟨l, hl⟩ := h.val_one s h1
    exact ⟨l, (other (.wait s) (by simp) (by simp) l).mpr hl⟩
  · intro s
    show _ ≤ ((_worker_svc_splice st.mgr w).2.sem s).val ∧ _
    rw [f2]
    exact h.val_range s
  · intro l
    show l ∈ (_worker_svc_splice st.mgr w).2.sleeper.map _sleeper_t.lwt ↔ _
    rw [f1, h.sleep_iff l, other .sleep (by simp) (by simp)]
  · show ((_worker_svc_splice st.mgr w).2.sleeper.map _sleeper_t.lwt).Nodup
    rw [f1]
    exact h.sleep_nd

theorem CoPlaces.place_of_curr {st : costate} {place : Nat → Option lwt_place}
    (h : CoPlaces st place) {w l : Nat} (hc : st.lwt_curr w = some l) :
    place l = some .run ∧ st.mgr.lwt_worker l = w := (h.curr_iff w l).mp hc

theorem CoPlaces.resume {st : costate} {place : Nat → Option lwt_place} (h : CoPlaces st place)
    (w lwt : Nat) (rest : List Nat) (hc : st.lwt_curr w = none)
    (hh : st.lwt_head w = lwt :: rest) :
    CoPlaces { st with
      mgr :=
        { st.mgr with
          worker := Function.update st.mgr.worker w
            { st.mgr.worker w with swapped := false } },
      lwt_curr := Function.update st.lwt_curr w (some lwt),
      lwt_head := Function.update st.lwt_head w rest }
      (Function.update place lwt (some .run)) := by
  have hm0 : lwt ∈ st.lwt_head w := by
    rw [hh]
    exact List.mem_cons_self _ _
  obtain ⟨hp, ho⟩ := (h.head_iff w lwt).mp hm0
  have hnd := h.head_nd w
  rw [hh] at hnd
  have hnr : lwt ∉ rest := (List.nodup_cons.mp hnd).1
  have hne : ∀ q : lwt_place, q ≠ .head → place lwt ≠ some q := by
    intro q hq e
    rw [hp] at e
    exact hq (Option.some.inj e).symm
  have g1 : ∀ w1, ((Function.update st.mgr.worker w
      { st.mgr.worker w with swapped := false }) w1).lwt_head = (st.mgr.worker w1).lwt_head := by
    intro w1
    by_cases e : w1 = w
    · subst e
      rw [Function.update_same]
    · rw [Function.update_noteq e]
  have g2 : ∀ w1, ((Function.update st.mgr.worker w
      { st.mgr.worker w with swapped := false }) w1).sem_head = (st.mgr.worker w1).sem_head := by
    intro w1
    by_cases e : w1 = w
    · subst e
      rw [Function.update_same]
    · rw [Function.update_noteq e]
  constructor
  · intro l
    show st.used l = true ↔ _
    rw [h.used_iff l, place_update_used (by rw [hp]; simp)]
  · intro w1 l
    show Function.update st.lwt_curr w (some lwt) w1 = some l ↔ _ ∧ st.mgr.lwt_worker l = w1
    rw [place_update_eq]
    by_cases e : w1 = w
    · subst e
      rw [Function.update_same]
      constructor
      · intro e1
        cases e1
        exact ⟨Or.inl rfl, ho⟩
      · rintro ⟨h1 | h1, h2⟩
        · rw [h1]
        · have := (h.curr_iff w1 l).mpr ⟨h1, h2⟩
          rw [hc] at this
          cases this
    · rw [Function.update_noteq e, h.curr_iff w1 l]
      constructor
      · rintro ⟨h1, h2⟩
        exact ⟨Or.inr h1, h2⟩
      · rintro ⟨h1 | h1, h2⟩
        · rw [h1, ho] at h2
          exact absurd h2.symm e
        · exact ⟨h1, h2⟩
  · intro w1 l hc1
    show ((Function.update st.mgr.worker w { st.mgr.worker w with swapped := false }) w1).swapped
      = false
    have hc1 : Function.update st.lwt_curr w (some lwt) w1 = some l := hc1
    by_cases e : w1 = w
    · subst e
      rw [Function.update_same]
    · rw [Function.update_noteq e] at hc1 ⊢
      exact h.curr_sw w1 l hc1
  · intro w1 l
    show l ∈ ((Function.update st.mgr.worker w { st.mgr.worker w with swapped := false })
      w1).lwt_head ↔ _ ∧ st.mgr.lwt_worker l = w1
    rw [g1, place_update_ne (hne .ready (by simp)) (by simp)]
    exact h.ready_iff w1 l
  · intro w1
    show (((Function.update st.mgr.worker w { st.mgr.worker w with swapped := false })
      w1).lwt_head).Nodup
    rw [g1]
    exact h.ready_nd w1
  · intro w1 l
    show l ∈ Function.update st.lwt_head w rest w1 ↔ _ ∧ st.mgr.lwt_worker l = w1
    rw [place_update_src hp (by simp)]
    by_cases e : w1 = w
    · subst e
      rw [Function.update_same]
      constructor
      · intro hm
        have hm1 : l ∈ st.lwt_head w1 := by
          rw [hh]
          exact List.mem_cons_of_mem _ hm
        obtain ⟨a, b⟩ := (h.head_iff w1 l).mp hm1
        refine ⟨⟨?_, a⟩, b⟩
        intro e1
        rw [e1] at hm
        exact hnr hm
      · rintro ⟨⟨h0, h1⟩, h2⟩
        have := (h.head_iff w1 l).mpr ⟨h1, h2⟩
        rw [hh] at this
        rcases List.mem_cons.mp this with e1 | e1
        · exact absurd e1 h0
        · exact e1
    · rw [Function.update_noteq e, h.head_iff w1 l]
      constructor
      · rintro ⟨h1, h2⟩
        refine ⟨⟨?_, h1⟩, h2⟩
        intro e1
        rw [e1, ho] at h2
        exact e h2.symm
      · rintro ⟨⟨_, h1⟩, h2⟩
        exact ⟨h1, h2⟩
  · intro w1
    show (Function.update st.lwt_head w rest w1).Nodup
    by_cases e : w1 = w
    · subst e
      rw [Function.update_same]
      exact (List.nodup_cons.mp hnd).2
    · rw [Function.update_noteq e]
      exact h.head_nd w1
  · intro w1 s
    show s ∈ ((Function.update st.mgr.worker w { st.mgr.worker w with swapped := false })
      w1).sem_head ↔ ∃ l, _ ∧ st.mgr.lwt_worker l = w1
    rw [g2, h.sem_iff w1 s]
    constructor
    · rintro ⟨l, h1, h2⟩
      exact ⟨l, (place_update_ne (hne _ (by simp)) (by simp) l).mpr h1, h2⟩
    · rintro ⟨l, h1, h2⟩
      exact ⟨l, (place_update_ne (hne _ (by simp)) (by simp) l).mp h1, h2⟩
  · intro w1
    show (((Function.update st.mgr.worker w { st.mgr.worker w with swapped := false })
      w1).sem_head).Nodup
    rw [g2]
    exact h.sem_nd w1
  · intro l s h1
    exact h.wait_own l s ((place_update_ne (hne _ (by simp)) (by simp) l).mp h1)
  · intro s h1
    obtain ⟨l, hl⟩ := h.val_one s h1
    exact ⟨l, (place_update_ne (hne _ (by simp)) (by simp) l).mpr hl⟩
  · exact h.val_range
  · intro l
    show l ∈ st.mgr.sleeper.map _sleeper_t.lwt ↔ _
    rw [h.sleep_iff l, place_update_ne (hne _ (by simp)) (by simp)]
  · exact h.sleep_nd

theorem coroutine_yield_fields (mgr : comgr) (lwt : Nat) :
    ((coroutine_yield mgr (some lwt)).sleeper = mgr.sleeper ∧
      (coroutine_yield mgr (some lwt)).sem = mgr.sem ∧
      (coroutine_yield mgr (some lwt)).lwt_worker = mgr.lwt_worker) ∧
    (∀ w, ((coroutine_yield mgr (some lwt)).worker w).lwt_head =
      if w = mgr.lwt_worker lwt then (mgr.worker w).lwt_head ++ [lwt]
      else (mgr.worker w).lwt_head) ∧
    (∀ w, ((coroutine_yield mgr (some lwt)).worker w).sem_head = (mgr.worker w).sem_head) ∧
    (∀ w, w ≠ mgr.lwt_worker lwt →
      ((coroutine_yield mgr (some lwt)).worker w).swapped = (mgr.worker w).swapped) := by
  refine ⟨⟨rfl, rfl, rfl⟩, ?_, ?_, ?_⟩
  · intro w
    by_cases h : w = mgr.lwt_worker lwt
    · subst h
      simp [coroutine_yield, _worker_t.add_tail]
    · simp [coroutine_yield, _worker_t.add_tail, h]
  · intro w
    by_cases h : w = mgr.lwt_worker lwt
    · subst h
      simp [coroutine_yield, _worker_t.add_tail]
    · simp [coroutine_yield, _worker_t.add_tail, h]
  · intro w h
    simp [coroutine_yield, _worker_t.add_tail, h]

theorem CoPlaces.yield {st : costate} {place : Nat → Option lwt_place} (h : CoPlaces st place)
    (w lwt : Nat) (hc : st.lwt_curr w = some lwt) :
    CoPlaces { st with
      mgr := coroutine_yield st.mgr (some lwt),
      lwt_curr := Function.update st.lwt_curr w none }
      (Function.update place lwt (some .ready)) := by
  obtain ⟨⟨f1, f2, f3⟩, f4, f5, f6⟩ := coroutine_yield_fields st.mgr lwt
  obtain ⟨hp, ho⟩ := h.place_of_curr hc
  rw [ho] at f4 f6
  have hne : ∀ q : lwt_place, q ≠ .run → place lwt ≠ some q := by
    intro q hq e
    rw [hp] at e
    exact hq (Option.some.inj e).symm
  constructor
  · intro l
    show st.used l = true ↔ _
    rw [h.used_iff l, place_update_used (by rw [hp]; simp)]
  · intro w1 l
    show Function.update st.lwt_curr w none w1 = some l ↔
      _ ∧ (coroutine_yield st.mgr (some lwt)).lwt_worker l = w1
    rw [f3, place_update_src hp (by simp)]
    by_cases e : w1 = w
    · subst e
      rw [Function.update_same]
      constructor
      · intro e1
        cases e1
      · rintro ⟨⟨h0, h1⟩, h2⟩
        have := (h.curr_iff w1 l).mpr ⟨h1, h2⟩
        rw [hc] at this
        exact absurd (Option.some.inj this).symm h0
    · rw [Function.update_noteq e, h.curr_iff w1 l]
      constructor
      · rintro ⟨h1, h2⟩
        refine ⟨⟨?_, h1⟩, h2⟩
        intro e1
        rw [e1, ho] at h2
        exact e h2.symm
      · rintro ⟨⟨_, h1⟩, h2⟩
        exact ⟨h1, h2⟩
  · intro w1 l hc1
    show ((coroutine_yield st.mgr (some lwt)).worker w1).swapped = false
    have hc1 : Function.update st.lwt_curr w none w1 = some l := hc1
    by_cases e : w1 = w
    · subst e
      rw [Function.update_same] at hc1
      cases hc1
    · rw [Function.update_noteq e] at hc1
      rw [f6 w1 e]
      exact h.curr_sw w1 l hc1
  · intro w1 l
    show l ∈ ((coroutine_yield st.mgr (some lwt)).worker w1).lwt_head ↔
      _ ∧ (coroutine_yield st.mgr (some lwt)).lwt_worker l = w1
    rw [f4, f3, place_update_eq]
    split
    · rename_i e
      subst e
      rw [List.mem_append, List.mem_singleton, h.ready_iff w1 l]
      constructor
      · rintro (⟨h1, h2⟩ | h1)
        · exact ⟨Or.inr h1, h2⟩
        · exact ⟨Or.inl h1, by rw [h1]; exact ho⟩
      · rintro ⟨h1 | h1, h2⟩
        · exact Or.inr h1
        · exact Or.inl ⟨h1, h2⟩
    · rename_i e
      rw [h.ready_iff w1 l]
      constructor
      · rintro ⟨h1, h2⟩
        exact ⟨Or.inr h1, h2⟩
      · rintro ⟨h1 | h1, h2⟩
        · rw [h1, ho] at h2
          exact absurd h2.symm e
        · exact ⟨h1, h2⟩
  · intro w1
    show (((coroutine_yield st.mgr (some lwt)).worker w1).lwt_head).Nodup
    rw [f4]
    split
    · have hn : lwt ∉ (st.mgr.worker w1).lwt_head := by
        intro hm
        exact hne .ready (by simp) ((h.ready_iff w1 lwt).mp hm).1
      exact List.Nodup.append (h.ready_nd w1) (List.nodup_singleton _)
        (by
          intro a ha hb
          rw [List.mem_singleton] at hb
          subst hb
          exact hn ha)
    · exact h.ready_nd w1
  · intro w1 l
    show l ∈ st.lwt_head w1 ↔ _ ∧ (coroutine_yield st.mgr (some lwt)).lwt_worker l = w1
    rw [f3, place_update_ne (hne _ (by simp)) (by simp)]
    exact h.head_iff w1 l
  · exact h.head_nd
  · intro w1 s
    show s ∈ ((coroutine_yield st.mgr (some lwt)).worker w1).sem_head ↔
      ∃ l, _ ∧ (coroutine_yield st.mgr (some lwt)).lwt_worker l = w1
    rw [f5, f3, h.sem_iff w1 s]
    constructor
    · rintro ⟨l, h1, h2⟩
      exact ⟨l, (place_update_ne (hne _ (by simp)) (by simp) l).mpr h1, h2⟩
    · rintro ⟨l, h1, h2⟩
      exact ⟨l, (place_update_ne (hne _ (by simp)) (by simp) l).mp h1, h2⟩
  · intro w1
    show (((coroutine_yield st.mgr (some lwt)).worker w1).sem_head).Nodup
    rw [f5]
    exact h.sem_nd w1
  · intro l s h1
    show ((coroutine_yield st.mgr (some lwt)).sem s).lwt = some l ∧ _
    rw [f2]
    exact h.wait_own l s ((place_update_ne (hne _ (by simp)) (by simp) l).mp h1)
  · intro s h1
    have h1 : (st.mgr.sem s).val = 1 := by
      rw [← f2]
      exact h1
    obtain ⟨l, hl⟩ := h.val_one s h1
    exact ⟨l, (place_update_ne (hne _ (by simp)) (by simp) l).mpr hl⟩
  · intro s
    show _ ≤ ((coroutine_yield st.mgr (some lwt)).sem s).val ∧ _
    rw [f2]
    exact h.val_range s
  · intro l
    show l ∈ (coroutine_yield st.mgr (some lwt)).sleeper.map _sleeper_t.lwt ↔ _
    rw [f1, h.sleep_iff l, place_update_ne (hne _ (by simp)) (by simp)]
  · show ((coroutine_yield st.mgr (some lwt)).sleeper.map _sleeper_t.lwt).Nodup
    rw [f1]
    exact h.sleep_nd

theorem _sleeper_insert_lwt_perm (s : List _sleeper_t) (l r : Nat) :
    List.Perm ((_sleeper_insert s ⟨l, r⟩).map _sleeper_t.lwt) (l :: s.map _sleeper_t.lwt) := by
  obtain ⟨k, _, _, e, _⟩ := _sleeper_insert_times s 0 l r
  rw [e]
  refine List.perm_middle.trans ?_
  rw [List.take_append_drop]

theorem cosem_sleep_worker_fields (mgr : comgr) (lwt ms : Nat) :
    ((cosem_sleep mgr (some lwt) ms).sleeper = _sleeper_insert mgr.sleeper ⟨lwt, ms⟩ ∧
      (cosem_sleep mgr (some lwt) ms).sem = mgr.sem ∧
      (cosem_sleep mgr (some lwt) ms).lwt_worker = mgr.lwt_worker) ∧
    (∀ w, ((cosem_sleep mgr (some lwt) ms).worker w).lwt_head = (mgr.worker w).lwt_head) ∧
    (∀ w, ((cosem_sleep mgr (some lwt) ms).worker w).sem_head = (mgr.worker w).sem_head) ∧
    (∀ w, w ≠ mgr.lwt_worker lwt →
      ((cosem_sleep mgr (some lwt) ms).worker w).swapped = (mgr.worker w).swapped) := by
  refine ⟨⟨rfl, rfl, rfl⟩, ?_, ?_, ?_⟩
  · intro w
    by_cases h : w = mgr.lwt_worker lwt
    · subst h
      simp [cosem_sleep]
    · simp [cosem_sleep, h]
  · intro w
    by_cases h : w = mgr.lwt_worker lwt
    · subst h
      simp [cosem_sleep]
    · simp [cosem_sleep, h]
  · intro w h
    simp [cosem_sleep, h]

theorem CoPlaces.sleep {st : costate} {place : Nat → Option lwt_place} (h : CoPlaces st place)
    (w lwt ms : Nat) (hc : st.lwt_curr w = some lwt) :
    CoPlaces { st with
      mgr := cosem_sleep st.mgr (some lwt) ms,
      lwt_curr := Function.update st.lwt_curr w none }
      (Function.update place lwt (some .sleep)) := by
  obtain ⟨⟨f1, f2, f3⟩, f4, f5, f6⟩ := cosem_sleep_worker_fields st.mgr lwt ms
  obtain ⟨hp, ho⟩ := h.place_of_curr hc
  rw [ho] at f6
  have hperm := _sleeper_insert_lwt_perm st.mgr.sleeper lwt ms
  have hne : ∀ q : lwt_place, q ≠ .run → place lwt ≠ some q := by
    intro q hq e
    rw [hp] at e
    exact hq (Option.some.inj e).symm
  constructor
  · intro l
    show st.used l = true ↔ _
    rw [h.used_iff l, place_update_used (by rw [hp]; simp)]
  · intro w1 l
    show Function.update st.lwt_curr w none w1 = some l ↔
      _ ∧ (cosem_sleep st.mgr (some lwt) ms).lwt_worker l = w1
    rw [f3, place_update_src hp (by simp)]
    by_cases e : w1 = w
    · subst e
      rw [Function.update_same]
      constructor
      · intro e1
        cases e1
      · rintro ⟨⟨h0, h1⟩, h2⟩
        have := (h.curr_iff w1 l).mpr ⟨h1, h2⟩
        rw [hc] at this
        exact absurd (Option.some.inj this).symm h0
    · rw [Function.update_noteq e, h.curr_iff w1 l]
      constructor
      · rintro ⟨h1, h2⟩
        refine ⟨⟨?_, h1⟩, h2⟩
        intro e1
        rw [e1, ho] at h2
        exact e h2.symm
      · rintro ⟨⟨_, h1⟩, h2⟩
        exact ⟨h1, h2⟩
  · intro w1 l hc1
    show ((cosem_sleep st.mgr (some lwt) ms).worker w1).swapped = false
    have hc1 : Function.update st.lwt_curr w none w1 = some l := hc1
    by_cases e : w1 = w
    · subst e
      rw [Function.update_same] at hc1
      cases hc1
    · rw [Function.update_noteq e] at hc1
      rw [f6 w1 e]
      exact h.curr_sw w1 l hc1
  · intro w1 l
    show l ∈ ((cosem_sleep st.mgr (some lwt) ms).worker w1).lwt_head ↔
      _ ∧ (cosem_sleep st.mgr (some lwt) ms).lwt_worker l = w1
    rw [f4, f3, place_update_ne (hne _ (by simp)) (by simp)]
    exact h.ready_iff w1 l
  · intro w1
    show (((cosem_sleep st.mgr (some lwt) ms).worker w1).lwt_head).Nodup
    rw [f4]
    exact h.ready_nd w1
  · intro w1 l
    show l ∈ st.lwt_head w1 ↔ _ ∧ (cosem_sleep st.mgr (some lwt) ms).lwt_worker l = w1
    rw [f3, place_update_ne (hne _ (by simp)) (by simp)]
    exact h.head_iff w1 l
  · exact h.head_nd
  · intro w1 s
    show s ∈ ((cosem_sleep st.mgr (some lwt) ms).worker w1).sem_head ↔
      ∃ l, _ ∧ (cosem_sleep st.mgr (some lwt) ms).lwt_worker l = w1
    rw [f5, f3, h.sem_iff w1 s]
    constructor
    · rintro ⟨l, h1, h2⟩
      exact ⟨l, (place_update_ne (hne _ (by simp)) (by simp) l).mpr h1, h2⟩
    · rintro ⟨l, h1, h2⟩
      exact ⟨l, (place_update_ne (hne _ (by simp)) (by simp) l).mp h1, h2⟩
  · intro w1
    show (((cosem_sleep st.mgr (some lwt) ms).worker w1).sem_head).Nodup
    rw [f5]
    exact h.sem_nd w1
  · intro l s h1
    show ((cosem_sleep st.mgr (some lwt) ms).sem s).lwt = some l ∧ _
    rw [f2]
    exact h.wait_own l s ((place_update_ne (hne _ (by simp)) (by simp) l).mp h1)
  · intro s h1
    have h1 : (st.mgr.sem s).val = 1 := by
      rw [← f2]
      exact h1
    obtain ⟨l, hl⟩ := h.val_one s h1
    exact ⟨l, (place_update_ne (hne _ (by simp)) (by simp) l).mpr hl⟩
  · intro s
    show _ ≤ ((cosem_sleep st.mgr (some lwt) ms).sem s).val ∧ _
    rw [f2]
    exact h.val_range s
  · intro l
    show l ∈ (cosem_sleep st.mgr (some lwt) ms).sleeper.map _sleeper_t.lwt ↔ _
    rw [f1, hperm.mem_iff, List.mem_cons, h.sleep_iff l, place_update_eq]
  · show ((cosem_sleep st.mgr (some lwt) ms).sleeper.map _sleeper_t.lwt).Nodup
    rw [f1, hperm.nodup_iff, List.nodup_cons]
    refine ⟨?_, h.sleep_nd⟩
    intro hm
    exact hne .sleep (by simp) ((h.sleep_iff lwt).mp hm)

theorem CoPlaces.finish {st : costate} {place : Nat → Option lwt_place} (h : CoPlaces st place)
    (w lwt : Nat) (hc : st.lwt_curr w = some lwt) :
    CoPlaces { st with
      mgr :=
        { st.mgr with
          worker := Function.update st.mgr.worker w
            { st.mgr.worker w with
              lwt_count := wrap_int ((st.mgr.worker w).lwt_count - 1) } },
      used := Function.update st.used lwt false,
      lwt_curr := Function.update st.lwt_curr w none }
      (Function.update place lwt none) := by
  obtain ⟨hp, ho⟩ := h.place_of_curr hc
  have hne : ∀ q : lwt_place, q ≠ .run → place lwt ≠ some q := by
    intro q hq e
    rw [hp] at e
    exact hq (Option.some.inj e).symm
  have g1 : ∀ w1, ((Function.update st.mgr.worker w
      { st.mgr.worker w with lwt_count := wrap_int ((st.mgr.worker w).lwt_count - 1) })
      w1).lwt_head = (st.mgr.worker w1).lwt_head := by
    intro w1
    by_cases e : w1 = w
    · subst e
      rw [Function.update_same]
    · rw [Function.update_noteq e]
  have g2 : ∀ w1, ((Function.update st.mgr.worker w
      { st.mgr.worker w with lwt_count := wrap_int ((st.mgr.worker w).lwt_count - 1) })
      w1).sem_head = (st.mgr.worker w1).sem_head := by
    intro w1
    by_cases e : w1 = w
    · subst e
      rw [Function.update_same]
    · rw [Function.update_noteq e]
  have g3 : ∀ w1, ((Function.update st.mgr.worker w
      { st.mgr.worker w with lwt_count := wrap_int ((st.mgr.worker w).lwt_count - 1) })
      w1).swapped = (st.mgr.worker w1).swapped := by
    intro w1
    by_cases e : w1 = w
    · subst e
      rw [Function.update_same]
    · rw [Function.update_noteq e]
  constructor
  · intro l
    show Function.update st.used lwt false l = true ↔ _
    by_cases e : l = lwt
    · subst e
      simp
    · rw [Function.update_noteq e, Function.update_noteq e]
      exact h.used_iff l
  · intro w1 l
    show Function.update st.lwt_curr w none w1 = some l ↔ _ ∧ st.mgr.lwt_worker l = w1
    rw [place_erase_src]
    by_cases e : w1 = w
    · subst e
      rw [Function.update_same]
      constructor
      · intro e1
        cases e1
      · rintro ⟨⟨h0, h1⟩, h2⟩
        have := (h.curr_iff w1 l).mpr ⟨h1, h2⟩
        rw [hc] at this
        exact absurd (Option.some.inj this).symm h0
    · rw [Function.update_noteq e, h.curr_iff w1 l]
      constructor
      · rintro ⟨h1, h2⟩
        refine ⟨⟨?_, h1⟩, h2⟩
        intro e1
        rw [e1, ho] at h2
        exact e h2.symm
      · rintro ⟨⟨_, h1⟩, h2⟩
        exact ⟨h1, h2⟩
  · intro w1 l hc1
    show ((Function.update st.mgr.worker w
      { st.mgr.worker w with lwt_count := wrap_int ((st.mgr.worker w).lwt_count - 1) })
      w1).swapped = false
    have hc1 : Function.update st.lwt_curr w none w1 = some l := hc1
    rw [g3]
    by_cases e : w1 = w
    · subst e
      rw [Function.update_same] at hc1
      cases hc1
    · rw [Function.update_noteq e] at hc1
      exact h.curr_sw w1 l hc1
  · intro w1 l
    show l ∈ ((Function.update st.mgr.worker w
      { st.mgr.worker w with lwt_count := wrap_int ((st.mgr.worker w).lwt_count - 1) })
      w1).lwt_head ↔ _ ∧ st.mgr.lwt_worker l = w1
    rw [g1, place_erase_ne (hne _ (by simp))]
    exact h.ready_iff w1 l
  · intro w1
    show (((Function.update st.mgr.worker w
      { st.mgr.worker w with lwt_count := wrap_int ((st.mgr.worker w).lwt_count - 1) })
      w1).lwt_head).Nodup
    rw [g1]
    exact h.ready_nd w1
  · intro w1 l
    show l ∈ st.lwt_head w1 ↔ _ ∧ st.mgr.lwt_worker l = w1
    rw [place_erase_ne (hne _ (by simp))]
    exact h.head_iff w1 l
  · exact h.head_nd
  · intro w1 s
    show s ∈ ((Function.update st.mgr.worker w
      { st.mgr.worker w with lwt_count := wrap_int ((st.mgr.worker w).lwt_count - 1) })
      w1).sem_head ↔ ∃ l, _ ∧ st.mgr.lwt_worker l = w1
    rw [g2, h.sem_iff w1 s]
    constructor
    · rintro ⟨l, h1, h2⟩
      exact ⟨l, (place_erase_ne (hne _ (by simp)) l).mpr h1, h2⟩
    · rintro ⟨l, h1, h2⟩
      exact ⟨l, (place_erase_ne (hne _ (by simp)) l).mp h1, h2⟩
  · intro w1
    show (((Function.update st.mgr.worker w
      { st.mgr.worker w with lwt_count := wrap_int ((st.mgr.worker w).lwt_count - 1) })
      w1).sem_head).Nodup
    rw [g2]
    exact h.sem_nd w1
  · intro l s h1
    exact h.wait_own l s ((place_erase_ne (hne _ (by simp)) l).mp h1)
  · intro s h1
    obtain ⟨l, hl⟩ := h.val_one s h1
    exact ⟨l, (place_erase_ne (hne _ (by simp)) l).mpr hl⟩
  · exact h.val_range
  · intro l
    show l ∈ st.mgr.sleeper.map _sleeper_t.lwt ↔ _
    rw [h.sleep_iff l, place_erase_ne (hne _ (by simp))]
  · exact h.sleep_nd

theorem CoPlaces.sem_update {st : costate} {place : Nat → Option lwt_place}
    (h : CoPlaces st place) (s : Nat) (c : _cosem_t)
    (hw : ∀ l, place l ≠ some (.wait s)) (hv1 : c.val ≠ 1)
    (hv : -2147483648 ≤ c.val ∧ c.val ≤ 1) :
    CoPlaces { st with mgr := { st.mgr with sem := Function.update st.mgr.sem s c } } place := by
  constructor
  · exact h.used_iff
  · exact h.curr_iff
  · exact h.curr_sw
  · exact h.ready_iff
  · exact h.ready_nd
  · exact h.head_iff
  · exact h.head_nd
  · exact h.sem_iff
  · exact h.sem_nd
  · intro l s1 h1
    show (Function.update st.mgr.sem s c s1).lwt = some l ∧
      (Function.update st.mgr.sem s c s1).val = 1 ∧
      (Function.update st.mgr.sem s c s1).linked = true
    by_cases e : s1 = s
    · subst e
      exact absurd h1 (hw l)
    · rw [Function.update_noteq e]
      exact h.wait_own l s1 h1
  · intro s1 h1
    have h1 : (Function.update st.mgr.sem s c s1).val = 1 := h1
    by_cases e : s1 = s
    · subst e
      rw [Function.update_same] at h1
      exact absurd h1 hv1
    · rw [Function.update_noteq e] at h1
      exact h.val_one s1 h1
  · intro s1
    show _ ≤ (Function.update st.mgr.sem s c s1).val ∧
      (Function.update st.mgr.sem s c s1).val ≤ 1
    by_cases e : s1 = s
    · subst e
      rw [Function.update_same]
      exact hv
    · rw [Function.update_noteq e]
      exact h.val_range s1
  · exact h.sleep_iff
  · exact h.sleep_nd

theorem CoPlaces.init {st : costate} {place : Nat → Option lwt_place} (h : CoPlaces st place)
    (lwt sem : Nat) (hl : ¬(st.mgr.sem sem).linked = true) :
    CoPlaces { st with mgr := (cosem_init st.mgr (some lwt) sem).2 } place := by
  apply h.sem_update sem ⟨some lwt, 0, 0, false⟩
  · intro l hw
    exact hl (h.wait_own l sem hw).2.2
  · show (0 : Int) ≠ 1
    decide
  · show (-2147483648 : Int) ≤ 0 ∧ (0 : Int) ≤ 1
    decide

theorem CoPlaces.fini {st : costate} {place : Nat → Option lwt_place} (h : CoPlaces st place)
    (sem : Nat) : CoPlaces { st with mgr := (cosem_fini st.mgr sem).2 } place := by
  unfold cosem_fini
  split
  · exact h
  · rename_i hc
    have hv : (st.mgr.sem sem).val = 0 := by
      by_contra hne
      exact hc (Or.inr hne)
    apply h.sem_update sem { st.mgr.sem sem with lwt := none, val := 0 }
    · intro l hw
      have := (h.wait_own l sem hw).2.1
      rw [hv] at this
      cases this
    · show (0 : Int) ≠ 1
      decide
    · show (-2147483648 : Int) ≤ 0 ∧ (0 : Int) ≤ 1
      decide

theorem CoPlaces.no_waiter {st : costate} {place : Nat → Option lwt_place}
    (h : CoPlaces st place) {s : Nat} (hv : (st.mgr.sem s).val ≠ 1) (l : Nat) :
    place l ≠ some (.wait s) := fun hw => hv (h.wait_own l s hw).2.1

theorem CoPlaces.down_block {st : costate} {place : Nat → Option lwt_place}
    (h : CoPlaces st place) (w lwt s : Nat) (hc : st.lwt_curr w = some lwt)
    (hv : (st.mgr.sem s).val ≠ 1) (c : _cosem_t) (hc1 : c.lwt = some lwt) (hc2 : c.val = 1)
    (hc3 : c.linked = true) (wk : _worker_t) (hw1 : wk.lwt_head = (st.mgr.worker w).lwt_head)
    (hw2 : wk.sem_head = (st.mgr.worker w).sem_head ++ [s]) :
    CoPlaces { st with
      mgr :=
        { st.mgr with
          sem := Function.update st.mgr.sem s c,
          worker := Function.update st.mgr.worker w wk },
      lwt_curr := Function.update st.lwt_curr w none }
      (Function.update place lwt (some (.wait s))) := by
  obtain ⟨hp, ho⟩ := h.place_of_curr hc
  have hnw := fun l => h.no_waiter hv l
  have hne : ∀ q : lwt_place, q ≠ .run → place lwt ≠ some q := by
    intro q hq e
    rw [hp] at e
    exact hq (Option.some.inj e).symm
  have hns : ∀ w1, s ∉ (st.mgr.worker w1).sem_head := by
    intro w1 hm
    obtain ⟨l, h1, _⟩ := (h.sem_iff w1 s).mp hm
    exact hnw l h1
  have g1 : ∀ w1, (Function.update st.mgr.worker w wk w1).lwt_head =
      (st.mgr.worker w1).lwt_head := by
    intro w1
    by_cases e : w1 = w
    · subst e
      rw [Function.update_same, hw1]
    · rw [Function.update_noteq e]
  have pw : ∀ l s1, s1 ≠ s →
      (Function.update place lwt (some (lwt_place.wait s)) l = some (.wait s1) ↔
        place l = some (.wait s1)) := by
    intro l s1 e
    exact place_update_ne (hne _ (by simp)) (by simpa using fun e1 => e e1.symm) l
  have ps : ∀ l, Function.update place lwt (some (lwt_place.wait s)) l = some (.wait s) ↔
      l = lwt := by
    intro l
    rw [place_update_eq]
    exact ⟨fun e => e.resolve_right (hnw l), fun e => Or.inl e⟩
  constructor
  · intro l
    show st.used l = true ↔ _
    rw [h.used_iff l, place_update_used (by rw [hp]; simp)]
  · intro w1 l
    show Function.update st.lwt_curr w none w1 = some l ↔ _ ∧ st.mgr.lwt_worker l = w1
    rw [place_update_src hp (by simp)]
    by_cases e : w1 = w
    · subst e
      rw [Function.update_same]
      constructor
      · intro e1
        cases e1
      · rintro ⟨⟨h0, h1⟩, h2⟩
        have := (h.curr_iff w1 l).mpr ⟨h1, h2⟩
        rw [hc] at this
        exact absurd (Option.some.inj this).symm h0
    · rw [Function.update_noteq e, h.curr_iff w1 l]
      constructor
      · rintro ⟨h1, h2⟩
        refine ⟨⟨?_, h1⟩, h2⟩
        intro e1
        rw [e1, ho] at h2
        exact e h2.symm
      · rintro ⟨⟨_, h1⟩, h2⟩
        exact ⟨h1, h2⟩
  · intro w1 l hc1
    show (Function.update st.mgr.worker w wk w1).swapped = false
    have hc1 : Function.update st.lwt_curr w none w1 = some l := hc1
    by_cases e : w1 = w
    · subst e
      rw [Function.update_same] at hc1
      cases hc1
    · rw [Function.update_noteq e] at hc1 ⊢
      exact h.curr_sw w1 l hc1
  · intro w1 l
    show l ∈ (Function.update st.mgr.worker w wk w1).lwt_head ↔ _ ∧ st.mgr.lwt_worker l = w1
    rw [g1, place_update_ne (hne _ (by simp)) (by simp)]
    exact h.ready_iff w1 l
  · intro w1
    show ((Function.update st.mgr.worker w wk w1).lwt_head).Nodup
    rw [g1]
    exact h.ready_nd w1
  · intro w1 l
    show l ∈ st.lwt_head w1 ↔ _ ∧ st.mgr.lwt_worker l = w1
    rw [place_update_ne (hne _ (by simp)) (by simp)]
    exact h.head_iff w1 l
  · exact h.head_nd
  · intro w1 s1
    show s1 ∈ (Function.update st.mgr.worker w wk w1).sem_head ↔
      ∃ l, _ ∧ st.mgr.lwt_worker l = w1
    by_cases es : s1 = s
    · subst es
      by_cases e : w1 = w
      · subst e
        rw [Function.update_same, hw2]
        constructor
        · intro _
          exact ⟨lwt, (ps lwt).mpr rfl, ho⟩
        · intro _
          exact List.mem_append_right _ (List.mem_singleton_self _)
      · rw [Function.update_noteq e]
        constructor
        · intro hm
          exact absurd hm (hns w1)
        · rintro ⟨l, h1, h2⟩
          rw [(ps l).mp h1, ho] at h2
          exact absurd h2.symm e
    · have hiff : (∃ l, Function.update place lwt (some (lwt_place.wait s)) l =
          some (.wait s1) ∧ st.mgr.lwt_worker l = w1) ↔
          ∃ l, place l = some (.wait s1) ∧ st.mgr.lwt_worker l = w1 := by
        constructor
        · rintro ⟨l, h1, h2⟩
          exact ⟨l, (pw l s1 es).mp h1, h2⟩
        · rintro ⟨l, h1, h2⟩
          exact ⟨l, (pw l s1 es).mpr h1, h2⟩
      rw [hiff, ← h.sem_iff w1 s1]
      by_cases e : w1 = w
      · subst e
        rw [Function.update_same, hw2, List.mem_append, List.mem_singleton]
        exact ⟨fun hm => hm.resolve_right es, fun hm => Or.inl hm⟩
      · rw [Function.update_noteq e]
  · intro w1
    show ((Function.update st.mgr.worker w wk w1).sem_head).Nodup
    by_cases e : w1 = w
    · subst e
      rw [Function.update_same, hw2]
      exact List.Nodup.append (h.sem_nd w1) (List.nodup_singleton _)
        (by
          intro a ha hb
          rw [List.mem_singleton] at hb
          subst hb
          exact hns w1 ha)
    · rw [Function.update_noteq e]
      exact h.sem_nd w1
  · intro l s1 h1
    show (Function.update st.mgr.sem s c s1).lwt = some l ∧
      (Function.update st.mgr.sem s c s1).val = 1 ∧
      (Function.update st.mgr.sem s c s1).linked = true
    by_cases es : s1 = s
    · subst es
      rw [Function.update_same, (ps l).mp h1]
      exact ⟨hc1, hc2, hc3⟩
    · rw [Function.update_noteq es]
      exact h.wait_own l s1 ((pw l s1 es).mp h1)
  · intro s1 h1
    have h1 : (Function.update st.mgr.sem s c s1).val = 1 := h1
    by_cases es : s1 = s
    · subst es
      exact ⟨lwt, (ps lwt).mpr rfl⟩
    · rw [Function.update_noteq es] at h1
      obtain ⟨l, hl⟩ := h.val_one s1 h1
      exact ⟨l, (pw l s1 es).mpr hl⟩
  · intro s1
    show _ ≤ (Function.update st.mgr.sem s c s1).val ∧
      (Function.update st.mgr.sem s c s1).val ≤ 1
    by_cases es : s1 = s
    · subst es
      rw [Function.update_same, hc2]
      decide
    · rw [Function.update_noteq es]
      exact h.val_range s1
  · intro l
    show l ∈ st.mgr.sleeper.map _sleeper_t.lwt ↔ _
    rw [h.sleep_iff l, place_update_ne (hne _ (by simp)) (by simp)]
  · exact h.sleep_nd

theorem CoPlaces.up_wake {st : costate} {place : Nat → Option lwt_place}
    (h : CoPlaces st place) (lwt s : Nat) (hown : (st.mgr.sem s).lwt = some lwt)
    (hv : (st.mgr.sem s).val = 1) (c : _cosem_t) (hc2 : c.val = 0) (wk : _worker_t)
    (hw1 : wk.lwt_head = lwt :: (st.mgr.worker (st.mgr.lwt_worker lwt)).lwt_head)
    (hw2 : wk.sem_head = (st.mgr.worker (st.mgr.lwt_worker lwt)).sem_head.erase s)
    (hw3 : wk.swapped = (st.mgr.worker (st.mgr.lwt_worker lwt)).swapped) :
    CoPlaces { st with
      mgr :=
        { st.mgr with
          sem := Function.update st.mgr.sem s c,
          worker := Function.update st.mgr.worker (st.mgr.lwt_worker lwt) wk } }
      (Function.update place lwt (some .ready)) := by
  have hwho : ∀ l, place l = some (.wait s) → l = lwt := by
    intro l hl
    have := (h.wait_own l s hl).1
    rw [hown] at this
    exact (Option.some.inj this).symm
  have hp : place lwt = some (.wait s) := by
    obtain ⟨l, hl⟩ := h.val_one s hv
    rw [← hwho l hl]
    exact hl
  have hne : ∀ q : lwt_place, q ≠ .wait s → place lwt ≠ some q := by
    intro q hq e
    rw [hp] at e
    exact hq (Option.some.inj e).symm
  have pw : ∀ l s1, s1 ≠ s →
      (Function.update place lwt (some lwt_place.ready) l = some (.wait s1) ↔
        place l = some (.wait s1)) := by
    intro l s1 e
    exact place_update_ne (hne _ (by simpa using e)) (by simp) l
  have ps : ∀ l, Function.update place lwt (some lwt_place.ready) l ≠ some (.wait s) := by
    intro l e
    obtain ⟨e1, e2⟩ := (place_update_src hp (by simp) l).mp e
    exact e1 (hwho l e2)
  constructor
  · intro l
    show st.used l = true ↔ _
    rw [h.used_iff l, place_update_used (by rw [hp]; simp)]
  · intro w1 l
    show st.lwt_curr w1 = some l ↔ _ ∧ st.mgr.lwt_worker l = w1
    rw [place_update_ne (hne _ (by simp)) (by simp)]
    exact h.curr_iff w1 l
  · intro w1 l hc1
    show (Function.update st.mgr.worker (st.mgr.lwt_worker lwt) wk w1).swapped = false
    by_cases e : w1 = st.mgr.lwt_worker lwt
    · rw [e, Function.update_same, hw3, ← e]
      exact h.curr_sw w1 l hc1
    · rw [Function.update_noteq e]
      exact h.curr_sw w1 l hc1
  · intro w1 l
    show l ∈ (Function.update st.mgr.worker (st.mgr.lwt_worker lwt) wk w1).lwt_head ↔
      _ ∧ st.mgr.lwt_worker l = w1
    rw [place_update_eq]
    by_cases e : w1 = st.mgr.lwt_worker lwt
    · rw [e, Function.update_same, hw1, List.mem_cons, h.ready_iff]
      constructor
      · rintro (h1 | ⟨h1, h2⟩)
        · exact ⟨Or.inl h1, by rw [h1]⟩
        · exact ⟨Or.inr h1, h2⟩
      · rintro ⟨h1 | h1, h2⟩
        · exact Or.inl h1
        · exact Or.inr ⟨h1, h2⟩
    · rw [Function.update_noteq e, h.ready_iff]
      constructor
      · rintro ⟨h1, h2⟩
        exact ⟨Or.inr h1, h2⟩
      · rintro ⟨h1 | h1, h2⟩
        · rw [h1] at h2
          exact absurd h2.symm e
        · exact ⟨h1, h2⟩
  · intro w1
    show ((Function.update st.mgr.worker (st.mgr.lwt_worker lwt) wk w1).lwt_head).Nodup
    by_cases e : w1 = st.mgr.lwt_worker lwt
    · rw [e, Function.update_same, hw1, List.nodup_cons]
      refine ⟨?_, h.ready_nd _⟩
      intro hm
      exact hne .ready (by simp) ((h.ready_iff _ lwt).mp hm).1
    · rw [Function.update_noteq e]
      exact h.ready_nd w1
  · intro w1 l
    show l ∈ st.lwt_head w1 ↔ _ ∧ st.mgr.lwt_worker l = w1
    rw [place_update_ne (hne _ (by simp)) (by simp)]
    exact h.head_iff w1 l
  · exact h.head_nd
  · intro w1 s1
    show s1 ∈ (Function.update st.mgr.worker (st.mgr.lwt_worker lwt) wk w1).sem_head ↔
      ∃ l, _ ∧ st.mgr.lwt_worker l = w1
    by_cases es : s1 = s
    · subst es
      constructor
      · intro hm
        exfalso
        by_cases e : w1 = st.mgr.lwt_worker lwt
        · rw [e, Function.update_same, hw2, (h.sem_nd _).mem_erase_iff] at hm
          exact hm.1 rfl
        · rw [Function.update_noteq e] at hm
          obtain ⟨l, h1, h2⟩ := (h.sem_iff w1 s1).mp hm
          rw [hwho l h1] at h2
          exact e h2.symm
      · rintro ⟨l, h1, _⟩
        exact absurd h1 (ps l)
    · have hiff : (∃ l, Function.update place lwt (some lwt_place.ready) l =
          some (.wait s1) ∧ st.mgr.lwt_worker l = w1) ↔
          ∃ l, place l = some (.wait s1) ∧ st.mgr.lwt_worker l = w1 := by
        constructor
        · rintro ⟨l, h1, h2⟩
          exact ⟨l, (pw l s1 es).mp h1, h2⟩
        · rintro ⟨l, h1, h2⟩
          exact ⟨l, (pw l s1 es).mpr h1, h2⟩
      rw [hiff, ← h.sem_iff w1 s1]
      by_cases e : w1 = st.mgr.lwt_worker lwt
      · rw [e, Function.update_same, hw2, (h.sem_nd _).mem_erase_iff]
        exact ⟨fun hm => hm.2, fun hm => ⟨es, hm⟩⟩
      · rw [Function.update_noteq e]
  · intro w1
    show ((Function.update st.mgr.worker (st.mgr.lwt_worker lwt) wk w1).sem_head).Nodup
    by_cases e : w1 = st.mgr.lwt_worker lwt
    · rw [e, Function.update_same, hw2]
      exact (h.sem_nd _).erase s
    · rw [Function.update_noteq e]
      exact h.sem_nd w1
  · intro l s1 h1
    show (Function.update st.mgr.sem s c s1).lwt = some l ∧
      (Function.update st.mgr.sem s c s1).val = 1 ∧
      (Function.update st.mgr.sem s c s1).linked = true
    by_cases es : s1 = s
    · subst es
      exact absurd h1 (ps l)
    · rw [Function.update_noteq es]
      exact h.wait_own l s1 ((pw l s1 es).mp h1)
  · intro s1 h1
    have h1 : (Function.update st.mgr.sem s c s1).val = 1 := h1
    by_cases es : s1 = s
    · subst es
      rw [Function.update_same, hc2] at h1
      cases h1
    · rw [Function.update_noteq es] at h1
      obtain ⟨l, hl⟩ := h.val_one s1 h1
      exact ⟨l, (pw l s1 es).mpr hl⟩
  · intro s1
    show _ ≤ (Function.update st.mgr.sem s c s1).val ∧
      (Function.update st.mgr.sem s c s1).val ≤ 1
    by_cases es : s1 = s
    · subst es
      rw [Function.update_same, hc2]
      decide
    · rw [Function.update_noteq es]
      exact h.val_range s1
  · intro l
    show l ∈ st.mgr.sleeper.map _sleeper_t.lwt ↔ _
    rw [h.sleep_iff l, place_update_ne (hne _ (by simp)) (by simp)]
  · exact h.sleep_nd

theorem _timer_wake_lwts (lw : Nat → Nat) :
    ∀ (q : List _sleeper_t) (w : Nat → _worker_t),
      q.map _sleeper_t.lwt =
        (_timer_wake lw q w).2.2 ++ (_timer_wake lw q w).1.map _sleeper_t.lwt ∧
      (∀ k, ((_timer_wake lw q w).2.1 k).sem_head = (w k).sem_head) ∧
      (∀ k, ((_timer_wake lw q w).2.1 k).swapped = (w k).swapped) := by
  intro q
  induction q with
  | nil =>
    intro w
    exact ⟨rfl, fun _ => rfl, fun _ => rfl⟩
  | cons e rest ih =>
    intro w
    by_cases hne : e.timeout ≠ 0
    · rw [_timer_wake_stop lw e rest w hne]
      exact ⟨rfl, fun _ => rfl, fun _ => rfl⟩
    · rw [_timer_wake_go lw e rest w (not_not.mp hne)]
      obtain ⟨i1, i2, i3⟩ := ih (Function.update w (lw e.lwt) ((w (lw e.lwt)).add_head e.lwt))
      refine ⟨?_, ?_, ?_⟩
      · show e.lwt :: rest.map _sleeper_t.lwt = e.lwt :: (_ ++ _)
        rw [← i1]
      · intro k
        show ((_timer_wake lw rest _).2.1 k).sem_head = _
        rw [i2 k]
        by_cases ek : k = lw e.lwt
        · rw [ek, Function.update_same]
          rfl
        · rw [Function.update_noteq ek]
      · intro k
        show ((_timer_wake lw rest _).2.1 k).swapped = _
        rw [i3 k]
        by_cases ek : k = lw e.lwt
        · rw [ek, Function.update_same]
          rfl
        · rw [Function.update_noteq ek]

theorem CoPlaces.wake {st : costate} {place : Nat → Option lwt_place} (h : CoPlaces st place)
    (sl : List _sleeper_t) (wk : Nat → _worker_t) (wl : List Nat)
    (e1 : st.mgr.sleeper.map _sleeper_t.lwt = wl ++ sl.map _sleeper_t.lwt)
    (e2 : ∀ k, (wk k).lwt_head =
      (wl.filter fun l => decide (st.mgr.lwt_worker l = k)).reverse ++
        (st.mgr.worker k).lwt_head)
    (e3 : ∀ k, (wk k).sem_head = (st.mgr.worker k).sem_head)
    (e4 : ∀ k, (wk k).swapped = (st.mgr.worker k).swapped) :
    CoPlaces { st with mgr := { st.mgr with sleeper := sl, worker := wk } }
      (fun l => if l ∈ wl then some .ready else place l) := by
  have hnd := h.sleep_nd
  rw [e1] at hnd
  have hwl : ∀ l, l ∈ wl → place l = some .sleep := by
    intro l hl
    apply (h.sleep_iff l).mp
    rw [e1]
    exact List.mem_append_left _ hl
  have hdis : ∀ l, l ∈ wl → l ∉ sl.map _sleeper_t.lwt := by
    intro l hl hm
    exact (List.nodup_append.mp hnd).2.2 hl hm
  have other : ∀ (q : lwt_place), q ≠ .ready → q ≠ .sleep → ∀ l,
      (if l ∈ wl then some lwt_place.ready else place l) = some q ↔ place l = some q := by
    intro q q1 q2 l
    split
    · rename_i hm
      rw [hwl l hm]
      constructor
      · intro e
        exact absurd (Option.some.inj e).symm q1
      · intro e
        exact absurd (Option.some.inj e).symm q2
    · rfl
  constructor
  · intro l
    show st.used l = true ↔ _
    rw [h.used_iff l]
    split
    · rename_i hm
      rw [hwl l hm]
      simp
    · rfl
  · intro w1 l
    show st.lwt_curr w1 = some l ↔ _ ∧ st.mgr.lwt_worker l = w1
    rw [other .run (by simp) (by simp)]
    exact h.curr_iff w1 l
  · intro w1 l hc1
    show (wk w1).swapped = false
    rw [e4]
    exact h.curr_sw w1 l hc1
  · intro w1 l
    show l ∈ (wk w1).lwt_head ↔ _ ∧ st.mgr.lwt_worker l = w1
    rw [e2, List.mem_append, List.mem_reverse, List.mem_filter, h.ready_iff w1 l]
    by_cases hm : l ∈ wl
    · rw [if_pos hm, hwl l hm]
      simp [hm]
    · rw [if_neg hm]
      simp [hm]
  · intro w1
    show ((wk w1).lwt_head).Nodup
    rw [e2]
    refine List.Nodup.append ?_ (h.ready_nd w1) ?_
    · rw [List.nodup_reverse]
      exact (List.nodup_append.mp hnd).1.filter _
    · intro a ha hb
      rw [List.mem_reverse, List.mem_filter] at ha
      have := ((h.ready_iff w1 a).mp hb).1
      rw [hwl a ha.1] at this
      cases this
  · intro w1 l
    show l ∈ st.lwt_head w1 ↔ _ ∧ st.mgr.lwt_worker l = w1
    rw [other .head (by simp) (by simp)]
    exact h.head_iff w1 l
  · exact h.head_nd
  · intro w1 s
    show s ∈ (wk w1).sem_head ↔ ∃ l, _ ∧ st.mgr.lwt_worker l = w1
    rw [e3, h.sem_iff w1 s]
    constructor
    · rintro ⟨l, h1, h2⟩
      exact ⟨l, (other (.wait s) (by simp) (by simp) l).mpr h1, h2⟩
    · rintro ⟨l, h1, h2⟩
      exact ⟨l, (other (.wait s) (by simp) (by simp) l).mp h1, h2⟩
  · intro w1
    show ((wk w1).sem_head).Nodup
    rw [e3]
    exact h.sem_nd w1
  · intro l s h1
    exact h.wait_own l s ((other (.wait s) (by simp) (by simp) l).mp h1)
  · intro s h1
    obtain ⟨l, hl⟩ := h.val_one s h1
    exact ⟨l, (other (.wait s) (by simp) (by simp) l).mpr hl⟩
  · exact h.val_range
  · intro l
    show l ∈ sl.map _sleeper_t.lwt ↔ _
    by_cases hm : l ∈ wl
    · rw [if_pos hm]
      constructor
      · intro hs
        exact absurd hs (hdis l hm)
      · intro e
        cases e
    · rw [if_neg hm, ← h.sleep_iff l, e1, List.mem_append]
      exact ⟨fun hs => Or.inr hs, fun hs => hs.resolve_left hm⟩
  · exact (List.nodup_append.mp hnd).2.1

theorem CoPlaces.tick {st : costate} {place : Nat → Option lwt_place} (h : CoPlaces st place) :
    ∃ place1, CoPlaces { st with mgr := (_timer_svc st.mgr).1 } place1 := by
  cases hs : st.mgr.sleeper with
  | nil =>
    rw [_timer_svc_nil st.mgr hs]
    exact ⟨place, h⟩
  | cons e rest =>
    by_cases ht : 1 < e.timeout
    · rw [_timer_svc_pos st.mgr e rest hs ht]
      refine ⟨_, h.wake (⟨e.lwt, e.timeout - 1⟩ :: rest) st.mgr.worker [] ?_ ?_ ?_ ?_⟩
      · rw [hs]
        rfl
      · intro k
        rfl
      · intro k
        rfl
      · intro k
        rfl
    · rw [_timer_svc_wake st.mgr e rest hs (by omega)]
      obtain ⟨a1, a2, a3⟩ := _timer_wake_lwts st.mgr.lwt_worker (⟨e.lwt, 0⟩ :: rest) st.mgr.worker
      refine ⟨_, h.wake _ _ (_timer_wake st.mgr.lwt_worker (⟨e.lwt, 0⟩ :: rest) st.mgr.worker).2.2
        ?_ ?_ a2 a3⟩
      · rw [hs, ← a1]
        rfl
      · intro k
        exact _timer_wake_queue st.mgr.lwt_worker k _ _

theorem costep_places {st st1 : costate} {place : Nat → Option lwt_place}
    (h : CoPlaces st place) (a : coaction) (hs : costep st a = some st1) :
    ∃ place1, CoPlaces st1 place1 := by
  cases a with
  | spawn lwt =>
    rw [costep] at hs
    split at hs
    · cases hs
    · rename_i hu
      obtain rfl := Option.some.inj hs
      exact ⟨_, h.spawn lwt hu⟩
  | dispatch w =>
    rw [costep] at hs
    split at hs
    · cases hs
    · rename_i hg
      obtain rfl := Option.some.inj hs
      have hc : st.lwt_curr w = none := by
        by_contra hne
        exact hg (Or.inr (Or.inl hne))
      have hh : st.lwt_head w = [] := by
        by_contra hne
        exact hg (Or.inr (Or.inr hne))
      exact ⟨_, h.dispatch w hc hh⟩
  | resume w =>
    rw [costep] at hs
    split at hs
    · rename_i lwt rest hc hh
      obtain rfl := Option.some.inj hs
      exact ⟨_, h.resume w lwt rest hc hh⟩
    · cases hs
  | yield w =>
    rw [costep] at hs
    split at hs
    · cases hs
    · rename_i lwt hc
      obtain rfl := Option.some.inj hs
      exact ⟨_, h.yield w lwt hc⟩
  | sleep w ms =>
    rw [costep] at hs
    split at hs
    · cases hs
    · rename_i lwt hc
      obtain rfl := Option.some.inj hs
      exact ⟨_, h.sleep w lwt ms hc⟩
  | init w sem =>
    rw [costep] at hs
    split at hs
    · cases hs
    · rename_i lwt hc
      split at hs
      · cases hs
      · rename_i hl
        obtain rfl := Option.some.inj hs
        exact ⟨_, h.init lwt sem hl⟩
  | fini sem =>
    rw [costep] at hs
    obtain rfl := Option.some.inj hs
    exact ⟨_, h.fini sem⟩
  | down w sem =>
    rw [costep] at hs
    split at hs
    · cases hs
    · rename_i lwt hc
      split at hs
      · cases hs
      · rename_i hown
        have hown : (st.mgr.sem sem).lwt = some lwt := not_not.mp hown
        obtain ⟨hp, ho⟩ := h.place_of_curr hc
        obtain ⟨r1, r2⟩ := h.val_range sem
        have hv1 : (st.mgr.sem sem).val ≠ 1 := by
          intro hv
          obtain ⟨l, hl⟩ := h.val_one sem hv
          have := (h.wait_own l sem hl).1
          rw [hown] at this
          rw [← Option.some.inj this, hp] at hl
          cases hl
        have hw : wrap_int ((st.mgr.sem sem).val + 1) = (st.mgr.sem sem).val + 1 :=
          wrap_int_id _ (by omega) (by omega)
        by_cases hv : 0 ≥ wrap_int ((st.mgr.sem sem).val + 1)
        · rw [cosem_down_pass st.mgr sem lwt hown hv] at hs
          obtain rfl := Option.some.inj hs
          refine ⟨_, h.sem_update sem _ (fun l => h.no_waiter hv1 l) ?_ ?_⟩
          · show wrap_int ((st.mgr.sem sem).val + 1) ≠ 1
            omega
          · show _ ≤ wrap_int ((st.mgr.sem sem).val + 1) ∧
              wrap_int ((st.mgr.sem sem).val + 1) ≤ 1
            omega
        · rw [cosem_down_block st.mgr sem lwt hown hv, ho] at hs
          obtain rfl := Option.some.inj hs
          refine ⟨_, h.down_block w lwt sem hc hv1
            ⟨(st.mgr.sem sem).lwt, wrap_int ((st.mgr.sem sem).val + 1), (st.mgr.sem sem).ret,
              true⟩ hown ?_ rfl _ rfl rfl⟩
          show wrap_int ((st.mgr.sem sem).val + 1) = 1
          omega
  | up sem =>
    rw [costep] at hs
    split at hs
    · cases hs
    · rename_i hmin
      obtain rfl := Option.some.inj hs
      obtain ⟨r1, r2⟩ := h.val_range sem
      have hw : wrap_int ((st.mgr.sem sem).val - 1) = (st.mgr.sem sem).val - 1 :=
        wrap_int_id _ (by omega) (by omega)
      cases hown : (st.mgr.sem sem).lwt with
      | none =>
        have e : (cosem_up st.mgr sem).2.1 = st.mgr := by
          unfold cosem_up
          rw [hown]
        rw [e]
        exact ⟨_, h⟩
      | some lwt =>
        by_cases hv : wrap_int ((st.mgr.sem sem).val - 1) = 0
        · rw [cosem_up_wake st.mgr sem lwt hown hv]
          exact ⟨_, h.up_wake lwt sem hown (by omega) _ rfl _ rfl rfl rfl⟩
        · rw [cosem_up_pending st.mgr sem lwt hown hv]
          refine ⟨_, h.sem_update sem _ (fun l => h.no_waiter (by omega) l) ?_ ?_⟩
          · show wrap_int ((st.mgr.sem sem).val - 1) ≠ 1
            omega
          · show _ ≤ wrap_int ((st.mgr.sem sem).val - 1) ∧
              wrap_int ((st.mgr.sem sem).val - 1) ≤ 1
            omega
  | finish w =>
    rw [costep] at hs
    split at hs
    · cases hs
    · rename_i lwt hc
      split at hs
      · rename_i hsw
        rw [h.curr_sw w lwt hc] at hsw
        cases hsw
      · obtain rfl := Option.some.inj hs
        exact ⟨_, h.finish w lwt hc⟩
  | tick =>
    rw [costep] at hs
    obtain rfl := Option.some.inj hs
    exact h.tick

theorem corun_places : ∀ (acts : List coaction) {st st1 : costate}
    {place : Nat → Option lwt_place}, CoPlaces st place → corun st acts = some st1 →
    ∃ place1, CoPlaces st1 place1 := by
  intro acts
  induction acts with
  | nil =>
    intro st st1 place h hs
    rw [corun] at hs
    obtain rfl := Option.some.inj hs
    exact ⟨place, h⟩
  | cons a rest ih =>
    intro st st1 place h hs
    rw [corun] at hs
    cases hc : costep st a with
    | none =>
      rw [hc] at hs
      cases hs
    | some st2 =>
      rw [hc] at hs
      obtain ⟨place2, h2⟩ := costep_places h a hc
      exact ih h2 hs

theorem nodup_count_mem {l : List Nat} (hn : l.Nodup) {a : Nat} (h : a ∈ l) : l.count a = 1 :=
  List.count_eq_one_of_mem hn h

theorem CoPlaces.ready_one {st : costate} {place : Nat → Option lwt_place}
    (h : CoPlaces st place) {w l : Nat} (hp : place l = some .ready)
    (ho : st.mgr.lwt_worker l = w) : ready_links st w l = 1 :=
  nodup_count_mem (h.ready_nd w) ((h.ready_iff w l).mpr ⟨hp, ho⟩)

theorem CoPlaces.ready_zero {st : costate} {place : Nat → Option lwt_place}
    (h : CoPlaces st place) {w l : Nat}
    (hp : ¬(place l = some .ready ∧ st.mgr.lwt_worker l = w)) : ready_links st w l = 0 :=
  List.count_eq_zero_of_not_mem fun hm => hp ((h.ready_iff w l).mp hm)

theorem CoPlaces.local_one {st : costate} {place : Nat → Option lwt_place}
    (h : CoPlaces st place) {w l : Nat} (hp : place l = some .head)
    (ho : st.mgr.lwt_worker l = w) : local_links st w l = 1 :=
  nodup_count_mem (h.head_nd w) ((h.head_iff w l).mpr ⟨hp, ho⟩)

theorem CoPlaces.local_zero {st : costate} {place : Nat → Option lwt_place}
    (h : CoPlaces st place) {w l : Nat}
    (hp : ¬(place l = some .head ∧ st.mgr.lwt_worker l = w)) : local_links st w l = 0 :=
  List.count_eq_zero_of_not_mem fun hm => hp ((h.head_iff w l).mp hm)

theorem CoPlaces.sem_owner {st : costate} {place : Nat → Option lwt_place}
    (h : CoPlaces st place) {w l s : Nat} (hm : s ∈ (st.mgr.worker w).sem_head)
    (hl : (st.mgr.sem s).lwt = some l) :
    place l = some (.wait s) ∧ st.mgr.lwt_worker l = w := by
  obtain ⟨l1, h1, h2⟩ := (h.sem_iff w s).mp hm
  have := (h.wait_own l1 s h1).1
  rw [hl] at this
  rw [Option.some.inj this]
  exact ⟨h1, h2⟩

theorem CoPlaces.cosem_one {st : costate} {place : Nat → Option lwt_place}
    (h : CoPlaces st place) {w l s : Nat} (hp : place l = some (.wait s))
    (ho : st.mgr.lwt_worker l = w) : cosem_links st w l = 1 := by
  have hm : s ∈ (st.mgr.worker w).sem_head := (h.sem_iff w s).mpr ⟨l, hp, ho⟩
  have e : cosem_links st w l = (st.mgr.worker w).sem_head.count s := by
    unfold cosem_links List.count
    apply List.countP_congr
    intro x hx
    constructor
    · intro hd
      have hd := of_decide_eq_true hd
      have := (h.sem_owner hx hd).1
      rw [hp] at this
      have e1 : s = x := by
        injection this with this
        injection this
      rw [e1]
      exact beq_self_eq_true x
    · intro hd
      have e1 : x = s := eq_of_beq hd
      rw [e1]
      exact decide_eq_true (h.wait_own l s hp).1
  rw [e]
  exact nodup_count_mem (h.sem_nd w) hm

theorem CoPlaces.cosem_zero {st : costate} {place : Nat → Option lwt_place}
    (h : CoPlaces st place) {w l : Nat}
    (hp : ∀ s, ¬(place l = some (.wait s) ∧ st.mgr.lwt_worker l = w)) :
    cosem_links st w l = 0 := by
  unfold cosem_links
  rw [List.countP_eq_zero]
  intro x hx hd
  exact hp x (h.sem_owner hx (of_decide_eq_true hd))

theorem sleeper_links_count (s : List _sleeper_t) (l : Nat) :
    s.countP (fun e => decide (e.lwt = l)) = (s.map _sleeper_t.lwt).count l := by
  induction s with
  | nil => rfl
  | cons e rest ih =>
    rw [List.countP_cons, List.map_cons, List.count_cons, ih]
    by_cases he : e.lwt = l
    · simp [he]
    · simp [he]

theorem CoPlaces.sleeper_one {st : costate} {place : Nat → Option lwt_place}
    (h : CoPlaces st place) {l : Nat} (hp : place l = some .sleep) : sleeper_links st l = 1 := by
  unfold sleeper_links
  rw [sleeper_links_count]
  exact nodup_count_mem h.sleep_nd ((h.sleep_iff l).mpr hp)

theorem CoPlaces.sleeper_zero {st : costate} {place : Nat → Option lwt_place}
    (h : CoPlaces st place) {l : Nat} (hp : place l ≠ some .sleep) : sleeper_links st l = 0 := by
  unfold sleeper_links
  rw [sleeper_links_count]
  exact List.count_eq_zero_of_not_mem fun hm => hp ((h.sleep_iff l).mp hm)

theorem CoPlaces.exclusive {st : costate} {place : Nat → Option lwt_place}
    (h : CoPlaces st place) (lwt : Nat) (hu : st.used lwt = true)
    (hx : ∀ w, st.lwt_curr w ≠ some lwt) :
    ready_links st (st.mgr.lwt_worker lwt) lwt + local_links st (st.mgr.lwt_worker lwt) lwt +
        cosem_links st (st.mgr.lwt_worker lwt) lwt + sleeper_links st lwt = 1 ∧
      ∀ w, w ≠ st.mgr.lwt_worker lwt →
        ready_links st w lwt = 0 ∧ local_links st w lwt = 0 ∧ cosem_links st w lwt = 0 := by
  have hother : ∀ w, w ≠ st.mgr.lwt_worker lwt →
      ready_links st w lwt = 0 ∧ local_links st w lwt = 0 ∧ cosem_links st w lwt = 0 := by
    intro w hw
    exact ⟨h.ready_zero fun hc => hw hc.2.symm, h.local_zero fun hc => hw hc.2.symm,
      h.cosem_zero fun s hc => hw hc.2.symm⟩
  refine ⟨?_, hother⟩
  cases hp : place lwt with
  | none => exact absurd hp ((h.used_iff lwt).mp hu)
  | some p =>
    cases p with
    | run => exact absurd ((h.curr_iff _ lwt).mpr ⟨hp, rfl⟩) (hx _)
    | ready =>
      rw [h.ready_one hp rfl, h.local_zero (by rw [hp]; simp), h.cosem_zero (by rw [hp]; simp),
        h.sleeper_zero (by rw [hp]; simp)]
    | head =>
      rw [h.ready_zero (by rw [hp]; simp), h.local_one hp rfl, h.cosem_zero (by rw [hp]; simp),
        h.sleeper_zero (by rw [hp]; simp)]
    | wait s =>
      rw [h.ready_zero (by rw [hp]; simp), h.local_zero (by rw [hp]; simp), h.cosem_one hp rfl,
        h.sleeper_zero (by rw [hp]; simp)]
    | sleep =>
      rw [h.ready_zero (by rw [hp]; simp), h.local_zero (by rw [hp]; simp),
        h.cosem_zero (by rw [hp]; simp), h.sleeper_one hp]

theorem cosem_down_lwt_worker (mgr : comgr) (sem : Nat) :
    (cosem_down mgr sem).mgr.lwt_worker = mgr.lwt_worker := by
  unfold cosem_down
  split
  · rfl
  · dsimp only
    split <;> rfl

theorem cosem_up_lwt_worker (mgr : comgr) (sem : Nat) :
    (cosem_up mgr sem).2.1.lwt_worker = mgr.lwt_worker := by
  unfold cosem_up
  split
  · rfl
  · dsimp only
    split <;> rfl

theorem cosem_fini_lwt_worker (mgr : comgr) (sem : Nat) :
    (cosem_fini mgr sem).2.lwt_worker = mgr.lwt_worker := by
  unfold cosem_fini
  split <;> rfl

theorem _timer_svc_lwt_worker (mgr : comgr) :
    (_timer_svc mgr).1.lwt_worker = mgr.lwt_worker := by
  unfold _timer_svc
  split
  · rfl
  · dsimp only
    split <;> split <;> rfl

theorem costep_lwt_worker {st st1 : costate} (a : coaction) (hs : costep st a = some st1)
    (lwt : Nat) (hu : st.used lwt = true) :
    st1.mgr.lwt_worker lwt = st.mgr.lwt_worker lwt := by
  cases a with
  | spawn l =>
    rw [costep] at hs
    split at hs
    · cases hs
    · rename_i hn
      obtain rfl := Option.some.inj hs
      show Function.update st.mgr.lwt_worker l _ lwt = _
      rw [Function.update_noteq]
      intro e
      rw [e] at hu
      exact hn hu
  | dispatch w =>
    rw [costep] at hs
    split at hs
    · cases hs
    · obtain rfl := Option.some.inj hs
      rfl
  | resume w =>
    rw [costep] at hs
    split at hs
    · obtain rfl := Option.some.inj hs
      rfl
    · cases hs
  | yield w =>
    rw [costep] at hs
    split at hs
    · cases hs
    · obtain rfl := Option.some.inj hs
      rfl
  | sleep w ms =>
    rw [costep] at hs
    split at hs
    · cases hs
    · obtain rfl := Option.some.inj hs
      rfl
  | init w sem =>
    rw [costep] at hs
    split at hs
    · cases hs
    · split at hs
      · cases hs
      · obtain rfl := Option.some.inj hs
        rfl
  | fini sem =>
    rw [costep] at hs
    obtain rfl := Option.some.inj hs
    exact congrFun (cosem_fini_lwt_worker st.mgr sem) lwt
  | down w sem =>
    rw [costep] at hs
    have hd := cosem_down_lwt_worker st.mgr sem
    split at hs
    · cases hs
    · split at hs
      · cases hs
      · split at hs
        · rename_i ret mgr e
          obtain rfl := Option.some.inj hs
          rw [e] at hd
          exact congrFun hd lwt
        · rename_i mgr e
          obtain rfl := Option.some.inj hs
          rw [e] at hd
          exact congrFun hd lwt
  | up sem =>
    rw [costep] at hs
    split at hs
    · cases hs
    · obtain rfl := Option.some.inj hs
      exact congrFun (cosem_up_lwt_worker st.mgr sem) lwt
  | finish w =>
    rw [costep] at hs
    split at hs
    · cases hs
    · split at hs
      · obtain rfl := Option.some.inj hs
        rfl
      · obtain rfl := Option.some.inj hs
        rfl
  | tick =>
    rw [costep] at hs
    obtain rfl := Option.some.inj hs
    exact congrFun (_timer_svc_lwt_worker st.mgr) lwt

/-- C26 (counterexample): a manager with one worker, after `coroutine_run` for
the LWTs 1 and 2, the worker entering `_worker_svc` and switching to LWT 1.
LWT 2 is in use and executes on no worker, but it is linked in no ready queue,
through no cosem in a cosem queue and not in the sleeper list: it is on the
local list of `_worker_svc`. -/
theorem coroutine_lwt_on_local_list :
    ∃ st, corun (costate_create 1)
        [coaction.spawn 1, coaction.spawn 2, coaction.dispatch 0, coaction.resume 0] = some st ∧
      st.used 2 = true ∧ st.lwt_curr 0 = some 1 ∧ (∀ w, st.lwt_curr w ≠ some 2) ∧
      (∀ w, ready_links st w 2 = 0 ∧ cosem_links st w 2 = 0) ∧ sleeper_links st 2 = 0 ∧
      st.lwt_head 0 = [2] := by
  refine ⟨_, rfl, rfl, rfl, ?_, ?_, rfl, rfl⟩
  · intro w
    cases w with
    | zero => decide
    | succ n =>
      show (none : Option Nat) ≠ some 2
      simp
  · intro w
    cases w with
    | zero => exact ⟨rfl, rfl⟩
    | succ n => exact ⟨rfl, rfl⟩

/-- C26 (amended): in every state reached from `comgr_create` by the steps
spawn, worker dispatch, resume, yield, sleep, cosem_init, cosem_fini,
cosem_down, cosem_up, finish and timer tick, each LWT that is in use and not
executing is linked exactly once in exactly one of: the ready queue of the
worker chosen for it at spawn, the local list of that worker's `_worker_svc`,
the cosem queue of that worker (through a cosem it owns), or the sleeper list;
it is in no queue of another worker, and no step changes its worker. -/
theorem coroutine_queue_exclusive (max_worker : Nat) (acts : List coaction) (st : costate)
    (hr : corun (costate_create max_worker) acts = some st) (lwt : Nat)
    (hu : st.used lwt = true) (hx : ∀ w, st.lwt_curr w ≠ some lwt) :
    (ready_links st (st.mgr.lwt_worker lwt) lwt + local_links st (st.mgr.lwt_worker lwt) lwt +
        cosem_links st (st.mgr.lwt_worker lwt) lwt + sleeper_links st lwt = 1) ∧
      (∀ w, w ≠ st.mgr.lwt_worker lwt →
        ready_links st w lwt = 0 ∧ local_links st w lwt = 0 ∧ cosem_links st w lwt = 0) ∧
      ∀ a st1, costep st a = some st1 →
        st1.mgr.lwt_worker lwt = st.mgr.lwt_worker lwt := by
  obtain ⟨place, h⟩ := corun_places acts (costate_create_places max_worker) hr
  obtain ⟨e1, e2⟩ := h.exclusive lwt hu hx
  exact ⟨e1, e2, fun a st1 hs => costep_lwt_worker a hs lwt hu⟩

/-- C26 (witness): after `coactions_sample` LWT 2 is linked in the sleeper
list only and LWT 1 in the ready queue. -/
theorem coroutine_queue_exclusive_witness :
    ∃ st, corun (costate_create 1) coactions_sample = some st ∧
      st.used 2 = true ∧ (∀ w, st.lwt_curr w ≠ some 2) ∧ sleeper_links st 2 = 1 ∧
      ready_links st 0 1 = 1 ∧
      (ready_links st (st.mgr.lwt_worker 2) 2 + local_links st (st.mgr.lwt_worker 2) 2 +
        cosem_links st (st.mgr.lwt_worker 2) 2 + sleeper_links st 2 = 1) ∧
      (∀ w, w ≠ st.mgr.lwt_worker 2 →
        ready_links st w 2 = 0 ∧ local_links st w 2 = 0 ∧ cosem_links st w 2 = 0) ∧
      ∀ a st1, costep st a = some st1 → st1.mgr.lwt_worker 2 = st.mgr.lwt_worker 2 :=
  have hx : ∀ w, ((corun (costate_create 1) coactions_sample).getD
      (costate_create 1)).lwt_curr w ≠ some 2 := by
    intro w
    cases w with
    | zero => decide
    | succ n =>
      show (none : Option Nat) ≠ some 2
      simp
  ⟨(corun (costate_create 1) coactions_sample).getD (costate_create 1), rfl, rfl, hx, rfl, rfl,
    coroutine_queue_exclusive 1 coactions_sample _ rfl 2 rfl hx⟩

end Infra
